import Mathlib

/-! # Towns, roads and vassalage: a shallow embedding of `prg2/datastructures.cc`

The C++ class `Datastructures` owns an `unordered_map<TownID, Town_info>` and a
vector of road pairs.  Records refer to each other through raw `Town_info*`
pointers into the map.

Modelling conventions used throughout:

* a `Town_info*` is modelled by the key of the map entry it points to, a null
  pointer by `none`;
* dereferencing a pointer whose entry is no longer in the map has no defined
  result in C++; every operation that may do so returns an `Option`, and `none`
  stands for "no defined result" (also used when a loop bound is exhausted);
* `int` values are modelled by `Int`; the statements that depend on the absence
  of overflow say so through explicit range hypotheses;
* the map is an association list in iteration order.
-/

set_option autoImplicit false

/-! ## Types of `datastructures.hh` -/

abbrev TownID := String

abbrev Name := String

def NO_TOWNID : TownID := "----------"

def NO_VALUE : Int := -2147483648

def NO_NAME : Name := "!!NO_NAME!!"

def INT_MAX : Int := 2147483647

structure Coord where
  x : Int
  y : Int
deriving DecidableEq

def NO_COORD : Coord := ⟨NO_VALUE, NO_VALUE⟩

inductive Colour where
  | WHITE
  | GRAY
  | BLACK
deriving DecidableEq

structure Cost where
  d : Int
  de : Int
deriving DecidableEq

structure Town_info where
  id : TownID
  name : Name
  coords : Coord
  tax : Int
  vassals : List TownID
  master : Option TownID
  roads_to : List TownID
  colour : Colour
  pi : Option TownID
  cost : Cost
deriving DecidableEq

structure Datastructures where
  towns_by_id_ : List (TownID × Town_info)
  roads_ : List (TownID × TownID)
deriving DecidableEq

/-! ## The map -/

/-- Lookup `towns_by_id_.find(id)`: the record stored under `id`, if there is one. -/
def umap_find : List (TownID × Town_info) → TownID → Option Town_info
  | [], _ => none
  | (k, t) :: rest, id => if k = id then some t else umap_find rest id

/-- Write through a pointer: the record stored under `id` is replaced by `f` of it. -/
def umap_modify (m : List (TownID × Town_info)) (id : TownID)
    (f : Town_info → Town_info) : List (TownID × Town_info) :=
  m.map (fun p => if p.1 = id then (p.1, f p.2) else p)

/-- Removal `towns_by_id_.erase(it)` of the entry stored under `id`. -/
def umap_erase (m : List (TownID × Town_info)) (id : TownID) : List (TownID × Town_info) :=
  m.filter (fun p => decide (p.1 ≠ id))

/-- Comparison `operator<` of `std::string`: lexicographic on the characters. -/
def string_lt (a b : TownID) : Bool := decide (a.data < b.data)

namespace Datastructures

def find (s : Datastructures) (id : TownID) : Option Town_info :=
  umap_find s.towns_by_id_ id

/-- Write through a pointer `p->... = ...`; `none` when `p` is dangling. -/
def write (s : Datastructures) (p : TownID) (f : Town_info → Town_info) :
    Option Datastructures :=
  match s.find p with
  | none => none
  | some _ => some ⟨umap_modify s.towns_by_id_ p f, s.roads_⟩

def empty : Datastructures := ⟨[], []⟩

/-! ## Phase 1 operations used by the road graph -/

def town_count (s : Datastructures) : Nat := s.towns_by_id_.length

def add_town (s : Datastructures) (id : TownID) (name : Name) (coord : Coord) (tax : Int) :
    Bool × Datastructures :=
  match s.find id with
  | some _ => (false, s)
  | none =>
    (true, ⟨s.towns_by_id_ ++
      [(id, ⟨id, name, coord, tax, [], none, [], Colour.WHITE, none, ⟨INT_MAX, INT_MAX⟩⟩)],
      s.roads_⟩)

def all_towns (s : Datastructures) : List TownID := s.towns_by_id_.map Prod.fst

/-- First loop of the master branch of `remove_town`: every vassal gets the new
master and is appended to the master's vassal list. -/
def reparent_loop (master : TownID) : List TownID → Datastructures → Option Datastructures
  | [], s => some s
  | v :: vs, s =>
    match s.write v (fun t => { t with master := some master }) with
    | none => none
    | some s1 =>
      match s1.write master (fun t => { t with vassals := t.vassals ++ [v] }) with
      | none => none
      | some s2 => reparent_loop master vs s2

/-- Loop of the masterless branch of `remove_town`: every vassal loses its master. -/
def orphan_loop : List TownID → Datastructures → Option Datastructures
  | [], s => some s
  | v :: vs, s =>
    match s.write v (fun t => { t with master := none }) with
    | none => none
    | some s1 => orphan_loop vs s1

def remove_town (s : Datastructures) (id : TownID) : Option (Bool × Datastructures) :=
  match s.find id with
  | none => some (false, s)
  | some node =>
    let unlinked : Option Datastructures :=
      match node.master with
      | none => orphan_loop node.vassals s
      | some m =>
        match reparent_loop m node.vassals s with
        | none => none
        | some s1 =>
          match s1.find m with
          | none => none
          | some mt =>
            -- `std::find` followed by `erase`; erasing `end()` is undefined
            if id ∈ mt.vassals then
              s1.write m (fun t => { t with vassals := t.vassals.erase id })
            else none
    match unlinked with
    | none => none
    | some s2 => some (true, ⟨umap_erase s2.towns_by_id_ id, s2.roads_⟩)

/-! ## Road graph -/

def clear_roads (s : Datastructures) : Datastructures :=
  ⟨s.towns_by_id_.map (fun p => (p.1, { p.2 with roads_to := [] })), []⟩

def clear_all (s : Datastructures) : Datastructures :=
  ⟨[], (clear_roads s).roads_⟩

def all_roads (s : Datastructures) : List (TownID × TownID) := s.roads_

def add_road (s : Datastructures) (town1 town2 : TownID) : Bool × Datastructures :=
  match s.find town1 with
  | none => (false, s)
  | some t1 =>
    match s.find town2 with
    | none => (false, s)
    | some t2 =>
      if town1 = town2 then (false, s)
      else if town2 ∈ t1.roads_to then (false, s)
      else
        let m1 := umap_modify s.towns_by_id_ town1
          (fun t => { t with roads_to := t.roads_to ++ [town2] })
        let m2 := umap_modify m1 town2
          (fun t => { t with roads_to := t.roads_to ++ [town1] })
        let road : TownID × TownID :=
          if string_lt t1.id t2.id then (t1.id, t2.id) else (t2.id, t1.id)
        (true, ⟨m2, s.roads_ ++ [road]⟩)

/-- Dereference every pointer of a list for the `id` field of its record. -/
def ids_of (s : Datastructures) : List TownID → Option (List TownID)
  | [] => some []
  | p :: ps =>
    match s.find p with
    | none => none
    | some t =>
      match ids_of s ps with
      | none => none
      | some rest => some (t.id :: rest)

def get_roads_from (s : Datastructures) (id : TownID) : Option (List TownID) :=
  match s.find id with
  | none => some [NO_TOWNID]
  | some t => ids_of s t.roads_to

end Datastructures

/-! ### `remove_road`: erasing from a vector inside a range-based `for`

The three loops of `remove_road` call `erase(begin() + at_index)` on the vector
they iterate over.  The iterator pair of the range-based `for` is fixed before
the first erase, so the loop always visits the slots `0 .. old_size - 1` of the
storage, live or not.  The model keeps the whole storage `buf` and the live
size `n`: `erase` on contiguous storage moves the live elements behind the
erased slot one slot towards the front and leaves the last live slot behind.
For pointers that slot keeps its bits; a moved-from `std::string` is empty.
Erasing at or behind `end()` has no defined result. -/

/-- Storage after `erase(begin() + i)` with `i < n`; `stale` is what the slot
`n - 1` holds afterwards. -/
def vec_erase_at {α : Type} (buf : List α) (n i : Nat) (stale : α) : List α :=
  ((buf.take n).eraseIdx i) ++ stale :: buf.drop n

/-- The loops over `roads_to` in `remove_road`: `k` slots remain to be visited, `idx`
is `at_index`. -/
def erase_ptr_loop (target : TownID) :
    Nat → Nat → List TownID → Nat → Bool → Option (List TownID × Nat × Bool)
  | 0, _, buf, n, found => some (buf, n, found)
  | k + 1, idx, buf, n, found =>
    match buf.get? idx with
    | none => none
    | some e =>
      if e = target then
        if idx < n then
          match buf.get? (n - 1) with
          | none => none
          | some last => erase_ptr_loop target k (idx + 1) (vec_erase_at buf n idx last) (n - 1) true
        else none
      else erase_ptr_loop target k (idx + 1) buf n found

/-- One `if` of the loop over `roads_`: erase slot `idx` when it holds `(p, q)`. -/
def erase_road_if (p q : TownID) (idx : Nat) (st : List (TownID × TownID) × Nat) :
    Option (List (TownID × TownID) × Nat) :=
  match st.1.get? idx with
  | none => none
  | some road =>
    if road.1 = p ∧ road.2 = q then
      if idx < st.2 then
        match st.1.get? (st.2 - 1) with
        | none => none
        | some last =>
          some (vec_erase_at st.1 st.2 idx (if idx = st.2 - 1 then last else ("", "")), st.2 - 1)
      else none
    else some st

/-- The loop over `roads_` in `remove_road`. -/
def erase_road_loop (town1 town2 : TownID) :
    Nat → Nat → List (TownID × TownID) × Nat → Option (List (TownID × TownID) × Nat)
  | 0, _, st => some st
  | k + 1, idx, st =>
    match erase_road_if town1 town2 idx st with
    | none => none
    | some st1 =>
      match erase_road_if town2 town1 idx st1 with
      | none => none
      | some st2 => erase_road_loop town1 town2 k (idx + 1) st2

namespace Datastructures

def remove_road (s : Datastructures) (town1 town2 : TownID) : Option (Bool × Datastructures) :=
  match s.find town1 with
  | none => some (false, s)
  | some t1 =>
    match s.find town2 with
    | none => some (false, s)
    | some _ =>
      match erase_ptr_loop town2 t1.roads_to.length 0 t1.roads_to t1.roads_to.length false with
      | none => none
      | some (buf1, n1, is_road_found) =>
        let m1 := umap_modify s.towns_by_id_ town1 (fun t => { t with roads_to := buf1.take n1 })
        match umap_find m1 town2 with
        | none => none
        | some t2 =>
          match erase_ptr_loop town1 t2.roads_to.length 0 t2.roads_to t2.roads_to.length false with
          | none => none
          | some (buf2, n2, _) =>
            let m2 := umap_modify m1 town2 (fun t => { t with roads_to := buf2.take n2 })
            match erase_road_loop town1 town2 s.roads_.length 0 (s.roads_, s.roads_.length) with
            | none => none
            | some (buf3, n3) => some (is_road_found, ⟨m2, buf3.take n3⟩)

end Datastructures

/-! ## Traversals -/

/-- The loops `while (p != nullptr) { route.push_back(p->id); p = p->pi; }` that
rebuild a route from the predecessor links; `k` bounds the number of rounds. -/
def walk_pi (s : Datastructures) : Nat → Option TownID → List TownID → Option (List TownID)
  | _, none, route => some route
  | 0, some _, _ => none
  | k + 1, some p, route =>
    match s.find p with
    | none => none
    | some t => walk_pi s k t.pi (route ++ [t.id])

/-- Sum of the lengths of all adjacency lists. -/
def Datastructures.road_slots (s : Datastructures) : Nat :=
  (s.towns_by_id_.map (fun p => p.2.roads_to.length)).sum

/-! ### Breadth-first search: `least_towns_route` -/

/-- Inner `for` of the breadth-first search over the roads of `cur`. -/
def bfs_for (cur : TownID) :
    List TownID → Datastructures → List TownID → Option (Datastructures × List TownID)
  | [], s, queue => some (s, queue)
  | r :: rs, s, queue =>
    match s.find r with
    | none => none
    | some t =>
      if t.colour = Colour.WHITE then
        bfs_for cur rs
          ⟨umap_modify s.towns_by_id_ r
            (fun t => { t with colour := Colour.GRAY, pi := some cur }), s.roads_⟩
          (queue ++ [r])
      else bfs_for cur rs s queue

/-- Outer `while (!town_queue.empty())`; the first argument bounds the number of rounds. -/
def bfs_while : Nat → Datastructures → List TownID → Option Datastructures
  | _, s, [] => some s
  | 0, _, _ :: _ => none
  | k + 1, s, cur :: queue =>
    match s.find cur with
    | none => none
    | some t =>
      match bfs_for cur t.roads_to s queue with
      | none => none
      | some (s1, queue1) =>
        bfs_while k
          ⟨umap_modify s1.towns_by_id_ cur (fun t => { t with colour := Colour.BLACK }),
            s1.roads_⟩
          queue1

namespace Datastructures

/-- Scratch reset at the start of `least_towns_route` and `road_cycle_route`. -/
def reset_marks (s : Datastructures) : Datastructures :=
  ⟨s.towns_by_id_.map (fun p => (p.1, { p.2 with colour := Colour.WHITE, pi := none })),
    s.roads_⟩

def least_towns_route (s : Datastructures) (fromid toid : TownID) :
    Option (List TownID × Datastructures) :=
  match s.find fromid with
  | none => some ([NO_TOWNID], s)
  | some _ =>
    match s.find toid with
    | none => some ([NO_TOWNID], s)
    | some _ =>
      let s0 := s.reset_marks
      let s1 : Datastructures :=
        ⟨umap_modify s0.towns_by_id_ fromid (fun t => { t with colour := Colour.GRAY }),
          s0.roads_⟩
      match bfs_while s.towns_by_id_.length s1 [fromid] with
      | none => none
      | some s2 =>
        match s2.find toid with
        | none => none
        | some t2 =>
          if t2.colour = Colour.WHITE then some ([], s2)
          else
            match walk_pi s2 s.towns_by_id_.length (some toid) [] with
            | none => none
            | some route => some (route.reverse, s2)

def any_route (s : Datastructures) (fromid toid : TownID) :
    Option (List TownID × Datastructures) :=
  s.least_towns_route fromid toid

end Datastructures

/-! ### Depth-first search: `road_cycle_route` -/

/-- Inner `for` of the depth-first search over the roads of `cur`.  The third
component of the result is `loop_node` when the loop was left by `break`. -/
def dfs_for (cur : TownID) :
    List TownID → Datastructures → List TownID →
      Option (Datastructures × List TownID × Option TownID)
  | [], s, stack => some (s, stack, none)
  | r :: rs, s, stack =>
    match s.find r with
    | none => none
    | some rt =>
      let s1 : Datastructures :=
        if rt.colour = Colour.WHITE then
          ⟨umap_modify s.towns_by_id_ r (fun t => { t with pi := some cur }), s.roads_⟩
        else s
      let stack1 := if rt.colour = Colour.WHITE then r :: stack else stack
      match s1.find cur, s1.find r with
      | some ct, some rt1 =>
        if some r = ct.pi then dfs_for cur rs s1 stack1
        else if rt1.colour = Colour.GRAY then
          if rt1.pi = some cur then dfs_for cur rs s1 stack1
          else some (s1, stack1, some r)
        else dfs_for cur rs s1 stack1
      | _, _ => none

/-- Outer `while (!road_stack.empty())`; the stack is a list with its top first.
The result holds `cycle_road` and `loop_node`. -/
def dfs_while :
    Nat → Datastructures → List TownID → List TownID →
      Option (Datastructures × List TownID × Option TownID)
  | _, s, [], cycle_road => some (s, cycle_road, none)
  | 0, _, _ :: _, _ => none
  | k + 1, s, cur :: stack, cycle_road =>
    match s.find cur with
    | none => none
    | some ct =>
      if ct.colour = Colour.WHITE then
        let s1 : Datastructures :=
          ⟨umap_modify s.towns_by_id_ cur (fun t => { t with colour := Colour.GRAY }), s.roads_⟩
        match dfs_for cur ct.roads_to s1 (cur :: stack) with
        | none => none
        | some (s2, _, some loop_node) => some (s2, (cycle_road ++ [cur]) ++ [loop_node], some loop_node)
        | some (s2, stack2, none) => dfs_while k s2 stack2 (cycle_road ++ [cur])
      else
        dfs_while k
          ⟨umap_modify s.towns_by_id_ cur (fun t => { t with colour := Colour.BLACK }), s.roads_⟩
          stack (cycle_road ++ [cur]).dropLast

namespace Datastructures

def road_cycle_route (s : Datastructures) (startid : TownID) :
    Option (List TownID × Datastructures) :=
  match s.find startid with
  | none => some ([NO_TOWNID], s)
  | some _ =>
    let s0 := s.reset_marks
    match dfs_while (s.towns_by_id_.length + s.road_slots + 1) s0 [startid] [] with
    | none => none
    | some (s1, _, none) => some ([], s1)
    | some (s1, cycle_road, some loop_node) =>
      match s1.find loop_node, cycle_road.get? (cycle_road.length - 2) with
      | some lt, some loop_elem =>
        if cycle_road.length < 2 then none
        else
          match walk_pi s1 s.towns_by_id_.length (some loop_elem) [lt.id] with
          | none => none
          | some cycle_id => some (cycle_id.reverse, s1)
      | _, _ => none

end Datastructures

/-! ### Best-first search: `shortest_route` -/

/-- Integer part of the square root, by upward search: the value of
`int(sqrt(double(n)))` for every `n` an `int` can hold. -/
def isqrt_up (n : Nat) : Nat → Nat → Nat
  | 0, r => r
  | k + 1, r => if (r + 1) * (r + 1) ≤ n then isqrt_up n k (r + 1) else r

def isqrt (n : Nat) : Nat := isqrt_up n n 0

def get_road_length (town1 town2 : Town_info) : Int :=
  let x1 := town1.coords.x
  let y1 := town1.coords.y
  let x2 := town2.coords.x
  let y2 := town2.coords.y
  (isqrt ((x1 - x2) * (x1 - x2) + (y1 - y2) * (y1 - y2)).toNat : Nat)

def min_est (v g : Town_info) : Int := get_road_length v g

/-- Relaxation `relax_A(u, v, g)` through the pointers `u`, `v`, `g`. -/
def relax_A (s : Datastructures) (u v g : TownID) : Option Datastructures :=
  match s.find u, s.find v, s.find g with
  | some ut, some vt, some gt =>
    if vt.cost.d > ut.cost.d + get_road_length ut vt then
      some ⟨umap_modify s.towns_by_id_ v (fun t =>
        { t with
          cost := ⟨ut.cost.d + get_road_length ut vt,
                   ut.cost.d + get_road_length ut vt + min_est vt gt⟩,
          pi := some u }), s.roads_⟩
    else some s
  | _, _, _ => none

/-- Order of `std::pair<int, Town_info*>`: first the number, then the address. -/
def pq_less (addr : TownID → Nat) (a b : Int × TownID) : Bool :=
  decide (a.1 < b.1) || (decide (a.1 = b.1) && decide (addr a.2 < addr b.2))

/-- The element `top()` of the `std::priority_queue`: a greatest one. -/
def pq_top (addr : TownID → Nat) : List (Int × TownID) → Option (Int × TownID)
  | [] => none
  | e :: es =>
    match pq_top addr es with
    | none => some e
    | some m => if pq_less addr e m then some m else some e

/-- Inner `for` of the best-first search over the roads of `cur`. -/
def astar_for (cur goal : TownID) :
    List TownID → Datastructures → List (Int × TownID) →
      Option (Datastructures × List (Int × TownID))
  | [], s, queue => some (s, queue)
  | r :: rs, s, queue =>
    match relax_A s cur r goal with
    | none => none
    | some s1 =>
      match s1.find r with
      | none => none
      | some rt =>
        let s2 : Datastructures :=
          if rt.colour = Colour.WHITE then
            ⟨umap_modify s1.towns_by_id_ r (fun t => { t with colour := Colour.GRAY }), s1.roads_⟩
          else s1
        astar_for cur goal rs s2 ((-rt.cost.de, r) :: queue)

/-- Outer `while (!town_queue.empty())`; the result says whether `node_found`. -/
def astar_while (addr : TownID → Nat) (goal : TownID) :
    Nat → Datastructures → List (Int × TownID) → Option (Datastructures × Bool)
  | _, s, [] => some (s, false)
  | 0, _, _ :: _ => none
  | k + 1, s, e :: es =>
    match pq_top addr (e :: es) with
    | none => none
    | some current =>
      let queue := (e :: es).erase current
      match s.find current.2 with
      | none => none
      | some ct =>
        if ct.colour = Colour.BLACK then astar_while addr goal k s queue
        else if ct.id = goal then some (s, true)
        else
          match astar_for current.2 goal ct.roads_to s queue with
          | none => none
          | some (s1, queue1) =>
            astar_while addr goal k
              ⟨umap_modify s1.towns_by_id_ current.2
                (fun t => { t with colour := Colour.BLACK }), s1.roads_⟩
              queue1

namespace Datastructures

/-- Scratch reset at the start of `shortest_route`. -/
def reset_costs (s : Datastructures) : Datastructures :=
  ⟨s.towns_by_id_.map (fun p =>
      (p.1, { p.2 with colour := Colour.WHITE, pi := none, cost := ⟨INT_MAX, INT_MAX⟩ })),
    s.roads_⟩

/-- The search `shortest_route`; `addr` gives the address of each record, which the
priority queue uses to order entries of equal priority. -/
def shortest_route (addr : TownID → Nat) (s : Datastructures) (fromid toid : TownID) :
    Option (List TownID × Datastructures) :=
  match s.find fromid with
  | none => some ([NO_TOWNID], s)
  | some _ =>
    match s.find toid with
    | none => some ([NO_TOWNID], s)
    | some _ =>
      let s0 := s.reset_costs
      let s1 : Datastructures :=
        ⟨umap_modify s0.towns_by_id_ fromid
          (fun t => { t with colour := Colour.GRAY, cost := ⟨0, t.cost.de⟩ }), s0.roads_⟩
      match astar_while addr toid (s.road_slots + 2) s1 [(0, fromid)] with
      | none => none
      | some (s2, node_found) =>
        match walk_pi s2 s.towns_by_id_.length (some toid) [] with
        | none => none
        | some route => if node_found then some (route.reverse, s2) else some ([], s2)

end Datastructures

/-! ## Invariants of the data model -/

namespace Datastructures

/-- The keys of the map are pairwise distinct. -/
abbrev KeysNodup (s : Datastructures) : Prop := (s.towns_by_id_.map Prod.fst).Nodup

/-- Every record carries the key it is stored under, as `add_town` builds it. -/
abbrev IdsOK (s : Datastructures) : Prop := ∀ p ∈ s.towns_by_id_, p.2.id = p.1

/-- Every road pointer refers to a stored town. -/
abbrev RoadsClosed (s : Datastructures) : Prop :=
  ∀ p ∈ s.towns_by_id_, ∀ r ∈ p.2.roads_to, (s.find r).isSome = true

end Datastructures

/-- Fields of a record that no road operation and no traversal may touch. -/
def Town_info.fixed (t : Town_info) : Name × Coord × Int × List TownID × Option TownID :=
  (t.name, t.coords, t.tax, t.vassals, t.master)

/-! ## Example states -/

namespace Datastructures

/-- Two towns `A` and `B` without roads. -/
def two_towns : Datastructures :=
  ((empty.add_town "A" "Aa" ⟨0, 0⟩ 1).2.add_town "B" "Bb" ⟨3, 4⟩ 2).2

/-- Towns `A` and `B` joined by a road. -/
def one_road : Datastructures := (two_towns.add_road "A" "B").2

/-- The state built by `add_town A`, `add_town B`, `add_road A B`, `remove_town A`
and `add_town A` again. -/
def readded : Option Datastructures :=
  (one_road.remove_town "A").map (fun r => (r.2.add_town "A" "Aa" ⟨0, 0⟩ 1).2)

end Datastructures

namespace Datastructures

/-- The adjacency lists are symmetric. -/
abbrev RoadsSymm (s : Datastructures) : Prop :=
  ∀ p ∈ s.towns_by_id_, ∀ q ∈ s.towns_by_id_, q.1 ∈ p.2.roads_to → p.1 ∈ q.2.roads_to

/-- Every pair of `roads_` is backed by the adjacency lists of its stored end towns. -/
abbrev RoadsListed (s : Datastructures) : Prop :=
  ∀ r ∈ s.roads_, ∀ p ∈ s.towns_by_id_,
    (r.1 = p.1 → r.2 ∈ p.2.roads_to) ∧ (r.2 = p.1 → r.1 ∈ p.2.roads_to)

end Datastructures

/-! ## Routes -/

/-- Persistent part of a record: everything but the traversal scratch fields. -/
def Town_info.persistent (t : Town_info) :
    TownID × Name × Coord × Int × List TownID × Option TownID × List TownID :=
  (t.id, t.name, t.coords, t.tax, t.vassals, t.master, t.roads_to)

namespace Datastructures

/-- Persistent part of a state: the map without the scratch fields, and `roads_`. -/
def persistent (s : Datastructures) :
    List (TownID × TownID × Name × Coord × Int × List TownID × Option TownID × List TownID)
      × List (TownID × TownID) :=
  (s.towns_by_id_.map (fun p => (p.1, p.2.persistent)), s.roads_)

/-- Adjacency list of a town, empty for an absent one. -/
def neighbours (s : Datastructures) (u : TownID) : List TownID :=
  match s.find u with
  | some t => t.roads_to
  | none => []

/-- A road leads from `u` to `v`: `v` is in the adjacency list of the stored town `u`. -/
abbrev Road (s : Datastructures) (u v : TownID) : Prop := v ∈ s.neighbours u

/-- The list `l` is a road route from `a` to `b`: it starts with `a`, ends with `b`
and every two consecutive towns are joined by a road. -/
abbrev IsRoute (s : Datastructures) (a b : TownID) (l : List TownID) : Prop :=
  l.head? = some a ∧ l.getLast? = some b ∧ List.Chain' (s.Road) l

/-- Four towns joined in a line `A`-`B`-`C`-`D`. -/
def line4 : Datastructures :=
  (((((((empty.add_town "A" "Aa" ⟨0, 0⟩ 0).2.add_town "B" "Bb" ⟨1, 0⟩ 0).2.add_town
    "C" "Cc" ⟨2, 0⟩ 0).2.add_town "D" "Dd" ⟨3, 0⟩ 0).2.add_road "A" "B").2.add_road
    "C" "B").2.add_road "C" "D").2

end Datastructures

namespace Datastructures

/-- Predecessor link of a town, `none` for an absent one. -/
def pi_of (s : Datastructures) (v : TownID) : Option TownID :=
  match s.find v with
  | some t => t.pi
  | none => none

/-- Colour of a town, `none` for an absent one. -/
def colour_of (s : Datastructures) (v : TownID) : Option Colour :=
  match s.find v with
  | some t => some t.colour
  | none => none

end Datastructures

/-! ## Invariants of the breadth-first search -/

/-- State of the inner `for` of the breadth-first search while the town `c` is
expanded: `g` is the state the search started from, `lv` the number of roads on
the predecessor chain of each discovered town, `done` the adjacency entries of
`c` already visited, `q` the queue. -/
structure BfsInner (g : Datastructures) (start : TownID) (lv : TownID → Nat) (c : TownID)
    (done : List TownID) (s : Datastructures) (q : List TownID) : Prop where
  same : s.persistent = g.persistent
  start_ok : ∃ t, s.find start = some t ∧ t.colour ≠ Colour.WHITE ∧ t.pi = none
  lv_start : lv start = 0
  cur : ∃ tc, s.find c = some tc ∧ tc.colour = Colour.GRAY
  cur_notin : c ∉ q
  q_gray : ∀ v ∈ q, ∃ t, s.find v = some t ∧ t.colour = Colour.GRAY
  gray_q : ∀ v t, s.find v = some t → t.colour = Colour.GRAY → v = c ∨ v ∈ q
  q_nodup : q.Nodup
  pi_ok : ∀ v t, s.find v = some t → t.colour ≠ Colour.WHITE → v ≠ start →
    ∃ u tu, t.pi = some u ∧ s.find u = some tu ∧ tu.colour ≠ Colour.WHITE ∧
      v ∈ tu.roads_to ∧ lv v = lv u + 1
  q_lo : ∀ x ∈ q, lv c ≤ lv x
  q_hi : ∀ x ∈ q, lv x ≤ lv c + 1
  sorted : q.Pairwise (fun x y => lv x ≤ lv y)
  black_le : ∀ u t, s.find u = some t → t.colour = Colour.BLACK → lv u ≤ lv c
  black_nb : ∀ u t, s.find u = some t → t.colour = Colour.BLACK → ∀ w ∈ t.roads_to,
    ∃ tw, s.find w = some tw ∧ tw.colour ≠ Colour.WHITE ∧ lv w ≤ lv u + 1
  done_ok : ∀ w ∈ done, ∃ tw, s.find w = some tw ∧ tw.colour ≠ Colour.WHITE ∧
    lv w ≤ lv c + 1

/-- State of the outer `while` of the breadth-first search between two rounds. -/
structure BfsOuter (g : Datastructures) (start : TownID) (lv : TownID → Nat)
    (s : Datastructures) (q : List TownID) : Prop where
  same : s.persistent = g.persistent
  start_ok : ∃ t, s.find start = some t ∧ t.colour ≠ Colour.WHITE ∧ t.pi = none
  lv_start : lv start = 0
  q_gray : ∀ v ∈ q, ∃ t, s.find v = some t ∧ t.colour = Colour.GRAY
  gray_q : ∀ v t, s.find v = some t → t.colour = Colour.GRAY → v ∈ q
  q_nodup : q.Nodup
  pi_ok : ∀ v t, s.find v = some t → t.colour ≠ Colour.WHITE → v ≠ start →
    ∃ u tu, t.pi = some u ∧ s.find u = some tu ∧ tu.colour ≠ Colour.WHITE ∧
      v ∈ tu.roads_to ∧ lv v = lv u + 1
  span : ∀ x ∈ q, ∀ y ∈ q, lv y ≤ lv x + 1
  sorted : q.Pairwise (fun x y => lv x ≤ lv y)
  black_le : ∀ u t, s.find u = some t → t.colour = Colour.BLACK → ∀ x ∈ q, lv u ≤ lv x
  black_nb : ∀ u t, s.find u = some t → t.colour = Colour.BLACK → ∀ w ∈ t.roads_to,
    ∃ tw, s.find w = some tw ∧ tw.colour ≠ Colour.WHITE ∧ lv w ≤ lv u + 1

/-- Number of map entries whose town is not yet black. -/
def Datastructures.open_count (s : Datastructures) : Nat :=
  ((s.towns_by_id_.map Prod.fst).filter
    (fun k => decide (s.colour_of k ≠ some Colour.BLACK))).length

/-! ## Invariants of the depth-first search -/

/-- Shape of the stack of the depth-first search (top first) against the chain `G`
of gray towns (latest first).  `seen` holds the towns met higher up in the stack;
only the topmost entry of a town is constrained: a white town has the innermost
gray town below it as predecessor, a gray town is the next one of `G`. -/
def StackOK (s : Datastructures) : List TownID → List TownID → List TownID → Prop
  | _, [], G => G = []
  | seen, e :: rest, G =>
    if e ∈ seen then StackOK s seen rest G
    else
      match s.colour_of e with
      | some Colour.WHITE => s.pi_of e = G.head? ∧ StackOK s (e :: seen) rest G
      | some Colour.GRAY => G.head? = some e ∧ StackOK s (e :: seen) rest G.tail
      | some Colour.BLACK => StackOK s (e :: seen) rest G
      | none => False

/-- State of the depth-first search: `g` is the state the search started from,
`G` the gray towns, latest first. -/
structure DfsInv (g : Datastructures) (start : TownID) (G : List TownID)
    (s : Datastructures) (stack : List TownID) : Prop where
  same : s.persistent = g.persistent
  gray_iff : ∀ v, s.colour_of v = some Colour.GRAY ↔ v ∈ G
  nodup : G.Nodup
  chain : List.Chain' (fun x y => s.pi_of x = some y) G
  root : ∀ r, G.getLast? = some r → r = start ∧ s.pi_of r = none
  stack_ok : StackOK s [] stack G
  pi_road : ∀ v u, s.pi_of v = some u → g.Road u v
  start_stored : (s.colour_of start).isSome = true
  start_white : s.colour_of start = some Colour.WHITE → stack = [start] ∧ s.pi_of start = none
  start_black : s.colour_of start = some Colour.BLACK → stack = []
  start_gray : s.colour_of start = some Colour.GRAY →
    ∃ init, stack = init ++ [start] ∧ start ∉ init

/-- Bound on the rounds the depth-first search still needs: the stack entries, and
for every white town its roads and its own second stack entry. -/
def dfs_measure (s : Datastructures) (stack : List TownID) : Nat :=
  stack.length +
    ((s.towns_by_id_.map Prod.fst).map (fun k =>
      if s.colour_of k = some Colour.WHITE then (s.neighbours k).length + 1 else 0)).sum

/-- Outcome of the depth-first search when it stops at a back edge from `e` to the
gray town `r`. -/
def DfsFound (g : Datastructures) (start : TownID) (s : Datastructures)
    (cycle_road : List TownID) (r : TownID) : Prop :=
  ∃ G e cr0 stack, DfsInv g start G s stack ∧ G.head? = some e ∧
    cycle_road = cr0 ++ [e] ++ [r] ∧ s.colour_of r = some Colour.GRAY ∧ g.Road e r

namespace Datastructures

/-- Towns `S`, `A`, `B`, `C` with the roads `S`-`A`, `A`-`B`, `B`-`C`, `C`-`A`: a
triangle reached from `S` over one road. -/
def lasso : Datastructures :=
  ((((((((empty.add_town "S" "Ss" ⟨0, 0⟩ 0).2.add_town "A" "Aa" ⟨1, 0⟩ 0).2.add_town
    "B" "Bb" ⟨2, 0⟩ 0).2.add_town "C" "Cc" ⟨2, 1⟩ 0).2.add_road "S" "A").2.add_road
    "A" "B").2.add_road "B" "C").2.add_road "C" "A").2

/-- Towns `A`, `B`, `C` joined in a triangle. -/
def triangle : Datastructures :=
  ((((((empty.add_town "A" "Aa" ⟨0, 0⟩ 0).2.add_town "B" "Bb" ⟨1, 0⟩ 0).2.add_town
    "C" "Cc" ⟨1, 1⟩ 0).2.add_road "A" "B").2.add_road "C" "B").2.add_road "C" "A").2

end Datastructures

/-! ## Road lengths and the invariants of the best-first search -/

namespace Datastructures

/-- Length of the straight road between two stored towns, `0` when one is absent. -/
def road_len (g : Datastructures) (u v : TownID) : Int :=
  match g.find u, g.find v with
  | some tu, some tv => get_road_length tu tv
  | _, _ => 0

/-- Sum of the road lengths along a sequence of towns. -/
def route_len (g : Datastructures) : List TownID → Int
  | [] => 0
  | [_] => 0
  | a :: b :: rest => g.road_len a b + route_len g (b :: rest)

/-- The estimate used by `shortest_route` is consistent: along every road it drops
by no more than the length of the road. -/
abbrev Consistent (g : Datastructures) (goal : TownID) : Prop :=
  ∀ p ∈ g.towns_by_id_, ∀ r ∈ p.2.roads_to,
    g.road_len p.1 goal ≤ g.road_len p.1 r + g.road_len r goal

/-- Sufficient for every `int` computed by `shortest_route` to be exact: all
coordinates lie within `-16383 .. 16383` and there are at most `46000` towns. -/
abbrev InRange (g : Datastructures) : Prop :=
  (∀ p ∈ g.towns_by_id_, -16383 ≤ p.2.coords.x ∧ p.2.coords.x ≤ 16383 ∧
    -16383 ≤ p.2.coords.y ∧ p.2.coords.y ≤ 16383) ∧
  g.towns_by_id_.length ≤ 46000

/-- The example of the specification: towns at `(0,0)`, `(0,10)`, `(10,10)`, roads
between the first two and the last two. -/
def corner : Datastructures :=
  (((((empty.add_town "P" "Pp" ⟨0, 0⟩ 0).2.add_town "Q" "Qq" ⟨0, 10⟩ 0).2.add_town
    "R" "Rr" ⟨10, 10⟩ 0).2.add_road "P" "Q").2.add_road "Q" "R").2

/-- Towns `S` `(6,5)`, `U` `(5,5)`, `V` `(3,3)`, `W` `(2,2)`, `G` `(0,0)` with the
roads `S`-`W` (length 5), `S`-`U` (1), `U`-`V` (2), `V`-`W` (1), `W`-`G` (2). -/
def detour : Datastructures :=
  ((((((((((empty.add_town "S" "Ss" ⟨6, 5⟩ 0).2.add_town "U" "Uu" ⟨5, 5⟩ 0).2.add_town
    "V" "Vv" ⟨3, 3⟩ 0).2.add_town "W" "Ww" ⟨2, 2⟩ 0).2.add_town "G" "Gg" ⟨0, 0⟩ 0).2.add_road
    "S" "W").2.add_road "S" "U").2.add_road "U" "V").2.add_road "V" "W").2.add_road
    "W" "G").2

end Datastructures

/-- Effect of one round of the inner `for` of `shortest_route` on the record `rt` of
the road end: `tc` is the record of the expanded town `c`, `gt` the record of the
goal, `rt2` the record afterwards. -/
def BodyStep (tc rt gt rt2 : Town_info) (c : TownID) : Prop :=
  rt2.persistent = rt.persistent ∧
  rt2.colour = (if rt.colour = Colour.WHITE then Colour.GRAY else rt.colour) ∧
  ((rt.cost.d > tc.cost.d + get_road_length tc rt ∧
      rt2.cost.d = tc.cost.d + get_road_length tc rt ∧
      rt2.cost.de = tc.cost.d + get_road_length tc rt + get_road_length rt gt ∧
      rt2.pi = some c) ∨
    (rt.cost.d ≤ tc.cost.d + get_road_length tc rt ∧ rt2.cost = rt.cost ∧ rt2.pi = rt.pi))

/-- Basic invariant of `shortest_route`.  `cur` is the town being expanded, if any,
`done` the entries of its adjacency list already visited, `L` a bound on every
road length. -/
structure AstarBase (g : Datastructures) (start goal : TownID) (L : Int)
    (cur : Option TownID) (done : List TownID) (s : Datastructures)
    (q : List (Int × TownID)) : Prop where
  same : s.persistent = g.persistent
  start_ok : ∃ ts, s.find start = some ts ∧ ts.colour ≠ Colour.WHITE ∧ ts.cost.d = 0 ∧
    ts.pi = none
  q_stored : ∀ e ∈ q, ∃ t, s.find e.2 = some t ∧ t.colour ≠ Colour.WHITE
  gray_q : ∀ v t, s.find v = some t → t.colour = Colour.GRAY →
    cur = some v ∨ ∃ p, (p, v) ∈ q
  cur_gray : ∀ c, cur = some c → ∃ tc, s.find c = some tc ∧ tc.colour = Colour.GRAY
  cur_ne_goal : cur ≠ some goal
  black_nb : ∀ u t, s.find u = some t → t.colour = Colour.BLACK → ∀ w ∈ t.roads_to,
    ∃ tw, s.find w = some tw ∧ tw.colour ≠ Colour.WHITE
  done_ok : ∀ w ∈ done, ∃ tw, s.find w = some tw ∧ tw.colour ≠ Colour.WHITE
  goal_open : ∀ t, s.find goal = some t → t.colour ≠ Colour.BLACK
  white_fresh : ∀ v t, s.find v = some t → t.colour = Colour.WHITE →
    t.cost.d = INT_MAX ∧ t.pi = none
  d_nonneg : ∀ v t, s.find v = some t → 0 ≤ t.cost.d
  d_bound : ∀ v t, s.find v = some t → t.colour ≠ Colour.WHITE →
    t.cost.d + L * s.open_count
      ≤ L * g.towns_by_id_.length + (if cur = none then 0 else L)
  cur_bound : ∀ c tc, cur = some c → s.find c = some tc →
    tc.cost.d + L * s.open_count ≤ L * g.towns_by_id_.length
  pi_some : ∀ v t, s.find v = some t → t.colour ≠ Colour.WHITE → v ≠ start → t.pi ≠ none

/-- The predecessor links of `shortest_route` go against roads and strictly down
in the pair (cost, `rho`), so they cannot run in a circle. -/
structure AstarPi (rho : TownID → Nat) (s : Datastructures) : Prop where
  pi_ok : ∀ v t u, s.find v = some t → t.pi = some u →
    ∃ tu, s.find u = some tu ∧ tu.colour ≠ Colour.WHITE ∧ v ∈ tu.roads_to ∧
      (tu.cost.d + get_road_length tu t < t.cost.d ∨
        (tu.cost.d + get_road_length tu t = t.cost.d ∧ rho u < rho v))

/-- Cost `cost.d` of a town, `0` for an absent one. -/
def Datastructures.cost_of (s : Datastructures) (v : TownID) : Int :=
  match s.find v with
  | some t => t.cost.d
  | none => 0

/-- Bound on the rounds `shortest_route` still needs: the queue entries and the
roads of the towns not yet black. -/
def astar_measure (s : Datastructures) (q : List (Int × TownID)) : Nat :=
  q.length +
    ((s.towns_by_id_.map Prod.fst).map (fun k =>
      if s.colour_of k = some Colour.BLACK then 0 else (s.neighbours k).length)).sum

/-- Invariant of `shortest_route` under a consistent estimate.  The sum of the cost
`d` of a town and its estimate to the goal never drops from one closed town to the
next, so a black town is never relaxed again and keeps `d` no larger than the cost
through any neighbour's road. -/
structure AstarOpt (start goal : TownID) (cur : Option TownID) (done : List TownID)
    (s : Datastructures) (q : List (Int × TownID)) : Prop where
  first : (∃ ts, s.find start = some ts ∧ ts.colour = Colour.BLACK) ∨
    ((∀ v t, s.find v = some t → t.colour ≠ Colour.BLACK) ∧
      (cur = some start ∨ (cur = none ∧ q = [(0, start)])))
  est : ∀ v t gt, s.find v = some t → s.find goal = some gt → t.colour ≠ Colour.WHITE →
    v ≠ start → t.cost.de = t.cost.d + get_road_length t gt
  exact_entry : ∀ v t, s.find v = some t → t.colour = Colour.GRAY → v ≠ start →
    cur ≠ some v → (-t.cost.de, v) ∈ q
  entry_ge : ∀ e ∈ q, e.2 ≠ start → ∀ t, s.find e.2 = some t → t.cost.de ≤ -e.1
  black_rel : ∀ u t, s.find u = some t → t.colour = Colour.BLACK → ∀ w ∈ t.roads_to,
    ∀ tw, s.find w = some tw → tw.cost.d ≤ t.cost.d + get_road_length t tw
  done_rel : ∀ c tc, cur = some c → s.find c = some tc → ∀ w ∈ done,
    ∀ tw, s.find w = some tw → tw.cost.d ≤ tc.cost.d + get_road_length tc tw
  black_cur : ∀ u t gt, s.find u = some t → s.find goal = some gt →
    t.colour = Colour.BLACK → ∀ c tc, cur = some c → s.find c = some tc →
      t.cost.d + get_road_length t gt ≤ tc.cost.d + get_road_length tc gt
  black_le : ∀ u t gt, s.find u = some t → s.find goal = some gt →
    t.colour = Colour.BLACK → ∀ e ∈ q, e.2 ≠ start → ∀ te, s.find e.2 = some te →
      te.colour ≠ Colour.BLACK → t.cost.d + get_road_length t gt ≤ -e.1
  cur_le : ∀ c tc gt, cur = some c → s.find c = some tc → s.find goal = some gt →
    ∀ e ∈ q, e.2 ≠ start → ∀ te, s.find e.2 = some te →
      te.colour ≠ Colour.BLACK → tc.cost.d + get_road_length tc gt ≤ -e.1

/-- The whole invariant of `shortest_route`; the part on shortest routes holds when
the estimate is consistent. -/
structure AstarInv (g : Datastructures) (start goal : TownID) (L : Int)
    (cur : Option TownID) (done : List TownID) (s : Datastructures)
    (q : List (Int × TownID)) : Prop where
  base : AstarBase g start goal L cur done s q
  pi : ∃ rho, AstarPi rho s
  opt : g.Consistent goal → AstarOpt start goal cur done s q

/-! ## Phase 1: reading a town -/

namespace Datastructures

def get_town_name (s : Datastructures) (id : TownID) : Name :=
  match s.find id with
  | none => NO_NAME
  | some t => t.name

def get_town_coordinates (s : Datastructures) (id : TownID) : Coord :=
  match s.find id with
  | none => NO_COORD
  | some t => t.coords

def get_town_tax (s : Datastructures) (id : TownID) : Int :=
  match s.find id with
  | none => NO_VALUE
  | some t => t.tax

def change_town_name (s : Datastructures) (id : TownID) (newname : Name) :
    Bool × Datastructures :=
  match s.find id with
  | some _ => (true, ⟨umap_modify s.towns_by_id_ id (fun t => { t with name := newname }),
      s.roads_⟩)
  | none => (false, s)

/-! ## Vassalage -/

def add_vassalship (s : Datastructures) (vassalid masterid : TownID) :
    Bool × Datastructures :=
  match s.find vassalid with
  | none => (false, s)
  | some vt =>
    if vt.master.isSome then (false, s)
    else
      match s.find masterid with
      | none => (false, s)
      | some _ =>
        let m1 := umap_modify s.towns_by_id_ masterid
          (fun t => { t with vassals := t.vassals ++ [vassalid] })
        let m2 := umap_modify m1 vassalid (fun t => { t with master := some masterid })
        (true, ⟨m2, s.roads_⟩)

def get_town_vassals (s : Datastructures) (id : TownID) : Option (List TownID) :=
  match s.find id with
  | none => some [NO_TOWNID]
  | some t => if t.vassals.length = 0 then some [] else ids_of s t.vassals

end Datastructures

/-- The loop `while (next_town != nullptr) { ids.push_back(next_town->id);
next_town = next_town->master; }` of `taxer_path`; `k` bounds the number of
rounds. -/
def walk_master (s : Datastructures) : Nat → Option TownID → List TownID → Option (List TownID)
  | _, none, ids => some ids
  | 0, some _, _ => none
  | k + 1, some p, ids =>
    match s.find p with
    | none => none
    | some t => walk_master s k t.master (ids ++ [t.id])

namespace Datastructures

/-- The walk `taxer_path`.  The loop is given as many rounds as there are towns: a
walk that needs more visits some town twice and then never ends. -/
def taxer_path (s : Datastructures) (id : TownID) : Option (List TownID) :=
  match s.find id with
  | none => some [NO_TOWNID]
  | some t => walk_master s s.towns_by_id_.length t.master [t.id]

end Datastructures

/-! ### `longest_vassal_path` -/

/-- The `for` of `recursive_find_longest` over the vassals, `rec` being the recursive
call. -/
def longest_loop (rec : TownID → Option (List TownID)) :
    List TownID → List TownID → Option (List TownID)
  | [], best => some best
  | child :: rest, best =>
    match rec child with
    | none => none
    | some next => longest_loop rec rest (if next.length > best.length then next else best)

/-- The recursion `recursive_find_longest`; `k` bounds its depth. -/
def recursive_find_longest (s : Datastructures) : Nat → TownID → Option (List TownID)
  | 0, _ => none
  | k + 1, node =>
    match s.find node with
    | none => none
    | some t =>
      match longest_loop (recursive_find_longest s k) t.vassals [] with
      | none => none
      | some best => some (best ++ [t.id])

namespace Datastructures

/-- The search `longest_vassal_path`.  The recursion may go as deep as there are
towns: a deeper one meets some town twice and then never ends. -/
def longest_vassal_path (s : Datastructures) (id : TownID) : Option (List TownID) :=
  match s.find id with
  | none => some [NO_TOWNID]
  | some _ =>
    match recursive_find_longest s s.towns_by_id_.length id with
    | none => none
    | some longest => some longest.reverse

end Datastructures

/-! ### `total_net_tax`

The code computes a tenth as `int(n * 0.1)`: the `int` is converted to `double`,
multiplied by the `double` constant `0.1` and the product is converted back, which
truncates towards zero.  The constant is the `double` nearest to one tenth,
`3602879701896397 / 2^55`, and the product of two `double`s is the exact product
rounded to 53 significant bits, to nearest, ties to even. -/

/-- Numerator of the `double` constant `0.1` over `2^55`. -/
def tenth_num : Nat := 3602879701896397

/-- Number of low bits that `p` loses when it is cut to 53 significant bits: the
least `sh` from `sh0` on with `p < 2^(53 + sh)`, searched in `k` steps. -/
def drop_bits (p : Nat) : Nat → Nat → Nat
  | 0, sh => sh
  | k + 1, sh => if p < 2 ^ (53 + sh) then sh else drop_bits p k (sh + 1)

/-- The natural number `p` rounded to 53 significant bits, to nearest, ties to
even. -/
def round_double (p : Nat) : Nat :=
  let sh := drop_bits p p 0
  let q := p / 2 ^ sh
  let r := p % 2 ^ sh
  let up : Bool := decide (2 ^ sh < 2 * r) || (decide (2 * r = 2 ^ sh) && decide (q % 2 = 1))
  (if up then q + 1 else q) * 2 ^ sh

/-- The value `int(x * 0.1)`. -/
def times_tenth (x : Int) : Int :=
  let v : Nat := round_double (x.natAbs * tenth_num) / 2 ^ 55
  if x < 0 then -(v : Int) else (v : Int)

/-- The `for` of `recursive_total_net_tax` over the vassals, `rec` being the
recursive call. -/
def net_tax_loop (rec : TownID → Option Int) : List TownID → Int → Option Int
  | [], net_tax => some net_tax
  | vassal :: rest, net_tax =>
    match rec vassal with
    | none => none
    | some r => net_tax_loop rec rest (net_tax + times_tenth r)

/-- The recursion `recursive_total_net_tax`; `k` bounds its depth. -/
def recursive_total_net_tax (s : Datastructures) : Nat → TownID → Option Int
  | 0, _ => none
  | k + 1, node =>
    match s.find node with
    | none => none
    | some t =>
      if t.vassals.isEmpty then some t.tax
      else
        match net_tax_loop (recursive_total_net_tax s k) t.vassals 0 with
        | none => none
        | some net_tax => some (net_tax + t.tax)

namespace Datastructures

/-- The sum `total_net_tax`.  The recursion may go as deep as there are towns: a
deeper one meets some town twice and then never ends. -/
def total_net_tax (s : Datastructures) (id : TownID) : Option Int :=
  match s.find id with
  | none => some NO_VALUE
  | some t =>
    match recursive_total_net_tax s s.towns_by_id_.length id with
    | none => none
    | some total =>
      if t.master.isSome then some (total - times_tenth total) else some total

/-! ## Invariants of the vassalage -/

/-- Every vassal pointer refers to a stored town. -/
abbrev VassalsClosed (s : Datastructures) : Prop :=
  ∀ p ∈ s.towns_by_id_, ∀ v ∈ p.2.vassals, (s.find v).isSome = true

/-- Every master pointer refers to a stored town that lists the town as a vassal. -/
abbrev MastersListed (s : Datastructures) : Prop :=
  ∀ p ∈ s.towns_by_id_, ∀ m, p.2.master = some m →
    ∃ tm, s.find m = some tm ∧ p.1 ∈ tm.vassals

/-- Every listed vassal has the listing town as its master. -/
abbrev VassalsOwned (s : Datastructures) : Prop :=
  ∀ p ∈ s.towns_by_id_, ∀ v ∈ p.2.vassals,
    ∃ tv, s.find v = some tv ∧ tv.master = some p.1

/-- The vassalage is acyclic: some rank drops from every town to each of its
vassals and rises from every town to its master. -/
abbrev Acyclic (s : Datastructures) : Prop :=
  ∃ rank : TownID → Nat, ∀ p ∈ s.towns_by_id_,
    (∀ v ∈ p.2.vassals, rank v < rank p.1) ∧ (∀ m, p.2.master = some m → rank p.1 < rank m)

/-- Vassal list of a town, empty for an absent one. -/
def vassals_of (s : Datastructures) (u : TownID) : List TownID :=
  match s.find u with
  | some t => t.vassals
  | none => []

/-- Master of a town, `none` for an absent one. -/
def master_of (s : Datastructures) (u : TownID) : Option TownID :=
  match s.find u with
  | some t => t.master
  | none => none

/-- The list `l` is a downward chain from `a`: it starts with `a` and every town
in it is followed by one of its own vassals. -/
abbrev DownChain (s : Datastructures) (a : TownID) (l : List TownID) : Prop :=
  l.head? = some a ∧ List.Chain' (fun x y => y ∈ s.vassals_of x) l

/-- Along `l` every step goes to the earliest vassal whose subtree holds a longest
downward chain: the vassals listed before the one followed only start shorter
chains than the rest of `l`, the ones listed after it no longer ones; and `l` ends
at a town without vassals. -/
def FollowsDeepest (s : Datastructures) : List TownID → Prop
  | [] => True
  | [a] => s.vassals_of a = []
  | a :: b :: rest =>
    (∃ before after, s.vassals_of a = before ++ b :: after ∧
      (∀ c ∈ before, ∀ l, s.DownChain c l → l.length < (b :: rest).length) ∧
      (∀ c ∈ after, ∀ l, s.DownChain c l → l.length ≤ (b :: rest).length)) ∧
    FollowsDeepest s (b :: rest)

/-- No stored town carries a value reserved for "not found". -/
abbrev NoSentinels (s : Datastructures) : Prop :=
  ∀ p ∈ s.towns_by_id_, p.1 ≠ NO_TOWNID ∧ p.2.name ≠ NO_NAME ∧ p.2.tax ≠ NO_VALUE ∧
    p.2.coords ≠ NO_COORD

/-- All `int`s computed by `total_net_tax` for the gross incomes `gross` stay in
range: the partial sums over the vassals, the sums with the own tax, and the
incomes themselves. -/
abbrev TaxInRange (s : Datastructures) (gross : TownID → Int) : Prop :=
  ∀ p ∈ s.towns_by_id_,
    (-2147483648 ≤ gross p.1 ∧ gross p.1 ≤ INT_MAX) ∧
    ∀ n, n ≤ p.2.vassals.length →
      -2147483648 ≤ ((p.2.vassals.take n).map (fun c => (gross c).tdiv 10)).sum ∧
      ((p.2.vassals.take n).map (fun c => (gross c).tdiv 10)).sum ≤ INT_MAX

/-- Towns `K` (tax 100), `E` (29), `D` (55), `V` (17), `F` (40), `X` (3): `E`, `D`
and `F` are vassals of `K` in this order, `V` is the vassal of `D` and `X` the
vassal of `F`. -/
def realm : Datastructures :=
  (((((((((((empty.add_town "K" "Kk" ⟨0, 0⟩ 100).2.add_town "E" "Ee" ⟨1, 0⟩ 29).2.add_town
    "D" "Dd" ⟨2, 0⟩ 55).2.add_town "V" "Vv" ⟨3, 0⟩ 17).2.add_town "F" "Ff" ⟨4, 0⟩ 40).2.add_town
    "X" "Xx" ⟨5, 0⟩ 3).2.add_vassalship "E" "K").2.add_vassalship "D" "K").2.add_vassalship
    "V" "D").2.add_vassalship "F" "K").2.add_vassalship "X" "F").2

/-- Rank of the towns of `realm`: the height above the leaves. -/
def realm_rank (k : TownID) : Nat :=
  if k = "K" then 2 else if k = "D" then 1 else if k = "F" then 1 else 0

/-- Gross incomes of the towns of `realm`. -/
def realm_gross (k : TownID) : Int :=
  if k = "K" then 111 else if k = "E" then 29 else if k = "D" then 56
  else if k = "V" then 17 else if k = "F" then 40 else if k = "X" then 3 else 0

/-- A single town that is its own vassal and master, as `add_vassalship` builds it. -/
def self_vassal : Datastructures :=
  ((empty.add_town "A" "Aa" ⟨0, 0⟩ 0).2.add_vassalship "A" "A").2

/-- The state after `add_town(NO_TOWNID, NO_NAME, NO_COORD, NO_VALUE)`. -/
def sentinel_town : Datastructures :=
  (empty.add_town NO_TOWNID NO_NAME NO_COORD NO_VALUE).2

end Datastructures

namespace Datastructures

/-- No vassal list holds a town twice. -/
abbrev VassalsNodup (s : Datastructures) : Prop :=
  ∀ p ∈ s.towns_by_id_, p.2.vassals.Nodup

end Datastructures

namespace Datastructures

/-- The list `l` is a longest downward chain from `c`, built by going at every town
to the earliest vassal whose subtree holds a longest chain. -/
abbrev DeepestFrom (s : Datastructures) (c : TownID) (l : List TownID) : Prop :=
  s.DownChain c l ∧ s.FollowsDeepest l ∧ ∀ l2, s.DownChain c l2 → l2.length ≤ l.length

end Datastructures

/-! ## Sorted listings

`std::sort` leaves the order of equivalent elements open.  The model is the
insertion sort that the library runs on short ranges: every element in turn is put
behind the elements of the sorted front part that are not greater. -/

/-- Insertion of `x` into a sorted list, behind the elements that are not greater. -/
def sorted_insert {α : Type} (lt : α → α → Bool) (x : α) : List α → List α
  | [] => [x]
  | e :: es => if lt x e then x :: e :: es else e :: sorted_insert lt x es

/-- The call `std::sort(first, last, lt)`. -/
def std_sort {α : Type} (lt : α → α → Bool) (l : List α) : List α :=
  l.foldl (fun sorted x => sorted_insert lt x sorted) []

namespace Datastructures

def towns_alphabetically (s : Datastructures) : List TownID :=
  (std_sort (fun town1 town2 => string_lt town1.2.name town2.2.name) s.towns_by_id_).map
    Prod.fst

def towns_distance_increasing (s : Datastructures) : List TownID :=
  let town_pairs : List (TownID × Int) := s.towns_by_id_.map (fun town =>
    (town.1, ((isqrt (town.2.coords.x * town.2.coords.x
      + town.2.coords.y * town.2.coords.y).toNat : Nat) : Int)))
  (std_sort (fun a b => decide (a.2 < b.2)) town_pairs).map Prod.fst

/-! ## States reachable through the operations that change the store -/

/-- The states reached from the empty store by `add_town`, `remove_town`,
`add_road`, `remove_road`, `clear_roads`, `clear_all`, `add_vassalship` and
`change_town_name`; `ok s v m` restricts the calls `add_vassalship(v, m)` made in
the state `s`. -/
inductive Reach (ok : Datastructures → TownID → TownID → Prop) : Datastructures → Prop
  | empty : Reach ok Datastructures.empty
  | add_town (s : Datastructures) (id : TownID) (name : Name) (coord : Coord) (tax : Int) :
      Reach ok s → Reach ok (s.add_town id name coord tax).2
  | remove_town (s : Datastructures) (id : TownID) (b : Bool) (s1 : Datastructures) :
      Reach ok s → s.remove_town id = some (b, s1) → Reach ok s1
  | add_road (s : Datastructures) (town1 town2 : TownID) :
      Reach ok s → Reach ok (s.add_road town1 town2).2
  | remove_road (s : Datastructures) (town1 town2 : TownID) (b : Bool) (s1 : Datastructures) :
      Reach ok s → s.remove_road town1 town2 = some (b, s1) → Reach ok s1
  | clear_roads (s : Datastructures) : Reach ok s → Reach ok s.clear_roads
  | clear_all (s : Datastructures) : Reach ok s → Reach ok s.clear_all
  | add_vassalship (s : Datastructures) (vassalid masterid : TownID) :
      Reach ok s → ok s vassalid masterid → Reach ok (s.add_vassalship vassalid masterid).2
  | change_town_name (s : Datastructures) (id : TownID) (newname : Name) :
      Reach ok s → Reach ok (s.change_town_name id newname).2

/-- The states reachable through the operations, whatever their arguments. -/
abbrev Reachable (s : Datastructures) : Prop := Reach (fun _ _ _ => True) s

/-- The call `add_vassalship(v, m)` cannot close a cycle: the walk up from `m` ends
and does not pass `v`. -/
abbrev AddsNoCycle (s : Datastructures) (v m : TownID) : Prop :=
  ∃ l, s.taxer_path m = some l ∧ v ∉ l

/-- The call `add_vassalship(v, m)` leaves the vassalage acyclic. -/
abbrev StaysAcyclic (s : Datastructures) (v m : TownID) : Prop :=
  (s.add_vassalship v m).2.Acyclic

/-- No town has a road to itself. -/
abbrev NoSelfRoad (s : Datastructures) : Prop :=
  ∀ p ∈ s.towns_by_id_, p.1 ∉ p.2.roads_to

/-- No adjacency list holds a town twice. -/
abbrev RoadsNodup (s : Datastructures) : Prop :=
  ∀ p ∈ s.towns_by_id_, p.2.roads_to.Nodup

/-- The list `c` is a cycle of roads: at least three towns, pairwise distinct, each
joined to the next by a road and the last to the first. -/
abbrev IsCycle (s : Datastructures) (c : List TownID) : Prop :=
  3 ≤ c.length ∧ c.Nodup ∧ List.Chain' s.Road c ∧
    ∃ a b, c.head? = some a ∧ c.getLast? = some b ∧ s.Road b a

/-- Some cycle of roads passes a town that a road route joins to `start`. -/
abbrev HasCycleFrom (s : Datastructures) (start : TownID) : Prop :=
  ∃ c a l, s.IsCycle c ∧ c.head? = some a ∧ s.IsRoute start a l

/-- The state after `add_town A`, `add_town B`, `add_road A B`, `remove_town A`. -/
def lonely_road : Datastructures :=
  ⟨[("B", ⟨"B", "Bb", ⟨3, 4⟩, 2, [], none, ["A"], Colour.WHITE, none, ⟨INT_MAX, INT_MAX⟩⟩)],
    [("A", "B")]⟩

/-- The state `lonely_road` after `add_town A` again. -/
def stale_road : Datastructures := (lonely_road.add_town "A" "Aa" ⟨0, 0⟩ 1).2

end Datastructures

/-! ## Invariant of the vassalage -/

/-- The links of a record that make up the vassalage. -/
def Town_info.links (t : Town_info) : TownID × List TownID × Option TownID :=
  (t.id, t.vassals, t.master)

namespace Datastructures

/-- Master and vassal links are mutual back-references between stored towns. -/
structure VassalInv (s : Datastructures) : Prop where
  keys : s.KeysNodup
  ids : ∀ k t, s.find k = some t → t.id = k
  owned : ∀ k t, s.find k = some t → ∀ v ∈ t.vassals,
    ∃ tv, s.find v = some tv ∧ tv.master = some k
  listed : ∀ k t, s.find k = some t → ∀ m, t.master = some m →
    ∃ tm, s.find m = some tm ∧ k ∈ tm.vassals
  nodup : ∀ k t, s.find k = some t → t.vassals.Nodup

/-- Three towns `A`, `B`, `C` without roads or vassalage. -/
def three_towns : Datastructures := (two_towns.add_town "C" "Cc" ⟨6, 8⟩ 3).2

/-- The towns `A`, `B`, `C` with `A` a vassal of `B` and `B` a vassal of `C`. -/
def two_lieges : Datastructures :=
  ((three_towns.add_vassalship "A" "B").2.add_vassalship "B" "C").2

/-- The state `two_lieges` after `remove_town B`: `A` is a vassal of `C`. -/
def heir : Datastructures :=
  ⟨[("A", ⟨"A", "Aa", ⟨0, 0⟩, 1, [], some "C", [], Colour.WHITE, none, ⟨INT_MAX, INT_MAX⟩⟩),
    ("C", ⟨"C", "Cc", ⟨6, 8⟩, 3, ["A"], none, [], Colour.WHITE, none, ⟨INT_MAX, INT_MAX⟩⟩)],
    []⟩

/-- A rank for the vassalage of `A`, `B`, `C`. -/
def abc_rank (k : TownID) : Nat := if k = "C" then 2 else if k = "B" then 1 else 0

end Datastructures

/-! ## The depth-first search misses no cycle -/

namespace Datastructures

/-- The town has been taken from the stack: it is gray or black. -/
abbrev Seen (s : Datastructures) (x : TownID) : Prop :=
  s.colour_of x = some Colour.GRAY ∨ s.colour_of x = some Colour.BLACK

end Datastructures

/-- What the depth-first search knows about the roads it has passed.  `cur` is the
town whose roads are being scanned, if any, and `done` the road ends of `cur`
scanned so far.  A white road end of a gray town lies in the stack above that
town; a black town has no white road end; a road between two towns taken from the
stack is a predecessor link; predecessors have been taken from the stack, and some
numbering `tin` rises along the predecessor links; the town being scanned has no
black road end. -/
structure DfsTree (g s : Datastructures) (stack : List TownID) (cur : Option TownID)
    (done : List TownID) : Prop where
  above : ∀ x y, s.colour_of x = some Colour.GRAY → g.Road x y →
    s.colour_of y = some Colour.WHITE → (cur = some x → y ∈ done) →
    y ∈ stack.takeWhile (fun e => decide (e ≠ x))
  closed : ∀ x y, s.colour_of x = some Colour.BLACK → g.Road x y →
    s.colour_of y ≠ some Colour.WHITE
  tree : ∀ x y, g.Road x y → s.Seen x → s.Seen y → (cur = some x → y ∈ done) →
    (cur = some y → x ∈ done) → s.pi_of x = some y ∨ s.pi_of y = some x
  pi_seen : ∀ x p, s.pi_of x = some p → s.Seen p
  order : ∃ tin : TownID → Nat, ∀ x p, s.Seen x → s.pi_of x = some p → tin p < tin x
  fresh : ∀ c r, cur = some c → g.Road c r → s.colour_of r ≠ some Colour.BLACK

/-! ## What the traversals read -/

/-- The persistent fields the traversals read: identifier, coordinates and
adjacency list. -/
def Town_info.route_part (t : Town_info) : TownID × Coord × List TownID :=
  (t.id, t.coords, t.roads_to)

/-- A record without the fields no traversal reads. -/
def Town_info.bare (t : Town_info) : Town_info :=
  { t with name := "", tax := 0, vassals := [], master := none }

/-- A record without the fields the searches `least_towns_route` and
`road_cycle_route` do not read. -/
def Town_info.bare_cost (t : Town_info) : Town_info :=
  { t with name := "", tax := 0, vassals := [], master := none, cost := ⟨0, 0⟩ }

namespace Datastructures

/-- The stored keys with the persistent fields the traversals read. -/
def route_view (s : Datastructures) : List (TownID × TownID × Coord × List TownID) :=
  s.towns_by_id_.map (fun p => (p.1, p.2.route_part))

/-- The state with `g` applied to every record and without the list of roads. -/
def strip (g : Town_info → Town_info) (s : Datastructures) : Datastructures :=
  ⟨s.towns_by_id_.map (fun p => (p.1, g p.2)), []⟩

/-- The triangle after a `shortest_route` and a `road_cycle_route` query, with
other names and taxes: the scratch fields hold what the queries left. -/
def triangle_used : Datastructures :=
  match shortest_route (fun _ => 0) triangle "A" "C" with
  | none => triangle
  | some r =>
    match r.2.road_cycle_route "B" with
    | none => triangle
    | some r2 =>
      ⟨r2.2.towns_by_id_.map (fun p => (p.1, { p.2 with name := "renamed", tax := 7 })), []⟩

end Datastructures


/-! ## Lemmas on the map -/

theorem umap_modify_nil (id : TownID) (f : Town_info → Town_info) :
    umap_modify [] id f = [] := rfl

theorem umap_modify_cons (k0 : TownID) (t0 : Town_info) (rest : List (TownID × Town_info))
    (id : TownID) (f : Town_info → Town_info) :
    umap_modify ((k0, t0) :: rest) id f
      = (k0, if k0 = id then f t0 else t0) :: umap_modify rest id f := by
  by_cases h : k0 = id <;> simp [umap_modify, h]

theorem umap_find_cons (k0 : TownID) (t0 : Town_info) (rest : List (TownID × Town_info))
    (k : TownID) :
    umap_find ((k0, t0) :: rest) k = if k0 = k then some t0 else umap_find rest k := rfl

theorem umap_find_modify (m : List (TownID × Town_info)) (id k : TownID)
    (f : Town_info → Town_info) :
    umap_find (umap_modify m id f) k
      = if k = id then (umap_find m k).map f else umap_find m k := by
  induction m with
  | nil => simp [umap_modify_nil, umap_find]
  | cons p rest ih =>
    obtain ⟨k0, t0⟩ := p
    rw [umap_modify_cons, umap_find_cons, umap_find_cons, ih]
    by_cases h2 : k0 = k
    · subst h2
      by_cases h1 : k0 = id <;> simp [h1]
    · simp [h2]

theorem umap_find_some_mem {m : List (TownID × Town_info)} {k : TownID} {t : Town_info}
    (h : umap_find m k = some t) : (k, t) ∈ m := by
  induction m with
  | nil => simp [umap_find] at h
  | cons p rest ih =>
    obtain ⟨k0, t0⟩ := p
    by_cases h1 : k0 = k
    · simp [umap_find, h1] at h; simp [h1, h]
    · simp [umap_find, h1] at h; exact List.mem_cons_of_mem _ (ih h)

theorem umap_find_of_mem {m : List (TownID × Town_info)} {k : TownID} {t : Town_info}
    (hn : (m.map Prod.fst).Nodup) (h : (k, t) ∈ m) : umap_find m k = some t := by
  induction m with
  | nil => simp at h
  | cons p rest ih =>
    obtain ⟨k0, t0⟩ := p
    simp only [List.map_cons, List.nodup_cons] at hn
    rcases List.mem_cons.1 h with h1 | h1
    · injection h1 with h2 h3; subst h2; subst h3; simp [umap_find]
    · have : k0 ≠ k := by
        intro e; subst e
        exact hn.1 (List.mem_map.2 ⟨(k0, t), h1, rfl⟩)
      simp [umap_find, this, ih hn.2 h1]

theorem umap_find_isSome_iff (m : List (TownID × Town_info)) (k : TownID) :
    (umap_find m k).isSome = true ↔ k ∈ m.map Prod.fst := by
  induction m with
  | nil => simp [umap_find]
  | cons p rest ih =>
    obtain ⟨k0, t0⟩ := p
    by_cases h1 : k0 = k
    · simp [umap_find, h1]
    · simp only [umap_find, h1, if_false, ih, List.map_cons, List.mem_cons]
      constructor
      · exact Or.inr
      · rintro (h | h)
        · exact absurd h.symm h1
        · exact h

theorem umap_find_none_iff (m : List (TownID × Town_info)) (k : TownID) :
    umap_find m k = none ↔ k ∉ m.map Prod.fst := by
  rw [← umap_find_isSome_iff]
  cases umap_find m k <;> simp

theorem umap_modify_keys (m : List (TownID × Town_info)) (id : TownID)
    (f : Town_info → Town_info) :
    (umap_modify m id f).map Prod.fst = m.map Prod.fst := by
  simp only [umap_modify, List.map_map]
  apply List.map_congr_left
  intro p _
  by_cases h : p.1 = id <;> simp [h]

theorem umap_modify_length (m : List (TownID × Town_info)) (id : TownID)
    (f : Town_info → Town_info) : (umap_modify m id f).length = m.length := by
  simp [umap_modify]

theorem umap_find_append (m1 m2 : List (TownID × Town_info)) (k : TownID) :
    umap_find (m1 ++ m2) k = (umap_find m1 k).orElse (fun _ => umap_find m2 k) := by
  induction m1 with
  | nil => simp [umap_find]
  | cons p rest ih =>
    obtain ⟨k0, t0⟩ := p
    by_cases h1 : k0 = k
    · simp [umap_find, h1]
    · simp [umap_find, h1, ih]

/-- Writes that restore every record stored under the key leave the map as it was. -/
theorem umap_modify_id_of (m : List (TownID × Town_info)) (key : TownID)
    (f : Town_info → Town_info) (h : ∀ p ∈ m, p.1 = key → f p.2 = p.2) :
    umap_modify m key f = m := by
  induction m with
  | nil => rfl
  | cons p rest ih =>
    obtain ⟨k0, t0⟩ := p
    rw [umap_modify_cons, ih (fun p hp => h p (List.mem_cons_of_mem _ hp))]
    by_cases h1 : k0 = key
    · have := h (k0, t0) (List.mem_cons_self _ _) h1
      simp only [h1, if_true]
      simp only at this
      rw [this]
    · simp [h1]

theorem umap_modify_modify (m : List (TownID × Town_info)) (id : TownID)
    (f g : Town_info → Town_info) :
    umap_modify (umap_modify m id f) id g = umap_modify m id (fun t => g (f t)) := by
  simp only [umap_modify, List.map_map]
  apply List.map_congr_left
  intro p _
  by_cases h1 : p.1 = id <;> simp [h1]

theorem umap_modify_comm (m : List (TownID × Town_info)) (a b : TownID) (hab : a ≠ b)
    (f g : Town_info → Town_info) :
    umap_modify (umap_modify m a f) b g = umap_modify (umap_modify m b g) a f := by
  simp only [umap_modify, List.map_map]
  apply List.map_congr_left
  intro p _
  by_cases h1 : p.1 = a
  · have h2 : ¬ p.1 = b := fun h => hab (h1.symm.trans h)
    simp [h1, h2, hab]
  · by_cases h2 : p.1 = b
    · have h3 : ¬ b = a := fun h => hab h.symm
      simp [h2, h3]
    · simp [h1, h2]

theorem string_lt_iff (a b : TownID) : string_lt a b = true ↔ a < b := by
  unfold string_lt
  rw [decide_eq_true_iff]
  exact String.lt_iff_toList_lt.symm


open Datastructures

/-! ## `add_road` -/

theorem add_road_true_unfold {s : Datastructures} {a b : TownID}
    (h : (s.add_road a b).1 = true) :
    ∃ ta tb, s.find a = some ta ∧ s.find b = some tb ∧ a ≠ b ∧ b ∉ ta.roads_to ∧
      (s.add_road a b).2 =
        ⟨umap_modify (umap_modify s.towns_by_id_ a
            (fun t => { t with roads_to := t.roads_to ++ [b] })) b
            (fun t => { t with roads_to := t.roads_to ++ [a] }),
          s.roads_ ++ [if string_lt ta.id tb.id then (ta.id, tb.id) else (tb.id, ta.id)]⟩ := by
  unfold add_road at h ⊢
  cases ha : s.find a with
  | none => simp [ha] at h
  | some ta =>
    cases hb : s.find b with
    | none => simp [ha, hb] at h
    | some tb =>
      by_cases hab : a = b
      · simp [ha, hb, hab] at h
      · by_cases hmem : b ∈ ta.roads_to
        · simp [ha, hb, hab, hmem] at h
        · exact ⟨ta, tb, rfl, rfl, hab, hmem, by simp [hab, hmem]⟩

theorem add_road_false_iff (s : Datastructures) (a b : TownID) :
    (s.add_road a b).1 = false ↔
      (s.find a = none ∨ s.find b = none ∨ a = b ∨
        ∃ ta, s.find a = some ta ∧ b ∈ ta.roads_to) := by
  unfold add_road
  cases ha : s.find a with
  | none => simp
  | some ta =>
    cases hb : s.find b with
    | none => simp
    | some tb =>
      by_cases hab : a = b
      · simp [hab]
      · by_cases hmem : b ∈ ta.roads_to
        · simp [hab, hmem]
        · simp [hab, hmem]

theorem add_road_false_state (s : Datastructures) (a b : TownID)
    (h : (s.add_road a b).1 = false) : (s.add_road a b).2 = s := by
  unfold add_road at h ⊢
  cases ha : s.find a with
  | none => simp
  | some ta =>
    cases hb : s.find b with
    | none => simp
    | some tb =>
      by_cases hab : a = b
      · simp [hab]
      · by_cases hmem : b ∈ ta.roads_to
        · simp [hab, hmem]
        · simp [ha, hb, hab, hmem] at h

theorem ids_of_congr (s s1 : Datastructures)
    (h : ∀ k, (s1.find k).map Town_info.id = (s.find k).map Town_info.id) (l : List TownID) :
    ids_of s1 l = ids_of s l := by
  induction l with
  | nil => rfl
  | cons p ps ih =>
    have hp := h p
    unfold ids_of
    rw [ih]
    cases h1 : s1.find p with
    | none =>
      cases h2 : s.find p with
      | none => rfl
      | some t => simp [h1, h2] at hp
    | some t1 =>
      cases h2 : s.find p with
      | none => simp [h1, h2] at hp
      | some t =>
        simp [h1, h2] at hp
        simp [hp]

theorem ids_of_eq_self (s : Datastructures) (hids : s.IdsOK) (l : List TownID)
    (hl : ∀ r ∈ l, (s.find r).isSome = true) : ids_of s l = some l := by
  induction l with
  | nil => rfl
  | cons p ps ih =>
    unfold ids_of
    rw [ih (fun r hr => hl r (List.mem_cons_of_mem _ hr))]
    have hp := hl p (List.mem_cons_self _ _)
    cases h1 : s.find p with
    | none => simp [h1] at hp
    | some t =>
      have := hids _ (umap_find_some_mem h1)
      simp only at this
      simp [this]

theorem min_max_of_lt {a b : TownID} (h : a < b) : (min a b, max a b) = (a, b) := by
  rw [min_eq_left h.le, max_eq_right h.le]

theorem min_max_of_not_lt {a b : TownID} (h : ¬ a < b) : (min a b, max a b) = (b, a) := by
  rw [min_eq_right (not_lt.1 h), max_eq_left (not_lt.1 h)]

/-- C7. In a state whose records carry their keys and whose road pointers are
valid, a successful `add_road(a, b)` makes `get_roads_from(a)` contain `b`,
`get_roads_from(b)` contain `a` and `all_roads()` contain `(min(a,b), max(a,b))`;
the adjacency lists of all other towns and every town's name, coordinates, tax,
vassals and master are unchanged. -/
theorem add_road_links (s : Datastructures) (a b : TownID)
    (hids : s.IdsOK) (hcl : s.RoadsClosed) (h : (s.add_road a b).1 = true) :
    (∃ l, (s.add_road a b).2.get_roads_from a = some l ∧ b ∈ l) ∧
    (∃ l, (s.add_road a b).2.get_roads_from b = some l ∧ a ∈ l) ∧
    (min a b, max a b) ∈ (s.add_road a b).2.all_roads ∧
    (∀ k, k ≠ a → k ≠ b → (s.add_road a b).2.get_roads_from k = s.get_roads_from k) ∧
    (∀ k, ((s.add_road a b).2.find k).map Town_info.fixed
        = (s.find k).map Town_info.fixed) := by
  obtain ⟨ta, tb, ha, hb, hab, hmem, hst⟩ := add_road_true_unfold h
  have hta : ta.id = a := hids _ (umap_find_some_mem ha)
  have htb : tb.id = b := hids _ (umap_find_some_mem hb)
  have hba : b ≠ a := fun e => hab e.symm
  -- lookups in the new state
  have hfind : ∀ k, (s.add_road a b).2.find k =
      if k = b then (s.find k).map (fun t => { t with roads_to := t.roads_to ++ [a] })
      else if k = a then (s.find k).map (fun t => { t with roads_to := t.roads_to ++ [b] })
      else s.find k := by
    intro k
    rw [hst]
    simp only [find, umap_find_modify]
    by_cases h1 : k = b
    · have h2 : ¬ k = a := fun e => hab (e.symm.trans h1)
      simp [h1, h2, hba]
    · simp [h1]
  have hidk : ∀ k, ((s.add_road a b).2.find k).map Town_info.id
      = (s.find k).map Town_info.id := by
    intro k
    rw [hfind k]
    by_cases h1 : k = b
    · simp only [h1, if_true]; cases s.find b <;> rfl
    · by_cases h2 : k = a
      · rw [if_neg h1, if_pos h2]; cases s.find k <;> rfl
      · simp [h1, h2]
  have hsome : ∀ k, (s.find k).isSome = true → ((s.add_road a b).2.find k).isSome = true := by
    intro k hk
    have := congrArg Option.isSome (hidk k)
    simpa [hk] using this
  have hclosed_a : ∀ r ∈ ta.roads_to, (s.find r).isSome = true :=
    hcl _ (umap_find_some_mem ha)
  have hclosed_b : ∀ r ∈ tb.roads_to, (s.find r).isSome = true :=
    hcl _ (umap_find_some_mem hb)
  refine ⟨⟨ta.roads_to ++ [b], ?_, by simp⟩, ⟨tb.roads_to ++ [a], ?_, by simp⟩, ?_, ?_, ?_⟩
  · unfold get_roads_from
    rw [hfind a]
    simp only [hab, if_false, if_true, ha, Option.map_some']
    rw [ids_of_congr s _ hidk]
    apply ids_of_eq_self s hids
    intro r hr
    rcases List.mem_append.1 hr with h1 | h1
    · exact hclosed_a r h1
    · simp at h1; subst h1; simp [hb]
  · unfold get_roads_from
    rw [hfind b]
    simp only [if_true, hb, Option.map_some']
    rw [ids_of_congr s _ hidk]
    apply ids_of_eq_self s hids
    intro r hr
    rcases List.mem_append.1 hr with h1 | h1
    · exact hclosed_b r h1
    · simp at h1; subst h1; simp [ha]
  · rw [hst]
    simp only [all_roads, hta, htb]
    by_cases hlt : a < b
    · rw [min_max_of_lt hlt, if_pos ((string_lt_iff a b).2 hlt)]
      simp
    · rw [min_max_of_not_lt hlt, if_neg (fun e => hlt ((string_lt_iff a b).1 e))]
      simp
  · intro k hka hkb
    unfold get_roads_from
    rw [hfind k]
    simp only [hka, hkb, if_false]
    cases s.find k with
    | none => rfl
    | some t => exact ids_of_congr s _ hidk _
  · intro k
    rw [hfind k]
    by_cases h1 : k = b
    · simp only [h1, if_true]; cases s.find b <;> rfl
    · by_cases h2 : k = a
      · rw [if_neg h1, if_pos h2]; cases s.find k <;> rfl
      · simp [h1, h2]

/-- Witness for C7: the road `A`-`B` added to two fresh towns. -/
theorem add_road_links_witness :
    (∃ l, one_road.get_roads_from "A" = some l ∧ "B" ∈ l) ∧
    (∃ l, one_road.get_roads_from "B" = some l ∧ "A" ∈ l) ∧
    (min "A" "B", max "A" "B") ∈ one_road.all_roads ∧
    (∀ k, k ≠ "A" → k ≠ "B" → one_road.get_roads_from k = two_towns.get_roads_from k) ∧
    (∀ k, (one_road.find k).map Town_info.fixed = (two_towns.find k).map Town_info.fixed) :=
  add_road_links two_towns "A" "B" (by decide) (by decide) (by decide)


open Datastructures

/-! ## `remove_road` directly after `add_road` -/

/-- Slots that do not hold the target are passed over. -/
theorem erase_ptr_loop_skip (target : TownID) (k : Nat) :
    ∀ (idx : Nat) (buf : List TownID) (n : Nat) (found : Bool),
      idx + k = buf.length → (∀ e ∈ buf.drop idx, e ≠ target) →
      erase_ptr_loop target k idx buf n found = some (buf, n, found) := by
  induction k with
  | zero => intro idx buf n found _ _; rfl
  | succ k ih =>
    intro idx buf n found hlen hne
    have hidx : idx < buf.length := by omega
    have hget : buf.get? idx = some (buf.get ⟨idx, hidx⟩) := List.get?_eq_get hidx
    have hmem : buf.get ⟨idx, hidx⟩ ∈ buf.drop idx := by
      rw [List.drop_eq_getElem_cons hidx]
      exact List.mem_cons_self _ _
    have hneq : buf.get ⟨idx, hidx⟩ ≠ target := hne _ hmem
    unfold erase_ptr_loop
    rw [hget]
    simp only [hneq, if_false]
    apply ih (idx + 1) buf n found (by omega)
    intro e he
    apply hne
    rw [List.drop_eq_getElem_cons hidx]
    exact List.mem_cons_of_mem _ he

/-- A target stored once, in the last slot, is erased and the loop ends. -/
theorem erase_ptr_loop_last (target : TownID) (l : List TownID) (h : target ∉ l) :
    erase_ptr_loop target (l ++ [target]).length 0 (l ++ [target]) (l ++ [target]).length false
      = some (l ++ [target], l.length, true) := by
  have key : ∀ (k idx : Nat) (found : Bool), idx + k = l.length →
      erase_ptr_loop target (k + 1) idx (l ++ [target]) (l.length + 1) found
        = some (l ++ [target], l.length, true) := by
    intro k
    induction k with
    | zero =>
      intro idx found hk
      have hidx : idx = l.length := by omega
      subst hidx
      unfold erase_ptr_loop
      have h1 : (l ++ [target]).get? l.length = some target := by
        rw [List.get?_eq_getElem?, List.getElem?_append_right (le_refl _)]; simp
      rw [h1]
      simp only [if_true, Nat.lt_succ_self, Nat.add_sub_cancel, h1]
      have h2 : vec_erase_at (l ++ [target]) (l.length + 1) l.length target = l ++ [target] := by
        unfold vec_erase_at
        have h3 : (l ++ [target]).take (l.length + 1) = l ++ [target] := by
          apply List.take_of_length_le; simp
        have h4 : (l ++ [target]).drop (l.length + 1) = [] := by
          apply List.drop_of_length_le; simp
        rw [h3, h4, List.eraseIdx_append_of_length_le (le_refl _)]
        simp
      rw [h2]
      rfl
    | succ k ih =>
      intro idx found hk
      have hidx : idx < l.length := by omega
      unfold erase_ptr_loop
      have h1 : (l ++ [target]).get? idx = some (l.get ⟨idx, hidx⟩) := by
        rw [List.get?_eq_getElem?, List.getElem?_append_left hidx]
        exact List.getElem?_eq_getElem hidx
      have h2 : l.get ⟨idx, hidx⟩ ≠ target := by
        intro e
        exact h (e ▸ List.get_mem l idx hidx)
      rw [h1]
      simp only [h2, if_false]
      exact ih (idx + 1) found (by omega)
  have hlen : (l ++ [target]).length = l.length + 1 := by simp
  rw [hlen]
  exact key l.length 0 false (by omega)

theorem erase_road_if_skip (p q : TownID) (idx : Nat) (buf : List (TownID × TownID)) (n : Nat)
    (road : TownID × TownID) (h1 : buf.get? idx = some road) (h2 : road ≠ (p, q)) :
    erase_road_if p q idx (buf, n) = some (buf, n) := by
  unfold erase_road_if
  simp only [h1]
  have : ¬ (road.1 = p ∧ road.2 = q) := by
    rintro ⟨e1, e2⟩
    exact h2 (Prod.ext e1 e2)
  simp [this]

theorem erase_road_if_last (p q : TownID) (l : List (TownID × TownID)) :
    erase_road_if p q l.length (l ++ [(p, q)], l.length + 1) = some (l ++ [(p, q)], l.length) := by
  unfold erase_road_if
  have h1 : (l ++ [(p, q)]).get? l.length = some (p, q) := by
    rw [List.get?_eq_getElem?, List.getElem?_append_right (le_refl _)]; simp
  simp only [h1, Nat.add_sub_cancel, and_self, if_true, Nat.lt_succ_self]
  have h2 : vec_erase_at (l ++ [(p, q)]) (l.length + 1) l.length (p, q) = l ++ [(p, q)] := by
    unfold vec_erase_at
    have h3 : (l ++ [(p, q)]).take (l.length + 1) = l ++ [(p, q)] := by
      apply List.take_of_length_le; simp
    have h4 : (l ++ [(p, q)]).drop (l.length + 1) = [] := by
      apply List.drop_of_length_le; simp
    rw [h3, h4, List.eraseIdx_append_of_length_le (le_refl _)]
    simp
  rw [h2]

/-- A road stored once, in the last slot of `roads_`, is erased and the loop ends. -/
theorem erase_road_loop_last (town1 town2 : TownID) (hne : town1 ≠ town2)
    (l : List (TownID × TownID)) (pr : TownID × TownID)
    (hpr : pr = (town1, town2) ∨ pr = (town2, town1))
    (h1 : (town1, town2) ∉ l) (h2 : (town2, town1) ∉ l) :
    erase_road_loop town1 town2 (l ++ [pr]).length 0 (l ++ [pr], (l ++ [pr]).length)
      = some (l ++ [pr], l.length) := by
  have key : ∀ (k idx : Nat), idx + k = l.length →
      erase_road_loop town1 town2 (k + 1) idx (l ++ [pr], l.length + 1)
        = some (l ++ [pr], l.length) := by
    intro k
    induction k with
    | zero =>
      intro idx hk
      have hidx : idx = l.length := by omega
      subst hidx
      unfold erase_road_loop
      have hget : (l ++ [pr]).get? l.length = some pr := by
        rw [List.get?_eq_getElem?, List.getElem?_append_right (le_refl _)]; simp
      rcases hpr with e | e
      · subst e
        rw [erase_road_if_last]
        have hne2 : ((town1, town2) : TownID × TownID) ≠ (town2, town1) := by
          intro e; injection e with e1 e2; exact hne e1
        simp only
        rw [erase_road_if_skip town2 town1 l.length _ _ _ hget hne2]
        rfl
      · subst e
        have hne2 : ((town2, town1) : TownID × TownID) ≠ (town1, town2) := by
          intro e; injection e with e1 e2; exact hne e1.symm
        rw [erase_road_if_skip town1 town2 l.length _ _ _ hget hne2]
        simp only
        rw [erase_road_if_last]
        rfl
    | succ k ih =>
      intro idx hk
      have hidx : idx < l.length := by omega
      unfold erase_road_loop
      have hget : (l ++ [pr]).get? idx = some (l.get ⟨idx, hidx⟩) := by
        rw [List.get?_eq_getElem?, List.getElem?_append_left hidx]
        exact List.getElem?_eq_getElem hidx
      have hm : l.get ⟨idx, hidx⟩ ∈ l := List.get_mem l idx hidx
      have n1 : l.get ⟨idx, hidx⟩ ≠ (town1, town2) := fun e => h1 (e ▸ hm)
      have n2 : l.get ⟨idx, hidx⟩ ≠ (town2, town1) := fun e => h2 (e ▸ hm)
      rw [erase_road_if_skip town1 town2 idx _ _ _ hget n1]
      simp only
      rw [erase_road_if_skip town2 town1 idx _ _ _ hget n2]
      exact ih (idx + 1) (by omega)
  have hlen : (l ++ [pr]).length = l.length + 1 := by simp
  rw [hlen]
  exact key l.length 0 (by omega)

theorem ids_of_some (s : Datastructures) (hids : s.IdsOK) :
    ∀ (l l1 : List TownID), ids_of s l = some l1 → l1 = l := by
  intro l
  induction l with
  | nil => intro l1 h; simp [ids_of] at h; exact h
  | cons p ps ih =>
    intro l1 h
    unfold ids_of at h
    cases h1 : s.find p with
    | none => simp [h1] at h
    | some t =>
      cases h2 : ids_of s ps with
      | none => simp [h1, h2] at h
      | some rest =>
        simp [h1, h2] at h
        have := hids _ (umap_find_some_mem h1)
        simp only at this
        rw [← h, this, ih rest h2]

/-- Appending to two adjacency lists and then putting the old lists back restores the map. -/
theorem umap_restore (m : List (TownID × Town_info)) (a b : TownID) (ta tb : Town_info)
    (hn : (m.map Prod.fst).Nodup) (ha : umap_find m a = some ta) (hb : umap_find m b = some tb)
    (hab : a ≠ b) (la lb : List TownID) :
    umap_modify (umap_modify (umap_modify (umap_modify m a
        (fun t => { t with roads_to := t.roads_to ++ la })) b
        (fun t => { t with roads_to := t.roads_to ++ lb })) a
        (fun t => { t with roads_to := ta.roads_to })) b
        (fun t => { t with roads_to := tb.roads_to }) = m := by
  rw [umap_modify_comm _ b a (fun e => hab e.symm), umap_modify_modify, umap_modify_modify]
  have h1 : umap_modify m a (fun t =>
      { ({ t with roads_to := t.roads_to ++ la } : Town_info) with roads_to := ta.roads_to }) = m := by
    apply umap_modify_id_of
    intro p hp hpa
    have : umap_find m a = some p.2 := umap_find_of_mem hn (by rw [← hpa]; exact hp)
    rw [ha] at this
    injection this with this
    rw [← this]
  rw [h1]
  apply umap_modify_id_of
  intro p hp hpb
  have : umap_find m b = some p.2 := umap_find_of_mem hn (by rw [← hpb]; exact hp)
  rw [hb] at this
  injection this with this
  rw [← this]

theorem remove_after_add (s : Datastructures) (a b : TownID) (ta tb : Town_info)
    (hn : s.KeysNodup) (ha : s.find a = some ta) (hb : s.find b = some tb) (hab : a ≠ b)
    (hmem : b ∉ ta.roads_to) (hmem2 : a ∉ tb.roads_to)
    (pr : TownID × TownID) (hpr : pr = (a, b) ∨ pr = (b, a))
    (h1 : (a, b) ∉ s.roads_) (h2 : (b, a) ∉ s.roads_) :
    remove_road ⟨umap_modify (umap_modify s.towns_by_id_ a
            (fun t => { t with roads_to := t.roads_to ++ [b] })) b
            (fun t => { t with roads_to := t.roads_to ++ [a] }), s.roads_ ++ [pr]⟩ a b
      = some (true, s) := by
  have hba : b ≠ a := fun e => hab e.symm
  unfold find at ha hb
  unfold remove_road find
  simp only [umap_find_modify, hab, hba, if_true, if_false, ha, hb, Option.map_some']
  rw [erase_ptr_loop_last b ta.roads_to hmem]
  simp only [umap_find_modify, hab, hba, if_true, if_false, ha, hb, Option.map_some']
  rw [erase_ptr_loop_last a tb.roads_to hmem2]
  simp only
  rw [erase_road_loop_last a b hab s.roads_ pr hpr h1 h2]
  simp only [List.take_left']
  rw [umap_restore s.towns_by_id_ a b ta tb hn ha hb hab]

theorem remove_rev_after_add (s : Datastructures) (a b : TownID) (ta tb : Town_info)
    (hn : s.KeysNodup) (ha : s.find a = some ta) (hb : s.find b = some tb) (hab : a ≠ b)
    (hmem : b ∉ ta.roads_to) (hmem2 : a ∉ tb.roads_to)
    (pr : TownID × TownID) (hpr : pr = (a, b) ∨ pr = (b, a))
    (h1 : (a, b) ∉ s.roads_) (h2 : (b, a) ∉ s.roads_) :
    remove_road ⟨umap_modify (umap_modify s.towns_by_id_ a
            (fun t => { t with roads_to := t.roads_to ++ [b] })) b
            (fun t => { t with roads_to := t.roads_to ++ [a] }), s.roads_ ++ [pr]⟩ b a
      = some (true, s) := by
  have hba : b ≠ a := fun e => hab e.symm
  unfold find at ha hb
  unfold remove_road find
  simp only [umap_find_modify, hab, hba, if_true, if_false, ha, hb, Option.map_some']
  rw [erase_ptr_loop_last a tb.roads_to hmem2]
  simp only [umap_find_modify, hab, hba, if_true, if_false, ha, hb, Option.map_some']
  rw [erase_ptr_loop_last b ta.roads_to hmem]
  simp only
  rw [erase_road_loop_last b a hba s.roads_ pr hpr.symm h2 h1]
  simp only [List.take_left']
  rw [umap_modify_comm _ b a hba, umap_restore s.towns_by_id_ a b ta tb hn ha hb hab]

/-- C8. In a well-formed road state (distinct keys, records carrying their keys,
symmetric adjacency, every listed pair backed by the adjacency lists), a
successful `add_road(a, b)` followed by `remove_road(a, b)` or by
`remove_road(b, a)` returns true and gives back exactly the state before the
`add_road`; in it `get_roads_from(a)` does not contain `b`, `get_roads_from(b)`
does not contain `a`, and `all_roads()` holds neither `(a, b)` nor `(b, a)`. -/
theorem add_then_remove_road (s : Datastructures) (a b : TownID)
    (hn : s.KeysNodup) (hids : s.IdsOK) (hsym : s.RoadsSymm) (hl : s.RoadsListed)
    (h : (s.add_road a b).1 = true) :
    (s.add_road a b).2.remove_road a b = some (true, s) ∧
    (s.add_road a b).2.remove_road b a = some (true, s) ∧
    (∀ l, s.get_roads_from a = some l → b ∉ l) ∧
    (∀ l, s.get_roads_from b = some l → a ∉ l) ∧
    (a, b) ∉ s.all_roads ∧ (b, a) ∉ s.all_roads := by
  obtain ⟨ta, tb, ha, hb, hab, hmem, hst⟩ := add_road_true_unfold h
  have hta : ta.id = a := hids _ (umap_find_some_mem ha)
  have htb : tb.id = b := hids _ (umap_find_some_mem hb)
  have hma := umap_find_some_mem ha
  have hmb := umap_find_some_mem hb
  have hmem2 : a ∉ tb.roads_to := fun e => hmem (hsym _ hmb _ hma e)
  have h1 : (a, b) ∉ s.roads_ := fun e => hmem ((hl _ e _ hma).1 rfl)
  have h2 : (b, a) ∉ s.roads_ := fun e => hmem ((hl _ e _ hma).2 rfl)
  have hpr : (if string_lt ta.id tb.id then (ta.id, tb.id) else (tb.id, ta.id)) = (a, b) ∨
      (if string_lt ta.id tb.id then (ta.id, tb.id) else (tb.id, ta.id)) = (b, a) := by
    rw [hta, htb]
    by_cases e : string_lt a b = true
    · left; simp [e]
    · right; simp [e]
  refine ⟨?_, ?_, ?_, ?_, h1, h2⟩
  · rw [hst]
    exact remove_after_add s a b ta tb hn ha hb hab hmem hmem2 _ hpr h1 h2
  · rw [hst]
    exact remove_rev_after_add s a b ta tb hn ha hb hab hmem hmem2 _ hpr h1 h2
  · intro l hl1
    unfold get_roads_from at hl1
    rw [ha] at hl1
    rw [ids_of_some s hids _ _ hl1]
    exact hmem
  · intro l hl1
    unfold get_roads_from at hl1
    rw [hb] at hl1
    rw [ids_of_some s hids _ _ hl1]
    exact hmem2

/-- Witness for C8: the road `A`-`B` added to two fresh towns and removed again. -/
theorem add_then_remove_road_witness :
    one_road.remove_road "A" "B" = some (true, two_towns) ∧
    one_road.remove_road "B" "A" = some (true, two_towns) ∧
    (∀ l, two_towns.get_roads_from "A" = some l → "B" ∉ l) ∧
    (∀ l, two_towns.get_roads_from "B" = some l → "A" ∉ l) ∧
    ("A", "B") ∉ two_towns.all_roads ∧ ("B", "A") ∉ two_towns.all_roads :=
  add_then_remove_road two_towns "A" "B" (by decide) (by decide) (by decide) (by decide)
    (by decide)

/-! ## `remove_town` leaves the roads behind -/

/-- C10. After `add_town A`, `add_town B`, `add_road A B`, the call `remove_town(A)`
returns true and erases `A`, yet `all_roads()` still holds `(A, B)` and the
adjacency list of `B` still holds the pointer to `A`. -/
theorem remove_town_keeps_roads :
    (one_road.remove_town "A").map
        (fun r => (r.1, (r.2.find "A").isSome, r.2.all_roads,
          (r.2.find "B").map Town_info.roads_to))
      = some (true, false, [("A", "B")], some ["A"]) := by
  decide

/-- C9. In the state built by `add_town A`, `add_town B`, `add_road A B`,
`remove_town A`, `add_town A`, the pair `(A, B)` is recorded in `all_roads()` and
`add_road(A, B)` nevertheless returns true and records it a second time. -/
theorem add_road_after_readd :
    readded.map (fun s => (s.all_roads, (s.add_road "A" "B").1, (s.add_road "A" "B").2.all_roads))
      = some ([("A", "B")], true, [("A", "B"), ("A", "B")]) := by
  decide


open Datastructures

/-! ## Lemmas shared by the traversals -/

theorem find_modify (m : List (TownID × Town_info)) (rs : List (TownID × TownID)) (r : TownID)
    (f : Town_info → Town_info) (k : TownID) :
    (Datastructures.mk (umap_modify m r f) rs).find k
      = if k = r then (umap_find m k).map f else umap_find m k := by
  unfold find
  exact umap_find_modify m r k f

theorem umap_find_map (m : List (TownID × Town_info)) (g : Town_info → Town_info) (k : TownID) :
    umap_find (m.map (fun p => (p.1, g p.2))) k = (umap_find m k).map g := by
  induction m with
  | nil => rfl
  | cons p rest ih =>
    obtain ⟨k0, t0⟩ := p
    simp only [List.map_cons, umap_find_cons, ih]
    by_cases h : k0 = k <;> simp [h]

theorem persistent_modify (m : List (TownID × Town_info)) (rs : List (TownID × TownID))
    (r : TownID) (f : Town_info → Town_info) (hf : ∀ t, (f t).persistent = t.persistent) :
    (Datastructures.mk (umap_modify m r f) rs).persistent = (Datastructures.mk m rs).persistent := by
  unfold persistent umap_modify
  simp only [List.map_map, Prod.mk.injEq, and_true]
  apply List.map_congr_left
  intro p _
  by_cases h : p.1 = r <;> simp [h, hf]

theorem persistent_map (m : List (TownID × Town_info)) (rs : List (TownID × TownID))
    (g : Town_info → Town_info) (hg : ∀ t, (g t).persistent = t.persistent) :
    (Datastructures.mk (m.map (fun p => (p.1, g p.2))) rs).persistent
      = (Datastructures.mk m rs).persistent := by
  unfold persistent
  simp only [List.map_map, Prod.mk.injEq, and_true]
  apply List.map_congr_left
  intro p _
  simp [hg]

/-- States with the same persistent part store the same persistent records. -/
theorem find_of_persistent {s g : Datastructures} (h : s.persistent = g.persistent) (k : TownID) :
    (s.find k).map Town_info.persistent = (g.find k).map Town_info.persistent := by
  have h1 : s.towns_by_id_.map (fun p => (p.1, p.2.persistent))
      = g.towns_by_id_.map (fun p => (p.1, p.2.persistent)) := congrArg Prod.fst h
  unfold find
  generalize s.towns_by_id_ = m1 at h1
  generalize g.towns_by_id_ = m2 at h1
  induction m1 generalizing m2 with
  | nil =>
    cases m2 with
    | nil => rfl
    | cons q r => simp at h1
  | cons p rest ih =>
    cases m2 with
    | nil => simp at h1
    | cons q r =>
      obtain ⟨k0, t0⟩ := p
      obtain ⟨k1, t1⟩ := q
      simp only [List.map_cons, List.cons.injEq, Prod.mk.injEq] at h1
      obtain ⟨⟨e1, e2⟩, e3⟩ := h1
      subst e1
      simp only [umap_find_cons]
      by_cases hk : k0 = k
      · simp [hk, e2]
      · simp only [hk, if_false]
        exact ih r e3

theorem length_of_persistent {s g : Datastructures} (h : s.persistent = g.persistent) :
    s.towns_by_id_.length = g.towns_by_id_.length := by
  have h1 := congrArg (fun x => x.1.length) h
  simpa [persistent] using h1

theorem roads_of_persistent {s g : Datastructures} (h : s.persistent = g.persistent)
    {k : TownID} {t : Town_info} (hk : s.find k = some t) :
    ∃ tg, g.find k = some tg ∧ tg.roads_to = t.roads_to ∧ tg.id = t.id := by
  have := find_of_persistent h k
  rw [hk] at this
  cases hg : g.find k with
  | none => simp [hg] at this
  | some tg =>
    simp only [hg, Option.map_some', Option.some.injEq, Town_info.persistent,
      Prod.mk.injEq] at this
    exact ⟨tg, rfl, this.2.2.2.2.2.2.symm, this.1.symm⟩

theorem neighbours_of_persistent {s g : Datastructures} (h : s.persistent = g.persistent)
    (k : TownID) : s.neighbours k = g.neighbours k := by
  have := find_of_persistent h k
  unfold neighbours
  cases hs : s.find k with
  | none =>
    cases hg : g.find k with
    | none => rfl
    | some tg => simp [hs, hg] at this
  | some t =>
    cases hg : g.find k with
    | none => simp [hs, hg] at this
    | some tg =>
      simp only [hs, hg, Option.map_some', Option.some.injEq, Town_info.persistent,
        Prod.mk.injEq] at this
      exact this.2.2.2.2.2.2

theorem idsOK_find {s : Datastructures} (h : s.IdsOK) {k : TownID} {t : Town_info}
    (hk : s.find k = some t) : t.id = k :=
  h _ (umap_find_some_mem hk)

/-- A duplicate-free list of stored towns is no longer than the map. -/
theorem length_le_of_stored (s : Datastructures) (l : List TownID) (hn : l.Nodup)
    (hl : ∀ x ∈ l, (s.find x).isSome = true) : l.length ≤ s.towns_by_id_.length := by
  have hsub : l ⊆ s.towns_by_id_.map Prod.fst := by
    intro x hx
    exact (umap_find_isSome_iff _ _).1 (hl x hx)
  have := (hn.subperm hsub).length_le
  simpa using this

/-- Following predecessor links that decrease a rank reaches a town without
predecessor; `walk_pi` returns the towns passed, in order. -/
theorem walk_pi_chain (s : Datastructures) (hids : ∀ k t, s.find k = some t → t.id = k)
    (good : TownID → Prop)
    (rank : TownID → Nat) (E : TownID → TownID → Prop)
    (hgood : ∀ v, good v → ∃ t, s.find v = some t ∧
      (t.pi = none ∨ ∃ u, t.pi = some u ∧ good u ∧ rank u < rank v ∧ E v u)) :
    ∀ n v, rank v ≤ n → good v →
      ∃ l, l.head? = some v ∧ (∀ x ∈ l, good x ∧ rank x ≤ rank v) ∧ l.Nodup ∧
        List.Chain' E l ∧ (∃ r t, l.getLast? = some r ∧ s.find r = some t ∧ t.pi = none) ∧
        ∀ k, l.length ≤ k → ∀ acc, walk_pi s k (some v) acc = some (acc ++ l) := by
  intro n
  induction n with
  | zero =>
    intro v hv hg
    obtain ⟨t, ht, hpi⟩ := hgood v hg
    have hid := hids _ _ ht
    rcases hpi with hpi | ⟨u, _, _, hlt, _⟩
    · refine ⟨[v], rfl, ?_, by simp, List.chain'_singleton _, ⟨v, t, rfl, ht, hpi⟩, ?_⟩
      · intro x hx; simp at hx; subst hx; exact ⟨hg, le_refl _⟩
      · intro k hk acc
        cases k with
        | zero => simp at hk
        | succ k =>
          unfold walk_pi
          simp only [ht, hpi, hid]
          cases k <;> rfl
    · omega
  | succ n ih =>
    intro v hv hg
    obtain ⟨t, ht, hpi⟩ := hgood v hg
    have hid := hids _ _ ht
    rcases hpi with hpi | ⟨u, hpi, hgu, hlt, hE⟩
    · refine ⟨[v], rfl, ?_, by simp, List.chain'_singleton _, ⟨v, t, rfl, ht, hpi⟩, ?_⟩
      · intro x hx; simp at hx; subst hx; exact ⟨hg, le_refl _⟩
      · intro k hk acc
        cases k with
        | zero => simp at hk
        | succ k =>
          unfold walk_pi
          simp only [ht, hpi, hid]
          cases k <;> rfl
    · obtain ⟨l, hhead, hall, hnd, hch, hlast, hwalk⟩ := ih u (by omega) hgu
      refine ⟨v :: l, rfl, ?_, ?_, ?_, ?_, ?_⟩
      · intro x hx
        rcases List.mem_cons.1 hx with e | e
        · subst e; exact ⟨hg, le_refl _⟩
        · exact ⟨(hall x e).1, by have := (hall x e).2; omega⟩
      · refine List.nodup_cons.2 ⟨?_, hnd⟩
        intro e
        have := (hall v e).2
        omega
      · cases l with
        | nil => simp at hhead
        | cons y l1 =>
          simp at hhead; subst hhead
          exact List.Chain'.cons hE hch
      · obtain ⟨r, tr, h1, h2, h3⟩ := hlast
        refine ⟨r, tr, ?_, h2, h3⟩
        cases l with
        | nil => simp at h1
        | cons y l1 => simpa [List.getLast?_cons_cons] using h1
      · intro k hk acc
        cases k with
        | zero => simp at hk
        | succ k =>
          unfold walk_pi
          simp only [ht, hpi, hid]
          rw [hwalk k (by simpa using hk)]
          simp

theorem ids_of_persistent {s g : Datastructures} (h : s.persistent = g.persistent)
    (hids : g.IdsOK) : ∀ k t, s.find k = some t → t.id = k := by
  intro k t hk
  obtain ⟨tg, h1, _, h3⟩ := roads_of_persistent h hk
  rw [← h3]
  exact idsOK_find hids h1

theorem find_reset_marks (s : Datastructures) (k : TownID) :
    s.reset_marks.find k
      = (s.find k).map (fun t => { t with colour := Colour.WHITE, pi := none }) := by
  unfold reset_marks find
  exact umap_find_map s.towns_by_id_
    (fun t => { t with colour := Colour.WHITE, pi := none }) k

theorem persistent_reset_marks (s : Datastructures) : s.reset_marks.persistent = s.persistent := by
  unfold reset_marks
  exact persistent_map s.towns_by_id_ s.roads_
    (fun t => { t with colour := Colour.WHITE, pi := none }) (fun t => rfl)

theorem open_count_le (s : Datastructures) : s.open_count ≤ s.towns_by_id_.length := by
  unfold open_count
  calc _ ≤ (s.towns_by_id_.map Prod.fst).length := List.length_filter_le _ _
    _ = _ := by simp


open Datastructures

/-! ## Breadth-first search -/

theorem bfs_inner_skip {g : Datastructures} {start : TownID} {lv : TownID → Nat} {c : TownID}
    {done : List TownID} {s : Datastructures} {q : List TownID}
    (inv : BfsInner g start lv c done s q) (r : TownID) (rt : Town_info)
    (hr : s.find r = some rt) (hcol : rt.colour ≠ Colour.WHITE) :
    BfsInner g start lv c (done ++ [r]) s q := by
  refine { inv with done_ok := ?_ }
  intro w hw
  rcases List.mem_append.1 hw with h | h
  · exact inv.done_ok w h
  · simp at h; subst h
    refine ⟨rt, hr, hcol, ?_⟩
    cases hc : rt.colour with
    | WHITE => exact absurd hc hcol
    | GRAY =>
      rcases inv.gray_q w rt hr hc with e | e
      · subst e; omega
      · exact inv.q_hi w e
    | BLACK =>
      have := inv.black_le w rt hr hc
      omega

theorem bfs_inner_discover {g : Datastructures} {start : TownID} {lv : TownID → Nat}
    {c : TownID} {done : List TownID} {s : Datastructures} {q : List TownID}
    (inv : BfsInner g start lv c done s q) (r : TownID) (rt : Town_info)
    (hr : s.find r = some rt) (hcol : rt.colour = Colour.WHITE)
    (hroad : ∀ tc, s.find c = some tc → r ∈ tc.roads_to) :
    BfsInner g start (Function.update lv r (lv c + 1)) c (done ++ [r])
      ⟨umap_modify s.towns_by_id_ r
        (fun t => { t with colour := Colour.GRAY, pi := some c }), s.roads_⟩
      (q ++ [r]) := by
  -- towns that are not white differ from `r`
  have hne : ∀ v t, s.find v = some t → t.colour ≠ Colour.WHITE → v ≠ r := by
    intro v t hv hc e
    subst e
    rw [hr] at hv
    injection hv with hv
    subst hv
    exact hc hcol
  obtain ⟨tc, htc, hcg⟩ := inv.cur
  obtain ⟨ts, hts, hsc, hspi⟩ := inv.start_ok
  have hcr : c ≠ r := hne c tc htc (by rw [hcg]; decide)
  have hsr : start ≠ r := hne start ts hts hsc
  have hrq : r ∉ q := by
    intro hq
    obtain ⟨t, ht, hg⟩ := inv.q_gray r hq
    exact hne r t ht (by rw [hg]; decide) rfl
  have hfind : ∀ v, v ≠ r →
      (Datastructures.mk (umap_modify s.towns_by_id_ r
        (fun t => { t with colour := Colour.GRAY, pi := some c })) s.roads_).find v
        = s.find v := by
    intro v hv
    rw [find_modify]
    simp [hv, find]
  have hfindr : (Datastructures.mk (umap_modify s.towns_by_id_ r
        (fun t => { t with colour := Colour.GRAY, pi := some c })) s.roads_).find r
        = some { rt with colour := Colour.GRAY, pi := some c } := by
    rw [find_modify]
    unfold find at hr
    simp [hr]
  have hlv : ∀ v, v ≠ r → Function.update lv r (lv c + 1) v = lv v := by
    intro v hv
    exact Function.update_noteq hv _ _
  have hlvr : Function.update lv r (lv c + 1) r = lv c + 1 := Function.update_same _ _ _
  have hlvc := hlv c hcr
  constructor
  · rw [← inv.same]
    exact persistent_modify _ _ _ _ (fun t => rfl)
  · exact ⟨ts, by rw [hfind start hsr]; exact hts, hsc, hspi⟩
  · rw [hlv start hsr]; exact inv.lv_start
  · exact ⟨tc, by rw [hfind c hcr]; exact htc, hcg⟩
  · intro h
    rcases List.mem_append.1 h with h | h
    · exact inv.cur_notin h
    · simp at h; exact hcr h
  · intro v hv
    rcases List.mem_append.1 hv with h | h
    · have hvr : v ≠ r := fun e => hrq (e ▸ h)
      rw [hfind v hvr]
      exact inv.q_gray v h
    · simp at h; subst h
      exact ⟨_, hfindr, rfl⟩
  · intro v t hv hg
    by_cases hvr : v = r
    · right; subst hvr; simp
    · rw [hfind v hvr] at hv
      rcases inv.gray_q v t hv hg with e | e
      · exact Or.inl e
      · exact Or.inr (List.mem_append_left _ e)
  · exact List.nodup_append.2 ⟨inv.q_nodup, by simp, by
      intro x hx hx2; simp at hx2; subst hx2; exact hrq hx⟩
  · intro v t hv hc hvs
    by_cases hvr : v = r
    · subst hvr
      rw [hfindr] at hv
      injection hv with hv
      subst hv
      refine ⟨c, tc, rfl, by rw [hfind c hcr]; exact htc, by rw [hcg]; decide,
        hroad tc htc, ?_⟩
      rw [hlvr, hlvc]
    · rw [hfind v hvr] at hv
      obtain ⟨u, tu, h1, h2, h3, h4, h5⟩ := inv.pi_ok v t hv hc hvs
      have hur : u ≠ r := hne u tu h2 h3
      exact ⟨u, tu, h1, by rw [hfind u hur]; exact h2, h3, h4, by rw [hlv v hvr, hlv u hur]; exact h5⟩
  · intro x hx
    rw [hlvc]
    rcases List.mem_append.1 hx with h | h
    · have hxr : x ≠ r := fun e => hrq (e ▸ h)
      rw [hlv x hxr]; exact inv.q_lo x h
    · simp at h; subst h; rw [hlvr]; omega
  · intro x hx
    rw [hlvc]
    rcases List.mem_append.1 hx with h | h
    · have hxr : x ≠ r := fun e => hrq (e ▸ h)
      rw [hlv x hxr]; exact inv.q_hi x h
    · simp at h; subst h; rw [hlvr]
  · rw [List.pairwise_append]
    refine ⟨?_, by simp, ?_⟩
    · refine inv.sorted.imp_of_mem ?_
      intro x y hx hy hxy
      have hxr : x ≠ r := fun e => hrq (e ▸ hx)
      have hyr : y ≠ r := fun e => hrq (e ▸ hy)
      rw [hlv x hxr, hlv y hyr]; exact hxy
    · intro x hx y hy
      simp at hy; subst hy
      have hxr : x ≠ y := fun e => hrq (e ▸ hx)
      rw [hlv x hxr, hlvr]
      exact inv.q_hi x hx
  · intro u t hu hb
    by_cases hur : u = r
    · subst hur
      rw [hfindr] at hu
      injection hu with hu
      subst hu
      simp at hb
    · rw [hfind u hur] at hu
      rw [hlv u hur, hlvc]
      exact inv.black_le u t hu hb
  · intro u t hu hb w hw
    by_cases hur : u = r
    · subst hur
      rw [hfindr] at hu
      injection hu with hu
      subst hu
      simp at hb
    · rw [hfind u hur] at hu
      obtain ⟨tw, h1, h2, h3⟩ := inv.black_nb u t hu hb w hw
      have hwr : w ≠ r := hne w tw h1 h2
      exact ⟨tw, by rw [hfind w hwr]; exact h1, h2, by rw [hlv w hwr, hlv u hur]; exact h3⟩
  · intro w hw
    rcases List.mem_append.1 hw with h | h
    · obtain ⟨tw, h1, h2, h3⟩ := inv.done_ok w h
      have hwr : w ≠ r := hne w tw h1 h2
      exact ⟨tw, by rw [hfind w hwr]; exact h1, h2, by rw [hlv w hwr, hlvc]; exact h3⟩
    · simp at h; subst h
      exact ⟨_, hfindr, by simp, by rw [hlvr, hlvc]⟩

theorem filter_length_lt {α : Type} (p1 p2 : α → Bool) (l : List α)
    (himp : ∀ x, p1 x = true → p2 x = true) (x : α) (hx : x ∈ l) (h2 : p2 x = true)
    (h1 : p1 x = false) : (l.filter p1).length < (l.filter p2).length := by
  induction l with
  | nil => simp at hx
  | cons y ys ih =>
    have hle : (ys.filter p1).length ≤ (ys.filter p2).length := by
      clear ih hx
      induction ys with
      | nil => simp
      | cons z zs ihz =>
        simp only [List.filter_cons]
        cases e1 : p1 z with
        | true => simp [himp z e1]; exact ihz
        | false =>
          cases e2 : p2 z with
          | true => simp; omega
          | false => simpa using ihz
    simp only [List.filter_cons]
    rcases List.mem_cons.1 hx with e | e
    · subst e
      simp [h1, h2]
      omega
    · have := ih e
      cases e1 : p1 y with
      | true => simp [himp y e1]; exact this
      | false =>
        cases e2 : p2 y with
        | true => simp; omega
        | false => simpa using this

theorem colour_of_modify (s : Datastructures) (r : TownID) (f : Town_info → Town_info)
    (k : TownID) :
    (Datastructures.mk (umap_modify s.towns_by_id_ r f) s.roads_).colour_of k
      = if k = r then (s.find k).map (fun t => (f t).colour) else s.colour_of k := by
  unfold colour_of
  rw [find_modify]
  by_cases h : k = r
  · simp only [h, if_true]
    unfold find
    cases umap_find s.towns_by_id_ r <;> rfl
  · simp only [h, if_false]
    rfl

/-- Turning a white town gray leaves the number of open towns as it is. -/
theorem open_count_gray (s : Datastructures) (r : TownID) (rt : Town_info)
    (hr : s.find r = some rt) (hcol : rt.colour ≠ Colour.BLACK) (f : Town_info → Town_info)
    (hf : ∀ t, (f t).colour = Colour.GRAY) :
    (Datastructures.mk (umap_modify s.towns_by_id_ r f) s.roads_).open_count = s.open_count := by
  unfold open_count
  simp only [umap_modify_keys]
  congr 1
  apply List.filter_congr
  intro k _
  rw [colour_of_modify]
  by_cases h : k = r
  · subst h
    simp only [if_true, hr, Option.map_some', hf]
    unfold colour_of
    simp [hr, hcol]
  · simp [h]

/-- Turning an open town black lowers the number of open towns. -/
theorem open_count_black (s : Datastructures) (c : TownID) (tc : Town_info)
    (hc : s.find c = some tc) (hcol : tc.colour ≠ Colour.BLACK) (f : Town_info → Town_info)
    (hf : ∀ t, (f t).colour = Colour.BLACK) :
    (Datastructures.mk (umap_modify s.towns_by_id_ c f) s.roads_).open_count < s.open_count := by
  unfold open_count
  simp only [umap_modify_keys]
  apply filter_length_lt _ _ _ _ c
  · exact (umap_find_isSome_iff _ _).1 (by unfold find at hc; simp [hc])
  · unfold colour_of; simp [hc, hcol]
  · rw [colour_of_modify]; simp [hc, hf]
  · intro k hk
    rw [colour_of_modify] at hk
    by_cases h : k = c
    · subst h; simp [hc, hf] at hk
    · simpa [h] using hk

theorem bfs_for_inv (g : Datastructures) (start c : TownID) (hcl : g.RoadsClosed) :
    ∀ (rs done : List TownID) (lv : TownID → Nat) (s : Datastructures) (q : List TownID),
      BfsInner g start lv c done s q → (∀ r ∈ rs, g.Road c r) →
      ∃ lv1 s1 q1, bfs_for c rs s q = some (s1, q1) ∧
        BfsInner g start lv1 c (done ++ rs) s1 q1 ∧ s1.open_count = s.open_count := by
  intro rs
  induction rs with
  | nil =>
    intro done lv s q inv _
    exact ⟨lv, s, q, rfl, by simpa using inv, rfl⟩
  | cons r rs ih =>
    intro done lv s q inv hroad
    have hrc : g.Road c r := hroad r (List.mem_cons_self _ _)
    -- the pointer `r` is valid
    have hstored : (g.find r).isSome = true := by
      unfold Road neighbours at hrc
      cases hgc : g.find c with
      | none => simp [hgc] at hrc
      | some tg =>
        simp only [hgc] at hrc
        exact hcl _ (umap_find_some_mem hgc) r hrc
    have hsr : ∃ rt, s.find r = some rt := by
      have := find_of_persistent inv.same r
      cases hs : s.find r with
      | none =>
        rw [hs] at this
        cases hg : g.find r with
        | none => simp [hg] at hstored
        | some tg => simp [hg] at this
      | some rt => exact ⟨rt, rfl⟩
    obtain ⟨rt, hrt⟩ := hsr
    have hroad_s : ∀ tc, s.find c = some tc → r ∈ tc.roads_to := by
      intro tc htc
      have := neighbours_of_persistent inv.same c
      unfold Road at hrc
      rw [← this] at hrc
      unfold neighbours at hrc
      simpa [htc] using hrc
    unfold bfs_for
    simp only [hrt]
    by_cases hw : rt.colour = Colour.WHITE
    · simp only [hw, if_true]
      have inv1 := bfs_inner_discover inv r rt hrt hw hroad_s
      obtain ⟨lv1, s1, q1, h1, h2, h3⟩ :=
        ih (done ++ [r]) _ _ _ inv1 (fun x hx => hroad x (List.mem_cons_of_mem _ hx))
      refine ⟨lv1, s1, q1, h1, by simpa using h2, ?_⟩
      rw [h3]
      exact open_count_gray s r rt hrt (by rw [hw]; decide) _ (fun t => rfl)
    · simp only [hw, if_false]
      have inv1 := bfs_inner_skip inv r rt hrt hw
      obtain ⟨lv1, s1, q1, h1, h2, h3⟩ :=
        ih (done ++ [r]) _ _ _ inv1 (fun x hx => hroad x (List.mem_cons_of_mem _ hx))
      exact ⟨lv1, s1, q1, h1, by simpa using h2, h3⟩

theorem bfs_outer_to_inner {g : Datastructures} {start : TownID} {lv : TownID → Nat}
    {s : Datastructures} {c : TownID} {q : List TownID}
    (inv : BfsOuter g start lv s (c :: q)) : BfsInner g start lv c [] s q := by
  have hnd := List.nodup_cons.1 inv.q_nodup
  have hs := List.pairwise_cons.1 inv.sorted
  constructor
  · exact inv.same
  · exact inv.start_ok
  · exact inv.lv_start
  · exact inv.q_gray c (List.mem_cons_self _ _)
  · exact hnd.1
  · exact fun v hv => inv.q_gray v (List.mem_cons_of_mem _ hv)
  · intro v t hv hg
    exact List.mem_cons.1 (inv.gray_q v t hv hg)
  · exact hnd.2
  · exact inv.pi_ok
  · exact fun x hx => hs.1 x hx
  · exact fun x hx => inv.span c (List.mem_cons_self _ _) x (List.mem_cons_of_mem _ hx)
  · exact hs.2
  · exact fun u t hu hb => inv.black_le u t hu hb c (List.mem_cons_self _ _)
  · exact inv.black_nb
  · intro w hw; simp at hw

theorem bfs_inner_to_outer {g : Datastructures} {start : TownID} {lv : TownID → Nat}
    {s : Datastructures} {c : TownID} {q done : List TownID}
    (inv : BfsInner g start lv c done s q)
    (hdone : ∀ tc, s.find c = some tc → ∀ w ∈ tc.roads_to, w ∈ done) :
    BfsOuter g start lv
      ⟨umap_modify s.towns_by_id_ c (fun t => { t with colour := Colour.BLACK }), s.roads_⟩ q := by
  obtain ⟨tc, htc, hcg⟩ := inv.cur
  have hfind : ∀ v, v ≠ c →
      (Datastructures.mk (umap_modify s.towns_by_id_ c
        (fun t => { t with colour := Colour.BLACK })) s.roads_).find v = s.find v := by
    intro v hv
    rw [find_modify]
    simp [hv, find]
  have hfindc : (Datastructures.mk (umap_modify s.towns_by_id_ c
        (fun t => { t with colour := Colour.BLACK })) s.roads_).find c
        = some { tc with colour := Colour.BLACK } := by
    rw [find_modify]
    unfold find at htc
    simp [htc]
  -- towns that are not white stay so, with the same links
  have keep : ∀ w tw, s.find w = some tw → tw.colour ≠ Colour.WHITE →
      ∃ tw1, (Datastructures.mk (umap_modify s.towns_by_id_ c
        (fun t => { t with colour := Colour.BLACK })) s.roads_).find w = some tw1 ∧
        tw1.colour ≠ Colour.WHITE ∧ tw1.roads_to = tw.roads_to ∧ tw1.pi = tw.pi := by
    intro w tw hw hc
    by_cases e : w = c
    · subst e
      rw [htc] at hw
      injection hw with hw
      subst hw
      exact ⟨_, hfindc, by simp, rfl, rfl⟩
    · exact ⟨tw, by rw [hfind w e]; exact hw, hc, rfl, rfl⟩
  -- and every record of the new state comes from one of the old state
  have back : ∀ v t, (Datastructures.mk (umap_modify s.towns_by_id_ c
        (fun t => { t with colour := Colour.BLACK })) s.roads_).find v = some t →
      ∃ t0, s.find v = some t0 ∧ t.roads_to = t0.roads_to ∧ t.pi = t0.pi ∧
        ((v = c ∧ t.colour = Colour.BLACK) ∨ (v ≠ c ∧ t = t0)) := by
    intro v t hv
    by_cases e : v = c
    · subst e
      rw [hfindc] at hv
      injection hv with hv
      subst hv
      exact ⟨tc, htc, rfl, rfl, Or.inl ⟨rfl, rfl⟩⟩
    · rw [hfind v e] at hv
      exact ⟨t, hv, rfl, rfl, Or.inr ⟨e, rfl⟩⟩
  constructor
  · rw [← inv.same]
    exact persistent_modify _ _ _ _ (fun t => rfl)
  · obtain ⟨ts, hts, hsc, hspi⟩ := inv.start_ok
    obtain ⟨t1, h1, h2, _, h4⟩ := keep start ts hts hsc
    exact ⟨t1, h1, h2, by rw [h4]; exact hspi⟩
  · exact inv.lv_start
  · intro v hv
    have e : v ≠ c := fun e => inv.cur_notin (e ▸ hv)
    rw [hfind v e]
    exact inv.q_gray v hv
  · intro v t hv hg
    obtain ⟨t0, h0, _, _, h3⟩ := back v t hv
    rcases h3 with ⟨_, hb⟩ | ⟨hne, e⟩
    · rw [hb] at hg; cases hg
    · subst e
      rcases inv.gray_q v t h0 hg with e1 | e1
      · exact absurd e1 hne
      · exact e1
  · exact inv.q_nodup
  · intro v t hv hc hvs
    obtain ⟨t0, h0, _, hpi, h3⟩ := back v t hv
    have hc0 : t0.colour ≠ Colour.WHITE := by
      rcases h3 with ⟨e, _⟩ | ⟨_, e⟩
      · subst e
        rw [htc] at h0
        injection h0 with h0
        subst h0
        rw [hcg]; decide
      · subst e; exact hc
    obtain ⟨u, tu, h1, h2, h3, h4, h5⟩ := inv.pi_ok v t0 h0 hc0 hvs
    obtain ⟨tu1, k1, k2, k3, _⟩ := keep u tu h2 h3
    exact ⟨u, tu1, by rw [hpi]; exact h1, k1, k2, by rw [k3]; exact h4, h5⟩
  · intro x hx y hy
    have := inv.q_lo x hx
    have := inv.q_hi y hy
    omega
  · exact inv.sorted
  · intro u t hu hb x hx
    obtain ⟨t0, h0, _, _, h3⟩ := back u t hu
    have := inv.q_lo x hx
    rcases h3 with ⟨e, _⟩ | ⟨_, e⟩
    · subst e; exact this
    · subst e
      have := inv.black_le u t h0 hb
      omega
  · intro u t hu hb w hw
    obtain ⟨t0, h0, hr, _, h3⟩ := back u t hu
    rw [hr] at hw
    rcases h3 with ⟨e, _⟩ | ⟨_, e⟩
    · subst e
      obtain ⟨tw, h1, h2, h3⟩ := inv.done_ok w (hdone t0 h0 w hw)
      obtain ⟨tw1, k1, k2, _, _⟩ := keep w tw h1 h2
      exact ⟨tw1, k1, k2, h3⟩
    · subst e
      obtain ⟨tw, h1, h2, h3⟩ := inv.black_nb u t h0 hb w hw
      obtain ⟨tw1, k1, k2, _, _⟩ := keep w tw h1 h2
      exact ⟨tw1, k1, k2, h3⟩

theorem bfs_while_inv (g : Datastructures) (start : TownID) (hcl : g.RoadsClosed) :
    ∀ (fuel : Nat) (lv : TownID → Nat) (s : Datastructures) (q : List TownID),
      BfsOuter g start lv s q → s.open_count ≤ fuel →
      ∃ lv1 s1, bfs_while fuel s q = some s1 ∧ BfsOuter g start lv1 s1 [] := by
  intro fuel
  induction fuel with
  | zero =>
    intro lv s q inv hfuel
    cases q with
    | nil => exact ⟨lv, s, rfl, inv⟩
    | cons c q =>
      obtain ⟨tc, htc, hcg⟩ := inv.q_gray c (List.mem_cons_self _ _)
      have := open_count_black s c tc htc (by rw [hcg]; decide)
        (fun t => { t with colour := Colour.BLACK }) (fun t => rfl)
      omega
  | succ k ih =>
    intro lv s q inv hfuel
    cases q with
    | nil => exact ⟨lv, s, rfl, inv⟩
    | cons c q =>
      obtain ⟨tc, htc, hcg⟩ := inv.q_gray c (List.mem_cons_self _ _)
      have inner := bfs_outer_to_inner inv
      have hnb : ∀ r ∈ tc.roads_to, g.Road c r := by
        intro r hr
        unfold Road
        rw [← neighbours_of_persistent inv.same c]
        unfold neighbours
        simpa [htc] using hr
      obtain ⟨lv1, s1, q1, h1, h2, h3⟩ := bfs_for_inv g start c hcl tc.roads_to [] lv s q inner hnb
      have hdone : ∀ t1, s1.find c = some t1 → ∀ w ∈ t1.roads_to, w ∈ [] ++ tc.roads_to := by
        intro t1 ht1 w hw
        have e1 := neighbours_of_persistent h2.same c
        have e2 := neighbours_of_persistent inv.same c
        unfold neighbours at e1 e2
        simp only [ht1] at e1
        simp only [htc] at e2
        simp only [List.nil_append]
        rw [e2, ← e1]
        exact hw
      have outer := bfs_inner_to_outer h2 hdone
      obtain ⟨t1, ht1, hg1⟩ := h2.cur
      have hlt := open_count_black s1 c t1 ht1 (by rw [hg1]; decide)
        (fun t => { t with colour := Colour.BLACK }) (fun t => rfl)
      obtain ⟨lv2, s2, k1, k2⟩ := ih lv1 _ q1 outer (by omega)
      refine ⟨lv2, s2, ?_, k2⟩
      unfold bfs_while
      simp only [htc, h1]
      exact k1


open Datastructures

theorem bfs_initial (s : Datastructures) (start : TownID) (ts : Town_info)
    (hs : s.find start = some ts) :
    BfsOuter s start (fun _ => 0)
      ⟨umap_modify s.reset_marks.towns_by_id_ start
        (fun t => { t with colour := Colour.GRAY }), s.reset_marks.roads_⟩ [start] := by
  have hfind : ∀ v, (Datastructures.mk (umap_modify s.reset_marks.towns_by_id_ start
        (fun t => { t with colour := Colour.GRAY })) s.reset_marks.roads_).find v
      = if v = start then
          (s.find v).map (fun t => { t with colour := Colour.GRAY, pi := none })
        else (s.find v).map (fun t => { t with colour := Colour.WHITE, pi := none }) := by
    intro v
    rw [find_modify]
    have := find_reset_marks s v
    unfold find at this
    rw [this]
    by_cases h : v = start
    · simp only [h, if_true]
      unfold find
      cases umap_find s.towns_by_id_ start <;> rfl
    · simp only [h, if_false]
      rfl
  have hwhite : ∀ v t, v ≠ start →
      (Datastructures.mk (umap_modify s.reset_marks.towns_by_id_ start
        (fun t => { t with colour := Colour.GRAY })) s.reset_marks.roads_).find v = some t →
      t.colour = Colour.WHITE := by
    intro v t hv h
    rw [hfind v, if_neg hv] at h
    cases hsv : s.find v with
    | none => simp [hsv] at h
    | some t0 =>
      simp only [hsv, Option.map_some', Option.some.injEq] at h
      rw [← h]
  have hstart : (Datastructures.mk (umap_modify s.reset_marks.towns_by_id_ start
        (fun t => { t with colour := Colour.GRAY })) s.reset_marks.roads_).find start
      = some { ts with colour := Colour.GRAY, pi := none } := by
    rw [hfind start]
    simp [hs]
  constructor
  · rw [← persistent_reset_marks s]
    exact persistent_modify _ _ _ _ (fun t => rfl)
  · exact ⟨_, hstart, by simp, rfl⟩
  · rfl
  · intro v hv
    simp at hv; subst hv
    exact ⟨_, hstart, rfl⟩
  · intro v t hv hg
    by_cases e : v = start
    · simp [e]
    · have := hwhite v t e hv
      rw [this] at hg
      cases hg
  · simp
  · intro v t hv hc hvs
    exact absurd (hwhite v t hvs hv) hc
  · intro x _ y _; simp
  · simp
  · intro u t _ _ x _; simp
  · intro u t hu hb
    by_cases e : u = start
    · subst e
      rw [hstart] at hu
      injection hu with hu
      subst hu
      simp at hb
    · have := hwhite u t e hu
      rw [this] at hb
      cases hb

/-- At the end of the search every town reached by roads from the start is marked,
with a level not above the number of roads of the route. -/
theorem bfs_final_complete {g : Datastructures} {start : TownID} {lv : TownID → Nat}
    {s : Datastructures} (inv : BfsOuter g start lv s []) :
    ∀ (l : List TownID), l.head? = some start → List.Chain' g.Road l →
      ∀ v, l.getLast? = some v →
        ∃ t, s.find v = some t ∧ t.colour ≠ Colour.WHITE ∧ lv v + 1 ≤ l.length := by
  intro l
  induction l using List.reverseRecOn with
  | nil => intro h; simp at h
  | append_singleton l1 w ih =>
    intro hhead hchain v hlast
    simp at hlast
    subst hlast
    cases hl1 : l1.getLast? with
    | none =>
      have : l1 = [] := List.getLast?_eq_none_iff.1 hl1
      subst this
      simp at hhead
      subst hhead
      obtain ⟨ts, h1, h2, _⟩ := inv.start_ok
      exact ⟨ts, h1, h2, by simp [inv.lv_start]⟩
    | some u =>
      have hne : l1 ≠ [] := by
        intro e; subst e; simp at hl1
      have hhead1 : l1.head? = some start := by
        cases l1 with
        | nil => exact absurd rfl hne
        | cons x xs => simpa using hhead
      rw [List.chain'_append] at hchain
      obtain ⟨hc1, _, hlink⟩ := hchain
      have hroad : g.Road u w := hlink u (by simp [hl1]) w (by simp)
      obtain ⟨tu, h1, h2, h3⟩ := ih hhead1 hc1 u hl1
      have hblack : tu.colour = Colour.BLACK := by
        cases hc : tu.colour with
        | WHITE => exact absurd hc h2
        | GRAY => have := inv.gray_q u tu h1 hc; simp at this
        | BLACK => rfl
      have hmem : w ∈ tu.roads_to := by
        unfold Road at hroad
        rw [← neighbours_of_persistent inv.same u] at hroad
        unfold neighbours at hroad
        simpa [h1] using hroad
      obtain ⟨tw, k1, k2, k3⟩ := inv.black_nb u tu h1 hblack w hmem
      refine ⟨tw, k1, k2, ?_⟩
      simp
      omega

theorem chain_level_length (lv : TownID → Nat) (R : TownID → TownID → Prop) :
    ∀ (l : List TownID) (v r : TownID), l.head? = some v → l.getLast? = some r → lv r = 0 →
      List.Chain' (fun x y => R y x ∧ lv x = lv y + 1) l → l.length = lv v + 1 := by
  intro l
  induction l with
  | nil => intro v r h; simp at h
  | cons x xs ih =>
    intro v r hhead hlast hr hch
    simp at hhead; subst hhead
    cases xs with
    | nil =>
      simp at hlast; subst hlast
      simp [hr]
    | cons y ys =>
      have h1 := List.chain'_cons.1 hch
      have := ih y r rfl (by simpa [List.getLast?_cons_cons] using hlast) hr h1.2
      simp only [List.length_cons] at this ⊢
      rw [h1.1.2]
      omega

/-- At the end of the search the predecessor links of a marked town lead back to
the start along roads, and `walk_pi` collects them. -/
theorem bfs_final_sound {g : Datastructures} {start : TownID} {lv : TownID → Nat}
    {s : Datastructures} (inv : BfsOuter g start lv s []) (hids : g.IdsOK)
    (v : TownID) (tv : Town_info) (hv : s.find v = some tv) (hc : tv.colour ≠ Colour.WHITE) :
    ∃ l, walk_pi s g.towns_by_id_.length (some v) [] = some l ∧
      g.IsRoute start v l.reverse ∧ l.length = lv v + 1 := by
  have hids1 := ids_of_persistent inv.same hids
  obtain ⟨ts, hts, hsc, hspi⟩ := inv.start_ok
  have hgood : ∀ x, (∃ t, s.find x = some t ∧ t.colour ≠ Colour.WHITE) →
      ∃ t, s.find x = some t ∧ (t.pi = none ∨ ∃ u, t.pi = some u ∧
        (∃ t, s.find u = some t ∧ t.colour ≠ Colour.WHITE) ∧ lv u < lv x ∧
        (g.Road u x ∧ lv x = lv u + 1)) := by
    rintro x ⟨t, ht, hcx⟩
    refine ⟨t, ht, ?_⟩
    by_cases e : x = start
    · subst e
      rw [hts] at ht
      injection ht with ht
      subst ht
      exact Or.inl hspi
    · obtain ⟨u, tu, h1, h2, h3, h4, h5⟩ := inv.pi_ok x t ht hcx e
      refine Or.inr ⟨u, h1, ⟨tu, h2, h3⟩, by omega, ?_, h5⟩
      unfold Road
      rw [← neighbours_of_persistent inv.same u]
      unfold neighbours
      simpa [h2] using h4
  obtain ⟨l, hhead, hall, hnd, hch, ⟨r, tr, hlast, hr, hrpi⟩, hwalk⟩ :=
    walk_pi_chain s hids1 _ lv (fun x u => g.Road u x ∧ lv x = lv u + 1) hgood (lv v) v
      (le_refl _) ⟨tv, hv, hc⟩
  have hrs : r = start := by
    by_contra e
    have hrl : r ∈ l := List.mem_of_mem_getLast? hlast
    obtain ⟨t, ht, hcr⟩ := (hall r hrl).1
    obtain ⟨u, tu, h1, _⟩ := inv.pi_ok r t ht hcr e
    rw [hr] at ht
    injection ht with ht
    subst ht
    rw [hrpi] at h1
    cases h1
  subst hrs
  have hlen : l.length ≤ g.towns_by_id_.length := by
    rw [← length_of_persistent inv.same]
    apply length_le_of_stored s l hnd
    intro x hx
    obtain ⟨t, ht, _⟩ := (hall x hx).1
    simp [ht]
  refine ⟨l, by simpa using hwalk _ hlen [], ⟨?_, ?_, ?_⟩, ?_⟩
  · rw [List.head?_reverse]; exact hlast
  · rw [List.getLast?_reverse]; exact hhead
  · rw [List.chain'_reverse]
    exact hch.imp (fun a b h => h.1)
  · exact chain_level_length lv g.Road l v r hhead hlast inv.lv_start hch

/-- Correctness of the breadth-first search: in a state whose records carry their
keys and whose road pointers are valid, `least_towns_route` between stored towns
returns, touches scratch fields only, and yields either the empty sequence, when
no road route exists, or a road route with the fewest towns. -/
theorem least_towns_route_correct (s : Datastructures) (a b : TownID)
    (hids : s.IdsOK) (hcl : s.RoadsClosed)
    (ha : (s.find a).isSome = true) (hb : (s.find b).isSome = true) :
    ∃ route s1, s.least_towns_route a b = some (route, s1) ∧
      s1.persistent = s.persistent ∧
      ((route = [] ∧ ¬ ∃ l, s.IsRoute a b l) ∨
        (s.IsRoute a b route ∧ ∀ l, s.IsRoute a b l → route.length ≤ l.length)) := by
  cases hfa : s.find a with
  | none => simp [hfa] at ha
  | some ta =>
    cases hfb : s.find b with
    | none => simp [hfb] at hb
    | some tb =>
      have init := bfs_initial s a ta hfa
      have hfuel : (Datastructures.mk (umap_modify s.reset_marks.towns_by_id_ a
          (fun t => { t with colour := Colour.GRAY })) s.reset_marks.roads_).open_count
          ≤ s.towns_by_id_.length := by
        rw [← length_of_persistent init.same]
        exact open_count_le _
      obtain ⟨lv, s2, hrun, inv⟩ := bfs_while_inv s a hcl _ _ _ _ init hfuel
      have hb2 : ∃ t2, s2.find b = some t2 := by
        have := find_of_persistent inv.same b
        cases h2 : s2.find b with
        | none => simp [h2, hfb] at this
        | some t2 => exact ⟨t2, rfl⟩
      obtain ⟨t2, ht2⟩ := hb2
      unfold least_towns_route
      simp only [hfa, hfb, hrun, ht2]
      by_cases hw : t2.colour = Colour.WHITE
      · refine ⟨[], s2, by simp [hw], inv.same, Or.inl ⟨rfl, ?_⟩⟩
        rintro ⟨l, h1, h2, h3⟩
        obtain ⟨t, k1, k2, _⟩ := bfs_final_complete inv l h1 h3 b h2
        rw [ht2] at k1
        injection k1 with k1
        subst k1
        exact k2 hw
      · obtain ⟨l, hwalk, hroute, hlen⟩ := bfs_final_sound inv hids b t2 ht2 hw
        refine ⟨l.reverse, s2, by simp [hw, hwalk], inv.same, Or.inr ⟨hroute, ?_⟩⟩
        intro l1 hl1
        obtain ⟨t, _, _, k3⟩ := bfs_final_complete inv l1 hl1.1 hl1.2.2 b hl1.2.1
        rw [List.length_reverse, hlen]
        exact k3

/-- C2. For stored towns joined by some road route, in a state whose records carry
their keys and whose road pointers are valid, `least_towns_route` returns a road
route from the first town to the second, and no road route between them has
fewer towns. -/
theorem least_towns_route_fewest (s : Datastructures) (a b : TownID)
    (hids : s.IdsOK) (hcl : s.RoadsClosed)
    (ha : (s.find a).isSome = true) (hb : (s.find b).isSome = true)
    (hconn : ∃ l, s.IsRoute a b l) :
    ∃ route s1, s.least_towns_route a b = some (route, s1) ∧ s.IsRoute a b route ∧
      ∀ l, s.IsRoute a b l → route.length ≤ l.length := by
  obtain ⟨route, s1, h1, _, h3⟩ := least_towns_route_correct s a b hids hcl ha hb
  rcases h3 with ⟨_, hno⟩ | h3
  · exact absurd hconn hno
  · exact ⟨route, s1, h1, h3⟩

/-- Witness for C2: on the line `A`-`B`-`C`-`D` the search from `A` to `D` returns
`[A, B, C, D]`, which is a route with the fewest towns. -/
theorem least_towns_route_fewest_witness :
    (line4.least_towns_route "A" "D").map Prod.fst = some ["A", "B", "C", "D"] ∧
    ∃ route s1, line4.least_towns_route "A" "D" = some (route, s1) ∧
      line4.IsRoute "A" "D" route ∧
      ∀ l, line4.IsRoute "A" "D" l → route.length ≤ l.length :=
  ⟨by decide,
    least_towns_route_fewest line4 "A" "D" (by decide) (by decide) (by decide) (by decide)
      ⟨["A", "B", "C", "D"], by decide, by decide,
        List.Chain'.cons (by decide) (List.Chain'.cons (by decide)
          (List.Chain'.cons (by decide) (List.chain'_singleton _)))⟩⟩

/-- C1. In the state built by `add_town A`, `add_town B`, `add_road A B`,
`remove_town A`, `add_town A`, the road `(A, B)` is still listed by `all_roads()`
and still in the adjacency list of `B`, and `least_towns_route(A, B)` returns the
empty sequence. -/
theorem least_towns_route_after_readd :
    readded.map (fun s => (s.all_roads, (s.find "B").map Town_info.roads_to,
        (s.least_towns_route "A" "B").map Prod.fst))
      = some ([("A", "B")], some ["A"], some []) := by
  decide


open Datastructures

/-! ## Depth-first search -/

theorem pi_of_modify (s : Datastructures) (r : TownID) (f : Town_info → Town_info)
    (k : TownID) :
    (Datastructures.mk (umap_modify s.towns_by_id_ r f) s.roads_).pi_of k
      = if k = r then (s.find k).bind (fun t => (f t).pi) else s.pi_of k := by
  unfold pi_of
  rw [find_modify]
  by_cases h : k = r
  · simp only [h, if_true]
    unfold find
    cases umap_find s.towns_by_id_ r <;> rfl
  · simp only [h, if_false]
    rfl

theorem colour_of_modify2 (s : Datastructures) (r : TownID) (f : Town_info → Town_info)
    (k : TownID) :
    (Datastructures.mk (umap_modify s.towns_by_id_ r f) s.roads_).colour_of k
      = if k = r then (s.find k).map (fun t => (f t).colour) else s.colour_of k := by
  unfold colour_of
  rw [find_modify]
  by_cases h : k = r
  · simp only [h, if_true]
    unfold find
    cases umap_find s.towns_by_id_ r <;> rfl
  · simp only [h, if_false]
    rfl

theorem colour_of_some {s : Datastructures} {k : TownID} {t : Town_info}
    (h : s.find k = some t) : s.colour_of k = some t.colour := by
  unfold colour_of; rw [h]

theorem pi_of_some {s : Datastructures} {k : TownID} {t : Town_info}
    (h : s.find k = some t) : s.pi_of k = t.pi := by
  unfold pi_of; rw [h]

theorem neighbours_some {s : Datastructures} {k : TownID} {t : Town_info}
    (h : s.find k = some t) : s.neighbours k = t.roads_to := by
  unfold neighbours; rw [h]

/-- The stack shape survives changes that only concern towns already seen. -/
theorem stackOK_mono (s s1 : Datastructures) :
    ∀ (stack seen seen1 G : List TownID),
      (∀ x, x ∈ seen → x ∈ seen1) →
      (∀ x ∈ stack, x ∉ seen1 → s1.colour_of x = s.colour_of x ∧ s1.pi_of x = s.pi_of x) →
      (∀ x ∈ stack, x ∈ seen1 → x ∉ seen →
        s.colour_of x = some Colour.WHITE ∨ s.colour_of x = some Colour.BLACK) →
      StackOK s seen stack G → StackOK s1 seen1 stack G := by
  intro stack
  induction stack with
  | nil => intro seen seen1 G _ _ _ h; exact h
  | cons e rest ih =>
    intro seen seen1 G h1 h2 h3 h
    have h2r : ∀ x ∈ rest, x ∉ seen1 → s1.colour_of x = s.colour_of x ∧ s1.pi_of x = s.pi_of x :=
      fun x hx => h2 x (List.mem_cons_of_mem _ hx)
    have h3r : ∀ x ∈ rest, x ∈ seen1 → x ∉ seen →
        s.colour_of x = some Colour.WHITE ∨ s.colour_of x = some Colour.BLACK :=
      fun x hx => h3 x (List.mem_cons_of_mem _ hx)
    unfold StackOK at h ⊢
    by_cases hs : e ∈ seen
    · rw [if_pos hs] at h
      rw [if_pos (h1 e hs)]
      exact ih seen seen1 G h1 h2r h3r h
    · rw [if_neg hs] at h
      by_cases hs1 : e ∈ seen1
      · rw [if_pos hs1]
        have hcons : ∀ x, x ∈ e :: seen → x ∈ seen1 := by
          intro x hx
          rcases List.mem_cons.1 hx with e1 | e1
          · rw [e1]; exact hs1
          · exact h1 x e1
        have h3c : ∀ x ∈ rest, x ∈ seen1 → x ∉ e :: seen →
            s.colour_of x = some Colour.WHITE ∨ s.colour_of x = some Colour.BLACK :=
          fun x hx hx1 hx2 => h3r x hx hx1 (fun c => hx2 (List.mem_cons_of_mem _ c))
        rcases h3 e (List.mem_cons_self _ _) hs1 hs with hc | hc
        · rw [hc] at h
          exact ih (e :: seen) seen1 G hcons h2r h3c h.2
        · rw [hc] at h
          exact ih (e :: seen) seen1 G hcons h2r h3c h
      · rw [if_neg hs1]
        obtain ⟨e1, e2⟩ := h2 e (List.mem_cons_self _ _) hs1
        rw [e1, e2]
        have hcons : ∀ x, x ∈ e :: seen → x ∈ e :: seen1 := by
          intro x hx
          rcases List.mem_cons.1 hx with e1 | e1
          · rw [e1]; exact List.mem_cons_self _ _
          · exact List.mem_cons_of_mem _ (h1 x e1)
        have h2c : ∀ x ∈ rest, x ∉ e :: seen1 →
            s1.colour_of x = s.colour_of x ∧ s1.pi_of x = s.pi_of x :=
          fun x hx hx1 => h2r x hx (fun c => hx1 (List.mem_cons_of_mem _ c))
        have h3c : ∀ x ∈ rest, x ∈ e :: seen1 → x ∉ e :: seen →
            s.colour_of x = some Colour.WHITE ∨ s.colour_of x = some Colour.BLACK := by
          intro x hx hx1 hx2
          rcases List.mem_cons.1 hx1 with c | c
          · exact absurd (c ▸ List.mem_cons_self _ _) hx2
          · exact h3r x hx c (fun c2 => hx2 (List.mem_cons_of_mem _ c2))
        cases hc : s.colour_of e with
        | none => rw [hc] at h; exact h
        | some col =>
          rw [hc] at h
          cases col with
          | WHITE => exact ⟨h.1, ih _ _ G hcons h2c h3c h.2⟩
          | GRAY => exact ⟨h.1, ih _ _ _ hcons h2c h3c h.2⟩
          | BLACK => exact ih _ _ G hcons h2c h3c h

/-- Once the top entry `e` is popped and blackened, the rest of the stack keeps its shape. -/
theorem stackOK_blacken (s s1 : Datastructures) (e : TownID)
    (hcol : ∀ x, x ≠ e → s1.colour_of x = s.colour_of x)
    (hpi : ∀ x, s1.pi_of x = s.pi_of x)
    (hblack : s1.colour_of e = some Colour.BLACK) :
    ∀ (stack seen G : List TownID),
      StackOK s (e :: seen) stack G → StackOK s1 seen stack G := by
  intro stack
  induction stack with
  | nil => intro seen G h; exact h
  | cons x rest ih =>
    intro seen G h
    unfold StackOK at h ⊢
    by_cases hxe : x = e
    · subst hxe
      rw [if_pos (List.mem_cons_self _ _)] at h
      by_cases hs : x ∈ seen
      · rw [if_pos hs]
        exact ih seen G h
      · rw [if_neg hs, hblack]
        -- with `x` seen, the remaining entries do not depend on its colour
        refine stackOK_mono s s1 rest (x :: seen) (x :: seen) G (fun _ h => h) ?_ ?_ h
        · intro y _ hy
          have hyx : y ≠ x := fun c => hy (c ▸ List.mem_cons_self _ _)
          exact ⟨hcol y hyx, hpi y⟩
        · intro y _ hy1 hy2; exact absurd hy1 hy2
    · have hiff : x ∈ e :: seen ↔ x ∈ seen := by
        simp [hxe]
      by_cases hs : x ∈ seen
      · rw [if_pos (hiff.2 hs)] at h
        rw [if_pos hs]
        exact ih seen G h
      · rw [if_neg (fun c => hs (hiff.1 c))] at h
        rw [if_neg hs, hcol x hxe, hpi x]
        have swap : ∀ G1, StackOK s (x :: e :: seen) rest G1 →
            StackOK s (e :: x :: seen) rest G1 := by
          intro G1 h1
          refine stackOK_mono s s rest _ _ G1 ?_ (fun _ _ _ => ⟨rfl, rfl⟩) ?_ h1
          · intro y hy
            simp only [List.mem_cons] at hy ⊢
            tauto
          · intro y _ hy1 hy2
            simp only [List.mem_cons] at hy1 hy2
            tauto
        cases hc : s.colour_of x with
        | none => rw [hc] at h; exact h
        | some col =>
          rw [hc] at h
          cases col with
          | WHITE => exact ⟨h.1, ih _ G (swap _ h.2)⟩
          | GRAY => exact ⟨h.1, ih _ _ (swap _ h.2)⟩
          | BLACK => exact ih _ G (swap _ h)

theorem stored_of_road {g : Datastructures} (hcl : g.RoadsClosed) {u r : TownID}
    (h : g.Road u r) : (g.find r).isSome = true := by
  unfold Road neighbours at h
  cases hgu : g.find u with
  | none => simp [hgu] at h
  | some tg =>
    simp only [hgu] at h
    exact hcl _ (umap_find_some_mem hgu) r h

theorem stored_of_persistent {s g : Datastructures} (h : s.persistent = g.persistent)
    {k : TownID} (hk : (g.find k).isSome = true) : ∃ t, s.find k = some t := by
  have := find_of_persistent h k
  cases hs : s.find k with
  | none =>
    rw [hs] at this
    cases hg : g.find k with
    | none => simp [hg] at hk
    | some tg => simp [hg] at this
  | some t => exact ⟨t, rfl⟩

/-- A white road end of the current town gets the current town as predecessor and
is pushed. -/
theorem dfs_push {g : Datastructures} {start : TownID} {G : List TownID}
    {s : Datastructures} {stack : List TownID} (inv : DfsInv g start G s stack)
    (cur r : TownID) (rt : Town_info) (hhead : G.head? = some cur)
    (hr : s.find r = some rt) (hw : rt.colour = Colour.WHITE) (hroad : g.Road cur r) :
    DfsInv g start G
      ⟨umap_modify s.towns_by_id_ r (fun t => { t with pi := some cur }), s.roads_⟩
      (r :: stack) := by
  have hcol : ∀ v, (Datastructures.mk (umap_modify s.towns_by_id_ r
      (fun t => { t with pi := some cur })) s.roads_).colour_of v = s.colour_of v := by
    intro v
    rw [colour_of_modify2]
    by_cases h : v = r
    · subst h; simp [hr, colour_of_some hr]
    · simp [h]
  have hpi : ∀ v, v ≠ r → (Datastructures.mk (umap_modify s.towns_by_id_ r
      (fun t => { t with pi := some cur })) s.roads_).pi_of v = s.pi_of v := by
    intro v h
    rw [pi_of_modify]
    simp [h]
  have hpir : (Datastructures.mk (umap_modify s.towns_by_id_ r
      (fun t => { t with pi := some cur })) s.roads_).pi_of r = some cur := by
    rw [pi_of_modify]
    simp [hr]
  have hrw : s.colour_of r = some Colour.WHITE := by rw [colour_of_some hr, hw]
  have hrG : r ∉ G := by
    intro h
    have := (inv.gray_iff r).2 h
    rw [hrw] at this
    cases this
  have hcurG : cur ∈ G := List.mem_of_mem_head? hhead
  -- the start is gray while a town is being expanded
  have hstartG : s.colour_of start = some Colour.GRAY := by
    cases hl : G.getLast? with
    | none =>
      have : G = [] := List.getLast?_eq_none_iff.1 hl
      rw [this] at hcurG
      simp at hcurG
    | some x =>
      have h1 := (inv.root x hl).1
      subst h1
      exact (inv.gray_iff x).2 (List.mem_of_mem_getLast? hl)
  have hrs : r ≠ start := by
    intro e
    rw [e, hstartG] at hrw
    cases hrw
  constructor
  · rw [← inv.same]
    exact persistent_modify _ _ _ _ (fun t => rfl)
  · intro v; rw [hcol v]; exact inv.gray_iff v
  · exact inv.nodup
  · refine (List.Chain'.iff_mem.1 inv.chain).imp ?_
    rintro x y ⟨hx, _, hxy⟩
    have : x ≠ r := fun e => hrG (e ▸ hx)
    rw [hpi x this]; exact hxy
  · intro x hx
    obtain ⟨h1, h2⟩ := inv.root x hx
    refine ⟨h1, ?_⟩
    have : x ≠ r := fun e => hrG (e ▸ List.mem_of_mem_getLast? hx)
    rw [hpi x this]; exact h2
  · unfold StackOK
    rw [if_neg (by simp), hcol r, hrw]
    refine ⟨by rw [hpir, hhead], ?_⟩
    refine stackOK_mono s _ stack [] [r] G (by simp) ?_ ?_ inv.stack_ok
    · intro x _ hx
      have : x ≠ r := by simpa using hx
      exact ⟨hcol x, hpi x this⟩
    · intro x _ hx _
      have : x = r := by simpa using hx
      subst this
      exact Or.inl hrw
  · intro v u hvu
    by_cases h : v = r
    · subst h
      rw [hpir] at hvu
      injection hvu with hvu
      subst hvu
      exact hroad
    · rw [hpi v h] at hvu
      exact inv.pi_road v u hvu
  · rw [hcol]; exact inv.start_stored
  · intro h; rw [hcol, hstartG] at h; cases h
  · intro h; rw [hcol, hstartG] at h; cases h
  · intro _
    obtain ⟨init, h1, h2⟩ := inv.start_gray hstartG
    refine ⟨r :: init, by rw [h1]; rfl, ?_⟩
    intro h
    rcases List.mem_cons.1 h with e | e
    · exact hrs e.symm
    · exact h2 e

theorem dfs_for_inv (g : Datastructures) (start cur : TownID) (hcl : g.RoadsClosed)
    (G : List TownID) (hhead : G.head? = some cur) :
    ∀ (rs : List TownID) (s : Datastructures) (stack : List TownID),
      DfsInv g start G s stack → (∀ r ∈ rs, g.Road cur r) →
      ∃ s1 stack1 res, dfs_for cur rs s stack = some (s1, stack1, res) ∧
        DfsInv g start G s1 stack1 ∧ stack1.length ≤ stack.length + rs.length ∧
        (∀ k, s1.colour_of k = s.colour_of k) ∧
        (∀ r, res = some r → s1.colour_of r = some Colour.GRAY ∧ g.Road cur r) := by
  intro rs
  induction rs with
  | nil =>
    intro s stack inv _
    exact ⟨s, stack, none, rfl, inv, by simp, fun _ => rfl, by simp⟩
  | cons r rs ih =>
    intro s stack inv hroad
    have hrc : g.Road cur r := hroad r (List.mem_cons_self _ _)
    obtain ⟨rt, hrt⟩ := stored_of_persistent inv.same (stored_of_road hcl hrc)
    have hcurG : cur ∈ G := List.mem_of_mem_head? hhead
    -- the state and stack after the first `if`
    have step : ∃ s1 stack1,
        (if rt.colour = Colour.WHITE then
          (⟨umap_modify s.towns_by_id_ r (fun t => { t with pi := some cur }), s.roads_⟩ :
            Datastructures)
         else s) = s1 ∧
        (if rt.colour = Colour.WHITE then r :: stack else stack) = stack1 ∧
        DfsInv g start G s1 stack1 ∧ stack1.length ≤ stack.length + 1 ∧
        (∀ k, s1.colour_of k = s.colour_of k) := by
      by_cases hw : rt.colour = Colour.WHITE
      · refine ⟨_, _, by rw [if_pos hw], by rw [if_pos hw],
          dfs_push inv cur r rt hhead hrt hw hrc, by simp, ?_⟩
        intro k
        rw [colour_of_modify2]
        by_cases h : k = r
        · subst h; simp [hrt, colour_of_some hrt]
        · simp [h]
      · exact ⟨s, stack, by rw [if_neg hw], by rw [if_neg hw], inv, by simp, fun _ => rfl⟩
    obtain ⟨s1, stack1, hs1, hst1, inv1, hlen1, hcol1⟩ := step
    have hcur1 : ∃ ct, s1.find cur = some ct := by
      have := (inv1.gray_iff cur).2 hcurG
      unfold colour_of at this
      cases h : s1.find cur with
      | none => simp [h] at this
      | some ct => exact ⟨ct, rfl⟩
    obtain ⟨ct, hct⟩ := hcur1
    obtain ⟨rt1, hrt1⟩ := stored_of_persistent inv1.same (stored_of_road hcl hrc)
    have hrest : ∀ x ∈ rs, g.Road cur x := fun x hx => hroad x (List.mem_cons_of_mem _ hx)
    obtain ⟨s2, stack2, res, k1, k2, k3, k4, k5⟩ := ih s1 stack1 inv1 hrest
    have cont : ∃ s2 stack2 res, dfs_for cur rs s1 stack1 = some (s2, stack2, res) ∧
        DfsInv g start G s2 stack2 ∧ stack2.length ≤ stack.length + (r :: rs).length ∧
        (∀ k, s2.colour_of k = s.colour_of k) ∧
        (∀ x, res = some x → s2.colour_of x = some Colour.GRAY ∧ g.Road cur x) := by
      refine ⟨s2, stack2, res, k1, k2, ?_, ?_, k5⟩
      · simp only [List.length_cons]; omega
      · intro k; rw [k4, hcol1]
    unfold dfs_for
    simp only [hrt, hs1, hst1, hct, hrt1]
    by_cases c1 : some r = ct.pi
    · simp only [c1, if_true]
      exact cont
    · simp only [c1, if_false]
      by_cases c2 : rt1.colour = Colour.GRAY
      · simp only [c2, if_true]
        by_cases c3 : rt1.pi = some cur
        · simp only [c3, if_true]
          exact cont
        · simp only [c3, if_false]
          refine ⟨s1, stack1, some r, rfl, inv1, ?_, hcol1, ?_⟩
          · simp only [List.length_cons]; omega
          · intro x hx
            injection hx with hx
            subst hx
            exact ⟨by rw [colour_of_some hrt1, c2], hrc⟩
      · simp only [c2, if_false]
        exact cont

/-- A white town taken from the stack turns gray and joins the chain. -/
theorem dfs_open {g : Datastructures} {start : TownID} {G : List TownID}
    {s : Datastructures} {e : TownID} {rest : List TownID}
    (inv : DfsInv g start G s (e :: rest)) (et : Town_info)
    (he : s.find e = some et) (hw : et.colour = Colour.WHITE) :
    DfsInv g start (e :: G)
      ⟨umap_modify s.towns_by_id_ e (fun t => { t with colour := Colour.GRAY }), s.roads_⟩
      (e :: rest) := by
  have hcol : ∀ v, v ≠ e → (Datastructures.mk (umap_modify s.towns_by_id_ e
      (fun t => { t with colour := Colour.GRAY })) s.roads_).colour_of v = s.colour_of v := by
    intro v h
    rw [colour_of_modify2]
    simp [h]
  have hcole : (Datastructures.mk (umap_modify s.towns_by_id_ e
      (fun t => { t with colour := Colour.GRAY })) s.roads_).colour_of e
      = some Colour.GRAY := by
    rw [colour_of_modify2]
    simp [he]
  have hpi : ∀ v, (Datastructures.mk (umap_modify s.towns_by_id_ e
      (fun t => { t with colour := Colour.GRAY })) s.roads_).pi_of v = s.pi_of v := by
    intro v
    rw [pi_of_modify]
    by_cases h : v = e
    · subst h; simp [he, pi_of_some he]
    · simp [h]
  have hew : s.colour_of e = some Colour.WHITE := by rw [colour_of_some he, hw]
  have heG : e ∉ G := by
    intro h
    have := (inv.gray_iff e).2 h
    rw [hew] at this
    cases this
  have htop := inv.stack_ok
  unfold StackOK at htop
  rw [if_neg (by simp), hew] at htop
  obtain ⟨hpie, hrest⟩ := htop
  -- with an empty chain the town on top of the stack is the start
  have hroot : G = [] → e = start := by
    intro hG
    cases hc : s.colour_of start with
    | none => have := inv.start_stored; simp [hc] at this
    | some col =>
      cases col with
      | WHITE =>
        have := (inv.start_white hc).1
        injection this with this
      | GRAY =>
        have := (inv.gray_iff start).1 hc
        rw [hG] at this
        simp at this
      | BLACK =>
        have := inv.start_black hc
        simp at this
  constructor
  · rw [← inv.same]
    exact persistent_modify _ _ _ _ (fun t => rfl)
  · intro v
    by_cases h : v = e
    · subst h; simp [hcole]
    · rw [hcol v h, inv.gray_iff v]
      simp [h]
  · exact List.nodup_cons.2 ⟨heG, inv.nodup⟩
  · cases G with
    | nil => exact List.chain'_singleton _
    | cons y ys =>
      refine List.Chain'.cons ?_ ?_
      · rw [hpi e, hpie]; rfl
      · exact inv.chain.imp (fun a b h => by rw [hpi a]; exact h)
  · intro r hr
    cases G with
    | nil =>
      simp at hr
      subst hr
      refine ⟨hroot rfl, ?_⟩
      rw [hpi e, hpie]; rfl
    | cons y ys =>
      rw [List.getLast?_cons_cons] at hr
      obtain ⟨h1, h2⟩ := inv.root r hr
      exact ⟨h1, by rw [hpi r]; exact h2⟩
  · unfold StackOK
    rw [if_neg (by simp), hcole]
    refine ⟨rfl, ?_⟩
    refine stackOK_mono s _ rest [e] [e] G (fun _ h => h) ?_ ?_ hrest
    · intro x _ hx
      have : x ≠ e := by simpa using hx
      exact ⟨hcol x this, hpi x⟩
    · intro x _ h1 h2; exact absurd h1 h2
  · intro v u hvu
    rw [hpi v] at hvu
    exact inv.pi_road v u hvu
  · by_cases h : start = e
    · rw [h, hcole]; rfl
    · rw [hcol start h]; exact inv.start_stored
  · intro h
    by_cases hse : start = e
    · rw [hse, hcole] at h; cases h
    · rw [hcol start hse] at h
      have := (inv.start_white h).1
      injection this with this
      exact absurd this.symm hse
  · intro h
    by_cases hse : start = e
    · rw [hse, hcole] at h; cases h
    · rw [hcol start hse] at h
      have := inv.start_black h
      simp at this
  · intro h
    by_cases hse : start = e
    · subst hse
      have := (inv.start_white hew).1
      injection this with _ this
      subst this
      exact ⟨[], rfl, by simp⟩
    · rw [hcol start hse] at h
      exact inv.start_gray h

/-- A town taken from the stack that is not white turns black; a gray one leaves
the chain. -/
theorem dfs_close {g : Datastructures} {start : TownID} {G : List TownID}
    {s : Datastructures} {e : TownID} {rest : List TownID}
    (inv : DfsInv g start G s (e :: rest)) (et : Town_info)
    (he : s.find e = some et) (hw : et.colour ≠ Colour.WHITE) :
    ∃ G1, DfsInv g start G1
      ⟨umap_modify s.towns_by_id_ e (fun t => { t with colour := Colour.BLACK }), s.roads_⟩
      rest := by
  have hcol : ∀ v, v ≠ e → (Datastructures.mk (umap_modify s.towns_by_id_ e
      (fun t => { t with colour := Colour.BLACK })) s.roads_).colour_of v = s.colour_of v := by
    intro v h
    rw [colour_of_modify2]
    simp [h]
  have hcole : (Datastructures.mk (umap_modify s.towns_by_id_ e
      (fun t => { t with colour := Colour.BLACK })) s.roads_).colour_of e
      = some Colour.BLACK := by
    rw [colour_of_modify2]
    simp [he]
  have hpi : ∀ v, (Datastructures.mk (umap_modify s.towns_by_id_ e
      (fun t => { t with colour := Colour.BLACK })) s.roads_).pi_of v = s.pi_of v := by
    intro v
    rw [pi_of_modify]
    by_cases h : v = e
    · subst h; simp [he, pi_of_some he]
    · simp [h]
  have htop := inv.stack_ok
  unfold StackOK at htop
  rw [if_neg (by simp)] at htop
  -- the chain after the round, and the shape of the rest of the stack
  have hshape : ∃ G1, StackOK s [e] rest G1 ∧
      ((s.colour_of e = some Colour.GRAY ∧ G = e :: G1) ∨
        (s.colour_of e = some Colour.BLACK ∧ G = G1)) := by
    cases hc : et.colour with
    | WHITE => exact absurd hc hw
    | GRAY =>
      have hce : s.colour_of e = some Colour.GRAY := by rw [colour_of_some he, hc]
      rw [hce] at htop
      refine ⟨G.tail, htop.2, Or.inl ⟨hce, ?_⟩⟩
      cases G with
      | nil => simp at htop
      | cons y ys =>
        have := htop.1
        simp at this
        subst this
        rfl
    | BLACK =>
      have hce : s.colour_of e = some Colour.BLACK := by rw [colour_of_some he, hc]
      rw [hce] at htop
      exact ⟨G, htop, Or.inr ⟨hce, rfl⟩⟩
  obtain ⟨G1, hrest, hcase⟩ := hshape
  have hsub : ∀ v, v ∈ G1 → v ∈ G := by
    intro v hv
    rcases hcase with ⟨_, h⟩ | ⟨_, h⟩
    · rw [h]; exact List.mem_cons_of_mem _ hv
    · rw [h]; exact hv
  have heG1 : e ∉ G1 := by
    rcases hcase with ⟨_, h⟩ | ⟨hb, h⟩
    · have := inv.nodup
      rw [h] at this
      exact (List.nodup_cons.1 this).1
    · intro hmem
      have := (inv.gray_iff e).2 (h ▸ hmem)
      rw [hb] at this
      cases this
  refine ⟨G1, ?_⟩
  constructor
  · rw [← inv.same]
    exact persistent_modify _ _ _ _ (fun t => rfl)
  · intro v
    by_cases h : v = e
    · subst h
      rw [hcole]
      constructor
      · intro c; cases c
      · intro c; exact absurd c heG1
    · rw [hcol v h, inv.gray_iff v]
      rcases hcase with ⟨_, hG⟩ | ⟨_, hG⟩
      · rw [hG]; simp [h]
      · rw [hG]
  · rcases hcase with ⟨_, hG⟩ | ⟨_, hG⟩
    · have := inv.nodup
      rw [hG] at this
      exact (List.nodup_cons.1 this).2
    · rw [← hG]; exact inv.nodup
  · have hch : List.Chain' (fun x y => s.pi_of x = some y) G1 := by
      rcases hcase with ⟨_, hG⟩ | ⟨_, hG⟩
      · have := inv.chain
        rw [hG] at this
        exact this.tail
      · rw [← hG]; exact inv.chain
    exact hch.imp (fun a b h => by rw [hpi a]; exact h)
  · intro r hr
    have hr0 : G.getLast? = some r := by
      rcases hcase with ⟨_, hG⟩ | ⟨_, hG⟩
      · rw [hG]
        cases G1 with
        | nil => simp at hr
        | cons y ys => rw [List.getLast?_cons_cons]; exact hr
      · rw [hG]; exact hr
    obtain ⟨h1, h2⟩ := inv.root r hr0
    exact ⟨h1, by rw [hpi r]; exact h2⟩
  · exact stackOK_blacken s _ e hcol hpi hcole rest [] G1 hrest
  · intro v u hvu
    rw [hpi v] at hvu
    exact inv.pi_road v u hvu
  · by_cases h : start = e
    · rw [h, hcole]; rfl
    · rw [hcol start h]; exact inv.start_stored
  · intro h
    by_cases hse : start = e
    · rw [hse, hcole] at h; cases h
    · rw [hcol start hse] at h
      have := (inv.start_white h).1
      injection this with this
      exact absurd this.symm hse
  · intro h
    by_cases hse : start = e
    · subst hse
      rcases hcase with ⟨hg, _⟩ | ⟨hb, _⟩
      · obtain ⟨init, h1, h2⟩ := inv.start_gray hg
        cases init with
        | nil => simpa using h1
        | cons y ys =>
          simp at h1
          exact absurd (h1.1 ▸ List.mem_cons_self _ _) h2
      · have := inv.start_black hb
        simp at this
    · rw [hcol start hse] at h
      have := inv.start_black h
      simp at this
  · intro h
    by_cases hse : start = e
    · rw [hse, hcole] at h; cases h
    · rw [hcol start hse] at h
      obtain ⟨init, h1, h2⟩ := inv.start_gray h
      cases init with
      | nil =>
        simp at h1
        exact absurd h1.1.symm hse
      | cons y ys =>
        simp at h1
        refine ⟨ys, h1.2, ?_⟩
        intro c
        exact h2 (List.mem_cons_of_mem _ c)

theorem sum_map_drop {α : Type} (f1 f2 : α → Nat) (l : List α) (x : α) (c : Nat)
    (hx : x ∈ l) (hle : ∀ y, f1 y ≤ f2 y) (hc : f1 x + c ≤ f2 x) :
    (l.map f1).sum + c ≤ (l.map f2).sum := by
  induction l with
  | nil => simp at hx
  | cons y ys ih =>
    have hrest : (ys.map f1).sum ≤ (ys.map f2).sum := by
      clear ih hx
      induction ys with
      | nil => simp
      | cons z zs ihz =>
        simp only [List.map_cons, List.sum_cons]
        have := hle z
        omega
    simp only [List.map_cons, List.sum_cons]
    rcases List.mem_cons.1 hx with e | e
    · subst e; omega
    · have := ih e
      have := hle y
      omega

theorem dfs_measure_open (s : Datastructures) (e : TownID) (et : Town_info)
    (he : s.find e = some et) (hw : et.colour = Colour.WHITE) (stack stack1 : List TownID)
    (s2 : Datastructures) (hkeys : s2.towns_by_id_.map Prod.fst = s.towns_by_id_.map Prod.fst)
    (hnb : ∀ k, s2.neighbours k = s.neighbours k)
    (hcol : ∀ k, k ≠ e → s2.colour_of k = s.colour_of k)
    (hcole : s2.colour_of e = some Colour.GRAY)
    (hlen : stack1.length ≤ stack.length + 1 + et.roads_to.length) :
    dfs_measure s2 stack1 + 1 ≤ dfs_measure s (e :: stack) := by
  unfold dfs_measure
  rw [hkeys]
  have hmem : e ∈ s.towns_by_id_.map Prod.fst :=
    (umap_find_isSome_iff _ _).1 (by unfold find at he; simp [he])
  have := sum_map_drop
    (fun k => if s2.colour_of k = some Colour.WHITE then (s2.neighbours k).length + 1 else 0)
    (fun k => if s.colour_of k = some Colour.WHITE then (s.neighbours k).length + 1 else 0)
    (s.towns_by_id_.map Prod.fst) e (et.roads_to.length + 1) hmem
    (by
      intro y
      by_cases h : y = e
      · subst h; simp [hcole]
      · simp only [hcol y h, hnb y]; exact le_refl _)
    (by
      simp only [hcole, colour_of_some he, hw, neighbours_some he]
      simp)
  simp only [List.length_cons]
  omega

theorem dfs_measure_close (s : Datastructures) (e : TownID) (et : Town_info)
    (he : s.find e = some et) (hw : et.colour ≠ Colour.WHITE) (stack : List TownID) :
    dfs_measure ⟨umap_modify s.towns_by_id_ e
        (fun t => { t with colour := Colour.BLACK }), s.roads_⟩ stack + 1
      ≤ dfs_measure s (e :: stack) := by
  unfold dfs_measure
  simp only [umap_modify_keys, List.length_cons]
  have : ((s.towns_by_id_.map Prod.fst).map (fun k =>
      if (Datastructures.mk (umap_modify s.towns_by_id_ e
        (fun t => { t with colour := Colour.BLACK })) s.roads_).colour_of k = some Colour.WHITE
      then ((Datastructures.mk (umap_modify s.towns_by_id_ e
        (fun t => { t with colour := Colour.BLACK })) s.roads_).neighbours k).length + 1
      else 0)).sum
      ≤ ((s.towns_by_id_.map Prod.fst).map (fun k =>
      if s.colour_of k = some Colour.WHITE then (s.neighbours k).length + 1 else 0)).sum := by
    apply List.sum_le_sum
    intro k _
    rw [colour_of_modify2]
    by_cases h : k = e
    · subst h
      simp [he, colour_of_some he, hw]
    · have hn : (Datastructures.mk (umap_modify s.towns_by_id_ e
          (fun t => { t with colour := Colour.BLACK })) s.roads_).neighbours k
          = s.neighbours k := by
        unfold neighbours
        rw [find_modify]
        simp [h, find]
      simp only [h, if_false, hn]
      exact le_refl _
  omega

theorem dfs_while_inv (g : Datastructures) (start : TownID) (hcl : g.RoadsClosed) :
    ∀ (fuel : Nat) (s : Datastructures) (stack cr G : List TownID),
      DfsInv g start G s stack → dfs_measure s stack ≤ fuel →
      ∃ s1 cr1 res, dfs_while fuel s stack cr = some (s1, cr1, res) ∧
        s1.persistent = g.persistent ∧ (∀ r, res = some r → DfsFound g start s1 cr1 r) := by
  intro fuel
  induction fuel with
  | zero =>
    intro s stack cr G inv hfuel
    cases stack with
    | nil => exact ⟨s, cr, none, rfl, inv.same, by simp⟩
    | cons e rest =>
      unfold dfs_measure at hfuel
      simp at hfuel
  | succ k ih =>
    intro s stack cr G inv hfuel
    cases stack with
    | nil => exact ⟨s, cr, none, rfl, inv.same, by simp⟩
    | cons e rest =>
      -- the town on top of the stack is stored
      have hstored : ∃ et, s.find e = some et := by
        have htop := inv.stack_ok
        unfold StackOK at htop
        rw [if_neg (by simp)] at htop
        cases h : s.find e with
        | none =>
          have : s.colour_of e = none := by unfold colour_of; rw [h]
          rw [this] at htop
          exact absurd htop id
        | some et => exact ⟨et, rfl⟩
      obtain ⟨et, het⟩ := hstored
      unfold dfs_while
      simp only [het]
      by_cases hw : et.colour = Colour.WHITE
      · simp only [hw, if_true]
        have inv1 := dfs_open inv et het hw
        have hnb : ∀ r ∈ et.roads_to, g.Road e r := by
          intro r hr
          unfold Road
          rw [← neighbours_of_persistent inv.same e, neighbours_some het]
          exact hr
        obtain ⟨s2, stack2, res, h1, h2, h3, h4, h5⟩ :=
          dfs_for_inv g start e hcl (e :: G) rfl et.roads_to _ _ inv1 hnb
        rw [h1]
        cases res with
        | some r =>
          refine ⟨s2, (cr ++ [e]) ++ [r], some r, rfl, h2.same, ?_⟩
          intro x hx
          injection hx with hx
          subst hx
          exact ⟨e :: G, e, cr, stack2, h2, rfl, rfl, (h5 r rfl).1, (h5 r rfl).2⟩
        | none =>
          have hmeasure : dfs_measure s2 stack2 ≤ k := by
            have := dfs_measure_open s e et het hw rest stack2 s2
              (by
                have e1 := congrArg (fun p => p.1.map Prod.fst) h2.same
                have e2 := congrArg (fun p => p.1.map Prod.fst) inv.same
                simp only [persistent, List.map_map] at e1 e2
                have k1 : (s2.towns_by_id_.map Prod.fst)
                    = s2.towns_by_id_.map (Prod.fst ∘ fun p => (p.1, p.2.persistent)) := rfl
                have k2 : (s.towns_by_id_.map Prod.fst)
                    = s.towns_by_id_.map (Prod.fst ∘ fun p => (p.1, p.2.persistent)) := rfl
                rw [k1, k2, e1, e2])
              (fun x => by
                rw [neighbours_of_persistent h2.same, neighbours_of_persistent inv.same])
              (fun x hx => by
                rw [h4 x, colour_of_modify2]
                simp [hx])
              (by
                rw [h4 e, colour_of_modify2]
                simp [het])
              (by simp only [List.length_cons] at h3; omega)
            omega
          obtain ⟨s3, cr3, res3, k1, k2, k3⟩ := ih s2 stack2 (cr ++ [e]) (e :: G) h2 hmeasure
          exact ⟨s3, cr3, res3, k1, k2, k3⟩
      · simp only [hw, if_false]
        obtain ⟨G1, inv1⟩ := dfs_close inv et het hw
        have := dfs_measure_close s e et het hw rest
        obtain ⟨s3, cr3, res3, k1, k2, k3⟩ :=
          ih _ rest ((cr ++ [e]).dropLast) G1 inv1 (by omega)
        exact ⟨s3, cr3, res3, k1, k2, k3⟩

/-- Along a chain of predecessor links ending in a town without predecessor,
`walk_pi` collects exactly the chain. -/
theorem walk_pi_along (s : Datastructures) (hids : ∀ k t, s.find k = some t → t.id = k) :
    ∀ (G : List TownID) (e : TownID), G.head? = some e →
      List.Chain' (fun x y => s.pi_of x = some y) G →
      (∀ r, G.getLast? = some r → s.pi_of r = none) →
      (∀ v ∈ G, (s.find v).isSome = true) →
      ∀ k, G.length ≤ k → ∀ acc, walk_pi s k (some e) acc = some (acc ++ G) := by
  intro G
  induction G with
  | nil => intro e h; simp at h
  | cons x xs ih =>
    intro e hhead hch hlast hst k hk acc
    simp at hhead
    subst hhead
    have hx := hst x (List.mem_cons_self _ _)
    cases hfx : s.find x with
    | none => simp [hfx] at hx
    | some t =>
      have hid := hids x t hfx
      cases k with
      | zero => simp at hk
      | succ k =>
        unfold walk_pi
        simp only [hfx, hid]
        cases xs with
        | nil =>
          have := hlast x rfl
          rw [pi_of_some hfx] at this
          rw [this]
          cases k <;> rfl
        | cons y ys =>
          have h1 := List.chain'_cons.1 hch
          have hpi : t.pi = some y := by rw [← pi_of_some hfx]; exact h1.1
          rw [hpi]
          rw [ih y rfl h1.2 (fun r hr => hlast r (by rw [List.getLast?_cons_cons]; exact hr))
            (fun v hv => hst v (List.mem_cons_of_mem _ hv)) k (by simpa using hk)]
          simp

theorem neighbours_of_mem {s : Datastructures} (hn : s.KeysNodup) {p : TownID × Town_info}
    (hp : p ∈ s.towns_by_id_) : s.neighbours p.1 = p.2.roads_to := by
  have : s.find p.1 = some p.2 := umap_find_of_mem hn hp
  exact neighbours_some this

theorem dfs_initial (s : Datastructures) (start : TownID) (ts : Town_info)
    (hs : s.find start = some ts) :
    DfsInv s start [] s.reset_marks [start] := by
  have hcol : ∀ v, s.reset_marks.colour_of v = (s.find v).map (fun _ => Colour.WHITE) := by
    intro v
    unfold colour_of
    rw [find_reset_marks]
    cases s.find v <;> rfl
  have hpi : ∀ v, s.reset_marks.pi_of v = none := by
    intro v
    unfold pi_of
    rw [find_reset_marks]
    cases s.find v <;> rfl
  have hstart : s.reset_marks.colour_of start = some Colour.WHITE := by
    rw [hcol, hs]; rfl
  constructor
  · exact persistent_reset_marks s
  · intro v
    rw [hcol]
    cases s.find v <;> simp
  · simp
  · exact List.chain'_nil
  · intro r hr; simp at hr
  · unfold StackOK
    rw [if_neg (by simp), hstart]
    exact ⟨by rw [hpi]; rfl, by unfold StackOK; rfl⟩
  · intro v u h; rw [hpi] at h; cases h
  · rw [hstart]; rfl
  · intro _; exact ⟨rfl, hpi start⟩
  · intro h; rw [hstart] at h; cases h
  · intro h; rw [hstart] at h; cases h

theorem dfs_measure_initial (s : Datastructures) (hn : s.KeysNodup) (start : TownID) :
    dfs_measure s.reset_marks [start] ≤ s.towns_by_id_.length + s.road_slots + 1 := by
  unfold dfs_measure road_slots
  have hkeys : s.reset_marks.towns_by_id_.map Prod.fst = s.towns_by_id_.map Prod.fst := by
    unfold reset_marks
    simp [List.map_map, Function.comp]
  rw [hkeys]
  have hnb : ∀ k, s.reset_marks.neighbours k = s.neighbours k :=
    fun k => neighbours_of_persistent (persistent_reset_marks s) k
  have : ((s.towns_by_id_.map Prod.fst).map (fun k =>
      if s.reset_marks.colour_of k = some Colour.WHITE
      then (s.reset_marks.neighbours k).length + 1 else 0)).sum
      ≤ (s.towns_by_id_.map (fun p => p.2.roads_to.length + 1)).sum := by
    rw [List.map_map]
    apply List.sum_le_sum
    intro p hp
    simp only [Function.comp, hnb, neighbours_of_mem hn hp]
    split <;> omega
  have h2 : (s.towns_by_id_.map (fun p => p.2.roads_to.length + 1)).sum
      = (s.towns_by_id_.map (fun p => p.2.roads_to.length)).sum + s.towns_by_id_.length := by
    generalize s.towns_by_id_ = m
    induction m with
    | nil => rfl
    | cons p rest ih =>
      simp only [List.map_cons, List.sum_cons, List.length_cons, ih]
      omega
  simp only [List.length_singleton]
  omega

/-- Outcome of `road_cycle_route` in a state with distinct keys, records carrying
their keys and valid road pointers: the call returns, touches scratch fields
only, and a non-empty result runs from the start along predecessor links to a
town `e` and ends with a road end `r` of `e` that is already on the way. -/
theorem road_cycle_route_shape (s : Datastructures) (start : TownID)
    (hn : s.KeysNodup) (hids : s.IdsOK) (hcl : s.RoadsClosed)
    (hs : (s.find start).isSome = true) :
    ∃ route s1, s.road_cycle_route start = some (route, s1) ∧
      s1.persistent = s.persistent ∧
      (route ≠ [] → ∃ (G : List TownID) (e r : TownID), route = G.reverse ++ [r] ∧
        G.head? = some e ∧
        G.getLast? = some start ∧ r ∈ G ∧ G.Nodup ∧ s.Road e r ∧
        List.Chain' s.Road G.reverse) := by
  cases hfs : s.find start with
  | none => simp [hfs] at hs
  | some ts =>
    have init := dfs_initial s start ts hfs
    obtain ⟨s1, cr1, res, h1, h2, h3⟩ :=
      dfs_while_inv s start hcl _ _ _ [] [] init (dfs_measure_initial s hn start)
    unfold road_cycle_route
    simp only [hfs, h1]
    cases res with
    | none => exact ⟨[], s1, rfl, h2, fun h => absurd rfl h⟩
    | some r =>
      obtain ⟨G, e, cr0, stack, inv, hhead, hcr, hgray, hroad⟩ := h3 r rfl
      have hrG : r ∈ G := (inv.gray_iff r).1 hgray
      have hstG : ∀ v ∈ G, (s1.find v).isSome = true := by
        intro v hv
        have := (inv.gray_iff v).2 hv
        unfold colour_of at this
        cases h : s1.find v with
        | none => simp [h] at this
        | some t => rfl
      have hids1 := ids_of_persistent inv.same hids
      cases hfr : s1.find r with
      | none => have := hstG r hrG; simp [hfr] at this
      | some lt =>
        have hid : lt.id = r := hids1 r lt hfr
        have hget : cr1.get? (cr1.length - 2) = some e := by
          rw [hcr, List.get?_eq_getElem?]
          have e1 : (cr0 ++ [e] ++ [r]).length - 2 = cr0.length := by simp
          rw [e1, List.append_assoc, List.getElem?_append_right (le_refl _)]
          simp
        have hlen2 : ¬ cr1.length < 2 := by
          rw [hcr]; simp
        have hGlen : G.length ≤ s.towns_by_id_.length := by
          rw [← length_of_persistent inv.same]
          exact length_le_of_stored s1 G inv.nodup hstG
        have hwalk := walk_pi_along s1 hids1 G e hhead inv.chain
          (fun x hx => (inv.root x hx).2) hstG _ hGlen [lt.id]
        have hlast : G.getLast? = some start := by
          cases hl : G.getLast? with
          | none =>
            have : G = [] := List.getLast?_eq_none_iff.1 hl
            rw [this] at hrG
            simp at hrG
          | some x => rw [(inv.root x hl).1]
        simp only [hfr, hget, hlen2, if_false, hwalk]
        refine ⟨_, s1, rfl, h2, fun _ => ⟨G, e, r, ?_, hhead, hlast, hrG, inv.nodup, hroad, ?_⟩⟩
        · rw [hid]; simp
        · rw [List.chain'_reverse]
          exact inv.chain.imp (fun a b h => inv.pi_road a b h)

/-- C5, amended. In a state with distinct keys, records carrying their keys and
valid road pointers, `road_cycle_route(start)` returns for every stored start
town, and when the result is not empty its first identifier is the start town
and its last identifier also occurs earlier in the sequence. -/
theorem road_cycle_route_ends (s : Datastructures) (start : TownID)
    (hn : s.KeysNodup) (hids : s.IdsOK) (hcl : s.RoadsClosed)
    (hs : (s.find start).isSome = true) :
    ∃ route s1, s.road_cycle_route start = some (route, s1) ∧
      (route ≠ [] → route.head? = some start ∧
        ∃ x, route.getLast? = some x ∧ x ∈ route.dropLast) := by
  obtain ⟨route, s1, h1, _, h3⟩ := road_cycle_route_shape s start hn hids hcl hs
  refine ⟨route, s1, h1, fun hne => ?_⟩
  obtain ⟨G, e, r, hr, _, hlast, hrG, _, _, _⟩ := h3 hne
  subst hr
  refine ⟨?_, r, by simp, by simp [hrG]⟩
  cases G using List.reverseRecOn with
  | nil => simp at hrG
  | append_singleton l x =>
    simp at hlast
    subst hlast
    simp


open Datastructures

/-- Counterexample to C5: from `S` the search returns `[S, A, C, B, A]`, whose
first and last identifiers differ. -/
theorem road_cycle_route_lasso :
    (lasso.road_cycle_route "S").map Prod.fst = some ["S", "A", "C", "B", "A"] ∧
    (["S", "A", "C", "B", "A"] : List TownID).head?
      ≠ (["S", "A", "C", "B", "A"] : List TownID).getLast? := by
  decide

/-- Witness for the amended C5: the triangle reached from `S`. -/
theorem road_cycle_route_ends_witness :
    ∃ route s1, lasso.road_cycle_route "S" = some (route, s1) ∧
      (route ≠ [] → route.head? = some "S" ∧
        ∃ x, route.getLast? = some x ∧ x ∈ route.dropLast) :=
  road_cycle_route_ends lasso "S" (by decide) (by decide) (by decide) (by decide)

/-- The depth-first search on a triangle `A`, `x`, `y`, started at `A` whose roads
lead to `x` and then to `y`: the second, third and fourth element of the result
are `y`, `x` and `A`. -/
theorem dfs_triangle (s : Datastructures) (A x y : TownID) (ta tx ty : Town_info)
    (hA : umap_find s.towns_by_id_ A = some ta) (hx : umap_find s.towns_by_id_ x = some tx)
    (hy : umap_find s.towns_by_id_ y = some ty)
    (hAx : A ≠ x) (hAy : A ≠ y) (hxy : x ≠ y)
    (ha : ta.roads_to = [x, y] ∧ ta.colour = Colour.WHITE ∧ ta.pi = none)
    (hbx : (tx.roads_to = [A, y] ∨ tx.roads_to = [y, A]) ∧ tx.colour = Colour.WHITE)
    (hby : (ty.roads_to = [A, x] ∨ ty.roads_to = [x, A]) ∧ ty.colour = Colour.WHITE)
    (k : Nat) :
    ∃ s1, dfs_while (k + 3) s [A] [] = some (s1, [A, y, x, A], some A) ∧
      s1.find A = some { ta with colour := Colour.GRAY } ∧
      s1.find y = some { ty with colour := Colour.GRAY, pi := some A } ∧
      s1.find x = some { tx with colour := Colour.GRAY, pi := some y } := by
  have hxA : x ≠ A := fun e => hAx e.symm
  have hyA : y ≠ A := fun e => hAy e.symm
  have hyx : y ≠ x := fun e => hxy e.symm
  obtain ⟨ha1, ha2, ha3⟩ := ha
  obtain ⟨hx1, hx2⟩ := hbx
  obtain ⟨hy1, hy2⟩ := hby
  rcases hx1 with hx1 | hx1 <;> rcases hy1 with hy1 | hy1 <;>
  · refine ⟨⟨umap_modify (umap_modify (umap_modify (umap_modify (umap_modify (umap_modify
        s.towns_by_id_ A (fun t => { t with colour := Colour.GRAY }))
        x (fun t => { t with pi := some A }))
        y (fun t => { t with pi := some A }))
        y (fun t => { t with colour := Colour.GRAY }))
        x (fun t => { t with pi := some y }))
        x (fun t => { t with colour := Colour.GRAY }), s.roads_⟩, ?_, ?_, ?_, ?_⟩
    · simp [dfs_while, dfs_for, find, umap_find_modify, hA, hx, hy, hAx, hAy, hxy, hxA, hyA, hyx,
        ha1, ha2, ha3, hx1, hx2, hy1, hy2]
    all_goals
      simp [find, umap_find_modify, hA, hx, hy, hAx, hAy, hxy, hxA, hyA, hyx,
        ha1, ha2, ha3, hx1, hx2, hy1, hy2]

theorem road_cycle_route_triangle_aux (s : Datastructures) (A x y : TownID)
    (ta tx ty : Town_info)
    (hA : s.find A = some ta) (hx : s.find x = some tx) (hy : s.find y = some ty)
    (hAx : A ≠ x) (hAy : A ≠ y) (hxy : x ≠ y) (hids : s.IdsOK)
    (ha : ta.roads_to = [x, y])
    (hbx : tx.roads_to = [A, y] ∨ tx.roads_to = [y, A])
    (hby : ty.roads_to = [A, x] ∨ ty.roads_to = [x, A]) :
    ∃ s1, s.road_cycle_route A = some ([A, y, x, A], s1) := by
  have hlen : 3 ≤ s.towns_by_id_.length := by
    have := length_le_of_stored s [A, x, y] (by simp [hAx, hAy, hxy]) (by
      intro v hv
      simp at hv
      rcases hv with e | e | e <;> subst e <;> simp [hA, hx, hy])
    simpa using this
  obtain ⟨m, hm⟩ : ∃ m, s.towns_by_id_.length = m + 3 := ⟨s.towns_by_id_.length - 3, by omega⟩
  have hfuel : s.towns_by_id_.length + s.road_slots + 1 = (m + s.road_slots + 1) + 3 := by
    omega
  have hidA : ta.id = A := idsOK_find hids hA
  have hidx : tx.id = x := idsOK_find hids hx
  have hidy : ty.id = y := idsOK_find hids hy
  have rA := find_reset_marks s A
  have rx := find_reset_marks s x
  have ry := find_reset_marks s y
  rw [hA] at rA
  rw [hx] at rx
  rw [hy] at ry
  simp only [Option.map_some'] at rA rx ry
  obtain ⟨s1, h1, h2, h3, h4⟩ := dfs_triangle s.reset_marks A x y _ _ _ rA rx ry hAx hAy hxy
    ⟨ha, rfl, rfl⟩ ⟨hbx, rfl⟩ ⟨hby, rfl⟩ (m + s.road_slots + 1)
  refine ⟨s1, ?_⟩
  unfold road_cycle_route
  simp only [hA, hfuel, h1, h2]
  simp [hm, walk_pi, h2, h3, h4, hidA, hidx, hidy]

/-- C6. For three distinct stored towns `A`, `B`, `C` whose adjacency lists hold
exactly the two other towns, in either order, `road_cycle_route(A)` returns a
sequence of length 4 that starts and ends with `A` and has `B` and `C`, in some
order, in the middle. -/
theorem road_cycle_route_triangle (s : Datastructures) (A B C : TownID)
    (ta tb tc : Town_info) (hids : s.IdsOK)
    (hA : s.find A = some ta) (hB : s.find B = some tb) (hC : s.find C = some tc)
    (hAB : A ≠ B) (hAC : A ≠ C) (hBC : B ≠ C)
    (ha : ta.roads_to = [B, C] ∨ ta.roads_to = [C, B])
    (hb : tb.roads_to = [A, C] ∨ tb.roads_to = [C, A])
    (hc : tc.roads_to = [A, B] ∨ tc.roads_to = [B, A]) :
    ∃ s1 p q, s.road_cycle_route A = some ([A, p, q, A], s1) ∧
      ((p = B ∧ q = C) ∨ (p = C ∧ q = B)) := by
  rcases ha with ha | ha
  · obtain ⟨s1, h⟩ := road_cycle_route_triangle_aux s A B C ta tb tc hA hB hC hAB hAC hBC hids
      ha hb hc
    exact ⟨s1, C, B, h, Or.inr ⟨rfl, rfl⟩⟩
  · obtain ⟨s1, h⟩ := road_cycle_route_triangle_aux s A C B ta tc tb hA hC hB hAC hAB
      (fun e => hBC e.symm) hids ha hc hb
    exact ⟨s1, B, C, h, Or.inl ⟨rfl, rfl⟩⟩

/-- Witness for C6: the triangle built by `add_road(A,B)`, `add_road(C,B)`,
`add_road(C,A)`. -/
theorem road_cycle_route_triangle_witness :
    ∃ s1 p q, triangle.road_cycle_route "A" = some (["A", p, q, "A"], s1) ∧
      ((p = "B" ∧ q = "C") ∨ (p = "C" ∧ q = "B")) :=
  road_cycle_route_triangle triangle "A" "B" "C"
    (Option.get (triangle.find "A") (by decide)) (Option.get (triangle.find "B") (by decide))
    (Option.get (triangle.find "C") (by decide))
    (by decide) (by decide) (by decide) (by decide)
    (by decide) (by decide) (by decide) (by decide) (by decide) (by decide)


open Datastructures

/-! ## Best-first search: arithmetic and the priority queue -/

theorem isqrt_up_spec (n : Nat) :
    ∀ (k r : Nat), r * r ≤ n → n ≤ k + r →
      isqrt_up n k r * isqrt_up n k r ≤ n ∧ n < (isqrt_up n k r + 1) * (isqrt_up n k r + 1) := by
  intro k
  induction k with
  | zero =>
    intro r h1 h2
    unfold isqrt_up
    refine ⟨h1, ?_⟩
    have : n ≤ r := by omega
    nlinarith
  | succ k ih =>
    intro r h1 h2
    unfold isqrt_up
    by_cases h : (r + 1) * (r + 1) ≤ n
    · rw [if_pos h]
      exact ih (r + 1) h (by omega)
    · rw [if_neg h]
      exact ⟨h1, by omega⟩

theorem isqrt_eq_sqrt (n : Nat) : isqrt n = Nat.sqrt n := by
  have h := isqrt_up_spec n n 0 (by simp) (by simp)
  unfold isqrt
  exact Nat.eq_sqrt.2 h

theorem isqrt_le_of_lt (n m : Nat) (h : n < (m + 1) * (m + 1)) : isqrt n ≤ m := by
  have h1 := (isqrt_up_spec n n 0 (by simp) (by simp)).1
  unfold isqrt
  by_contra hc
  have : m + 1 ≤ isqrt_up n n 0 := by omega
  have := Nat.mul_le_mul this this
  omega

theorem get_road_length_nonneg (t1 t2 : Town_info) : 0 ≤ get_road_length t1 t2 := by
  unfold get_road_length
  exact Int.natCast_nonneg _

theorem get_road_length_congr (t1 t2 u1 u2 : Town_info) (h1 : t1.coords = u1.coords)
    (h2 : t2.coords = u2.coords) : get_road_length t1 t2 = get_road_length u1 u2 := by
  unfold get_road_length
  rw [h1, h2]

theorem get_road_length_self (t : Town_info) : get_road_length t t = 0 := by
  unfold get_road_length
  simp
  rfl

theorem get_road_length_le (t1 t2 : Town_info)
    (h1 : -16383 ≤ t1.coords.x ∧ t1.coords.x ≤ 16383 ∧ -16383 ≤ t1.coords.y ∧ t1.coords.y ≤ 16383)
    (h2 : -16383 ≤ t2.coords.x ∧ t2.coords.x ≤ 16383 ∧ -16383 ≤ t2.coords.y ∧ t2.coords.y ≤ 16383) :
    get_road_length t1 t2 ≤ 46338 := by
  unfold get_road_length
  have hx : (t1.coords.x - t2.coords.x) * (t1.coords.x - t2.coords.x) ≤ 32766 * 32766 := by
    nlinarith [h1.1, h1.2.1, h2.1, h2.2.1]
  have hy : (t1.coords.y - t2.coords.y) * (t1.coords.y - t2.coords.y) ≤ 32766 * 32766 := by
    nlinarith [h1.2.2.1, h1.2.2.2, h2.2.2.1, h2.2.2.2]
  have hn : ((t1.coords.x - t2.coords.x) * (t1.coords.x - t2.coords.x)
      + (t1.coords.y - t2.coords.y) * (t1.coords.y - t2.coords.y)).toNat < (46338 + 1) * (46338 + 1) := by
    have : ((t1.coords.x - t2.coords.x) * (t1.coords.x - t2.coords.x)
      + (t1.coords.y - t2.coords.y) * (t1.coords.y - t2.coords.y)) < 2147302921 := by
      nlinarith
    omega
  have := isqrt_le_of_lt _ _ hn
  simp only
  exact_mod_cast this

theorem pq_top_mem (addr : TownID → Nat) :
    ∀ (q : List (Int × TownID)) (m : Int × TownID), pq_top addr q = some m →
      m ∈ q ∧ ∀ e ∈ q, e.1 ≤ m.1 := by
  intro q
  induction q with
  | nil => intro m h; simp [pq_top] at h
  | cons e es ih =>
    intro m h
    unfold pq_top at h
    cases ht : pq_top addr es with
    | none =>
      have hes : es = [] := by
        cases es with
        | nil => rfl
        | cons x xs =>
          unfold pq_top at ht
          cases h2 : pq_top addr xs with
          | none => simp [h2] at ht
          | some m2 =>
            simp only [h2] at ht
            split at ht <;> cases ht
      subst hes
      simp only [ht] at h
      injection h with h
      subst h
      simp
    | some m1 =>
      simp only [ht] at h
      obtain ⟨k1, k2⟩ := ih m1 ht
      by_cases hl : pq_less addr e m1 = true
      · rw [if_pos hl] at h
        injection h with h
        subst h
        refine ⟨List.mem_cons_of_mem _ k1, ?_⟩
        intro x hx
        rcases List.mem_cons.1 hx with c | c
        · subst c
          unfold pq_less at hl
          simp only [Bool.or_eq_true, Bool.and_eq_true, decide_eq_true_eq] at hl
          rcases hl with c1 | ⟨c1, _⟩
          · exact le_of_lt c1
          · exact le_of_eq c1
        · exact k2 x c
      · rw [if_neg hl] at h
        injection h with h
        subst h
        refine ⟨List.mem_cons_self _ _, ?_⟩
        intro x hx
        rcases List.mem_cons.1 hx with c | c
        · subst c; exact le_refl _
        · have := k2 x c
          unfold pq_less at hl
          simp only [Bool.or_eq_true, Bool.and_eq_true, decide_eq_true_eq, not_or, not_and,
            not_lt] at hl
          exact le_trans this hl.1

theorem pq_top_some (addr : TownID → Nat) (e : Int × TownID) (es : List (Int × TownID)) :
    ∃ m, pq_top addr (e :: es) = some m := by
  unfold pq_top
  cases pq_top addr es with
  | none => exact ⟨e, rfl⟩
  | some m1 =>
    simp only
    split
    · exact ⟨m1, rfl⟩
    · exact ⟨e, rfl⟩


open Datastructures

/-! ## Best-first search: the basic invariant -/

theorem keys_of_persistent {s g : Datastructures} (h : s.persistent = g.persistent) :
    s.towns_by_id_.map Prod.fst = g.towns_by_id_.map Prod.fst := by
  have e1 := congrArg (fun p => p.1.map Prod.fst) h
  simp only [persistent, List.map_map] at e1
  exact e1

theorem coords_of_persistent {s g : Datastructures} (h : s.persistent = g.persistent)
    {k : TownID} {t : Town_info} (hk : s.find k = some t) :
    ∃ tg, g.find k = some tg ∧ tg.coords = t.coords := by
  have := find_of_persistent h k
  rw [hk] at this
  cases hg : g.find k with
  | none => simp [hg] at this
  | some tg =>
    simp only [hg, Option.map_some', Option.some.injEq, Town_info.persistent,
      Prod.mk.injEq] at this
    exact ⟨tg, rfl, this.2.2.1.symm⟩

theorem open_count_congr (s s2 : Datastructures)
    (hkeys : s2.towns_by_id_.map Prod.fst = s.towns_by_id_.map Prod.fst)
    (hcol : ∀ k, (s2.colour_of k = some Colour.BLACK ↔ s.colour_of k = some Colour.BLACK)) :
    s2.open_count = s.open_count := by
  unfold open_count
  rw [hkeys]
  congr 1
  apply List.filter_congr
  intro k _
  simp only [ne_eq, decide_not, Bool.not_eq_eq_eq_not, Bool.not_not]
  rw [Bool.eq_iff_iff]
  simp only [decide_eq_true_eq]
  exact hcol k

/-- One round of the inner `for`: the record of the road end `r` changes as
`BodyStep` says, nothing else does, and an entry for `r` is pushed. -/
theorem astar_body (s : Datastructures) (c goal r : TownID) (rs : List TownID)
    (q : List (Int × TownID)) (tc rt gt : Town_info)
    (hc : s.find c = some tc) (hr : s.find r = some rt) (hg : s.find goal = some gt) :
    ∃ s2 rt2, astar_for c goal (r :: rs) s q
        = astar_for c goal rs s2 ((-rt2.cost.de, r) :: q) ∧
      s2.find r = some rt2 ∧ (∀ k, k ≠ r → s2.find k = s.find k) ∧
      BodyStep tc rt gt rt2 c ∧ s2.persistent = s.persistent := by
  unfold find at hc hr hg
  by_cases hrel : rt.cost.d > tc.cost.d + get_road_length tc rt
  · by_cases hw : rt.colour = Colour.WHITE
    · refine ⟨⟨umap_modify (umap_modify s.towns_by_id_ r (fun t =>
          { t with
            cost := ⟨tc.cost.d + get_road_length tc rt,
                     tc.cost.d + get_road_length tc rt + min_est rt gt⟩,
            pi := some c })) r (fun t => { t with colour := Colour.GRAY }), s.roads_⟩,
        { rt with
            cost := ⟨tc.cost.d + get_road_length tc rt,
                     tc.cost.d + get_road_length tc rt + min_est rt gt⟩,
            pi := some c, colour := Colour.GRAY }, ?_, ?_, ?_, ?_, ?_⟩
      · simp [astar_for, relax_A, find, hc, hr, hg, hrel, umap_find_modify, hw]
      · simp [find, umap_find_modify, hr]
      · intro k hk; simp [find, umap_find_modify, hk]
      · exact ⟨rfl, by simp [hw], Or.inl ⟨hrel, rfl, rfl, rfl⟩⟩
      · exact (persistent_modify _ s.roads_ r
          (fun t => { t with colour := Colour.GRAY }) (fun t => rfl)).trans
          (persistent_modify _ _ _ _ (fun t => rfl))
    · refine ⟨⟨umap_modify s.towns_by_id_ r (fun t =>
          { t with
            cost := ⟨tc.cost.d + get_road_length tc rt,
                     tc.cost.d + get_road_length tc rt + min_est rt gt⟩,
            pi := some c }), s.roads_⟩,
        { rt with
            cost := ⟨tc.cost.d + get_road_length tc rt,
                     tc.cost.d + get_road_length tc rt + min_est rt gt⟩,
            pi := some c }, ?_, ?_, ?_, ?_, ?_⟩
      · simp [astar_for, relax_A, find, hc, hr, hg, hrel, umap_find_modify, hw]
      · simp [find, umap_find_modify, hr]
      · intro k hk; simp [find, umap_find_modify, hk]
      · exact ⟨rfl, by simp [hw], Or.inl ⟨hrel, rfl, rfl, rfl⟩⟩
      · exact persistent_modify _ _ _ _ (fun t => rfl)
  · by_cases hw : rt.colour = Colour.WHITE
    · refine ⟨⟨umap_modify s.towns_by_id_ r (fun t => { t with colour := Colour.GRAY }),
          s.roads_⟩, { rt with colour := Colour.GRAY }, ?_, ?_, ?_, ?_, ?_⟩
      · simp [astar_for, relax_A, find, hc, hr, hg, hrel, umap_find_modify, hw]
      · simp [find, umap_find_modify, hr]
      · intro k hk; simp [find, umap_find_modify, hk]
      · exact ⟨rfl, by simp [hw], Or.inr ⟨not_lt.1 hrel, rfl, rfl⟩⟩
      · exact persistent_modify _ _ _ _ (fun t => rfl)
    · refine ⟨s, rt, ?_, hr, fun _ _ => rfl, ?_, rfl⟩
      · simp [astar_for, relax_A, find, hc, hr, hg, hrel, hw]
      · exact ⟨rfl, by simp [hw], Or.inr ⟨not_lt.1 hrel, rfl, rfl⟩⟩

theorem open_count_pos (s : Datastructures) (c : TownID) (tc : Town_info)
    (hc : s.find c = some tc) (hcol : tc.colour ≠ Colour.BLACK) : 1 ≤ s.open_count := by
  have := open_count_black s c tc hc hcol (fun t => { t with colour := Colour.BLACK })
    (fun t => rfl)
  omega

theorem bodystep_colour {tc rt gt rt2 : Town_info} {c : TownID}
    (h : BodyStep tc rt gt rt2 c) :
    rt2.colour ≠ Colour.WHITE ∧ (rt2.colour = Colour.BLACK ↔ rt.colour = Colour.BLACK) ∧
      (rt.colour ≠ Colour.WHITE → rt2.colour = rt.colour) := by
  obtain ⟨_, h2, _⟩ := h
  cases hc : rt.colour <;> simp [hc] at h2 <;> simp [h2, hc]

theorem bodystep_roads {tc rt gt rt2 : Town_info} {c : TownID}
    (h : BodyStep tc rt gt rt2 c) : rt2.roads_to = rt.roads_to ∧ rt2.coords = rt.coords ∧
      rt2.id = rt.id := by
  have := h.1
  simp only [Town_info.persistent, Prod.mk.injEq] at this
  exact ⟨this.2.2.2.2.2.2, this.2.2.1, this.1⟩

theorem astar_base_body {g : Datastructures} {start goal : TownID} {L : Int}
    {c : TownID} {done : List TownID} {s : Datastructures} {q : List (Int × TownID)}
    (inv : AstarBase g start goal L (some c) done s q)
    (hL0 : 0 ≤ L) (hLn : L * g.towns_by_id_.length < INT_MAX)
    (r : TownID) (tc rt gt rt2 : Town_info) (s2 : Datastructures) (p : Int)
    (hc : s.find c = some tc) (hr : s.find r = some rt)
    (hlen : get_road_length tc rt ≤ L)
    (h2r : s2.find r = some rt2) (h2o : ∀ k, k ≠ r → s2.find k = s.find k)
    (hstep : BodyStep tc rt gt rt2 c) (hpers : s2.persistent = s.persistent) :
    AstarBase g start goal L (some c) (done ++ [r]) s2 ((p, r) :: q) ∧
      s2.open_count = s.open_count ∧
      (rt.colour = Colour.WHITE → rt.cost.d > tc.cost.d + get_road_length tc rt) ∧
      (r = start → rt2.cost = rt.cost ∧ rt2.pi = rt.pi) ∧
      (r = c → rt2.cost = rt.cost ∧ rt2.pi = rt.pi) := by
  obtain ⟨hcw, hcb, hcs⟩ := bodystep_colour hstep
  obtain ⟨hroads, _, _⟩ := bodystep_roads hstep
  have hlen0 := get_road_length_nonneg tc rt
  obtain ⟨tc0, htc0, hcg⟩ := inv.cur_gray c rfl
  rw [hc] at htc0
  injection htc0 with htc0
  subst htc0
  have hoc1 : 1 ≤ s.open_count := open_count_pos s c tc hc (by rw [hcg]; decide)
  have hcb0 := inv.cur_bound c tc rfl hc
  have hdc0 := inv.d_nonneg c tc hc
  have hoc : s2.open_count = s.open_count := by
    apply open_count_congr s s2 ((keys_of_persistent hpers).trans rfl)
    intro k
    by_cases hk : k = r
    · subst hk
      rw [colour_of_some h2r, colour_of_some hr]
      simp [hcb]
    · unfold colour_of
      rw [h2o k hk]
  have hocL : L ≤ L * s.open_count := by
    have : (1 : Int) ≤ s.open_count := by exact_mod_cast hoc1
    nlinarith
  -- a white road end is always relaxed
  have hwrel : rt.colour = Colour.WHITE → rt.cost.d > tc.cost.d + get_road_length tc rt := by
    intro hw
    rw [(inv.white_fresh r rt hr hw).1]
    have : tc.cost.d + get_road_length tc rt ≤ L * g.towns_by_id_.length := by linarith
    linarith
  have hnot : rt.cost.d ≤ tc.cost.d + get_road_length tc rt →
      rt.colour ≠ Colour.WHITE := by
    intro h hw
    have := hwrel hw
    linarith
  obtain ⟨ts, hts, hsc, hsd, hspi⟩ := inv.start_ok
  have hstart : r = start → rt2.cost = rt.cost ∧ rt2.pi = rt.pi := by
    intro e
    subst e
    rw [hr] at hts
    injection hts with hts
    subst hts
    rcases hstep.2.2 with ⟨h1, _⟩ | ⟨_, h2, h3⟩
    · rw [hsd] at h1; linarith
    · exact ⟨h2, h3⟩
  have hcur : r = c → rt2.cost = rt.cost ∧ rt2.pi = rt.pi := by
    intro e
    subst e
    rw [hr] at hc
    injection hc with hc
    subst hc
    rcases hstep.2.2 with ⟨h1, _⟩ | ⟨_, h2, h3⟩
    · rw [get_road_length_self] at h1; linarith
    · exact ⟨h2, h3⟩
  have keep : ∀ w tw, s.find w = some tw → tw.colour ≠ Colour.WHITE →
      ∃ tw2, s2.find w = some tw2 ∧ tw2.colour ≠ Colour.WHITE := by
    intro w tw hw hcol
    by_cases e : w = r
    · subst e; exact ⟨rt2, h2r, hcw⟩
    · exact ⟨tw, by rw [h2o w e]; exact hw, hcol⟩
  refine ⟨?_, hoc, hwrel, hstart, hcur⟩
  constructor
  · rw [hpers]; exact inv.same
  · by_cases e : start = r
    · subst e
      rw [hr] at hts
      injection hts with hts
      subst hts
      obtain ⟨k1, k2⟩ := hstart rfl
      exact ⟨rt2, h2r, hcw, by rw [k1]; exact hsd, by rw [k2]; exact hspi⟩
    · exact ⟨ts, by rw [h2o start e]; exact hts, hsc, hsd, hspi⟩
  · intro e he
    rcases List.mem_cons.1 he with h | h
    · subst h; exact ⟨rt2, h2r, hcw⟩
    · obtain ⟨t, k1, k2⟩ := inv.q_stored e h
      exact keep e.2 t k1 k2
  · intro v t hv hg
    by_cases e : v = r
    · subst e; exact Or.inr ⟨p, List.mem_cons_self _ _⟩
    · rw [h2o v e] at hv
      rcases inv.gray_q v t hv hg with h | ⟨p1, h⟩
      · exact Or.inl h
      · exact Or.inr ⟨p1, List.mem_cons_of_mem _ h⟩
  · intro c1 hc1
    injection hc1 with hc1
    subst hc1
    by_cases e : c = r
    · subst e
      rw [hr] at hc
      injection hc with hc
      subst hc
      exact ⟨rt2, h2r, by rw [hcs (by rw [hcg]; decide), hcg]⟩
    · exact ⟨tc, by rw [h2o c e]; exact hc, hcg⟩
  · exact inv.cur_ne_goal
  · intro u t hu hb w hw
    by_cases e : u = r
    · subst e
      rw [h2r] at hu
      injection hu with hu
      subst hu
      rw [hroads] at hw
      obtain ⟨tw, k1, k2⟩ := inv.black_nb u rt hr (hcb.1 hb) w hw
      exact keep w tw k1 k2
    · rw [h2o u e] at hu
      obtain ⟨tw, k1, k2⟩ := inv.black_nb u t hu hb w hw
      exact keep w tw k1 k2
  · intro w hw
    rcases List.mem_append.1 hw with h | h
    · obtain ⟨tw, k1, k2⟩ := inv.done_ok w h
      exact keep w tw k1 k2
    · simp at h; subst h; exact ⟨rt2, h2r, hcw⟩
  · intro t ht
    by_cases e : goal = r
    · subst e
      rw [h2r] at ht
      injection ht with ht
      subst ht
      intro hb
      exact inv.goal_open rt hr (hcb.1 hb)
    · rw [h2o goal e] at ht
      exact inv.goal_open t ht
  · intro v t hv hw
    by_cases e : v = r
    · subst e
      rw [h2r] at hv
      injection hv with hv
      subst hv
      exact absurd hw hcw
    · rw [h2o v e] at hv
      exact inv.white_fresh v t hv hw
  · intro v t hv
    by_cases e : v = r
    · subst e
      rw [h2r] at hv
      injection hv with hv
      subst hv
      rcases hstep.2.2 with ⟨_, h1, _⟩ | ⟨_, h2, _⟩
      · rw [h1]; linarith
      · rw [h2]; exact inv.d_nonneg v rt hr
    · rw [h2o v e] at hv
      exact inv.d_nonneg v t hv
  · intro v t hv hcol
    rw [hoc]
    simp only [reduceCtorEq, if_false]
    by_cases e : v = r
    · subst e
      rw [h2r] at hv
      injection hv with hv
      subst hv
      rcases hstep.2.2 with ⟨_, h1, _⟩ | ⟨h0, h2, _⟩
      · rw [h1]; linarith
      · rw [h2]
        have := inv.d_bound v rt hr (hnot h0)
        simpa using this
    · rw [h2o v e] at hv
      have := inv.d_bound v t hv hcol
      simpa using this
  · intro c1 tc1 hc1 hf
    injection hc1 with hc1
    subst hc1
    rw [hoc]
    by_cases e : c = r
    · subst e
      rw [h2r] at hf
      injection hf with hf
      subst hf
      rw [hr] at hc
      injection hc with hc
      subst hc
      rw [(hcur rfl).1]
      exact hcb0
    · rw [h2o c e, hc] at hf
      injection hf with hf
      subst hf
      exact hcb0
  · intro v t hv hcol hvs
    by_cases e : v = r
    · subst e
      rw [h2r] at hv
      injection hv with hv
      subst hv
      rcases hstep.2.2 with ⟨_, _, _, h1⟩ | ⟨h0, _, h3⟩
      · rw [h1]; simp
      · rw [h3]
        exact inv.pi_some v rt hr (hnot h0) hvs
    · rw [h2o v e] at hv
      exact inv.pi_some v t hv hcol hvs

theorem astar_base_close {g : Datastructures} {start goal : TownID} {L : Int}
    {c : TownID} {done : List TownID} {s : Datastructures} {q : List (Int × TownID)}
    (inv : AstarBase g start goal L (some c) done s q) (hL0 : 0 ≤ L)
    (tc : Town_info) (hc : s.find c = some tc) (hdone : ∀ w ∈ tc.roads_to, w ∈ done) :
    AstarBase g start goal L none []
      ⟨umap_modify s.towns_by_id_ c (fun t => { t with colour := Colour.BLACK }), s.roads_⟩ q := by
  obtain ⟨tc0, htc0, hcg⟩ := inv.cur_gray c rfl
  rw [hc] at htc0
  injection htc0 with htc0
  subst htc0
  have hfind : ∀ v, v ≠ c →
      (Datastructures.mk (umap_modify s.towns_by_id_ c
        (fun t => { t with colour := Colour.BLACK })) s.roads_).find v = s.find v := by
    intro v hv
    rw [find_modify]
    simp [hv, find]
  have hfindc : (Datastructures.mk (umap_modify s.towns_by_id_ c
        (fun t => { t with colour := Colour.BLACK })) s.roads_).find c
        = some { tc with colour := Colour.BLACK } := by
    rw [find_modify]
    unfold find at hc
    simp [hc]
  have keep : ∀ w tw, s.find w = some tw → tw.colour ≠ Colour.WHITE →
      ∃ tw1, (Datastructures.mk (umap_modify s.towns_by_id_ c
        (fun t => { t with colour := Colour.BLACK })) s.roads_).find w = some tw1 ∧
        tw1.colour ≠ Colour.WHITE := by
    intro w tw hw hcol
    by_cases e : w = c
    · subst e; exact ⟨_, hfindc, by simp⟩
    · exact ⟨tw, by rw [hfind w e]; exact hw, hcol⟩
  have hgc : goal ≠ c := fun e => inv.cur_ne_goal (by rw [e])
  have hlt := open_count_black s c tc hc (by rw [hcg]; decide)
    (fun t => { t with colour := Colour.BLACK }) (fun t => rfl)
  have hocL : L * ((Datastructures.mk (umap_modify s.towns_by_id_ c
        (fun t => { t with colour := Colour.BLACK })) s.roads_).open_count : Int) + L
      ≤ L * (s.open_count : Int) := by
    have : ((Datastructures.mk (umap_modify s.towns_by_id_ c
        (fun t => { t with colour := Colour.BLACK })) s.roads_).open_count : Int) + 1
        ≤ (s.open_count : Int) := by exact_mod_cast hlt
    nlinarith
  constructor
  · rw [← inv.same]
    exact persistent_modify _ _ _ _ (fun t => rfl)
  · obtain ⟨ts, hts, hsc, hsd, hspi⟩ := inv.start_ok
    by_cases e : start = c
    · subst e
      rw [hc] at hts
      injection hts with hts
      subst hts
      exact ⟨_, hfindc, by simp, hsd, hspi⟩
    · exact ⟨ts, by rw [hfind start e]; exact hts, hsc, hsd, hspi⟩
  · intro e he
    obtain ⟨t, k1, k2⟩ := inv.q_stored e he
    exact keep e.2 t k1 k2
  · intro v t hv hg
    by_cases e : v = c
    · subst e
      rw [hfindc] at hv
      injection hv with hv
      subst hv
      simp at hg
    · rw [hfind v e] at hv
      rcases inv.gray_q v t hv hg with h | h
      · injection h with h; exact absurd h.symm e
      · exact Or.inr h
  · intro c1 hc1; cases hc1
  · simp
  · intro u t hu hb w hw
    by_cases e : u = c
    · subst e
      rw [hfindc] at hu
      injection hu with hu
      subst hu
      obtain ⟨tw, k1, k2⟩ := inv.done_ok w (hdone w hw)
      exact keep w tw k1 k2
    · rw [hfind u e] at hu
      obtain ⟨tw, k1, k2⟩ := inv.black_nb u t hu hb w hw
      exact keep w tw k1 k2
  · intro w hw; simp at hw
  · intro t ht
    rw [hfind goal hgc] at ht
    exact inv.goal_open t ht
  · intro v t hv hw
    by_cases e : v = c
    · subst e
      rw [hfindc] at hv
      injection hv with hv
      subst hv
      simp at hw
    · rw [hfind v e] at hv
      exact inv.white_fresh v t hv hw
  · intro v t hv
    by_cases e : v = c
    · subst e
      rw [hfindc] at hv
      injection hv with hv
      subst hv
      exact inv.d_nonneg v tc hc
    · rw [hfind v e] at hv
      exact inv.d_nonneg v t hv
  · intro v t hv hcol
    simp only [if_true]
    by_cases e : v = c
    · subst e
      rw [hfindc] at hv
      injection hv with hv
      subst hv
      have := inv.cur_bound v tc rfl hc
      simp only
      linarith
    · rw [hfind v e] at hv
      have := inv.d_bound v t hv hcol
      simp only [reduceCtorEq, if_false] at this
      linarith
  · intro c1 tc1 hc1; cases hc1
  · intro v t hv hcol hvs
    by_cases e : v = c
    · subst e
      rw [hfindc] at hv
      injection hv with hv
      subst hv
      exact inv.pi_some v tc hc (by rw [hcg]; decide) hvs
    · rw [hfind v e] at hv
      exact inv.pi_some v t hv hcol hvs

theorem astar_base_skip {g : Datastructures} {start goal : TownID} {L : Int}
    {s : Datastructures} {q : List (Int × TownID)}
    (inv : AstarBase g start goal L none [] s q) (cur : Int × TownID) (tc : Town_info)
    (hc : s.find cur.2 = some tc) (hb : tc.colour = Colour.BLACK) :
    AstarBase g start goal L none [] s (q.erase cur) := by
  refine { inv with q_stored := ?_, gray_q := ?_ }
  · intro e he
    exact inv.q_stored e (List.mem_of_mem_erase he)
  · intro v t hv hg
    rcases inv.gray_q v t hv hg with h | ⟨p, h⟩
    · exact Or.inl h
    · refine Or.inr ⟨p, (List.mem_erase_of_ne ?_).2 h⟩
      intro e
      rw [← e] at hc
      simp only at hc
      rw [hv] at hc
      injection hc with hc
      subst hc
      rw [hb] at hg
      cases hg

theorem astar_base_open {g : Datastructures} {start goal : TownID} {L : Int}
    {s : Datastructures} {q : List (Int × TownID)}
    (inv : AstarBase g start goal L none [] s q) (hL0 : 0 ≤ L) (cur : Int × TownID)
    (tc : Town_info) (hmem : cur ∈ q)
    (hc : s.find cur.2 = some tc) (hb : tc.colour ≠ Colour.BLACK) (hg : cur.2 ≠ goal) :
    AstarBase g start goal L (some cur.2) [] s (q.erase cur) := by
  have hgray : tc.colour = Colour.GRAY := by
    obtain ⟨t, k1, k2⟩ := inv.q_stored cur hmem
    rw [hc] at k1
    injection k1 with k1
    subst k1
    cases h : tc.colour with
    | WHITE => exact absurd h k2
    | GRAY => rfl
    | BLACK => exact absurd h hb
  constructor
  · exact inv.same
  · exact inv.start_ok
  · intro e he
    exact inv.q_stored e (List.mem_of_mem_erase he)
  · intro v t hv hgv
    by_cases e : v = cur.2
    · exact Or.inl (by rw [e])
    · rcases inv.gray_q v t hv hgv with h | ⟨p, h⟩
      · cases h
      · refine Or.inr ⟨p, (List.mem_erase_of_ne ?_).2 h⟩
        intro e2
        exact e (by rw [← e2])
  · intro c hc1
    injection hc1 with hc1
    subst hc1
    exact ⟨tc, hc, hgray⟩
  · intro e
    injection e with e
    exact hg e
  · exact inv.black_nb
  · exact inv.done_ok
  · exact inv.goal_open
  · exact inv.white_fresh
  · exact inv.d_nonneg
  · intro v t hv hcol
    have := inv.d_bound v t hv hcol
    simp only [if_true] at this
    simp only [reduceCtorEq, if_false]
    linarith
  · intro c tc1 hc1 hf
    injection hc1 with hc1
    subst hc1
    rw [hc] at hf
    injection hf with hf
    subst hf
    have := inv.d_bound cur.2 tc hc (by rw [hgray]; decide)
    simpa using this
  · exact inv.pi_some

theorem astar_pi_body {g : Datastructures} {start goal : TownID} {L : Int}
    {c : TownID} {done : List TownID} {s : Datastructures} {q : List (Int × TownID)}
    (inv : AstarBase g start goal L (some c) done s q) {rho : TownID → Nat}
    (hpi : AstarPi rho s)
    (r : TownID) (tc rt gt rt2 : Town_info) (s2 : Datastructures)
    (hc : s.find c = some tc) (hr : s.find r = some rt) (hroad : r ∈ tc.roads_to)
    (h2r : s2.find r = some rt2) (h2o : ∀ k, k ≠ r → s2.find k = s.find k)
    (hstep : BodyStep tc rt gt rt2 c)
    (hcur : r = c → rt2.cost = rt.cost ∧ rt2.pi = rt.pi) :
    ∃ rho2, AstarPi rho2 s2 := by
  obtain ⟨hcw, hcb, hcs⟩ := bodystep_colour hstep
  obtain ⟨hroads, hcoords, _⟩ := bodystep_roads hstep
  obtain ⟨tc0, htc0, hcg⟩ := inv.cur_gray c rfl
  rw [hc] at htc0
  injection htc0 with htc0
  subst htc0
  rcases hstep.2.2 with ⟨h1, h2, h3, h4⟩ | ⟨h0, h2, h3⟩
  · -- relaxed
    have hrc : r ≠ c := by
      intro e
      have := (hcur e).1
      rw [this] at h2
      rw [h2] at h1
      exact lt_irrefl _ h1
    refine ⟨Function.update rho r (rho c + 1), ⟨?_⟩⟩
    intro v t u hv hpiv
    by_cases e : v = r
    · subst e
      rw [h2r] at hv
      injection hv with hv
      subst hv
      rw [h4] at hpiv
      injection hpiv with hpiv
      subst hpiv
      refine ⟨tc, by rw [h2o c (fun e => hrc e.symm)]; exact hc, by rw [hcg]; decide, hroad,
        Or.inr ⟨?_, ?_⟩⟩
      · rw [h2, get_road_length_congr tc rt2 tc rt rfl hcoords]
      · rw [Function.update_same, Function.update_noteq (fun e => hrc e.symm)]
        omega
    · rw [h2o v e] at hv
      obtain ⟨tu, k1, k2, k3, k4⟩ := hpi.pi_ok v t u hv hpiv
      by_cases e2 : u = r
      · subst e2
        rw [hr] at k1
        injection k1 with k1
        subst k1
        refine ⟨rt2, h2r, hcw, by rw [hroads]; exact k3, Or.inl ?_⟩
        rw [get_road_length_congr rt2 t rt t hcoords rfl, h2]
        rcases k4 with k4 | ⟨k4, _⟩ <;> linarith
      · refine ⟨tu, by rw [h2o u e2]; exact k1, k2, k3, ?_⟩
        rw [Function.update_noteq e2, Function.update_noteq e]
        exact k4
  · -- not relaxed
    refine ⟨rho, ⟨?_⟩⟩
    have back : ∀ u tu, s.find u = some tu → tu.colour ≠ Colour.WHITE →
        ∃ tu2, s2.find u = some tu2 ∧ tu2.colour ≠ Colour.WHITE ∧
          tu2.roads_to = tu.roads_to ∧ tu2.cost = tu.cost ∧ tu2.coords = tu.coords := by
      intro u tu hu hcol
      by_cases e : u = r
      · subst e
        rw [hr] at hu
        injection hu with hu
        subst hu
        exact ⟨rt2, h2r, hcw, hroads, h2, hcoords⟩
      · exact ⟨tu, by rw [h2o u e]; exact hu, hcol, rfl, rfl, rfl⟩
    intro v t u hv hpiv
    have old : ∃ t0, s.find v = some t0 ∧ t0.pi = some u ∧ t.cost = t0.cost ∧
        t.coords = t0.coords := by
      by_cases e : v = r
      · subst e
        rw [h2r] at hv
        injection hv with hv
        subst hv
        exact ⟨rt, hr, by rw [← h3]; exact hpiv, h2, hcoords⟩
      · rw [h2o v e] at hv
        exact ⟨t, hv, hpiv, rfl, rfl⟩
    obtain ⟨t0, k0, k1, k2, k3⟩ := old
    obtain ⟨tu, m1, m2, m3, m4⟩ := hpi.pi_ok v t0 u k0 k1
    obtain ⟨tu2, n1, n2, n3, n4, n5⟩ := back u tu m1 m2
    refine ⟨tu2, n1, n2, by rw [n3]; exact m3, ?_⟩
    rw [n4, k2, get_road_length_congr tu2 t tu t0 n5 k3]
    exact m4

theorem astar_pi_close {rho : TownID → Nat} {s : Datastructures} (hpi : AstarPi rho s)
    (c : TownID) :
    AstarPi rho
      ⟨umap_modify s.towns_by_id_ c (fun t => { t with colour := Colour.BLACK }), s.roads_⟩ := by
  constructor
  intro v t u hv hpiv
  have back : ∀ k t2, (Datastructures.mk (umap_modify s.towns_by_id_ c
        (fun t => { t with colour := Colour.BLACK })) s.roads_).find k = some t2 →
      ∃ t0, s.find k = some t0 ∧ t2.pi = t0.pi ∧ t2.cost = t0.cost ∧
        t2.coords = t0.coords := by
    intro k t2 hk
    rw [find_modify] at hk
    by_cases e : k = c
    · subst e
      simp only [if_true] at hk
      cases h : umap_find s.towns_by_id_ k with
      | none => simp [h] at hk
      | some t0 =>
        simp only [h, Option.map_some', Option.some.injEq] at hk
        subst hk
        exact ⟨t0, h, rfl, rfl, rfl⟩
    · simp only [e, if_false] at hk
      exact ⟨t2, hk, rfl, rfl, rfl⟩
  have fwd : ∀ k t0, s.find k = some t0 → t0.colour ≠ Colour.WHITE →
      ∃ t2, (Datastructures.mk (umap_modify s.towns_by_id_ c
        (fun t => { t with colour := Colour.BLACK })) s.roads_).find k = some t2 ∧
        t2.colour ≠ Colour.WHITE ∧ t2.roads_to = t0.roads_to ∧ t2.cost = t0.cost ∧
        t2.coords = t0.coords := by
    intro k t0 hk hcol
    rw [find_modify]
    unfold find at hk
    by_cases e : k = c
    · subst e
      simp only [if_true, hk, Option.map_some']
      exact ⟨_, rfl, by simp, rfl, rfl, rfl⟩
    · simp only [e, if_false]
      exact ⟨t0, hk, hcol, rfl, rfl, rfl⟩
  obtain ⟨t0, k0, k1, k2, k3⟩ := back v t hv
  obtain ⟨tu, m1, m2, m3, m4⟩ := hpi.pi_ok v t0 u k0 (by rw [← k1]; exact hpiv)
  obtain ⟨tu2, n1, n2, n3, n4, n5⟩ := fwd u tu m1 m2
  refine ⟨tu2, n1, n2, by rw [n3]; exact m3, ?_⟩
  rw [n4, k2, get_road_length_congr tu2 t tu t0 n5 k3]
  exact m4


open Datastructures

/-! ## Best-first search: the invariant for shortest routes -/

theorem bodystep_cost {tc rt gt rt2 : Town_info} {c : TownID}
    (h : BodyStep tc rt gt rt2 c) :
    rt2.cost.d ≤ rt.cost.d ∧ rt2.cost.d ≤ tc.cost.d + get_road_length tc rt := by
  rcases h.2.2 with ⟨h1, h2, _, _⟩ | ⟨h0, h2, _⟩
  · exact ⟨by rw [h2]; exact le_of_lt h1, le_of_eq h2⟩
  · rw [h2]; exact ⟨le_refl _, h0⟩

theorem astar_opt_facts {start goal : TownID} {c : TownID} {done : List TownID}
    {s : Datastructures} {q : List (Int × TownID)}
    (opt : AstarOpt start goal (some c) done s q)
    (r : TownID) (tc rt gt rt2 : Town_info)
    (hc : s.find c = some tc) (hr : s.find r = some rt) (hg : s.find goal = some gt)
    (hstep : BodyStep tc rt gt rt2 c)
    (hcons : get_road_length tc gt ≤ get_road_length tc rt + get_road_length rt gt)
    (hwhite : rt.colour = Colour.WHITE → rt.cost.d > tc.cost.d + get_road_length tc rt) :
    (rt.colour = Colour.BLACK → rt2.cost = rt.cost) ∧
    (r ≠ start → rt2.cost.de = rt2.cost.d + get_road_length rt gt) ∧
    (r ≠ start → rt.colour ≠ Colour.WHITE → rt2.cost.de ≤ rt.cost.de) ∧
    (r ≠ start → rt2.colour ≠ Colour.BLACK →
      tc.cost.d + get_road_length tc gt ≤ rt2.cost.de) := by
  obtain ⟨hcw, hcb, hcs⟩ := bodystep_colour hstep
  have hnw : rt.cost.d ≤ tc.cost.d + get_road_length tc rt → rt.colour ≠ Colour.WHITE := by
    intro h hw
    have := hwhite hw
    exact absurd h (not_le.2 this)
  rcases hstep.2.2 with ⟨h1, h2, h3, h4⟩ | ⟨h0, h2, h3⟩
  · refine ⟨?_, ?_, ?_, ?_⟩
    · intro hb
      have := opt.black_cur r rt gt hr hg hb c tc rfl hc
      exfalso
      linarith
    · intro _
      rw [h3, h2]
    · intro hrs hw
      have := opt.est r rt gt hr hg hw hrs
      rw [h3, this]
      linarith
    · intro _ _
      rw [h3]
      linarith
  · have hw := hnw h0
    refine ⟨fun _ => h2, ?_, ?_, ?_⟩
    · intro hrs
      rw [h2]
      exact opt.est r rt gt hr hg hw hrs
    · intro _ _
      rw [h2]
    · intro hrs hnb
      rw [h2]
      have hgray : rt.colour = Colour.GRAY := by
        have hb : rt.colour ≠ Colour.BLACK := fun e => hnb (hcb.2 e)
        cases hcol : rt.colour with
        | WHITE => exact absurd hcol hw
        | GRAY => rfl
        | BLACK => exact absurd hcol hb
      by_cases e : r = c
      · subst e
        rw [hc] at hr
        injection hr with hr
        subst hr
        exact le_of_eq (opt.est r tc gt hc hg hw hrs).symm
      · have hmem := opt.exact_entry r rt hr hgray hrs (fun h => e (Option.some.inj h).symm)
        have := opt.cur_le c tc gt rfl hc hg _ hmem hrs rt hr
          (by rw [hgray]; decide)
        simpa using this

theorem astar_opt_body {g : Datastructures} {start goal : TownID} {L : Int}
    {c : TownID} {done : List TownID} {s : Datastructures} {q : List (Int × TownID)}
    (inv : AstarBase g start goal L (some c) done s q)
    (opt : AstarOpt start goal (some c) done s q)
    (r : TownID) (tc rt gt rt2 : Town_info) (s2 : Datastructures)
    (hc : s.find c = some tc) (hr : s.find r = some rt) (hg : s.find goal = some gt)
    (h2r : s2.find r = some rt2) (h2o : ∀ k, k ≠ r → s2.find k = s.find k)
    (hstep : BodyStep tc rt gt rt2 c)
    (hcons : get_road_length tc gt ≤ get_road_length tc rt + get_road_length rt gt)
    (hwhite : rt.colour = Colour.WHITE → rt.cost.d > tc.cost.d + get_road_length tc rt)
    (hcur : r = c → rt2.cost = rt.cost ∧ rt2.pi = rt.pi) :
    AstarOpt start goal (some c) (done ++ [r]) s2 ((-rt2.cost.de, r) :: q) := by
  obtain ⟨hcw, hcb, hcs⟩ := bodystep_colour hstep
  obtain ⟨hroads, hcoords, _⟩ := bodystep_roads hstep
  obtain ⟨hd1, hd2⟩ := bodystep_cost hstep
  obtain ⟨f1, f2, f3, f4⟩ := astar_opt_facts opt r tc rt gt rt2 hc hr hg hstep hcons hwhite
  -- every record of the new state against the old one
  have back : ∀ k t2, s2.find k = some t2 → ∃ t, s.find k = some t ∧
      t2.coords = t.coords ∧ t2.roads_to = t.roads_to ∧
      (t2.colour = Colour.BLACK ↔ t.colour = Colour.BLACK) ∧
      t2.cost.d ≤ t.cost.d ∧ (t.colour = Colour.BLACK → t2.cost = t.cost) ∧
      (k = c → t2.cost = t.cost) ∧
      (k ≠ start → t.colour ≠ Colour.WHITE → t2.cost.de ≤ t.cost.de) ∧
      (k ≠ r → t2 = t) ∧ (k = r → t = rt ∧ t2 = rt2) := by
    intro k t2 hk
    by_cases e : k = r
    · subst e
      rw [h2r] at hk
      injection hk with hk
      subst hk
      exact ⟨rt, hr, hcoords, hroads, hcb, hd1, f1, fun e => (hcur e).1, f3,
        fun h => absurd rfl h, fun _ => ⟨rfl, rfl⟩⟩
    · rw [h2o k e] at hk
      exact ⟨t2, hk, rfl, rfl, Iff.rfl, le_refl _, fun _ => rfl, fun _ => rfl,
        fun _ _ => le_refl _, fun _ => rfl, fun h => absurd h e⟩
  have hlen : ∀ (a a0 b b0 : Town_info), a.coords = a0.coords → b.coords = b0.coords →
      get_road_length a b = get_road_length a0 b0 :=
    fun a a0 b b0 h1 h2 => get_road_length_congr a b a0 b0 h1 h2
  -- the record of the goal keeps its place
  have hgoal : ∀ gt2, s2.find goal = some gt2 → gt2.coords = gt.coords := by
    intro gt2 h
    obtain ⟨t, ht, hco, _⟩ := back goal gt2 h
    rw [hg] at ht
    injection ht with ht
    subst ht
    exact hco
  have hcur2 : ∀ tc2, s2.find c = some tc2 → tc2.cost = tc.cost ∧ tc2.coords = tc.coords := by
    intro tc2 h
    obtain ⟨t, ht, hco, _, _, _, _, hcc, _⟩ := back c tc2 h
    rw [hc] at ht
    injection ht with ht
    subst ht
    exact ⟨hcc rfl, hco⟩
  constructor
  · -- first
    rcases opt.first with ⟨ts, hts, hb⟩ | ⟨hnb, hst⟩
    · left
      by_cases e : start = r
      · subst e
        rw [hr] at hts
        injection hts with hts
        subst hts
        exact ⟨rt2, h2r, hcb.2 hb⟩
      · exact ⟨ts, by rw [h2o start e]; exact hts, hb⟩
    · right
      refine ⟨?_, ?_⟩
      · intro v t2 hv hb
        obtain ⟨t, ht, _, _, hbb, _⟩ := back v t2 hv
        exact hnb v t ht (hbb.1 hb)
      · rcases hst with h | ⟨h, _⟩
        · exact Or.inl h
        · exact absurd h (by simp)
  · -- est
    intro v t2 gt2 hv hg2 hnw hvs
    have hgc := hgoal gt2 hg2
    by_cases e : v = r
    · subst e
      rw [h2r] at hv
      injection hv with hv
      subst hv
      rw [f2 hvs, hlen rt2 rt gt2 gt hcoords hgc]
    · rw [h2o v e] at hv
      rw [opt.est v t2 gt hv hg hnw hvs, hlen t2 t2 gt2 gt rfl hgc]
  · -- exact_entry
    intro v t2 hv hgr hvs hvc
    by_cases e : v = r
    · subst e
      rw [h2r] at hv
      injection hv with hv
      subst hv
      exact List.mem_cons_self _ _
    · rw [h2o v e] at hv
      exact List.mem_cons_of_mem _ (opt.exact_entry v t2 hv hgr hvs hvc)
  · -- entry_ge
    intro e he hes t2 ht2
    rcases List.mem_cons.1 he with h | h
    · subst h
      simp only at ht2 hes ⊢
      rw [h2r] at ht2
      injection ht2 with ht2
      subst ht2
      simp
    · obtain ⟨t, ht, _, _, _, _, _, _, hde, _⟩ := back e.2 t2 ht2
      obtain ⟨t0, ht0, hnw⟩ := inv.q_stored e h
      rw [ht] at ht0
      injection ht0 with ht0
      subst ht0
      exact le_trans (hde hes hnw) (opt.entry_ge e h hes t ht)
  · -- black_rel
    intro u t2 hu hb w hw tw2 htw
    obtain ⟨t, ht, hco, hro, hbb, _, hbc, _⟩ := back u t2 hu
    obtain ⟨tw, htw0, hcow, _, _, hdw, _⟩ := back w tw2 htw
    have hb0 := hbb.1 hb
    have := opt.black_rel u t ht hb0 w (by rw [← hro]; exact hw) tw htw0
    rw [hbc hb0, hlen t2 t tw2 tw hco hcow]
    exact le_trans hdw this
  · -- done_rel
    intro c1 tc2 hc1 htc2 w hw tw2 htw
    injection hc1 with hc1
    subst hc1
    obtain ⟨hcc, hcco⟩ := hcur2 tc2 htc2
    obtain ⟨tw, htw0, hcow, _, _, hdw, _, _, _, _, hwr⟩ := back w tw2 htw
    rw [hcc, hlen tc2 tc tw2 tw hcco hcow]
    rcases List.mem_append.1 hw with h | h
    · exact le_trans hdw (opt.done_rel _ tc rfl hc w h tw htw0)
    · simp at h
      obtain ⟨h1, h2⟩ := hwr h
      subst h1
      rw [h2]
      rw [h2] at hcow
      exact hd2
  · -- black_cur
    intro u t2 gt2 hu hg2 hb c1 tc2 hc1 htc2
    injection hc1 with hc1
    subst hc1
    obtain ⟨hcc, hcco⟩ := hcur2 tc2 htc2
    obtain ⟨t, ht, hco, _, hbb, _, hbc, _⟩ := back u t2 hu
    have hgc := hgoal gt2 hg2
    have hb0 := hbb.1 hb
    rw [hbc hb0, hcc, hlen t2 t gt2 gt hco hgc, hlen tc2 tc gt2 gt hcco hgc]
    exact opt.black_cur u t gt ht hg hb0 _ tc rfl hc
  · -- black_le
    intro u t2 gt2 hu hg2 hb e he hes te2 hte hnb
    obtain ⟨t, ht, hco, _, hbb, _, hbc, _⟩ := back u t2 hu
    have hgc := hgoal gt2 hg2
    have hb0 := hbb.1 hb
    rw [hbc hb0, hlen t2 t gt2 gt hco hgc]
    rcases List.mem_cons.1 he with h | h
    · subst h
      simp only at hte hes ⊢
      rw [h2r] at hte
      injection hte with hte
      subst hte
      have h1 := opt.black_cur u t gt ht hg hb0 _ tc rfl hc
      have h2 := f4 hes hnb
      simp only [neg_neg]
      exact le_trans h1 h2
    · obtain ⟨te, hte0, _, _, hbe, _⟩ := back e.2 te2 hte
      exact opt.black_le u t gt ht hg hb0 e h hes te hte0 (fun x => hnb (hbe.2 x))
  · -- cur_le
    intro c1 tc2 gt2 hc1 htc2 hg2 e he hes te2 hte hnb
    injection hc1 with hc1
    subst hc1
    obtain ⟨hcc, hcco⟩ := hcur2 tc2 htc2
    have hgc := hgoal gt2 hg2
    rw [hcc, hlen tc2 tc gt2 gt hcco hgc]
    rcases List.mem_cons.1 he with h | h
    · subst h
      simp only at hte hes ⊢
      rw [h2r] at hte
      injection hte with hte
      subst hte
      simp only [neg_neg]
      exact f4 hes hnb
    · obtain ⟨te, hte0, _, _, hbe, _⟩ := back e.2 te2 hte
      exact opt.cur_le _ tc gt rfl hc hg e h hes te hte0 (fun x => hnb (hbe.2 x))

theorem find_blacken (s : Datastructures) (c k : TownID) (t2 : Town_info)
    (hk : (Datastructures.mk (umap_modify s.towns_by_id_ c
        (fun t => { t with colour := Colour.BLACK })) s.roads_).find k = some t2) :
    ∃ t, s.find k = some t ∧ t2.cost = t.cost ∧ t2.coords = t.coords ∧
      t2.roads_to = t.roads_to ∧ t2.pi = t.pi ∧ (k ≠ c → t2 = t) ∧
      (k = c → t2.colour = Colour.BLACK) := by
  rw [find_modify] at hk
  by_cases e : k = c
  · subst e
    simp only [if_true] at hk
    cases h : umap_find s.towns_by_id_ k with
    | none => simp [h] at hk
    | some t0 =>
      simp only [h, Option.map_some', Option.some.injEq] at hk
      subst hk
      exact ⟨t0, h, rfl, rfl, rfl, rfl, fun x => absurd rfl x, fun _ => rfl⟩
  · simp only [e, if_false] at hk
    exact ⟨t2, hk, rfl, rfl, rfl, rfl, fun _ => rfl, fun x => absurd x e⟩

theorem astar_opt_close {g : Datastructures} {start goal : TownID} {L : Int}
    {c : TownID} {done : List TownID} {s : Datastructures} {q : List (Int × TownID)}
    (inv : AstarBase g start goal L (some c) done s q)
    (opt : AstarOpt start goal (some c) done s q)
    (tc : Town_info) (hc : s.find c = some tc) (hdone : ∀ w ∈ tc.roads_to, w ∈ done) :
    AstarOpt start goal none []
      ⟨umap_modify s.towns_by_id_ c (fun t => { t with colour := Colour.BLACK }), s.roads_⟩ q := by
  have back := find_blacken s c
  have hlen : ∀ (a a0 b b0 : Town_info), a.coords = a0.coords → b.coords = b0.coords →
      get_road_length a b = get_road_length a0 b0 :=
    fun a a0 b b0 h1 h2 => get_road_length_congr a b a0 b0 h1 h2
  obtain ⟨tc0, htc0, hcg⟩ := inv.cur_gray c rfl
  rw [hc] at htc0
  injection htc0 with htc0
  subst htc0
  have hfc : (Datastructures.mk (umap_modify s.towns_by_id_ c
        (fun t => { t with colour := Colour.BLACK })) s.roads_).find c
      = some { tc with colour := Colour.BLACK } := by
    rw [find_modify]
    unfold find at hc
    simp [hc]
  have hstart : ∃ ts, (Datastructures.mk (umap_modify s.towns_by_id_ c
        (fun t => { t with colour := Colour.BLACK })) s.roads_).find start = some ts ∧
      ts.colour = Colour.BLACK := by
    rcases opt.first with ⟨ts, hts, hb⟩ | ⟨_, hst⟩
    · by_cases e : start = c
      · subst e
        exact ⟨_, hfc, rfl⟩
      · refine ⟨ts, ?_, hb⟩
        rw [find_modify]
        simp only [e, if_false]
        exact hts
    · rcases hst with h | ⟨h, _⟩
      · injection h with h
        subst h
        exact ⟨_, hfc, rfl⟩
      · exact absurd h (by simp)
  -- colours of the old records
  have hcol : ∀ k t2 t, (Datastructures.mk (umap_modify s.towns_by_id_ c
        (fun t => { t with colour := Colour.BLACK })) s.roads_).find k = some t2 →
      s.find k = some t →
      (t2.colour ≠ Colour.WHITE → t.colour ≠ Colour.WHITE) ∧
      (t2.colour ≠ Colour.BLACK → t.colour ≠ Colour.BLACK ∧ k ≠ c) ∧
      (t2.colour = Colour.GRAY → t.colour = Colour.GRAY ∧ k ≠ c) ∧
      (t2.colour = Colour.BLACK → k ≠ c → t.colour = Colour.BLACK) := by
    intro k t2 t hk ht
    obtain ⟨t0, ht0, _, _, _, _, hne, heq⟩ := back k t2 hk
    rw [ht] at ht0
    injection ht0 with ht0
    subst ht0
    by_cases e : k = c
    · subst e
      rw [hc] at ht
      injection ht with ht
      subst ht
      have hb := heq rfl
      refine ⟨?_, ?_, ?_, ?_⟩
      · intro _
        rw [hcg]
        decide
      · intro h
        exact absurd hb h
      · intro h
        rw [hb] at h
        cases h
      · intro _ h
        exact absurd rfl h
    · rw [hne e]
      exact ⟨id, fun h => ⟨h, e⟩, fun h => ⟨h, e⟩, fun h _ => h⟩
  constructor
  · exact Or.inl hstart
  · intro v t2 gt2 hv hg2 hnw hvs
    obtain ⟨t, ht, hcost, hco, _⟩ := back v t2 hv
    obtain ⟨gt, hgt, _, hgco, _⟩ := back goal gt2 hg2
    rw [hcost, hlen t2 t gt2 gt hco hgco]
    exact opt.est v t gt ht hgt ((hcol v t2 t hv ht).1 hnw) hvs
  · intro v t2 hv hgr hvs _
    obtain ⟨t, ht, hcost, _⟩ := back v t2 hv
    obtain ⟨h1, h2⟩ := (hcol v t2 t hv ht).2.2.1 hgr
    rw [hcost]
    exact opt.exact_entry v t ht h1 hvs (fun h => h2 (Option.some.inj h).symm)
  · intro e he hes t2 ht2
    obtain ⟨t, ht, hcost, _⟩ := back e.2 t2 ht2
    rw [hcost]
    exact opt.entry_ge e he hes t ht
  · intro u t2 hu hb w hw tw2 htw
    obtain ⟨t, ht, hcost, hco, hro, _⟩ := back u t2 hu
    obtain ⟨tw, htw0, hcostw, hcow, _⟩ := back w tw2 htw
    rw [hcost, hcostw, hlen t2 t tw2 tw hco hcow]
    by_cases e : u = c
    · subst e
      rw [hc] at ht
      injection ht with ht
      subst ht
      exact opt.done_rel u tc rfl hc w (hdone w (by rw [← hro]; exact hw)) tw htw0
    · exact opt.black_rel u t ht ((hcol u t2 t hu ht).2.2.2 hb e) w (by rw [← hro]; exact hw)
        tw htw0
  · intro c1 tc2 hc1
    cases hc1
  · intro u t2 gt2 _ _ _ c1 tc2 hc1
    cases hc1
  · intro u t2 gt2 hu hg2 hb e he hes te2 hte hnb
    obtain ⟨t, ht, hcost, hco, _⟩ := back u t2 hu
    obtain ⟨gt, hgt, _, hgco, _⟩ := back goal gt2 hg2
    obtain ⟨te, hte0, _⟩ := back e.2 te2 hte
    obtain ⟨hnb0, _⟩ := (hcol e.2 te2 te hte hte0).2.1 hnb
    rw [hcost, hlen t2 t gt2 gt hco hgco]
    by_cases e1 : u = c
    · subst e1
      rw [hc] at ht
      injection ht with ht
      subst ht
      exact opt.cur_le u tc gt rfl hc hgt e he hes te hte0 hnb0
    · exact opt.black_le u t gt ht hgt ((hcol u t2 t hu ht).2.2.2 hb e1) e he hes te hte0 hnb0
  · intro c1 tc2 gt2 hc1
    cases hc1

theorem astar_opt_skip {start goal : TownID}
    {s : Datastructures} {q : List (Int × TownID)}
    (opt : AstarOpt start goal none [] s q) (cur : Int × TownID) (tc : Town_info)
    (hc : s.find cur.2 = some tc) (hb : tc.colour = Colour.BLACK) :
    AstarOpt start goal none [] s (q.erase cur) := by
  have hsub : ∀ e, e ∈ q.erase cur → e ∈ q := fun e he => List.mem_of_mem_erase he
  constructor
  · rcases opt.first with h | ⟨hnb, _⟩
    · exact Or.inl h
    · exact absurd hb (hnb _ tc hc)
  · exact opt.est
  · intro v t hv hgr hvs hcv
    have hm := opt.exact_entry v t hv hgr hvs hcv
    refine (List.mem_erase_of_ne ?_).2 hm
    intro e
    rw [← e] at hc
    simp only at hc
    rw [hv] at hc
    injection hc with hc
    subst hc
    rw [hgr] at hb
    cases hb
  · intro e he
    exact opt.entry_ge e (hsub e he)
  · exact opt.black_rel
  · intro c1 tc2 hc1
    cases hc1
  · intro u t2 gt2 _ _ _ c1 tc2 hc1
    cases hc1
  · intro u t gt hu hg hbu e he
    exact opt.black_le u t gt hu hg hbu e (hsub e he)
  · intro c1 tc2 gt2 hc1
    cases hc1

theorem astar_opt_open {g : Datastructures} {start goal : TownID} {L : Int}
    {s : Datastructures} {q : List (Int × TownID)}
    (inv : AstarBase g start goal L none [] s q)
    (opt : AstarOpt start goal none [] s q) (cur : Int × TownID)
    (tc : Town_info) (hmem : cur ∈ q) (hmax : ∀ e ∈ q, e.1 ≤ cur.1)
    (hc : s.find cur.2 = some tc) (hb : tc.colour ≠ Colour.BLACK) :
    AstarOpt start goal (some cur.2) [] s (q.erase cur) := by
  have hsub : ∀ e, e ∈ q.erase cur → e ∈ q := fun e he => List.mem_of_mem_erase he
  obtain ⟨tc0, htc0, hnw⟩ := inv.q_stored cur hmem
  rw [hc] at htc0
  injection htc0 with htc0
  subst htc0
  have hgray : tc.colour = Colour.GRAY := by
    cases hcol : tc.colour with
    | WHITE => exact absurd hcol hnw
    | GRAY => rfl
    | BLACK => exact absurd hcol hb
  constructor
  · rcases opt.first with h | ⟨hnb, hst⟩
    · exact Or.inl h
    · right
      refine ⟨hnb, Or.inl ?_⟩
      rcases hst with h | ⟨_, hq⟩
      · cases h
      · rw [hq] at hmem
        simp at hmem
        rw [hmem]
  · exact opt.est
  · intro v t hv hgr hvs hcv
    have hm := opt.exact_entry v t hv hgr hvs (by simp)
    refine (List.mem_erase_of_ne ?_).2 hm
    intro e
    apply hcv
    rw [← e]
  · intro e he
    exact opt.entry_ge e (hsub e he)
  · exact opt.black_rel
  · intro c1 tc2 _ _ w hw
    cases hw
  · intro u t gt hu hg hbu c1 tc1 hc1 htc1
    injection hc1 with hc1
    subst hc1
    rw [hc] at htc1
    injection htc1 with htc1
    subst htc1
    rcases opt.first with ⟨ts, hts, hbs⟩ | ⟨hnb, _⟩
    · have hcs : cur.2 ≠ start := by
        intro e
        rw [e, hts] at hc
        injection hc with hc
        subst hc
        exact hb hbs
      have hm := opt.exact_entry cur.2 tc hc hgray hcs (by simp)
      have := opt.black_le u t gt hu hg hbu _ hm hcs tc hc hb
      simp only [neg_neg] at this
      rw [opt.est cur.2 tc gt hc hg hnw hcs] at this
      exact this
    · exact absurd hbu (hnb u t hu)
  · intro u t gt hu hg hbu e he
    exact opt.black_le u t gt hu hg hbu e (hsub e he)
  · intro c1 tc1 gt hc1 htc1 hg e he hes te hte hnbe
    injection hc1 with hc1
    subst hc1
    rw [hc] at htc1
    injection htc1 with htc1
    subst htc1
    rcases opt.first with ⟨ts, hts, hbs⟩ | ⟨_, hst⟩
    · have hcs : cur.2 ≠ start := by
        intro e
        rw [e, hts] at hc
        injection hc with hc
        subst hc
        exact hb hbs
      have h1 := opt.entry_ge cur hmem hcs tc hc
      rw [opt.est cur.2 tc gt hc hg hnw hcs] at h1
      have h2 := hmax e (hsub e he)
      linarith
    · rcases hst with h | ⟨_, hq⟩
      · cases h
      · rw [hq] at hmem he
        simp at hmem
        rw [hmem] at he
        simp at he


open Datastructures

/-! ## Best-first search: the loops -/

theorem find_reset_costs (s : Datastructures) (k : TownID) :
    s.reset_costs.find k
      = (s.find k).map (fun t =>
          { t with colour := Colour.WHITE, pi := none, cost := ⟨INT_MAX, INT_MAX⟩ }) := by
  unfold reset_costs find
  exact umap_find_map s.towns_by_id_
    (fun t => { t with colour := Colour.WHITE, pi := none, cost := ⟨INT_MAX, INT_MAX⟩ }) k

theorem persistent_reset_costs (s : Datastructures) :
    s.reset_costs.persistent = s.persistent := by
  unfold reset_costs
  exact persistent_map s.towns_by_id_ s.roads_
    (fun t => { t with colour := Colour.WHITE, pi := none, cost := ⟨INT_MAX, INT_MAX⟩ })
    (fun t => rfl)

theorem road_len_state {s g : Datastructures} (h : s.persistent = g.persistent)
    {u v : TownID} {tu tv : Town_info} (hu : s.find u = some tu) (hv : s.find v = some tv) :
    g.road_len u v = get_road_length tu tv := by
  obtain ⟨gu, hgu, hcu⟩ := coords_of_persistent h hu
  obtain ⟨gv, hgv, hcv⟩ := coords_of_persistent h hv
  unfold road_len
  rw [hgu, hgv]
  exact get_road_length_congr gu gv tu tv hcu hcv

theorem road_length_in_range {s g : Datastructures} (h : s.persistent = g.persistent)
    (hr : g.InRange) {u v : TownID} {tu tv : Town_info}
    (hu : s.find u = some tu) (hv : s.find v = some tv) :
    get_road_length tu tv ≤ 46338 := by
  obtain ⟨gu, hgu, hcu⟩ := coords_of_persistent h hu
  obtain ⟨gv, hgv, hcv⟩ := coords_of_persistent h hv
  have h1 := hr.1 _ (umap_find_some_mem hgu)
  have h2 := hr.1 _ (umap_find_some_mem hgv)
  simp only at h1 h2
  rw [hcu] at h1
  rw [hcv] at h2
  exact get_road_length_le tu tv h1 h2

theorem in_range_bound {g : Datastructures} (hr : g.InRange) :
    (46338 : Int) * g.towns_by_id_.length < INT_MAX := by
  have h := hr.2
  have : ((g.towns_by_id_.length : Nat) : Int) ≤ 46000 := by exact_mod_cast h
  unfold INT_MAX
  linarith

theorem consistent_state {s g : Datastructures} (h : s.persistent = g.persistent)
    {goal : TownID} (hcons : g.Consistent goal) {c r : TownID} {tc rt gt : Town_info}
    (hc : s.find c = some tc) (hr : s.find r = some rt) (hg : s.find goal = some gt)
    (hroad : r ∈ tc.roads_to) :
    get_road_length tc gt ≤ get_road_length tc rt + get_road_length rt gt := by
  obtain ⟨gc, hgc, hro, _⟩ := roads_of_persistent h hc
  have := hcons _ (umap_find_some_mem hgc) r (by simp only; rw [hro]; exact hroad)
  simp only at this
  rw [road_len_state h hc hg, road_len_state h hc hr, road_len_state h hr hg] at this
  exact this

theorem astar_initial (s : Datastructures) (start goal : TownID) (L : Int) (hL0 : 0 ≤ L)
    (ts : Town_info) (hs : s.find start = some ts) :
    AstarInv s start goal L none []
      ⟨umap_modify s.reset_costs.towns_by_id_ start
        (fun t => { t with colour := Colour.GRAY, cost := ⟨0, t.cost.de⟩ }),
        s.reset_costs.roads_⟩ [(0, start)] := by
  have hfind : ∀ v, (Datastructures.mk (umap_modify s.reset_costs.towns_by_id_ start
        (fun t => { t with colour := Colour.GRAY, cost := ⟨0, t.cost.de⟩ }))
        s.reset_costs.roads_).find v
      = if v = start then
          (s.find v).map (fun t =>
            { t with colour := Colour.GRAY, pi := none, cost := ⟨0, INT_MAX⟩ })
        else (s.find v).map (fun t =>
            { t with colour := Colour.WHITE, pi := none, cost := ⟨INT_MAX, INT_MAX⟩ }) := by
    intro v
    rw [find_modify]
    have := find_reset_costs s v
    unfold find at this
    rw [this]
    by_cases h : v = start
    · simp only [h, if_true]
      unfold find
      cases umap_find s.towns_by_id_ start <;> rfl
    · simp only [h, if_false]
      rfl
  have hwhite : ∀ v t, v ≠ start →
      (Datastructures.mk (umap_modify s.reset_costs.towns_by_id_ start
        (fun t => { t with colour := Colour.GRAY, cost := ⟨0, t.cost.de⟩ }))
        s.reset_costs.roads_).find v = some t →
      t.colour = Colour.WHITE ∧ t.cost.d = INT_MAX ∧ t.pi = none := by
    intro v t hv h
    rw [hfind v, if_neg hv] at h
    cases hsv : s.find v with
    | none => simp [hsv] at h
    | some t0 =>
      simp only [hsv, Option.map_some', Option.some.injEq] at h
      rw [← h]
      exact ⟨rfl, rfl, rfl⟩
  have hstart : (Datastructures.mk (umap_modify s.reset_costs.towns_by_id_ start
        (fun t => { t with colour := Colour.GRAY, cost := ⟨0, t.cost.de⟩ }))
        s.reset_costs.roads_).find start
      = some { ts with colour := Colour.GRAY, pi := none, cost := ⟨0, INT_MAX⟩ } := by
    rw [hfind start]
    simp [hs]
  have hcases : ∀ v t,
      (Datastructures.mk (umap_modify s.reset_costs.towns_by_id_ start
        (fun t => { t with colour := Colour.GRAY, cost := ⟨0, t.cost.de⟩ }))
        s.reset_costs.roads_).find v = some t →
      (v = start ∧ t.colour = Colour.GRAY ∧ t.cost.d = 0 ∧ t.pi = none) ∨
        (v ≠ start ∧ t.colour = Colour.WHITE ∧ t.cost.d = INT_MAX ∧ t.pi = none) := by
    intro v t h
    by_cases e : v = start
    · subst e
      rw [hstart] at h
      injection h with h
      subst h
      exact Or.inl ⟨rfl, rfl, rfl, rfl⟩
    · exact Or.inr ⟨e, hwhite v t e h⟩
  have hsame : (Datastructures.mk (umap_modify s.reset_costs.towns_by_id_ start
        (fun t => { t with colour := Colour.GRAY, cost := ⟨0, t.cost.de⟩ }))
        s.reset_costs.roads_).persistent = s.persistent := by
    rw [← persistent_reset_costs s]
    exact persistent_modify _ _ _ _ (fun t => rfl)
  refine ⟨?_, ⟨fun _ => 0, ⟨?_⟩⟩, fun _ => ?_⟩
  · constructor
    · exact hsame
    · exact ⟨_, hstart, by simp, rfl, rfl⟩
    · intro e he
      simp at he
      subst he
      exact ⟨_, hstart, by simp⟩
    · intro v t hv hg
      rcases hcases v t hv with ⟨h, _⟩ | ⟨_, h, _⟩
      · subst h
        exact Or.inr ⟨0, by simp⟩
      · rw [h] at hg
        cases hg
    · intro c h
      cases h
    · simp
    · intro u t hu hb
      rcases hcases u t hu with ⟨_, h, _⟩ | ⟨_, h, _⟩ <;> rw [h] at hb <;> cases hb
    · intro w hw
      cases hw
    · intro t ht hb
      rcases hcases goal t ht with ⟨_, h, _⟩ | ⟨_, h, _⟩ <;> rw [h] at hb <;> cases hb
    · intro v t hv hw
      rcases hcases v t hv with ⟨_, h, _⟩ | ⟨_, _, h1, h2⟩
      · rw [h] at hw
        cases hw
      · exact ⟨h1, h2⟩
    · intro v t hv
      rcases hcases v t hv with ⟨_, _, h, _⟩ | ⟨_, _, h, _⟩ <;> rw [h]
      · unfold INT_MAX
        decide
    · intro v t hv hnw
      rcases hcases v t hv with ⟨_, _, h, _⟩ | ⟨_, h, _⟩
      · rw [h]
        simp only [if_true, zero_add, add_zero]
        have h1 := open_count_le (Datastructures.mk (umap_modify s.reset_costs.towns_by_id_ start
          (fun t => { t with colour := Colour.GRAY, cost := ⟨0, t.cost.de⟩ }))
          s.reset_costs.roads_)
        rw [length_of_persistent hsame] at h1
        have h2 : ((Datastructures.mk (umap_modify s.reset_costs.towns_by_id_ start
          (fun t => { t with colour := Colour.GRAY, cost := ⟨0, t.cost.de⟩ }))
          s.reset_costs.roads_).open_count : Int) ≤ (s.towns_by_id_.length : Int) := by
          exact_mod_cast h1
        exact mul_le_mul_of_nonneg_left h2 hL0
      · exact absurd h hnw
    · intro c tc h
      cases h
    · intro v t hv hnw hvs
      rcases hcases v t hv with ⟨h, _⟩ | ⟨_, h, _⟩
      · exact absurd h hvs
      · exact absurd h hnw
  · intro v t u hv hpi
    rcases hcases v t hv with ⟨_, _, _, h⟩ | ⟨_, _, _, h⟩ <;> rw [h] at hpi <;> cases hpi
  · have hnb : ∀ v t,
        (Datastructures.mk (umap_modify s.reset_costs.towns_by_id_ start
          (fun t => { t with colour := Colour.GRAY, cost := ⟨0, t.cost.de⟩ }))
          s.reset_costs.roads_).find v = some t → t.colour ≠ Colour.BLACK := by
      intro v t hv hb
      rcases hcases v t hv with ⟨_, h, _⟩ | ⟨_, h, _⟩ <;> rw [h] at hb <;> cases hb
    have hng : ∀ v t,
        (Datastructures.mk (umap_modify s.reset_costs.towns_by_id_ start
          (fun t => { t with colour := Colour.GRAY, cost := ⟨0, t.cost.de⟩ }))
          s.reset_costs.roads_).find v = some t → v ≠ start → t.colour = Colour.WHITE := by
      intro v t hv hvs
      rcases hcases v t hv with ⟨h, _⟩ | ⟨_, h, _⟩
      · exact absurd h hvs
      · exact h
    constructor
    · exact Or.inr ⟨hnb, Or.inr ⟨rfl, rfl⟩⟩
    · intro v t gt hv _ hnw hvs
      exact absurd (hng v t hv hvs) hnw
    · intro v t hv hg hvs
      have := hng v t hv hvs
      rw [this] at hg
      cases hg
    · intro e he hes
      simp at he
      subst he
      exact absurd rfl hes
    · intro u t hu hb
      exact absurd hb (hnb u t hu)
    · intro c tc h
      cases h
    · intro u t gt hu _ hb
      exact absurd hb (hnb u t hu)
    · intro u t gt hu _ hb
      exact absurd hb (hnb u t hu)
    · intro c tc gt h
      cases h

theorem astar_for_inv (g : Datastructures) (start goal : TownID)
    (hcl : g.RoadsClosed) (hrange : g.InRange) (hgoal : (g.find goal).isSome = true)
    (c : TownID) :
    ∀ (rs done : List TownID) (s : Datastructures) (q : List (Int × TownID)),
      AstarInv g start goal 46338 (some c) done s q → g.neighbours c = done ++ rs →
      ∃ s2 q2, astar_for c goal rs s q = some (s2, q2) ∧
        AstarInv g start goal 46338 (some c) (done ++ rs) s2 q2 ∧
        q2.length = q.length + rs.length ∧
        (∀ k, s2.colour_of k = some Colour.BLACK ↔ s.colour_of k = some Colour.BLACK) := by
  intro rs
  induction rs with
  | nil =>
    intro done s q inv _
    refine ⟨s, q, rfl, ?_, by simp, fun _ => Iff.rfl⟩
    rw [List.append_nil]
    exact inv
  | cons r rs ih =>
    intro done s q inv hnb
    obtain ⟨tc, hc, hcg⟩ := inv.base.cur_gray c rfl
    have hroad : r ∈ tc.roads_to := by
      rw [← neighbours_some hc, neighbours_of_persistent inv.base.same, hnb]
      simp
    have hgr : g.Road c r := by
      show r ∈ g.neighbours c
      rw [hnb]
      simp
    obtain ⟨rt, hr⟩ := stored_of_persistent inv.base.same (stored_of_road hcl hgr)
    obtain ⟨gt, hg⟩ := stored_of_persistent inv.base.same hgoal
    obtain ⟨s2, rt2, heq, h2r, h2o, hstep, hpers⟩ := astar_body s c goal r rs q tc rt gt hc hr hg
    have hlen := road_length_in_range inv.base.same hrange hc hr
    obtain ⟨hbase, hoc, hwhite, hst, hcur⟩ :=
      astar_base_body inv.base (by decide) (in_range_bound hrange) r tc rt gt rt2 s2
        (-rt2.cost.de) hc hr hlen h2r h2o hstep hpers
    obtain ⟨rho, hrho⟩ := inv.pi
    have hpi := astar_pi_body inv.base hrho r tc rt gt rt2 s2 hc hr hroad h2r h2o hstep hcur
    have hinv2 : AstarInv g start goal 46338 (some c) (done ++ [r]) s2
        ((-rt2.cost.de, r) :: q) := by
      refine ⟨hbase, hpi, fun hcons => ?_⟩
      exact astar_opt_body inv.base (inv.opt hcons) r tc rt gt rt2 s2 hc hr hg h2r h2o hstep
        (consistent_state inv.base.same hcons hc hr hg hroad) hwhite hcur
    obtain ⟨s3, q3, h3, hinv3, hlen3, hcol3⟩ := ih (done ++ [r]) s2 ((-rt2.cost.de, r) :: q)
      hinv2 (by rw [hnb]; simp)
    refine ⟨s3, q3, by rw [heq]; exact h3, ?_, ?_, ?_⟩
    · have : done ++ r :: rs = done ++ [r] ++ rs := by simp
      rw [this]
      exact hinv3
    · rw [hlen3]
      simp only [List.length_cons]
      omega
    · intro k
      rw [hcol3 k]
      obtain ⟨_, hcb, _⟩ := bodystep_colour hstep
      by_cases e : k = r
      · subst e
        rw [colour_of_some h2r, colour_of_some hr]
        simp only [Option.some.injEq]
        exact hcb
      · unfold colour_of
        rw [h2o k e]

theorem astar_measure_skip (s : Datastructures) (q : List (Int × TownID)) (cur : Int × TownID)
    (hmem : cur ∈ q) : astar_measure s (q.erase cur) + 1 = astar_measure s q := by
  unfold astar_measure
  rw [List.length_erase_of_mem hmem]
  have : 0 < q.length := List.length_pos_of_mem hmem
  omega

theorem astar_measure_expand (s s2 : Datastructures) (c : TownID) (tc : Town_info)
    (hc : s.find c = some tc) (hnb : tc.colour ≠ Colour.BLACK)
    (hpers : s2.persistent = s.persistent)
    (hcol : ∀ k, s2.colour_of k = some Colour.BLACK ↔ s.colour_of k = some Colour.BLACK)
    (q q2 : List (Int × TownID)) (cur : Int × TownID) (hmem : cur ∈ q)
    (hlen : q2.length = (q.erase cur).length + tc.roads_to.length) :
    astar_measure ⟨umap_modify s2.towns_by_id_ c
        (fun t => { t with colour := Colour.BLACK }), s2.roads_⟩ q2 + 1
      ≤ astar_measure s q := by
  unfold astar_measure
  simp only [umap_modify_keys]
  rw [keys_of_persistent hpers, hlen, List.length_erase_of_mem hmem]
  have hpos : 0 < q.length := List.length_pos_of_mem hmem
  have hp3 : (Datastructures.mk (umap_modify s2.towns_by_id_ c
      (fun t => { t with colour := Colour.BLACK })) s2.roads_).persistent = s.persistent := by
    rw [← hpers]
    exact persistent_modify _ _ _ _ (fun t => rfl)
  have hkey : c ∈ s.towns_by_id_.map Prod.fst := by
    have := umap_find_some_mem hc
    exact List.mem_map.2 ⟨(c, tc), this, rfl⟩
  obtain ⟨tc2, hc2⟩ : ∃ t, s2.find c = some t :=
    stored_of_persistent hpers (by rw [hc]; rfl)
  have hsum := sum_map_drop
    (fun k => if (Datastructures.mk (umap_modify s2.towns_by_id_ c
        (fun t => { t with colour := Colour.BLACK })) s2.roads_).colour_of k = some Colour.BLACK
      then 0 else ((Datastructures.mk (umap_modify s2.towns_by_id_ c
        (fun t => { t with colour := Colour.BLACK })) s2.roads_).neighbours k).length)
    (fun k => if s.colour_of k = some Colour.BLACK then 0 else (s.neighbours k).length)
    (s.towns_by_id_.map Prod.fst) c tc.roads_to.length hkey ?_ ?_
  · omega
  · intro k
    simp only
    rw [neighbours_of_persistent hp3 k, colour_of_modify2]
    by_cases h : k = c
    · subst h
      simp [hc2]
    · simp only [h, if_false]
      by_cases hb : s.colour_of k = some Colour.BLACK
      · rw [if_pos ((hcol k).2 hb), if_pos hb]
      · rw [if_neg (fun x => hb ((hcol k).1 x)), if_neg hb]
  · simp only
    rw [colour_of_modify2]
    simp only [if_true, hc2, Option.map_some', if_true, zero_add]
    rw [colour_of_some hc, neighbours_some hc]
    simp [hnb]

theorem astar_while_inv (g : Datastructures) (start goal : TownID) (hids : g.IdsOK)
    (hcl : g.RoadsClosed) (hrange : g.InRange) (hgoal : (g.find goal).isSome = true)
    (addr : TownID → Nat) :
    ∀ (fuel : Nat) (s : Datastructures) (q : List (Int × TownID)),
      AstarInv g start goal 46338 none [] s q → astar_measure s q ≤ fuel →
      ∃ s2 found q2, astar_while addr goal fuel s q = some (s2, found) ∧
        AstarInv g start goal 46338 none [] s2 q2 ∧ (found = false → q2 = []) ∧
        (found = true → ∃ p tg, (p, goal) ∈ q2 ∧ (∀ e ∈ q2, e.1 ≤ p) ∧
          s2.find goal = some tg ∧ tg.colour ≠ Colour.BLACK) := by
  intro fuel
  induction fuel with
  | zero =>
    intro s q inv hfuel
    cases q with
    | nil =>
      refine ⟨s, false, [], ?_, inv, fun _ => rfl, fun h => by cases h⟩
      unfold astar_while
      rfl
    | cons e es =>
      unfold astar_measure at hfuel
      simp at hfuel
  | succ k ih =>
    intro s q inv hfuel
    cases q with
    | nil =>
      refine ⟨s, false, [], ?_, inv, fun _ => rfl, fun h => by cases h⟩
      unfold astar_while
      rfl
    | cons e es =>
      obtain ⟨cur, htop⟩ := pq_top_some addr e es
      obtain ⟨hmem, hmax⟩ := pq_top_mem addr (e :: es) cur htop
      obtain ⟨ct, hct, hnw⟩ := inv.base.q_stored cur hmem
      have hid : ct.id = cur.2 := ids_of_persistent inv.base.same hids _ _ hct
      by_cases hb : ct.colour = Colour.BLACK
      · -- an entry of a closed town is dropped
        have hm := astar_measure_skip s (e :: es) cur hmem
        obtain ⟨s2, found, q2, h2, hinv2, hf, ht⟩ := ih s ((e :: es).erase cur)
          ⟨astar_base_skip inv.base cur ct hct hb, inv.pi,
            fun hc => astar_opt_skip (inv.opt hc) cur ct hct hb⟩ (by omega)
        refine ⟨s2, found, q2, ?_, hinv2, hf, ht⟩
        rw [astar_while]
        simp only [htop, hct, hb, if_true]
        exact h2
      · by_cases hgo : ct.id = goal
        · -- the goal is reached
          refine ⟨s, true, e :: es, ?_, inv, fun h => (by cases h), fun _ => ?_⟩
          · rw [astar_while]
            simp only [htop, hct, hb, if_false, hgo, if_true]
          · refine ⟨cur.1, ct, ?_, fun x hx => hmax x hx, ?_, hb⟩
            · rw [← hgo, hid]
              exact hmem
            · rw [← hgo, hid]
              exact hct
        · -- the town is expanded
          have hcg : cur.2 ≠ goal := by rw [← hid]; exact hgo
          have hopen : AstarInv g start goal 46338 (some cur.2) [] s ((e :: es).erase cur) :=
            ⟨astar_base_open inv.base (by decide) cur ct hmem hct hb hcg, inv.pi,
              fun hc => astar_opt_open inv.base (inv.opt hc) cur ct hmem hmax hct hb⟩
          have hnbs : g.neighbours cur.2 = [] ++ ct.roads_to := by
            rw [← neighbours_of_persistent inv.base.same, neighbours_some hct]
            rfl
          obtain ⟨s1, q1, h1, hinv1, hlen1, hcol1⟩ := astar_for_inv g start goal hcl hrange
            hgoal cur.2 ct.roads_to [] s ((e :: es).erase cur) hopen hnbs
          obtain ⟨tc1, hc1, _⟩ := hinv1.base.cur_gray cur.2 rfl
          have hro1 : tc1.roads_to = ct.roads_to := by
            rw [← neighbours_some hc1, neighbours_of_persistent hinv1.base.same,
              ← neighbours_of_persistent inv.base.same, neighbours_some hct]
          have hdone : ∀ w ∈ tc1.roads_to, w ∈ [] ++ ct.roads_to := by
            intro w hw
            rw [hro1] at hw
            simpa using hw
          obtain ⟨rho, hrho⟩ := hinv1.pi
          have hclose : AstarInv g start goal 46338 none []
              ⟨umap_modify s1.towns_by_id_ cur.2
                (fun t => { t with colour := Colour.BLACK }), s1.roads_⟩ q1 :=
            ⟨astar_base_close hinv1.base (by decide) tc1 hc1 hdone,
              ⟨rho, astar_pi_close hrho cur.2⟩,
              fun hc => astar_opt_close hinv1.base (hinv1.opt hc) tc1 hc1 hdone⟩
          have hm := astar_measure_expand s s1 cur.2 ct hct hb
            (hinv1.base.same.trans inv.base.same.symm) hcol1 (e :: es) q1 cur hmem hlen1
          obtain ⟨s2, found, q2, h2, hinv2, hf, ht⟩ := ih _ q1 hclose (by omega)
          refine ⟨s2, found, q2, ?_, hinv2, hf, ht⟩
          rw [astar_while]
          simp only [htop, hct, hb, if_false, hgo, h1]
          exact h2


open Datastructures

/-! ## Best-first search: the result -/

theorem astar_measure_initial (s s1 : Datastructures) (hn : s.KeysNodup)
    (hpers : s1.persistent = s.persistent) (start : TownID) :
    astar_measure s1 [(0, start)] ≤ s.road_slots + 2 := by
  unfold astar_measure road_slots
  rw [keys_of_persistent hpers]
  have : ((s.towns_by_id_.map Prod.fst).map (fun k =>
      if s1.colour_of k = some Colour.BLACK then 0 else (s1.neighbours k).length)).sum
      ≤ (s.towns_by_id_.map (fun p => p.2.roads_to.length)).sum := by
    rw [List.map_map]
    apply List.sum_le_sum
    intro p hp
    simp only [Function.comp, neighbours_of_persistent hpers, neighbours_of_mem hn hp]
    split <;> omega
  simp only [List.length_singleton]
  omega

theorem cost_of_some {s : Datastructures} {k : TownID} {t : Town_info}
    (h : s.find k = some t) : s.cost_of k = t.cost.d := by
  unfold cost_of
  rw [h]

theorem le_sum_map_of_mem (f : TownID → Nat) :
    ∀ (l : List TownID) (x : TownID), x ∈ l → f x ≤ (l.map f).sum := by
  intro l
  induction l with
  | nil => intro x h; cases h
  | cons a rest ih =>
    intro x h
    simp only [List.map_cons, List.sum_cons]
    rcases List.mem_cons.1 h with h | h
    · subst h
      omega
    · have := ih x h
      omega

theorem route_len_snoc (g : Datastructures) :
    ∀ (xs : List TownID) (u v : TownID), xs.getLast? = some u →
      g.route_len (xs ++ [v]) = g.route_len xs + g.road_len u v := by
  intro xs
  induction xs with
  | nil => intro u v h; simp at h
  | cons a rest ih =>
    intro u v h
    cases rest with
    | nil =>
      simp at h
      subst h
      simp [route_len]
    | cons b rest2 =>
      have h2 : (b :: rest2).getLast? = some u := by
        rw [List.getLast?_cons_cons] at h
        exact h
      have := ih u v h2
      have e : g.route_len (a :: b :: rest2 ++ [v])
          = g.road_len a b + g.route_len (b :: rest2 ++ [v]) := rfl
      have e2 : g.route_len (a :: b :: rest2)
          = g.road_len a b + g.route_len (b :: rest2) := rfl
      rw [e, e2, this]
      ring

theorem route_len_chain (g s : Datastructures) :
    ∀ (l : List TownID) (v r : TownID), l.head? = some v → l.getLast? = some r →
      List.Chain' (fun a b => s.cost_of b + g.road_len b a ≤ s.cost_of a) l →
      g.route_len l.reverse + s.cost_of r ≤ s.cost_of v := by
  intro l
  induction l with
  | nil => intro v r h; simp at h
  | cons a rest ih =>
    intro v r hh hl hch
    simp at hh
    subst hh
    cases rest with
    | nil =>
      simp at hl
      subst hl
      simp [route_len]
    | cons b rest2 =>
      have hl2 : (b :: rest2).getLast? = some r := by
        rw [List.getLast?_cons_cons] at hl
        exact hl
      have hch2 := List.chain'_cons.1 hch
      have := ih b r rfl hl2 hch2.2
      have hlast : (b :: rest2).reverse.getLast? = some b := by
        rw [List.getLast?_reverse]
        rfl
      rw [List.reverse_cons, route_len_snoc g _ b a hlast]
      have h1 := hch2.1
      linarith

theorem astar_walk {g : Datastructures} {start goal : TownID} {L : Int} {s : Datastructures}
    {q : List (Int × TownID)} (base : AstarBase g start goal L none [] s q)
    {rho : TownID → Nat} (hpi : AstarPi rho s) (hids : g.IdsOK)
    (v : TownID) (tv : Town_info) (hv : s.find v = some tv) (hnw : tv.colour ≠ Colour.WHITE) :
    ∃ l, l.head? = some v ∧ l.getLast? = some start ∧ l.Nodup ∧
      List.Chain' (fun a b => g.Road b a ∧ s.cost_of b + g.road_len b a ≤ s.cost_of a) l ∧
      ∀ acc, walk_pi s g.towns_by_id_.length (some v) acc = some (acc ++ l) := by
  let M := ((g.towns_by_id_.map Prod.fst).map rho).sum
  let rank : TownID → Nat := fun k => (s.cost_of k).toNat * (M + 1) + rho k
  have hkeys := keys_of_persistent base.same
  have hrho : ∀ k t, s.find k = some t → rho k ≤ M := by
    intro k t hk
    apply le_sum_map_of_mem
    rw [← hkeys]
    exact List.mem_map.2 ⟨(k, t), umap_find_some_mem hk, rfl⟩
  have hgood : ∀ k, (∃ t, s.find k = some t ∧ t.colour ≠ Colour.WHITE) →
      ∃ t, s.find k = some t ∧ (t.pi = none ∨ ∃ u, t.pi = some u ∧
        (∃ tu, s.find u = some tu ∧ tu.colour ≠ Colour.WHITE) ∧ rank u < rank k ∧
        (g.Road u k ∧ s.cost_of u + g.road_len u k ≤ s.cost_of k)) := by
    intro k ⟨t, hk, _⟩
    refine ⟨t, hk, ?_⟩
    cases hp : t.pi with
    | none => exact Or.inl rfl
    | some u =>
      right
      obtain ⟨tu, hu, hcu, hroad, hcost⟩ := hpi.pi_ok k t u hk hp
      refine ⟨u, rfl, ⟨tu, hu, hcu⟩, ?_, ?_, ?_⟩
      · have h0 := base.d_nonneg u tu hu
        have h1 := base.d_nonneg k t hk
        have hl := get_road_length_nonneg tu t
        have hr := hrho u tu hu
        show (s.cost_of u).toNat * (M + 1) + rho u < (s.cost_of k).toNat * (M + 1) + rho k
        rw [cost_of_some hu, cost_of_some hk]
        rcases hcost with hlt | ⟨heq, hrk⟩
        · have h2 : tu.cost.d.toNat + 1 ≤ t.cost.d.toNat := by omega
          have h3 := Nat.mul_le_mul_right (M + 1) h2
          have h4 : (tu.cost.d.toNat + 1) * (M + 1)
              = tu.cost.d.toNat * (M + 1) + (M + 1) := by ring
          omega
        · have h2 : tu.cost.d.toNat ≤ t.cost.d.toNat := by omega
          have h3 := Nat.mul_le_mul_right (M + 1) h2
          omega
      · show k ∈ g.neighbours u
        rw [← neighbours_of_persistent base.same, neighbours_some hu]
        exact hroad
      · rw [cost_of_some hu, cost_of_some hk, road_len_state base.same hu hk]
        rcases hcost with h | ⟨h, _⟩
        · exact le_of_lt h
        · exact le_of_eq h
  obtain ⟨l, hhead, hall, hnd, hch, ⟨r, tr, hlast, hr, hrpi⟩, hwalk⟩ :=
    walk_pi_chain s (ids_of_persistent base.same hids)
      (fun k => ∃ t, s.find k = some t ∧ t.colour ≠ Colour.WHITE) rank
      (fun a b => g.Road b a ∧ s.cost_of b + g.road_len b a ≤ s.cost_of a) hgood
      (rank v) v (le_refl _) ⟨tv, hv, hnw⟩
  have hrmem : r ∈ l := List.mem_of_mem_getLast? hlast
  obtain ⟨⟨tr2, hr2, hrnw⟩, _⟩ := hall r hrmem
  rw [hr] at hr2
  injection hr2 with hr2
  subst hr2
  have hrs : r = start := by
    by_contra hne
    exact base.pi_some r tr hr hrnw hne hrpi
  subst hrs
  refine ⟨l, hhead, hlast, hnd, hch, ?_⟩
  have hlen : l.length ≤ g.towns_by_id_.length := by
    rw [← length_of_persistent base.same]
    apply length_le_of_stored s l hnd
    intro x hx
    obtain ⟨⟨t, ht, _⟩, _⟩ := hall x hx
    rw [ht]
    rfl
  exact hwalk _ hlen

theorem astar_closed {g : Datastructures} {start goal : TownID} {L : Int} {s : Datastructures}
    (base : AstarBase g start goal L none [] s []) :
    ∀ (l : List TownID) (x : TownID), l.head? = some x → List.Chain' g.Road l →
      (∃ t, s.find x = some t ∧ t.colour = Colour.BLACK) →
      ∀ y, l.getLast? = some y → ∃ t, s.find y = some t ∧ t.colour = Colour.BLACK := by
  have hblack : ∀ v t, s.find v = some t → t.colour ≠ Colour.WHITE →
      t.colour = Colour.BLACK := by
    intro v t hv hnw
    cases hcol : t.colour with
    | WHITE => exact absurd hcol hnw
    | BLACK => rfl
    | GRAY =>
      rcases base.gray_q v t hv hcol with h | ⟨p, h⟩
      · cases h
      · cases h
  intro l
  induction l with
  | nil => intro x h; simp at h
  | cons a rest ih =>
    intro x hh hch hx y hl
    simp at hh
    subst hh
    cases rest with
    | nil =>
      simp at hl
      subst hl
      exact hx
    | cons b rest2 =>
      have hl2 : (b :: rest2).getLast? = some y := by
        rw [List.getLast?_cons_cons] at hl
        exact hl
      have hch2 := List.chain'_cons.1 hch
      obtain ⟨ta, hta, hba⟩ := hx
      have hroad : b ∈ ta.roads_to := by
        rw [← neighbours_some hta, neighbours_of_persistent base.same]
        exact hch2.1
      obtain ⟨tb, htb, hnw⟩ := base.black_nb a ta hta hba b hroad
      exact ih b rfl hch2.2 ⟨tb, htb, hblack b tb htb hnw⟩ y hl2

theorem astar_no_route {g : Datastructures} {start goal : TownID} {L : Int}
    {s : Datastructures} (base : AstarBase g start goal L none [] s [])
    (l : List TownID) (hr : g.IsRoute start goal l) : False := by
  obtain ⟨ts, hts, hnw, _⟩ := base.start_ok
  have hb : ts.colour = Colour.BLACK := by
    cases hcol : ts.colour with
    | WHITE => exact absurd hcol hnw
    | BLACK => rfl
    | GRAY =>
      rcases base.gray_q start ts hts hcol with h | ⟨p, h⟩
      · cases h
      · cases h
  obtain ⟨t, ht, hbt⟩ := astar_closed base l start hr.1 hr.2.2 ⟨ts, hts, hb⟩ goal hr.2.1
  exact base.goal_open t ht hbt

theorem astar_pop_optimal {g : Datastructures} {start goal : TownID} {L : Int}
    {s : Datastructures} {q : List (Int × TownID)}
    (base : AstarBase g start goal L none [] s q) (opt : AstarOpt start goal none [] s q)
    (hcons : g.Consistent goal) (hcl : g.RoadsClosed) (hL0 : 0 ≤ L)
    (hLn : L * g.towns_by_id_.length < INT_MAX)
    (p : Int) (gt : Town_info) (hmem : (p, goal) ∈ q) (hmax : ∀ e ∈ q, e.1 ≤ p)
    (hg : s.find goal = some gt) (hnb : gt.colour ≠ Colour.BLACK) :
    ∀ l, g.IsRoute start goal l → gt.cost.d ≤ g.route_len l := by
  obtain ⟨gt0, hgt0, hgnw⟩ := base.q_stored _ hmem
  simp only at hgt0
  rw [hg] at hgt0
  injection hgt0 with hgt0
  subst hgt0
  have hF : gt.cost.d < INT_MAX := by
    have h1 := base.d_bound goal gt hg hgnw
    simp only [if_true, add_zero] at h1
    have h2 : 0 ≤ L * (s.open_count : Int) := mul_nonneg hL0 (Int.natCast_nonneg _)
    linarith
  have main : ∀ (l : List TownID) (x : TownID) (a : Int), l.head? = some x →
      l.getLast? = some goal → List.Chain' g.Road l →
      (∃ tx, s.find x = some tx ∧
        (tx.cost.d ≤ a ∨ gt.cost.d ≤ a + get_road_length tx gt)) →
      gt.cost.d ≤ a + g.route_len l := by
    intro l
    induction l with
    | nil => intro x a h; simp at h
    | cons x0 rest ih =>
      intro x a hh hl hch ⟨tx, hx, hpot⟩
      simp at hh
      subst hh
      cases rest with
      | nil =>
        simp at hl
        subst hl
        rw [hg] at hx
        injection hx with hx
        subst hx
        rw [get_road_length_self] at hpot
        simp only [route_len]
        rcases hpot with h | h <;> linarith
      | cons y rest2 =>
        have hl2 : (y :: rest2).getLast? = some goal := by
          rw [List.getLast?_cons_cons] at hl
          exact hl
        have hch2 := List.chain'_cons.1 hch
        have hroad : y ∈ tx.roads_to := by
          rw [← neighbours_some hx, neighbours_of_persistent base.same]
          exact hch2.1
        obtain ⟨ty, hy⟩ := stored_of_persistent base.same (stored_of_road hcl hch2.1)
        have hcs := consistent_state base.same hcons hx hy hg hroad
        have hlen0 := get_road_length_nonneg tx ty
        have hh0 := get_road_length_nonneg ty gt
        have hrl : g.road_len x0 y = get_road_length tx ty := road_len_state base.same hx hy
        have key : ty.cost.d ≤ a + get_road_length tx ty ∨
            gt.cost.d ≤ a + get_road_length tx ty + get_road_length ty gt := by
          rcases hpot with hd | hf
          · cases hcol : tx.colour with
            | WHITE =>
              have := (base.white_fresh x0 tx hx hcol).1
              right
              linarith
            | BLACK =>
              left
              have := opt.black_rel x0 tx hx hcol y hroad ty hy
              linarith
            | GRAY =>
              right
              rcases opt.first with ⟨ts, hts, hbs⟩ | ⟨_, hst⟩
              · have hxs : x0 ≠ start := by
                  intro e
                  rw [e, hts] at hx
                  injection hx with hx
                  rw [hx, hcol] at hbs
                  cases hbs
                have hgs : goal ≠ start := by
                  intro e
                  rw [e, hts] at hg
                  injection hg with hg
                  rw [hg] at hbs
                  exact hnb hbs
                have he := opt.exact_entry x0 tx hx hcol hxs (by simp)
                have h1 := hmax _ he
                simp only at h1
                have h2 := opt.entry_ge _ hmem hgs gt hg
                simp only at h2
                have h3 := opt.est goal gt gt hg hg hgnw hgs
                rw [get_road_length_self] at h3
                have h4 := opt.est x0 tx gt hx hg (by rw [hcol]; decide) hxs
                linarith
              · rcases hst with h | ⟨_, hq⟩
                · cases h
                · rw [hq] at hmem
                  simp at hmem
                  obtain ⟨_, hgs⟩ := hmem
                  obtain ⟨ts, hts, _, hd0, _⟩ := base.start_ok
                  rw [hgs, hts] at hg
                  injection hg with hg
                  subst hg
                  have := base.d_nonneg x0 tx hx
                  linarith
          · right
            linarith
        have := ih y (a + get_road_length tx ty) rfl hl2 hch2.2 ⟨ty, hy, key⟩
        have e : g.route_len (x0 :: y :: rest2)
            = g.road_len x0 y + g.route_len (y :: rest2) := rfl
        rw [e, hrl]
        linarith
  intro l hr
  obtain ⟨ts, hts, _, hd0, _⟩ := base.start_ok
  have := main l start 0 hr.1 hr.2.1 hr.2.2 ⟨ts, hts, Or.inl (le_of_eq hd0)⟩
  linarith

/-- Outcome of `shortest_route` in a state with distinct keys, records carrying their
keys, valid road pointers and coordinates small enough for `int`: the call returns
and touches scratch fields only; when a road route exists the result is one without
repeated towns, and a shortest one if the estimate is consistent; otherwise the
result is empty. -/
theorem shortest_route_correct (addr : TownID → Nat) (s : Datastructures)
    (fromid toid : TownID)
    (hn : s.KeysNodup) (hids : s.IdsOK) (hcl : s.RoadsClosed) (hrange : s.InRange)
    (hf : (s.find fromid).isSome = true) (ht : (s.find toid).isSome = true) :
    ∃ route s2, s.shortest_route addr fromid toid = some (route, s2) ∧
      s2.persistent = s.persistent ∧
      ((∃ l, s.IsRoute fromid toid l) → s.IsRoute fromid toid route ∧ route.Nodup ∧
        (s.Consistent toid →
          ∀ l, s.IsRoute fromid toid l → s.route_len route ≤ s.route_len l)) ∧
      ((¬ ∃ l, s.IsRoute fromid toid l) → route = []) := by
  obtain ⟨tf, hf1⟩ := Option.isSome_iff_exists.1 hf
  obtain ⟨tt, ht1⟩ := Option.isSome_iff_exists.1 ht
  have hinit := astar_initial s fromid toid 46338 (by decide) tf hf1
  have hmeas := astar_measure_initial s _ hn hinit.base.same fromid
  obtain ⟨s2, found, q2, hwhile, hinv, hfalse, htrue⟩ :=
    astar_while_inv s fromid toid hids hcl hrange ht addr (s.road_slots + 2) _ _ hinit hmeas
  have hpers := hinv.base.same
  obtain ⟨tg, hg⟩ := stored_of_persistent hpers ht
  cases found with
  | true =>
    obtain ⟨p, tg2, hmem, hmax, hg2, hnb⟩ := htrue rfl
    rw [hg] at hg2
    injection hg2 with hg2
    subst hg2
    obtain ⟨tg0, hg0, hnw⟩ := hinv.base.q_stored _ hmem
    simp only at hg0
    rw [hg] at hg0
    injection hg0 with hg0
    subst hg0
    obtain ⟨rho, hrho⟩ := hinv.pi
    obtain ⟨l, hhead, hlast, hnd, hch, hwalk⟩ :=
      astar_walk hinv.base hrho hids toid tg hg hnw
    have hres : s.shortest_route addr fromid toid = some (l.reverse, s2) := by
      unfold shortest_route
      simp only [hf1, ht1]
      rw [hwhile]
      simp only
      rw [hwalk []]
      simp
    have hroute : s.IsRoute fromid toid l.reverse := by
      refine ⟨?_, ?_, ?_⟩
      · rw [List.head?_reverse]
        exact hlast
      · rw [List.getLast?_reverse]
        exact hhead
      · rw [List.chain'_reverse]
        exact hch.imp (fun a b h => h.1)
    refine ⟨l.reverse, s2, hres, hpers, fun _ => ⟨hroute, List.nodup_reverse.2 hnd, ?_⟩,
      fun h => absurd ⟨l.reverse, hroute⟩ h⟩
    intro hcons l2 hl2
    have h1 := route_len_chain s s2 l toid fromid hhead hlast (hch.imp (fun a b h => h.2))
    obtain ⟨ts, hts, _, hd0, _⟩ := hinv.base.start_ok
    rw [cost_of_some hts, cost_of_some hg, hd0] at h1
    have h2 := astar_pop_optimal hinv.base (hinv.opt hcons) hcons hcl (by decide)
      (in_range_bound hrange) p tg hmem hmax hg hnb l2 hl2
    linarith
  | false =>
    have hq := hfalse rfl
    subst hq
    have hwhite : tg.colour = Colour.WHITE := by
      cases hcol : tg.colour with
      | WHITE => rfl
      | BLACK => exact absurd hcol (hinv.base.goal_open tg hg)
      | GRAY =>
        rcases hinv.base.gray_q toid tg hg hcol with h | ⟨p, h⟩
        · cases h
        · cases h
    have hpi := (hinv.base.white_fresh toid tg hg hwhite).2
    have hpos : 0 < s.towns_by_id_.length :=
      List.length_pos_of_mem (umap_find_some_mem ht1)
    obtain ⟨k, hk⟩ : ∃ k, s.towns_by_id_.length = k + 1 := ⟨s.towns_by_id_.length - 1, by omega⟩
    have hwalk : walk_pi s2 s.towns_by_id_.length (some toid) [] = some [tg.id] := by
      rw [hk]
      unfold walk_pi
      simp only [hg, hpi]
      unfold walk_pi
      simp
    have hres : s.shortest_route addr fromid toid = some ([], s2) := by
      unfold shortest_route
      simp only [hf1, ht1]
      rw [hwhile]
      simp only
      rw [hwalk]
      simp
    refine ⟨[], s2, hres, hpers, fun ⟨l, hl⟩ => ?_, fun _ => rfl⟩
    exact absurd (astar_no_route hinv.base l hl) id


open Datastructures

theorem nodup_head_last (l : List TownID) (a : TownID) (hh : l.head? = some a)
    (hl : l.getLast? = some a) (hnd : l.Nodup) : l = [a] := by
  cases l with
  | nil => simp at hh
  | cons x rest =>
    simp at hh
    subst hh
    cases rest with
    | nil => rfl
    | cons b rest2 =>
      rw [List.getLast?_cons_cons] at hl
      have hmem := List.mem_of_mem_getLast? hl
      have := (List.nodup_cons.1 hnd).1
      exact absurd hmem this

/-- C3. For stored towns `fromid`, `toid`, in a state with distinct keys, records
carrying their keys, valid road pointers and coordinates small enough for `int`,
`shortest_route` returns for every placement `addr` of the records in memory; the
result is empty exactly when no road route joins the two towns, and otherwise it is
a road route from `fromid` to `toid` without repeated towns; for `fromid = toid`
it is `[fromid]`. -/
theorem shortest_route_is_route (addr : TownID → Nat) (s : Datastructures)
    (fromid toid : TownID)
    (hn : s.KeysNodup) (hids : s.IdsOK) (hcl : s.RoadsClosed) (hrange : s.InRange)
    (hf : (s.find fromid).isSome = true) (ht : (s.find toid).isSome = true) :
    ∃ route s2, s.shortest_route addr fromid toid = some (route, s2) ∧
      (route = [] ↔ ¬ ∃ l, s.IsRoute fromid toid l) ∧
      (route ≠ [] → s.IsRoute fromid toid route ∧ route.Nodup) ∧
      (fromid = toid → route = [fromid]) := by
  obtain ⟨route, s2, h1, _, h3, h4⟩ :=
    shortest_route_correct addr s fromid toid hn hids hcl hrange hf ht
  refine ⟨route, s2, h1, ?_, ?_, ?_⟩
  · constructor
    · intro he hex
      have := (h3 hex).1.1
      rw [he] at this
      simp at this
    · exact h4
  · intro hne
    by_cases hex : ∃ l, s.IsRoute fromid toid l
    · exact ⟨(h3 hex).1, (h3 hex).2.1⟩
    · exact absurd (h4 hex) hne
  · intro e
    subst e
    have hex : ∃ l, s.IsRoute fromid fromid l :=
      ⟨[fromid], rfl, rfl, List.chain'_singleton _⟩
    obtain ⟨hr, hnd, _⟩ := h3 hex
    exact nodup_head_last route fromid hr.1 hr.2.1 hnd

/-- Witness for C3: among the towns `S`, `U`, `V`, `W`, `G` of `detour` the search
from `S` to `G` returns `[S, W, G]`, a road route without repeated towns. -/
theorem shortest_route_is_route_witness :
    (detour.shortest_route (fun _ => 0) "S" "G").map Prod.fst = some ["S", "W", "G"] ∧
    ∃ route s2, detour.shortest_route (fun _ => 0) "S" "G" = some (route, s2) ∧
      (route = [] ↔ ¬ ∃ l, detour.IsRoute "S" "G" l) ∧
      (route ≠ [] → detour.IsRoute "S" "G" route ∧ route.Nodup) ∧
      ("S" = "G" → route = ["S"]) :=
  ⟨by rfl,
    shortest_route_is_route (fun _ => 0) detour "S" "G" (by decide) (by decide) (by decide)
      (by decide) (by decide) (by decide)⟩

/-- C4, as amended. For stored towns joined by some road route, in a state with
distinct keys, records carrying their keys, valid road pointers and coordinates small
enough for `int`, and with a truncated straight-line estimate to `toid` that drops
along every road by no more than the length of the road, `shortest_route` returns a
road route whose sum of road lengths is at most that of every road route between
the two towns. -/
theorem shortest_route_shortest (addr : TownID → Nat) (s : Datastructures)
    (fromid toid : TownID)
    (hn : s.KeysNodup) (hids : s.IdsOK) (hcl : s.RoadsClosed) (hrange : s.InRange)
    (hf : (s.find fromid).isSome = true) (ht : (s.find toid).isSome = true)
    (hcons : s.Consistent toid) (hconn : ∃ l, s.IsRoute fromid toid l) :
    ∃ route s2, s.shortest_route addr fromid toid = some (route, s2) ∧
      s.IsRoute fromid toid route ∧
      ∀ l, s.IsRoute fromid toid l → s.route_len route ≤ s.route_len l := by
  obtain ⟨route, s2, h1, _, h3, _⟩ :=
    shortest_route_correct addr s fromid toid hn hids hcl hrange hf ht
  obtain ⟨hr, _, hopt⟩ := h3 hconn
  exact ⟨route, s2, h1, hr, hopt hcons⟩

/-- Witness for C4: with towns at `(0,0)`, `(0,10)`, `(10,10)` and roads between the
first two and the last two, the search from the first to the last returns the
two-hop route, of total length `20`, and no road route is shorter. -/
theorem shortest_route_shortest_witness :
    (corner.shortest_route (fun _ => 0) "P" "R").map Prod.fst = some ["P", "Q", "R"] ∧
    corner.route_len ["P", "Q", "R"] = 20 ∧
    ∃ route s2, corner.shortest_route (fun _ => 0) "P" "R" = some (route, s2) ∧
      corner.IsRoute "P" "R" route ∧
      ∀ l, corner.IsRoute "P" "R" l → corner.route_len route ≤ corner.route_len l :=
  ⟨by rfl, by decide,
    shortest_route_shortest (fun _ => 0) corner "P" "R" (by decide) (by decide) (by decide)
      (by decide) (by decide) (by decide) (by decide)
      ⟨["P", "Q", "R"], by decide, by decide,
        List.Chain'.cons (by decide) (List.Chain'.cons (by decide)
          (List.chain'_singleton _))⟩⟩

/-- C4, counterexample. The towns `S` `(6,5)`, `U` `(5,5)`, `V` `(3,3)`, `W` `(2,2)`,
`G` `(0,0)` with roads `S`-`W`, `S`-`U`, `U`-`V`, `V`-`W`, `W`-`G` form a state with
distinct keys, valid road pointers and small coordinates; wherever the records lie
in memory, `shortest_route(S, G)` returns `[S, W, G]` of length `5 + 2 = 7`, while
`[S, U, V, W, G]` is a road route of length `1 + 2 + 1 + 2 = 6`. -/
theorem shortest_route_detour :
    (detour.KeysNodup ∧ detour.IdsOK ∧ detour.RoadsClosed ∧ detour.InRange) ∧
    (∀ addr : TownID → Nat,
      (detour.shortest_route addr "S" "G").map Prod.fst = some ["S", "W", "G"]) ∧
    detour.route_len ["S", "W", "G"] = 7 ∧
    detour.IsRoute "S" "G" ["S", "U", "V", "W", "G"] ∧
    detour.route_len ["S", "U", "V", "W", "G"] = 6 ∧
    ¬ detour.Consistent "G" :=
  ⟨⟨by decide, by decide, by decide, by decide⟩, fun _ => rfl, by decide,
    ⟨by decide, by decide,
      List.Chain'.cons (by decide) (List.Chain'.cons (by decide)
        (List.Chain'.cons (by decide) (List.Chain'.cons (by decide)
          (List.chain'_singleton _))))⟩,
    by decide, by decide⟩


open Datastructures

/-! ## Phase 1: `add_town` and the readers -/

theorem find_append_new (m : List (TownID × Town_info)) (id k : TownID) (t : Town_info) :
    umap_find (m ++ [(id, t)]) k
      = match umap_find m k with
        | some x => some x
        | none => if id = k then some t else none := by
  induction m with
  | nil => simp [umap_find]
  | cons p rest ih =>
    obtain ⟨a, b⟩ := p
    simp only [List.cons_append, umap_find]
    by_cases h : a = k
    · simp [h]
    · simp only [h, if_false]
      exact ih

/-- C17. In a state where `id` is not stored, `add_town(id, n, c, t)` returns true;
afterwards the three readers return `n`, `c` and `t` for `id`, `town_count()` is one
larger, the new town has no master, no vassals and no roads, every other lookup
gives the record it gave before, and the list of roads is the same. -/
theorem add_town_new (s : Datastructures) (id : TownID) (n : Name) (c : Coord) (t : Int)
    (h : s.find id = none) :
    (s.add_town id n c t).1 = true ∧
    (s.add_town id n c t).2.get_town_name id = n ∧
    (s.add_town id n c t).2.get_town_coordinates id = c ∧
    (s.add_town id n c t).2.get_town_tax id = t ∧
    (s.add_town id n c t).2.town_count = s.town_count + 1 ∧
    (s.add_town id n c t).2.all_towns = s.all_towns ++ [id] ∧
    (s.add_town id n c t).2.master_of id = none ∧
    (s.add_town id n c t).2.get_town_vassals id = some [] ∧
    (s.add_town id n c t).2.get_roads_from id = some [] ∧
    (∀ k, k ≠ id → (s.add_town id n c t).2.find k = s.find k) ∧
    (s.add_town id n c t).2.all_roads = s.all_roads := by
  have hf : ∀ k, (s.add_town id n c t).2.find k
      = match s.find k with
        | some x => some x
        | none => if id = k then
            some ⟨id, n, c, t, [], none, [], Colour.WHITE, none, ⟨INT_MAX, INT_MAX⟩⟩
          else none := by
    intro k
    unfold add_town
    rw [h]
    exact find_append_new _ _ _ _
  have hid : (s.add_town id n c t).2.find id
      = some ⟨id, n, c, t, [], none, [], Colour.WHITE, none, ⟨INT_MAX, INT_MAX⟩⟩ := by
    rw [hf id, h]
    simp
  refine ⟨?_, ?_, ?_, ?_, ?_, ?_, ?_, ?_, ?_, ?_, ?_⟩
  · unfold add_town
    rw [h]
  · unfold get_town_name
    rw [hid]
  · unfold get_town_coordinates
    rw [hid]
  · unfold get_town_tax
    rw [hid]
  · unfold add_town town_count
    rw [h]
    simp
  · unfold add_town all_towns
    rw [h]
    simp
  · unfold master_of
    rw [hid]
  · unfold get_town_vassals
    rw [hid]
    rfl
  · unfold get_roads_from
    rw [hid]
    rfl
  · intro k hk
    rw [hf k]
    cases hs : s.find k with
    | some x => rfl
    | none =>
      have hne : ¬ id = k := fun e => hk e.symm
      simp [hne]
  · unfold add_town all_roads
    rw [h]

/-- Witness for C17: adding `B` to the store that holds only `A`. -/
theorem add_town_new_witness :
    ((empty.add_town "A" "Aa" ⟨1, 2⟩ 3).2.add_town "B" "Bb" ⟨4, 5⟩ 6).1 = true ∧
    ((empty.add_town "A" "Aa" ⟨1, 2⟩ 3).2.add_town "B" "Bb" ⟨4, 5⟩ 6).2.get_town_name "B"
      = "Bb" ∧
    ((empty.add_town "A" "Aa" ⟨1, 2⟩ 3).2.add_town "B" "Bb" ⟨4, 5⟩ 6).2.town_count = 2 ∧
    ((empty.add_town "A" "Aa" ⟨1, 2⟩ 3).2.add_town "B" "Bb" ⟨4, 5⟩ 6).2.get_town_tax "A"
      = 3 :=
  have h := add_town_new (empty.add_town "A" "Aa" ⟨1, 2⟩ 3).2 "B" "Bb" ⟨4, 5⟩ 6 (by decide)
  ⟨h.1, h.2.1, h.2.2.2.2.1, by decide⟩

/-- C18. In a state where `id` is stored, `add_town(id, n, c, t)` returns false and
the state afterwards is the state before: every record, with its name,
coordinates, tax, master, vassals and roads, and the list of roads. -/
theorem add_town_existing (s : Datastructures) (id : TownID) (n : Name) (c : Coord) (t : Int)
    (h : (s.find id).isSome = true) :
    (s.add_town id n c t).1 = false ∧ (s.add_town id n c t).2 = s := by
  obtain ⟨x, hx⟩ := Option.isSome_iff_exists.1 h
  unfold add_town
  rw [hx]
  exact ⟨rfl, rfl⟩

/-- Witness for C18: adding `A` a second time with other data. -/
theorem add_town_existing_witness :
    ((empty.add_town "A" "Aa" ⟨1, 2⟩ 3).2.add_town "A" "Zz" ⟨7, 8⟩ 9).1 = false ∧
    ((empty.add_town "A" "Aa" ⟨1, 2⟩ 3).2.add_town "A" "Zz" ⟨7, 8⟩ 9).2
      = (empty.add_town "A" "Aa" ⟨1, 2⟩ 3).2 :=
  add_town_existing (empty.add_town "A" "Aa" ⟨1, 2⟩ 3).2 "A" "Zz" ⟨7, 8⟩ 9 (by decide)

/-- C19. For an identifier that is not stored, the readers return `NO_NAME`,
`NO_COORD` and `NO_VALUE`, `total_net_tax` returns `NO_VALUE`, the five queries on
one town return `[NO_TOWNID]`, and the two route searches return `[NO_TOWNID]`
whichever endpoint the identifier is; the queries that take the state along
return it as it was. -/
theorem absent_town_sentinels (s : Datastructures) (id : TownID) (h : s.find id = none) :
    s.get_town_name id = NO_NAME ∧ s.get_town_coordinates id = NO_COORD ∧
    s.get_town_tax id = NO_VALUE ∧ s.total_net_tax id = some NO_VALUE ∧
    s.get_town_vassals id = some [NO_TOWNID] ∧ s.taxer_path id = some [NO_TOWNID] ∧
    s.longest_vassal_path id = some [NO_TOWNID] ∧ s.get_roads_from id = some [NO_TOWNID] ∧
    s.road_cycle_route id = some ([NO_TOWNID], s) ∧
    (∀ other, s.least_towns_route id other = some ([NO_TOWNID], s) ∧
      s.least_towns_route other id = some ([NO_TOWNID], s)) ∧
    (∀ addr other, s.shortest_route addr id other = some ([NO_TOWNID], s) ∧
      s.shortest_route addr other id = some ([NO_TOWNID], s)) := by
  refine ⟨?_, ?_, ?_, ?_, ?_, ?_, ?_, ?_, ?_, ?_, ?_⟩
  · unfold get_town_name; rw [h]
  · unfold get_town_coordinates; rw [h]
  · unfold get_town_tax; rw [h]
  · unfold total_net_tax; rw [h]
  · unfold get_town_vassals; rw [h]
  · unfold taxer_path; rw [h]
  · unfold longest_vassal_path; rw [h]
  · unfold get_roads_from; rw [h]
  · unfold road_cycle_route; rw [h]
  · intro other
    constructor
    · unfold least_towns_route; rw [h]
    · unfold least_towns_route
      cases ho : s.find other with
      | none => rfl
      | some x => simp only [h]
  · intro addr other
    constructor
    · unfold shortest_route; rw [h]
    · unfold shortest_route
      cases ho : s.find other with
      | none => rfl
      | some x => simp only [h]

/-- Witness for C19: the town `Z` is not among the towns of `realm`. -/
theorem absent_town_sentinels_witness :
    realm.get_town_name "Z" = NO_NAME ∧ realm.get_town_coordinates "Z" = NO_COORD ∧
    realm.get_town_tax "Z" = NO_VALUE ∧ realm.total_net_tax "Z" = some NO_VALUE ∧
    realm.get_town_vassals "Z" = some [NO_TOWNID] ∧ realm.taxer_path "Z" = some [NO_TOWNID] ∧
    realm.longest_vassal_path "Z" = some [NO_TOWNID] ∧
    realm.get_roads_from "Z" = some [NO_TOWNID] ∧
    realm.road_cycle_route "Z" = some ([NO_TOWNID], realm) ∧
    (∀ other, realm.least_towns_route "Z" other = some ([NO_TOWNID], realm) ∧
      realm.least_towns_route other "Z" = some ([NO_TOWNID], realm)) ∧
    (∀ addr other, realm.shortest_route addr "Z" other = some ([NO_TOWNID], realm) ∧
      realm.shortest_route addr other "Z" = some ([NO_TOWNID], realm)) :=
  absent_town_sentinels realm "Z" (by decide)

/-- C20, counterexample. `add_town(NO_TOWNID, NO_NAME, NO_COORD, NO_VALUE)` on the
empty store returns true; afterwards the identifier `NO_TOWNID` is stored, and the
three readers return `NO_NAME`, `NO_COORD` and `NO_VALUE` for it although it is
stored. -/
theorem add_town_sentinel :
    (empty.add_town NO_TOWNID NO_NAME NO_COORD NO_VALUE).1 = true ∧
    NO_TOWNID ∈ sentinel_town.all_towns ∧
    (sentinel_town.find NO_TOWNID).isSome = true ∧
    sentinel_town.get_town_name NO_TOWNID = NO_NAME ∧
    sentinel_town.get_town_coordinates NO_TOWNID = NO_COORD ∧
    sentinel_town.get_town_tax NO_TOWNID = NO_VALUE := by
  decide

/-- C20, as amended. In a state where no stored town carries a reserved value as
identifier, name, tax or coordinates, `add_town` with an identifier, a name, a
coordinate and a tax that are not reserved leads to such a state again, and there
each of the three readers returns its reserved value exactly for the identifiers
that are not stored. -/
theorem sentinels_mean_absent (s : Datastructures) (id : TownID) (n : Name) (c : Coord)
    (t : Int) (hs : s.NoSentinels) (hid : id ≠ NO_TOWNID) (hn : n ≠ NO_NAME)
    (hc : c ≠ NO_COORD) (ht : t ≠ NO_VALUE) :
    (s.add_town id n c t).2.NoSentinels ∧
    NO_TOWNID ∉ (s.add_town id n c t).2.all_towns ∧
    ∀ k, ((s.add_town id n c t).2.get_town_name k = NO_NAME
        ↔ (s.add_town id n c t).2.find k = none) ∧
      ((s.add_town id n c t).2.get_town_tax k = NO_VALUE
        ↔ (s.add_town id n c t).2.find k = none) ∧
      ((s.add_town id n c t).2.get_town_coordinates k = NO_COORD
        ↔ (s.add_town id n c t).2.find k = none) := by
  have hns : (s.add_town id n c t).2.NoSentinels := by
    unfold add_town
    cases h : s.find id with
    | some x => exact hs
    | none =>
      intro p hp
      simp only [List.mem_append, List.mem_singleton] at hp
      rcases hp with hp | hp
      · exact hs p hp
      · subst hp
        exact ⟨hid, hn, ht, hc⟩
  refine ⟨hns, ?_, ?_⟩
  · intro hmem
    unfold all_towns at hmem
    obtain ⟨p, hp, hp1⟩ := List.mem_map.1 hmem
    exact (hns p hp).1 hp1
  · intro k
    cases hk : (s.add_town id n c t).2.find k with
    | none =>
      unfold get_town_name get_town_tax get_town_coordinates
      rw [hk]
      simp
    | some x =>
      have hx := hns _ (umap_find_some_mem hk)
      unfold get_town_name get_town_tax get_town_coordinates
      rw [hk]
      simp only [reduceCtorEq, iff_false]
      exact ⟨hx.2.1, hx.2.2.1, hx.2.2.2⟩

/-- Witness for C20 as amended: adding `B` to the store that holds only `A`. -/
theorem sentinels_mean_absent_witness :
    ((empty.add_town "A" "Aa" ⟨1, 2⟩ 3).2.add_town "B" "Bb" ⟨4, 5⟩ 6).2.NoSentinels ∧
    NO_TOWNID ∉ ((empty.add_town "A" "Aa" ⟨1, 2⟩ 3).2.add_town "B" "Bb" ⟨4, 5⟩ 6).2.all_towns ∧
    ∀ k, (((empty.add_town "A" "Aa" ⟨1, 2⟩ 3).2.add_town "B" "Bb" ⟨4, 5⟩ 6).2.get_town_name k
          = NO_NAME
        ↔ ((empty.add_town "A" "Aa" ⟨1, 2⟩ 3).2.add_town "B" "Bb" ⟨4, 5⟩ 6).2.find k = none) ∧
      (((empty.add_town "A" "Aa" ⟨1, 2⟩ 3).2.add_town "B" "Bb" ⟨4, 5⟩ 6).2.get_town_tax k
          = NO_VALUE
        ↔ ((empty.add_town "A" "Aa" ⟨1, 2⟩ 3).2.add_town "B" "Bb" ⟨4, 5⟩ 6).2.find k = none) ∧
      (((empty.add_town "A" "Aa" ⟨1, 2⟩ 3).2.add_town "B" "Bb" ⟨4, 5⟩ 6).2.get_town_coordinates k
          = NO_COORD
        ↔ ((empty.add_town "A" "Aa" ⟨1, 2⟩ 3).2.add_town "B" "Bb" ⟨4, 5⟩ 6).2.find k = none) :=
  sentinels_mean_absent (empty.add_town "A" "Aa" ⟨1, 2⟩ 3).2 "B" "Bb" ⟨4, 5⟩ 6
    (by decide) (by decide) (by decide) (by decide) (by decide)


open Datastructures

/-! ## Vassalage: `add_vassalship` -/

theorem add_vassalship_true_iff (s : Datastructures) (v m : TownID) :
    (s.add_vassalship v m).1 = true
      ↔ ∃ vt, s.find v = some vt ∧ vt.master = none ∧ (s.find m).isSome = true := by
  unfold add_vassalship
  cases hv : s.find v with
  | none => simp
  | some vt =>
    cases hm : vt.master with
    | some x => simp [hm]
    | none =>
      cases hmm : s.find m with
      | none => simp [hm]
      | some mt => simp [hm]

theorem add_vassalship_false_state (s : Datastructures) (v m : TownID)
    (h : (s.add_vassalship v m).1 = false) : (s.add_vassalship v m).2 = s := by
  unfold add_vassalship at h ⊢
  cases hv : s.find v with
  | none => rfl
  | some vt =>
    cases hm : vt.master with
    | some x => simp [hm]
    | none =>
      cases hmm : s.find m with
      | none => simp [hm]
      | some mt => simp [hv, hm, hmm] at h

theorem add_vassalship_true_state (s : Datastructures) (v m : TownID)
    (h : (s.add_vassalship v m).1 = true) :
    (s.add_vassalship v m).2
      = ⟨umap_modify (umap_modify s.towns_by_id_ m
            (fun t => { t with vassals := t.vassals ++ [v] })) v
          (fun t => { t with master := some m }), s.roads_⟩ := by
  obtain ⟨vt, hv, hm, hmm⟩ := (add_vassalship_true_iff s v m).1 h
  obtain ⟨mt, hmt⟩ := Option.isSome_iff_exists.1 hmm
  unfold add_vassalship
  simp [hv, hm, hmt]

theorem add_vassalship_find (s : Datastructures) (v m : TownID)
    (h : (s.add_vassalship v m).1 = true) (k : TownID) :
    (s.add_vassalship v m).2.find k
      = (s.find k).map (fun t =>
          { t with
            vassals := if k = m then t.vassals ++ [v] else t.vassals,
            master := if k = v then some m else t.master }) := by
  rw [add_vassalship_true_state s v m h]
  simp only [find, umap_find_modify]
  by_cases h1 : k = v
  · subst h1
    by_cases h2 : k = m
    · subst h2
      simp only [if_true]
      cases umap_find s.towns_by_id_ k <;> rfl
    · simp only [h2, if_true, if_false]
  · by_cases h2 : k = m
    · subst h2
      simp only [h1, if_true, if_false]
    · simp only [h1, h2, if_false]
      try (cases umap_find s.towns_by_id_ k <;> rfl)

/-- C13. `add_vassalship(v, m)` returns true exactly when `v` is stored, has no
master, and `m` is stored.  On false the state is unchanged.  On true the master of
`v` is `m`, the vassal list of `m` is the former one with `v` appended, and so is
the result of `get_town_vassals(m)` in a state whose records carry their keys;
no other master, no other vassal list, no other field of any record and no road
changes; and a further `add_vassalship(v, m')` returns false for every `m'`. -/
theorem add_vassalship_spec (s : Datastructures) (v m : TownID) (hids : s.IdsOK) :
    ((s.add_vassalship v m).1 = true
      ↔ ∃ vt, s.find v = some vt ∧ vt.master = none ∧ (s.find m).isSome = true) ∧
    ((s.add_vassalship v m).1 = false → (s.add_vassalship v m).2 = s) ∧
    ((s.add_vassalship v m).1 = true →
      (s.add_vassalship v m).2.master_of v = some m ∧
      (s.add_vassalship v m).2.vassals_of m = s.vassals_of m ++ [v] ∧
      (s.add_vassalship v m).2.get_town_vassals m
        = (s.get_town_vassals m).map (fun l => l ++ [v]) ∧
      (∀ k, k ≠ v → (s.add_vassalship v m).2.master_of k = s.master_of k) ∧
      (∀ k, k ≠ m → (s.add_vassalship v m).2.vassals_of k = s.vassals_of k) ∧
      (∀ k, ((s.add_vassalship v m).2.find k).map
            (fun t => (t.id, t.name, t.coords, t.tax, t.roads_to, t.colour, t.pi, t.cost))
          = (s.find k).map
            (fun t => (t.id, t.name, t.coords, t.tax, t.roads_to, t.colour, t.pi, t.cost))) ∧
      (s.add_vassalship v m).2.all_towns = s.all_towns ∧
      (s.add_vassalship v m).2.all_roads = s.all_roads ∧
      ∀ m2, ((s.add_vassalship v m).2.add_vassalship v m2).1 = false) := by
  refine ⟨add_vassalship_true_iff s v m, add_vassalship_false_state s v m, fun h => ?_⟩
  obtain ⟨vt, hv, hvm, hmm⟩ := (add_vassalship_true_iff s v m).1 h
  obtain ⟨mt, hmt⟩ := Option.isSome_iff_exists.1 hmm
  have hf := add_vassalship_find s v m h
  have hvid : vt.id = v := hids _ (umap_find_some_mem hv)
  refine ⟨?_, ?_, ?_, ?_, ?_, ?_, ?_, ?_, ?_⟩
  · unfold master_of
    rw [hf v, hv]
    simp
  · unfold vassals_of
    rw [hf m, hmt]
    simp
  · unfold get_town_vassals
    rw [hf m, hmt]
    simp only [Option.map_some', if_true, List.length_append, List.length_singleton,
      Nat.add_one_ne_zero, if_false]
    have hidk : ∀ k, ((s.add_vassalship v m).2.find k).map Town_info.id
        = (s.find k).map Town_info.id := by
      intro k
      rw [hf k]
      cases s.find k <;> rfl
    have happ : ∀ l : List TownID,
        ids_of (s.add_vassalship v m).2 (l ++ [v]) = (ids_of s l).map (fun l => l ++ [v]) := by
      intro l
      induction l with
      | nil =>
        simp only [List.nil_append, ids_of]
        rw [hf v, hv]
        simp [hvid]
      | cons p ps ih =>
        simp only [List.cons_append, ids_of, List.append_eq]
        rw [ih]
        have hp := hidk p
        cases h1 : (s.add_vassalship v m).2.find p with
        | none =>
          rw [h1] at hp
          cases h2 : s.find p with
          | none => rfl
          | some x => rw [h2] at hp; simp at hp
        | some y =>
          rw [h1] at hp
          cases h2 : s.find p with
          | none => rw [h2] at hp; simp at hp
          | some x =>
            rw [h2] at hp
            simp only [Option.map_some', Option.some.injEq] at hp
            cases h3 : ids_of s ps with
            | none => rfl
            | some l1 =>
              simp only [Option.map_some', hp]
              rfl
    rw [happ]
    by_cases hl : mt.vassals.length = 0
    · have : mt.vassals = [] := List.length_eq_zero.1 hl
      simp [this, ids_of]
    · simp [hl]
  · intro k hk
    unfold master_of
    rw [hf k]
    cases s.find k <;> simp [hk]
  · intro k hk
    unfold vassals_of
    rw [hf k]
    cases s.find k <;> simp [hk]
  · intro k
    rw [hf k]
    cases s.find k <;> rfl
  · rw [add_vassalship_true_state s v m h]
    unfold all_towns
    simp only [umap_modify_keys]
  · rw [add_vassalship_true_state s v m h]
    rfl
  · intro m2
    have : (s.add_vassalship v m).2.find v
        = some { vt with
            vassals := if v = m then vt.vassals ++ [v] else vt.vassals,
            master := some m } := by
      rw [hf v, hv]
      simp
    generalize (s.add_vassalship v m).2 = s1 at this
    unfold add_vassalship
    rw [this]
    rfl

/-- Witness for C13: in the store with `A`, `B` and `C`, `add_vassalship(A, B)`
succeeds, and `A` cannot be given to `C` afterwards. -/
theorem add_vassalship_spec_witness :
    ((((empty.add_town "A" "Aa" ⟨0, 0⟩ 1).2.add_town "B" "Bb" ⟨0, 1⟩ 2).2.add_town
        "C" "Cc" ⟨0, 2⟩ 3).2.add_vassalship "A" "B").1 = true ∧
    ((((empty.add_town "A" "Aa" ⟨0, 0⟩ 1).2.add_town "B" "Bb" ⟨0, 1⟩ 2).2.add_town
        "C" "Cc" ⟨0, 2⟩ 3).2.add_vassalship "A" "B").2.get_town_vassals "B" = some ["A"] ∧
    (((((empty.add_town "A" "Aa" ⟨0, 0⟩ 1).2.add_town "B" "Bb" ⟨0, 1⟩ 2).2.add_town
        "C" "Cc" ⟨0, 2⟩ 3).2.add_vassalship "A" "B").2.add_vassalship "A" "C").1 = false :=
  have h := add_vassalship_spec (((empty.add_town "A" "Aa" ⟨0, 0⟩ 1).2.add_town
    "B" "Bb" ⟨0, 1⟩ 2).2.add_town "C" "Cc" ⟨0, 2⟩ 3).2 "A" "B" (by decide)
  ⟨by decide, by decide, (h.2.2 (by decide)).2.2.2.2.2.2.2.2 "C"⟩


open Datastructures

/-! ## Vassalage: `remove_town` -/

theorem umap_find_erase (m : List (TownID × Town_info)) (id k : TownID) :
    umap_find (umap_erase m id) k = if k = id then none else umap_find m k := by
  induction m with
  | nil => simp [umap_erase, umap_find]
  | cons p rest ih =>
    obtain ⟨a, b⟩ := p
    unfold umap_erase at ih ⊢
    by_cases h : a = id
    · subst h
      simp only [List.filter_cons, ne_eq, not_true_eq_false, decide_False, Bool.false_eq_true,
        if_false]
      rw [ih]
      by_cases hk : k = a
      · simp [hk]
      · have : ¬ a = k := fun e => hk e.symm
        simp [hk, this, umap_find]
    · simp only [List.filter_cons, ne_eq, h, not_false_eq_true, decide_True, if_true, umap_find]
      by_cases hk : a = k
      · subst hk
        simp [h]
      · simp only [hk, if_false]
        exact ih

theorem umap_erase_keys (m : List (TownID × Town_info)) (id : TownID) :
    (umap_erase m id).map Prod.fst = (m.map Prod.fst).filter (fun k => decide (k ≠ id)) := by
  unfold umap_erase
  rw [List.filter_map]
  rfl

theorem write_spec (s : Datastructures) (p : TownID) (f : Town_info → Town_info)
    (h : (s.find p).isSome = true) :
    s.write p f = some ⟨umap_modify s.towns_by_id_ p f, s.roads_⟩ := by
  obtain ⟨t, ht⟩ := Option.isSome_iff_exists.1 h
  unfold write
  rw [ht]

theorem isSome_find_modify (s : Datastructures) (r : TownID) (f : Town_info → Town_info)
    (k : TownID) :
    ((Datastructures.mk (umap_modify s.towns_by_id_ r f) s.roads_).find k).isSome
      = (s.find k).isSome := by
  rw [find_modify]
  unfold find
  by_cases h : k = r
  · simp only [h, if_true]
    cases umap_find s.towns_by_id_ r <;> rfl
  · simp only [h, if_false]

theorem reparent_loop_spec (m : TownID) :
    ∀ (vs : List TownID) (s : Datastructures),
      (∀ v ∈ vs, (s.find v).isSome = true) → (s.find m).isSome = true →
      ∃ s1, reparent_loop m vs s = some s1 ∧
        s1.towns_by_id_.map Prod.fst = s.towns_by_id_.map Prod.fst ∧ s1.roads_ = s.roads_ ∧
        ∀ k, s1.find k = (s.find k).map (fun t =>
          { t with
            master := if k ∈ vs then some m else t.master,
            vassals := if k = m then t.vassals ++ vs else t.vassals }) := by
  intro vs
  induction vs with
  | nil =>
    intro s _ _
    refine ⟨s, rfl, rfl, rfl, fun k => ?_⟩
    cases s.find k <;> simp
  | cons v rest ih =>
    intro s hvs hm
    have hv := hvs v (List.mem_cons_self _ _)
    have hm1 : ((Datastructures.mk (umap_modify s.towns_by_id_ v
        (fun t => { t with master := some m })) s.roads_).find m).isSome = true := by
      rw [isSome_find_modify]
      exact hm
    obtain ⟨s1, h1, hk1, hr1, hf1⟩ := ih
      ⟨umap_modify (umap_modify s.towns_by_id_ v (fun t => { t with master := some m })) m
        (fun t => { t with vassals := t.vassals ++ [v] }), s.roads_⟩
      (by
        intro x hx
        rw [isSome_find_modify
          ⟨umap_modify s.towns_by_id_ v (fun t => { t with master := some m }), s.roads_⟩,
          isSome_find_modify]
        exact hvs x (List.mem_cons_of_mem _ hx))
      (by
        rw [isSome_find_modify
          ⟨umap_modify s.towns_by_id_ v (fun t => { t with master := some m }), s.roads_⟩,
          isSome_find_modify]
        exact hm)
    refine ⟨s1, ?_, ?_, hr1, ?_⟩
    · unfold reparent_loop
      rw [write_spec s v _ hv]
      simp only
      rw [write_spec _ m _ hm1]
      exact h1
    · rw [hk1]
      simp only [umap_modify_keys]
    · intro k
      rw [hf1 k, find_modify, umap_find_modify]
      unfold find
      cases hk : umap_find s.towns_by_id_ k with
      | none => by_cases e1 : k = m <;> by_cases e2 : k = v <;> simp [e1, e2]
      | some t =>
        by_cases e2 : k = v
        · subst e2
          by_cases e1 : k = m
          · subst e1
            by_cases e3 : k ∈ rest <;> simp [e3]
          · by_cases e3 : k ∈ rest <;> simp [e1, e3]
        · by_cases e1 : k = m
          · subst e1
            by_cases e3 : k ∈ rest <;> simp [e2, e3]
          · by_cases e3 : k ∈ rest <;> simp [e1, e2, e3]

theorem orphan_loop_spec :
    ∀ (vs : List TownID) (s : Datastructures),
      (∀ v ∈ vs, (s.find v).isSome = true) →
      ∃ s1, orphan_loop vs s = some s1 ∧
        s1.towns_by_id_.map Prod.fst = s.towns_by_id_.map Prod.fst ∧ s1.roads_ = s.roads_ ∧
        ∀ k, s1.find k = (s.find k).map (fun t =>
          { t with master := if k ∈ vs then none else t.master }) := by
  intro vs
  induction vs with
  | nil =>
    intro s _
    refine ⟨s, rfl, rfl, rfl, fun k => ?_⟩
    cases s.find k <;> simp
  | cons v rest ih =>
    intro s hvs
    have hv := hvs v (List.mem_cons_self _ _)
    obtain ⟨s1, h1, hk1, hr1, hf1⟩ := ih
      ⟨umap_modify s.towns_by_id_ v (fun t => { t with master := none }), s.roads_⟩
      (by
        intro x hx
        rw [isSome_find_modify]
        exact hvs x (List.mem_cons_of_mem _ hx))
    refine ⟨s1, ?_, ?_, hr1, ?_⟩
    · unfold orphan_loop
      rw [write_spec s v _ hv]
      exact h1
    · rw [hk1]
      simp only [umap_modify_keys]
    · intro k
      rw [hf1 k, find_modify]
      unfold find
      cases hk : umap_find s.towns_by_id_ k with
      | none => by_cases e2 : k = v <;> simp [e2]
      | some t =>
        by_cases e2 : k = v
        · subst e2
          by_cases e3 : k ∈ rest <;> simp [e3]
        · by_cases e3 : k ∈ rest <;> simp [e2, e3]

theorem remove_town_find (s : Datastructures) (id : TownID) (node : Town_info)
    (hfind : s.find id = some node)
    (hvc : ∀ v ∈ node.vassals, (s.find v).isSome = true)
    (hm : ∀ m, node.master = some m → ∃ tm, s.find m = some tm ∧ id ∈ tm.vassals) :
    ∃ s1, s.remove_town id = some (true, s1) ∧ s1.roads_ = s.roads_ ∧
      s1.towns_by_id_.map Prod.fst
        = (s.towns_by_id_.map Prod.fst).filter (fun k => decide (k ≠ id)) ∧
      ∀ k, s1.find k = if k = id then none else (s.find k).map (fun t =>
        { t with
          master := if k ∈ node.vassals then node.master else t.master,
          vassals := if node.master = some k then (t.vassals ++ node.vassals).erase id
            else t.vassals }) := by
  cases hmas : node.master with
  | none =>
    obtain ⟨s1, h1, hk1, hr1, hf1⟩ := orphan_loop_spec node.vassals s hvc
    refine ⟨⟨umap_erase s1.towns_by_id_ id, s1.roads_⟩, ?_, hr1, ?_, ?_⟩
    · unfold remove_town
      simp only [hfind, hmas, h1]
    · simp only [umap_erase_keys, hk1]
    · intro k
      unfold find at hf1 ⊢
      simp only [umap_find_erase, hf1 k]
      by_cases e : k = id
      · simp [e]
      · simp only [e, if_false]
        cases umap_find s.towns_by_id_ k <;> simp
  | some m =>
    obtain ⟨tm, htm, hidm⟩ := hm m hmas
    obtain ⟨s1, h1, hk1, hr1, hf1⟩ := reparent_loop_spec m node.vassals s hvc
      (by rw [htm]; rfl)
    have hm1 : s1.find m = some { tm with
        master := if m ∈ node.vassals then some m else tm.master,
        vassals := tm.vassals ++ node.vassals } := by
      rw [hf1 m, htm]
      simp
    refine ⟨⟨umap_erase (umap_modify s1.towns_by_id_ m
        (fun t => { t with vassals := t.vassals.erase id })) id, s1.roads_⟩, ?_, hr1, ?_, ?_⟩
    · unfold remove_town
      simp only [hfind, hmas, h1, hm1]
      have : id ∈ tm.vassals ++ node.vassals := List.mem_append_left _ hidm
      simp only [this, if_true]
      rw [write_spec s1 m _ (by rw [hm1]; rfl)]
    · simp only [umap_erase_keys, umap_modify_keys, hk1]
    · intro k
      unfold find at hf1 ⊢
      simp only [umap_find_erase, umap_find_modify, hf1 k]
      by_cases e : k = id
      · simp [e]
      · simp only [e, if_false]
        by_cases e1 : k = m
        · subst e1
          cases umap_find s.towns_by_id_ k <;> simp
        · have e2 : ¬ m = k := fun x => e1 x.symm
          cases umap_find s.towns_by_id_ k <;> simp [e1, e2]

theorem filter_ne_length (l : List TownID) (a : TownID) (hn : l.Nodup) (ha : a ∈ l) :
    (l.filter (fun k => decide (k ≠ a))).length + 1 = l.length := by
  induction l with
  | nil => cases ha
  | cons x rest ih =>
    obtain ⟨hx, hrest⟩ := List.nodup_cons.1 hn
    by_cases e : x = a
    · subst e
      have : rest.filter (fun k => decide (k ≠ x)) = rest := by
        apply List.filter_eq_self.2
        intro y hy
        simp only [ne_eq, decide_not, Bool.not_eq_eq_eq_not, Bool.not_true, decide_eq_false_iff_not]
        intro e2
        subst e2
        exact hx hy
      rw [List.filter_cons]
      simp only [ne_eq, not_true_eq_false, decide_False, Bool.false_eq_true, if_false,
        List.length_cons]
      simp only [ne_eq] at this
      rw [this]
    · have ha2 : a ∈ rest := by
        rcases List.mem_cons.1 ha with h | h
        · exact absurd h.symm e
        · exact h
      have := ih hrest ha2
      simp only [List.filter_cons, ne_eq, e, not_false_eq_true, decide_True, if_true,
        List.length_cons]
      simp only [ne_eq] at this
      omega

/-- C12. In a state with distinct keys whose vassal pointers refer to stored towns
and whose master pointers refer to stored towns that list the town, `remove_town(id)`
returns, and returns true exactly when `id` is stored.  On true `town_count()` has
dropped by one, the three readers return `NO_NAME`, `NO_COORD` and `NO_VALUE` for
`id`, `all_towns()` holds the other identifiers and no longer `id`, and the readers
return for every other identifier what they returned before.  On false the state is
unchanged. -/
theorem remove_town_spec (s : Datastructures) (id : TownID)
    (hn : s.KeysNodup) (hvc : s.VassalsClosed) (hml : s.MastersListed) :
    ∃ r, s.remove_town id = some r ∧
      (r.1 = true ↔ (s.find id).isSome = true) ∧
      (r.1 = true →
        r.2.town_count + 1 = s.town_count ∧
        r.2.get_town_name id = NO_NAME ∧ r.2.get_town_coordinates id = NO_COORD ∧
        r.2.get_town_tax id = NO_VALUE ∧ id ∉ r.2.all_towns ∧
        (∀ k, k ≠ id → (k ∈ r.2.all_towns ↔ k ∈ s.all_towns)) ∧
        ∀ k, k ≠ id → r.2.get_town_name k = s.get_town_name k ∧
          r.2.get_town_coordinates k = s.get_town_coordinates k ∧
          r.2.get_town_tax k = s.get_town_tax k) ∧
      (r.1 = false → r.2 = s) := by
  cases hfind : s.find id with
  | none =>
    refine ⟨(false, s), ?_, by simp, fun h => by simp at h, fun _ => rfl⟩
    unfold remove_town
    rw [hfind]
  | some node =>
    have hmemp := umap_find_some_mem hfind
    obtain ⟨s1, h1, hr1, hk1, hf1⟩ := remove_town_find s id node hfind
      (fun v hv => hvc _ hmemp v hv) (fun m hm => hml _ hmemp m hm)
    refine ⟨(true, s1), h1, by simp, fun _ => ?_, fun h => by simp at h⟩
    have hidn : s1.find id = none := by rw [hf1 id]; simp
    refine ⟨?_, ?_, ?_, ?_, ?_, ?_, ?_⟩
    · unfold town_count
      have e1 : s1.towns_by_id_.length = (s1.towns_by_id_.map Prod.fst).length := by simp
      have e2 : s.towns_by_id_.length = (s.towns_by_id_.map Prod.fst).length := by simp
      rw [e1, e2, hk1]
      exact filter_ne_length _ id hn (List.mem_map.2 ⟨(id, node), hmemp, rfl⟩)
    · unfold get_town_name; rw [hidn]
    · unfold get_town_coordinates; rw [hidn]
    · unfold get_town_tax; rw [hidn]
    · unfold all_towns
      rw [hk1]
      simp
    · intro k hk
      unfold all_towns
      rw [hk1]
      simp [hk]
    · intro k hk
      unfold get_town_name get_town_coordinates get_town_tax
      rw [hf1 k]
      simp only [hk, if_false]
      cases s.find k <;> simp

/-- Witness for C12: removing `D` from `realm`. -/
theorem remove_town_spec_witness :
    (realm.remove_town "D").map (fun r => (r.1, r.2.town_count, r.2.all_towns))
      = some (true, 5, ["K", "E", "V", "F", "X"]) ∧
    ∃ r, realm.remove_town "D" = some r ∧
      (r.1 = true ↔ (realm.find "D").isSome = true) ∧
      (r.1 = true →
        r.2.town_count + 1 = realm.town_count ∧
        r.2.get_town_name "D" = NO_NAME ∧ r.2.get_town_coordinates "D" = NO_COORD ∧
        r.2.get_town_tax "D" = NO_VALUE ∧ "D" ∉ r.2.all_towns ∧
        (∀ k, k ≠ "D" → (k ∈ r.2.all_towns ↔ k ∈ realm.all_towns)) ∧
        ∀ k, k ≠ "D" → r.2.get_town_name k = realm.get_town_name k ∧
          r.2.get_town_coordinates k = realm.get_town_coordinates k ∧
          r.2.get_town_tax k = realm.get_town_tax k) ∧
      (r.1 = false → r.2 = realm) :=
  ⟨by decide, remove_town_spec realm "D" (by decide) (by decide) (by decide)⟩

theorem ids_of_eq_self_find (s : Datastructures)
    (hids : ∀ k t, s.find k = some t → t.id = k) (l : List TownID)
    (hl : ∀ r ∈ l, (s.find r).isSome = true) : ids_of s l = some l := by
  induction l with
  | nil => rfl
  | cons p ps ih =>
    unfold ids_of
    rw [ih (fun r hr => hl r (List.mem_cons_of_mem _ hr))]
    obtain ⟨t, ht⟩ := Option.isSome_iff_exists.1 (hl p (List.mem_cons_self _ _))
    rw [ht]
    simp only [hids p t ht]

/-- C11. In a state whose records carry their keys, whose masters and vassal lists
refer to each other and hold no town twice, and whose vassalage is acyclic,
`remove_town(id)` of a stored town returns true.  Afterwards every former vassal
of the town is still stored and has the former master of the town as its master
(none if there was none), which differs from its master before; every other town
has the master it had; the former master `m`, which is neither the town nor one of
its vassals, has as vassal list its former one without `id`, followed by the
vassals of the town in their order, and `get_town_vassals(m)` returns this list;
every other vassal list is unchanged. -/
theorem remove_town_reparents (s : Datastructures) (id : TownID) (node : Town_info)
    (hids : s.IdsOK) (hvc : s.VassalsClosed) (hml : s.MastersListed) (hvo : s.VassalsOwned)
    (hvn : s.VassalsNodup) (hac : s.Acyclic) (hfind : s.find id = some node) :
    ∃ s1, s.remove_town id = some (true, s1) ∧
      (∀ v ∈ node.vassals, (s1.find v).isSome = true ∧ s.master_of v = some id ∧
        s1.master_of v = node.master ∧ s1.master_of v ≠ s.master_of v) ∧
      (∀ k, k ≠ id → k ∉ node.vassals → s1.master_of k = s.master_of k) ∧
      (∀ m, node.master = some m → m ≠ id ∧ m ∉ node.vassals ∧
        s1.vassals_of m = (s.vassals_of m).erase id ++ node.vassals ∧
        id ∉ s1.vassals_of m ∧
        s1.get_town_vassals m = some ((s.vassals_of m).erase id ++ node.vassals)) ∧
      (∀ k, k ≠ id → node.master ≠ some k → s1.vassals_of k = s.vassals_of k) := by
  have hmemp := umap_find_some_mem hfind
  obtain ⟨rank, hrank⟩ := hac
  obtain ⟨hdown, hup⟩ := hrank _ hmemp
  simp only at hdown hup
  obtain ⟨s1, h1, hr1, hk1, hf1⟩ := remove_town_find s id node hfind
    (fun v hv => hvc _ hmemp v hv) (fun m hm => hml _ hmemp m hm)
  have hvid : ∀ v ∈ node.vassals, v ≠ id := by
    intro v hv e
    have := hdown v hv
    rw [e] at this
    exact lt_irrefl _ this
  have hmid : node.master ≠ some id := by
    intro e
    exact lt_irrefl _ (hup id e)
  have hstored : ∀ k, k ≠ id → (s.find k).isSome = true → (s1.find k).isSome = true := by
    intro k hk hs
    rw [hf1 k]
    simp only [hk, if_false]
    obtain ⟨t, ht⟩ := Option.isSome_iff_exists.1 hs
    rw [ht]
    rfl
  refine ⟨s1, h1, ?_, ?_, ?_, ?_⟩
  · intro v hv
    obtain ⟨tv, htv, hmv⟩ := hvo _ hmemp v hv
    simp only at hmv
    have hvne := hvid v hv
    have e1 : s.master_of v = some id := by
      unfold master_of
      rw [htv]
      exact hmv
    have e2 : s1.master_of v = node.master := by
      unfold master_of
      rw [hf1 v, htv]
      simp [hvne, hv]
    refine ⟨hstored v hvne (by rw [htv]; rfl), e1, e2, ?_⟩
    rw [e1, e2]
    exact hmid
  · intro k hk hkv
    unfold master_of
    rw [hf1 k]
    simp only [hk, if_false]
    cases s.find k <;> simp [hkv]
  · intro m hm
    obtain ⟨tm, htm, hidm⟩ := hml _ hmemp m hm
    simp only at hidm
    have hmne : m ≠ id := by
      intro e
      rw [e] at hm
      exact hmid hm
    have hmv : m ∉ node.vassals := by
      intro hmem
      have a := hdown m hmem
      have b := hup m hm
      omega
    have hvs : s.vassals_of m = tm.vassals := by
      unfold vassals_of
      rw [htm]
    have hvs1 : s1.vassals_of m = tm.vassals.erase id ++ node.vassals := by
      unfold vassals_of
      rw [hf1 m, htm]
      simp only [hmne, if_false, Option.map_some', hm, if_true]
      exact List.erase_append_left _ hidm
    have hnd : tm.vassals.Nodup := hvn _ (umap_find_some_mem htm)
    have hnot : id ∉ tm.vassals.erase id ++ node.vassals := by
      intro hmem
      rcases List.mem_append.1 hmem with h | h
      · exact hnd.not_mem_erase h
      · exact hvid id h rfl
    refine ⟨hmne, hmv, by rw [hvs1, hvs], by rw [hvs1]; exact hnot, ?_⟩
    have hfm : s1.find m = some { tm with
        master := if m ∈ node.vassals then node.master else tm.master,
        vassals := (tm.vassals ++ node.vassals).erase id } := by
      rw [hf1 m, htm]
      simp [hmne, hm]
    have hids1 : ∀ k t, s1.find k = some t → t.id = k := by
      intro k t hk
      rw [hf1 k] at hk
      by_cases e : k = id
      · simp [e] at hk
      · simp only [e, if_false] at hk
        cases hs : s.find k with
        | none => simp [hs] at hk
        | some t0 =>
          simp only [hs, Option.map_some', Option.some.injEq] at hk
          rw [← hk]
          exact hids _ (umap_find_some_mem hs)
    have hall : ∀ r ∈ tm.vassals.erase id ++ node.vassals, (s1.find r).isSome = true := by
      intro r hr
      rcases List.mem_append.1 hr with h | h
      · obtain ⟨hne, hin⟩ := (hnd.mem_erase_iff).1 h
        exact hstored r hne (hvc _ (umap_find_some_mem htm) r hin)
      · exact hstored r (hvid r h) (hvc _ hmemp r h)
    unfold get_town_vassals
    rw [hfm]
    simp only
    rw [List.erase_append_left _ hidm, hvs, ids_of_eq_self_find s1 hids1 _ hall]
    split
    · rename_i hlen
      rw [List.length_eq_zero.1 hlen]
    · rfl
  · intro k hk hkm
    unfold vassals_of
    rw [hf1 k]
    simp only [hk, if_false]
    cases s.find k <;> simp [hkm]

/-- Witness for C11: removing `D`, vassal of `K` and master of `V`, from `realm`
leaves `V` under `K`, whose vassals are then `E`, `F`, `V`. -/
theorem remove_town_reparents_witness :
    (realm.remove_town "D").map (fun r =>
        (r.1, r.2.master_of "V", r.2.get_town_vassals "K", r.2.get_town_vassals "F"))
      = some (true, some "K", some ["E", "F", "V"], some ["X"]) ∧
    ∃ s1, realm.remove_town "D" = some (true, s1) ∧
      (∀ v ∈ ["V"], (s1.find v).isSome = true ∧ realm.master_of v = some "D" ∧
        s1.master_of v = some "K" ∧ s1.master_of v ≠ realm.master_of v) ∧
      (∀ k, k ≠ "D" → k ∉ ["V"] → s1.master_of k = realm.master_of k) ∧
      (∀ m, some "K" = some m → m ≠ "D" ∧ m ∉ ["V"] ∧
        s1.vassals_of m = (realm.vassals_of m).erase "D" ++ ["V"] ∧
        "D" ∉ s1.vassals_of m ∧
        s1.get_town_vassals m = some ((realm.vassals_of m).erase "D" ++ ["V"])) ∧
      (∀ k, k ≠ "D" → some "K" ≠ some k → s1.vassals_of k = realm.vassals_of k) :=
  ⟨by decide,
    remove_town_reparents realm "D"
      ⟨"D", "Dd", ⟨2, 0⟩, 55, ["V"], some "K", [], Colour.WHITE, none, ⟨INT_MAX, INT_MAX⟩⟩
      (by decide) (by decide) (by decide) (by decide) (by decide)
      ⟨realm_rank, by decide⟩ (by decide)⟩


open Datastructures

/-! ## Vassalage: `taxer_path` -/

/-- Following master links that decrease a rank reaches a town without master;
`walk_master` returns the towns passed, in order. -/
theorem walk_master_chain (s : Datastructures) (hids : ∀ k t, s.find k = some t → t.id = k)
    (rank : TownID → Nat)
    (hgood : ∀ v t, s.find v = some t → ∀ u, t.master = some u →
      (s.find u).isSome = true ∧ rank u < rank v) :
    ∀ n v, rank v ≤ n → (s.find v).isSome = true →
      ∃ l, l.head? = some v ∧ (∀ x ∈ l, (s.find x).isSome = true ∧ rank x ≤ rank v) ∧
        l.Nodup ∧ List.Chain' (fun a b => s.master_of a = some b) l ∧
        (∃ r, l.getLast? = some r ∧ (s.find r).isSome = true ∧ s.master_of r = none) ∧
        ∀ k, l.length ≤ k → ∀ acc, walk_master s k (some v) acc = some (acc ++ l) := by
  intro n
  induction n using Nat.strong_induction_on with
  | _ n ih =>
    intro v hv hg
    obtain ⟨t, ht⟩ := Option.isSome_iff_exists.1 hg
    have hid := hids _ _ ht
    have hmo : s.master_of v = t.master := by
      unfold master_of
      rw [ht]
    cases hm : t.master with
    | none =>
      refine ⟨[v], rfl, ?_, by simp, List.chain'_singleton _,
        ⟨v, rfl, hg, by rw [hmo, hm]⟩, ?_⟩
      · intro x hx
        simp at hx
        subst hx
        exact ⟨hg, le_refl _⟩
      · intro k hk acc
        cases k with
        | zero => simp at hk
        | succ k =>
          unfold walk_master
          simp only [ht, hm, hid]
          cases k <;> rfl
    | some u =>
      obtain ⟨hgu, hlt⟩ := hgood v t ht u hm
      obtain ⟨l, hhead, hall, hnd, hch, hlast, hwalk⟩ :=
        ih (rank u) (by omega) u (le_refl _) hgu
      refine ⟨v :: l, rfl, ?_, ?_, ?_, ?_, ?_⟩
      · intro x hx
        rcases List.mem_cons.1 hx with e | e
        · subst e
          exact ⟨hg, le_refl _⟩
        · exact ⟨(hall x e).1, by have := (hall x e).2; omega⟩
      · refine List.nodup_cons.2 ⟨?_, hnd⟩
        intro e
        have := (hall v e).2
        omega
      · cases l with
        | nil => simp at hhead
        | cons y l1 =>
          simp at hhead
          subst hhead
          exact List.Chain'.cons (by rw [hmo, hm]) hch
      · obtain ⟨r, h1, h2, h3⟩ := hlast
        refine ⟨r, ?_, h2, h3⟩
        cases l with
        | nil => simp at h1
        | cons y l1 => simpa [List.getLast?_cons_cons] using h1
      · intro k hk acc
        cases k with
        | zero => simp at hk
        | succ k =>
          unfold walk_master
          simp only [ht, hm, hid]
          rw [hwalk k (by simpa using hk)]
          simp

/-- Outcome of `taxer_path` in a state whose records carry their keys, whose master
pointers refer to stored towns and whose vassalage is acyclic: the walk ends, and
returns the town followed by its masters up to a town without master. -/
theorem taxer_path_chain (s : Datastructures)
    (hidf : ∀ k t, s.find k = some t → t.id = k)
    (hms : ∀ k t, s.find k = some t → ∀ m, t.master = some m → (s.find m).isSome = true)
    (hac : s.Acyclic) (id : TownID) (hid : (s.find id).isSome = true) :
    ∃ l, s.taxer_path id = some l ∧ l.head? = some id ∧ l.Nodup ∧
      List.Chain' (fun a b => s.master_of a = some b) l ∧
      ∃ r, l.getLast? = some r ∧ (s.find r).isSome = true ∧ s.master_of r = none := by
  obtain ⟨rank, hrank⟩ := hac
  let M := ((s.towns_by_id_.map Prod.fst).map rank).sum
  have hM : ∀ k t, s.find k = some t → rank k ≤ M := by
    intro k t hk
    apply le_sum_map_of_mem
    exact List.mem_map.2 ⟨(k, t), umap_find_some_mem hk, rfl⟩
  obtain ⟨l, hhead, hall, hnd, hch, hlast, hwalk⟩ :=
    walk_master_chain s hidf (fun k => M - rank k)
      (by
        intro v t hv u hu
        have hmem := umap_find_some_mem hv
        have hsu := hms v t hv u hu
        obtain ⟨tu, htu⟩ := Option.isSome_iff_exists.1 hsu
        have h1 := (hrank _ hmem).2 u hu
        have h2 := hM u tu htu
        simp only at h1
        refine ⟨hsu, ?_⟩
        show M - rank u < M - rank v
        omega)
      (M - rank id) id (le_refl _) hid
  obtain ⟨t, ht⟩ := Option.isSome_iff_exists.1 hid
  have hlen : l.length ≤ s.towns_by_id_.length :=
    length_le_of_stored s l hnd (fun x hx => (hall x hx).1)
  refine ⟨l, ?_, hhead, hnd, hch, hlast⟩
  have h1 := hwalk (s.towns_by_id_.length + 1) (by omega) []
  unfold walk_master at h1
  simp only [ht, List.nil_append] at h1
  unfold taxer_path
  rw [ht]
  exact h1

/-- C14, as amended. In a state whose records carry their keys and whose master
pointers refer to stored towns, after a successful `add_vassalship(v, m)` that
leaves the vassalage acyclic, `taxer_path(v)` returns: its result starts with `v`,
has `m` as second element, lists after every town the master of that town, and
ends with a stored town that has no master. -/
theorem taxer_path_after_add (s : Datastructures) (v m : TownID)
    (hids : s.IdsOK) (hml : s.MastersListed)
    (hadd : (s.add_vassalship v m).1 = true) (hac : (s.add_vassalship v m).2.Acyclic) :
    ∃ l, (s.add_vassalship v m).2.taxer_path v = some l ∧ l.head? = some v ∧
      l.get? 1 = some m ∧
      List.Chain' (fun a b => (s.add_vassalship v m).2.master_of a = some b) l ∧
      ∃ r, l.getLast? = some r ∧ ((s.add_vassalship v m).2.find r).isSome = true ∧
        (s.add_vassalship v m).2.master_of r = none := by
  obtain ⟨vt, hv, hvm, hmm⟩ := (add_vassalship_true_iff s v m).1 hadd
  have hf := add_vassalship_find s v m hadd
  have hsome : ∀ k, (s.find k).isSome = true → ((s.add_vassalship v m).2.find k).isSome = true := by
    intro k hk
    obtain ⟨t, ht⟩ := Option.isSome_iff_exists.1 hk
    rw [hf k, ht]
    rfl
  have hidf : ∀ k t, (s.add_vassalship v m).2.find k = some t → t.id = k := by
    intro k t hk
    rw [hf k] at hk
    cases hs : s.find k with
    | none => simp [hs] at hk
    | some t0 =>
      simp only [hs, Option.map_some', Option.some.injEq] at hk
      rw [← hk]
      exact hids _ (umap_find_some_mem hs)
  have hms : ∀ k t, (s.add_vassalship v m).2.find k = some t → ∀ x, t.master = some x →
      ((s.add_vassalship v m).2.find x).isSome = true := by
    intro k t hk x hx
    rw [hf k] at hk
    cases hs : s.find k with
    | none => simp [hs] at hk
    | some t0 =>
      simp only [hs, Option.map_some', Option.some.injEq] at hk
      rw [← hk] at hx
      simp only at hx
      by_cases e : k = v
      · simp only [e, if_true, Option.some.injEq] at hx
        rw [← hx]
        exact hsome m hmm
      · simp only [e, if_false] at hx
        obtain ⟨tm, htm, _⟩ := hml _ (umap_find_some_mem hs) x hx
        exact hsome x (by rw [htm]; rfl)
  have hmv : (s.add_vassalship v m).2.master_of v = some m := by
    unfold master_of
    rw [hf v, hv]
    simp
  obtain ⟨l, h1, hhead, _, hch, hlast⟩ :=
    taxer_path_chain (s.add_vassalship v m).2 hidf hms hac v (hsome v (by rw [hv]; rfl))
  refine ⟨l, h1, hhead, ?_, hch, hlast⟩
  cases l with
  | nil => simp at hhead
  | cons a rest =>
    simp at hhead
    subst hhead
    cases rest with
    | nil =>
      obtain ⟨r, hr, _, hnone⟩ := hlast
      simp at hr
      subst hr
      rw [hmv] at hnone
      cases hnone
    | cons b rest2 =>
      have := (List.chain'_cons.1 hch).1
      rw [hmv] at this
      simp only [List.get?_cons_succ, List.get?_cons_zero]
      exact this.symm

/-- Witness for C14 as amended: with `B` under `C`, giving `A` to `B` makes
`taxer_path(A)` return `[A, B, C]`. -/
theorem taxer_path_after_add_witness :
    (((((empty.add_town "A" "Aa" ⟨0, 0⟩ 1).2.add_town "B" "Bb" ⟨0, 1⟩ 2).2.add_town
        "C" "Cc" ⟨0, 2⟩ 3).2.add_vassalship "B" "C").2.add_vassalship "A" "B").2.taxer_path "A"
      = some ["A", "B", "C"] ∧
    ∃ l, (((((empty.add_town "A" "Aa" ⟨0, 0⟩ 1).2.add_town "B" "Bb" ⟨0, 1⟩ 2).2.add_town
        "C" "Cc" ⟨0, 2⟩ 3).2.add_vassalship "B" "C").2.add_vassalship "A" "B").2.taxer_path "A"
        = some l ∧ l.head? = some "A" ∧ l.get? 1 = some "B" ∧
      List.Chain' (fun a b =>
        (((((empty.add_town "A" "Aa" ⟨0, 0⟩ 1).2.add_town "B" "Bb" ⟨0, 1⟩ 2).2.add_town
          "C" "Cc" ⟨0, 2⟩ 3).2.add_vassalship "B" "C").2.add_vassalship "A" "B").2.master_of a
          = some b) l ∧
      ∃ r, l.getLast? = some r ∧
        ((((((empty.add_town "A" "Aa" ⟨0, 0⟩ 1).2.add_town "B" "Bb" ⟨0, 1⟩ 2).2.add_town
          "C" "Cc" ⟨0, 2⟩ 3).2.add_vassalship "B" "C").2.add_vassalship "A" "B").2.find
          r).isSome = true ∧
        (((((empty.add_town "A" "Aa" ⟨0, 0⟩ 1).2.add_town "B" "Bb" ⟨0, 1⟩ 2).2.add_town
          "C" "Cc" ⟨0, 2⟩ 3).2.add_vassalship "B" "C").2.add_vassalship "A" "B").2.master_of r
          = none :=
  ⟨by decide,
    taxer_path_after_add
      ((((empty.add_town "A" "Aa" ⟨0, 0⟩ 1).2.add_town "B" "Bb" ⟨0, 1⟩ 2).2.add_town
        "C" "Cc" ⟨0, 2⟩ 3).2.add_vassalship "B" "C").2 "A" "B"
      (by decide) (by decide) (by decide)
      ⟨fun k => if k = "C" then 2 else if k = "B" then 1 else 0, by decide⟩⟩

/-- C14, counterexample. On the store that holds only `A`, `add_vassalship(A, A)`
returns true and makes `A` its own master; the walk of `taxer_path(A)` then has
not ended after any number of rounds, so the call returns no sequence. -/
theorem taxer_path_self_vassal :
    ((empty.add_town "A" "Aa" ⟨0, 0⟩ 0).2.add_vassalship "A" "A").1 = true ∧
    self_vassal.master_of "A" = some "A" ∧
    self_vassal.taxer_path "A" = none ∧
    ∀ (k : Nat) (ids : List TownID), walk_master self_vassal k (some "A") ids = none := by
  refine ⟨by decide, by decide, by decide, ?_⟩
  intro k
  induction k with
  | zero => intro ids; rfl
  | succ k ih =>
    intro ids
    have hA : self_vassal.find "A"
        = some ⟨"A", "Aa", ⟨0, 0⟩, 0, ["A"], some "A", [], Colour.WHITE, none,
            ⟨INT_MAX, INT_MAX⟩⟩ := by decide
    unfold walk_master
    rw [hA]
    exact ih _


open Datastructures

/-! ## `total_net_tax` -/

theorem drop_bits_le (p t : Nat) (hp : p < 2 ^ (53 + t)) :
    ∀ (k sh : Nat), sh ≤ t → drop_bits p k sh ≤ t := by
  intro k
  induction k with
  | zero => intro sh h; exact h
  | succ k ih =>
    intro sh h
    unfold drop_bits
    split
    · exact h
    · rename_i hnot
      apply ih
      by_contra hlt
      have hsh : sh = t := by omega
      subst hsh
      exact hnot hp

theorem round_bounds_aux (n sh : Nat) (hn : n ≤ 2 ^ 31) (hsh : sh ≤ 30) :
    (n / 10) * 2 ^ 55 ≤ n * tenth_num / 2 ^ sh * 2 ^ sh ∧
      (n * tenth_num / 2 ^ sh + 1) * 2 ^ sh < (n / 10 + 1) * 2 ^ 55 := by
  have hc : tenth_num = 3602879701896397 := rfl
  have hT0 : 0 < 2 ^ sh := pow_pos (by norm_num) sh
  have hT30 : 2 ^ sh ≤ 2 ^ 30 := Nat.pow_le_pow_right (by norm_num) hsh
  have hsplit : 2 ^ (55 - sh) * 2 ^ sh = 2 ^ 55 := by
    rw [← pow_add]
    congr 1
    omega
  have hdm := Nat.div_add_mod n 10
  have hmod : n % 10 < 10 := Nat.mod_lt _ (by norm_num)
  have e55 : (2 : Nat) ^ 55 = 36028797018963968 := by norm_num
  have e30 : (2 : Nat) ^ 30 = 1073741824 := by norm_num
  have e31 : (2 : Nat) ^ 31 = 2147483648 := by norm_num
  have hlow : (n / 10) * 2 ^ 55 ≤ n * tenth_num := by
    rw [hc, e55]
    omega
  have hq1 : (n / 10) * 2 ^ (55 - sh) ≤ n * tenth_num / 2 ^ sh := by
    rw [Nat.le_div_iff_mul_le hT0, mul_assoc, hsplit]
    exact hlow
  have hA1 : (n / 10) * 2 ^ 55 ≤ n * tenth_num / 2 ^ sh * 2 ^ sh := by
    have := Nat.mul_le_mul_right (2 ^ sh) hq1
    rw [mul_assoc, hsplit] at this
    exact this
  have hA2 : n * tenth_num / 2 ^ sh * 2 ^ sh ≤ n * tenth_num := Nat.div_mul_le_self _ _
  have hup : n * tenth_num + 2 ^ 30 < (n / 10 + 1) * 2 ^ 55 := by
    rw [hc, e55, e30]
    rw [e31] at hn
    omega
  refine ⟨hA1, ?_⟩
  rw [Nat.add_mul, one_mul]
  calc n * tenth_num / 2 ^ sh * 2 ^ sh + 2 ^ sh ≤ n * tenth_num + 2 ^ 30 :=
        Nat.add_le_add hA2 hT30
    _ < _ := hup

theorem round_double_bounds (n : Nat) (hn : n ≤ 2 ^ 31) :
    (n / 10) * 2 ^ 55 ≤ round_double (n * tenth_num) ∧
      round_double (n * tenth_num) < (n / 10 + 1) * 2 ^ 55 := by
  have hc : tenth_num = 3602879701896397 := rfl
  have hp : n * tenth_num < 2 ^ (53 + 30) := by
    rw [hc]
    have : (2 : Nat) ^ 31 * 3602879701896397 < 2 ^ (53 + 30) := by norm_num
    calc n * 3602879701896397 ≤ 2 ^ 31 * 3602879701896397 := Nat.mul_le_mul_right _ hn
      _ < _ := this
  have hsh := drop_bits_le (n * tenth_num) 30 hp (n * tenth_num) 0 (by omega)
  obtain ⟨h1, h2⟩ := round_bounds_aux n _ hn hsh
  unfold round_double
  simp only
  split
  · refine ⟨le_trans h1 (Nat.mul_le_mul_right _ (Nat.le_succ _)), h2⟩
  · refine ⟨h1, lt_of_le_of_lt (Nat.mul_le_mul_right _ (Nat.le_succ _)) h2⟩

/-- On every `int` the value `int(x * 0.1)` is the quotient of `x` by ten,
truncated towards zero. -/
theorem times_tenth_eq (x : Int) (h1 : -2147483648 ≤ x) (h2 : x ≤ INT_MAX) :
    times_tenth x = x.tdiv 10 := by
  have hn : x.natAbs ≤ 2 ^ 31 := by
    unfold INT_MAX at h2
    have : (2 : Nat) ^ 31 = 2147483648 := by norm_num
    omega
  obtain ⟨hlo, hhi⟩ := round_double_bounds x.natAbs hn
  have hv : round_double (x.natAbs * tenth_num) / 2 ^ 55 = x.natAbs / 10 :=
    Nat.div_eq_of_lt_le hlo hhi
  unfold times_tenth
  simp only [hv]
  by_cases hx : x < 0
  · simp only [hx, if_true]
    have e : x = -((x.natAbs : Nat) : Int) := by omega
    conv_rhs => rw [e]
    rw [Int.neg_tdiv, Int.ofNat_tdiv]
    rfl
  · simp only [hx, if_false]
    have e : x = ((x.natAbs : Nat) : Int) := by omega
    conv_rhs => rw [e]
    rw [Int.ofNat_tdiv]
    rfl

theorem vassals_of_some {s : Datastructures} {k : TownID} {t : Town_info}
    (h : s.find k = some t) : s.vassals_of k = t.vassals := by
  unfold vassals_of
  rw [h]

theorem mem_vassals_of {s : Datastructures} {a b : TownID} (h : b ∈ s.vassals_of a) :
    ∃ ta, s.find a = some ta ∧ b ∈ ta.vassals := by
  unfold vassals_of at h
  cases hs : s.find a with
  | none => simp [hs] at h
  | some ta =>
    rw [hs] at h
    exact ⟨ta, rfl, h⟩

theorem down_chain_nodup (s : Datastructures) (hvc : s.VassalsClosed)
    (rank : TownID → Nat)
    (hrank : ∀ p ∈ s.towns_by_id_, ∀ v ∈ p.2.vassals, rank v < rank p.1) :
    ∀ (l : List TownID) (a : TownID), s.DownChain a l → (s.find a).isSome = true →
      (∀ x ∈ l, (s.find x).isSome = true ∧ rank x ≤ rank a) ∧ l.Nodup := by
  intro l
  induction l with
  | nil => intro a h; exact absurd h.1 (by simp)
  | cons x rest ih =>
    intro a ⟨hh, hch⟩ ha
    simp at hh
    subst hh
    cases rest with
    | nil =>
      refine ⟨?_, by simp⟩
      intro y hy
      simp at hy
      subst hy
      exact ⟨ha, le_refl _⟩
    | cons b rest2 =>
      obtain ⟨hab, hch2⟩ := List.chain'_cons.1 hch
      obtain ⟨ta, hta, hb⟩ := mem_vassals_of hab
      have hmem := umap_find_some_mem hta
      have hbs := hvc _ hmem b hb
      have hlt := hrank _ hmem b hb
      simp only at hlt
      obtain ⟨hall, hnd⟩ := ih b ⟨rfl, hch2⟩ hbs
      refine ⟨?_, List.nodup_cons.2 ⟨?_, hnd⟩⟩
      · intro y hy
        rcases List.mem_cons.1 hy with e | e
        · subst e
          exact ⟨ha, le_refl _⟩
        · exact ⟨(hall y e).1, by have := (hall y e).2; omega⟩
      · intro hx
        have := (hall x hx).2
        omega

theorem down_chain_length (s : Datastructures) (hvc : s.VassalsClosed) (hac : s.Acyclic)
    (l : List TownID) (a : TownID) (h : s.DownChain a l) (ha : (s.find a).isSome = true) :
    l.length ≤ s.towns_by_id_.length := by
  obtain ⟨rank, hrank⟩ := hac
  obtain ⟨hall, hnd⟩ := down_chain_nodup s hvc rank (fun p hp => (hrank p hp).1) l a h ha
  exact length_le_of_stored s l hnd (fun x hx => (hall x hx).1)

theorem down_chain_cons {s : Datastructures} {a c : TownID} {l : List TownID}
    (hc : c ∈ s.vassals_of a) (h : s.DownChain c l) : s.DownChain a (a :: l) := by
  obtain ⟨hh, hch⟩ := h
  refine ⟨rfl, ?_⟩
  cases l with
  | nil => simp at hh
  | cons x rest =>
    simp at hh
    subst hh
    exact List.Chain'.cons hc hch

theorem net_tax_loop_spec (rec : TownID → Option Int) (gross : TownID → Int) :
    ∀ (cs : List TownID) (acc : Int),
      (∀ c ∈ cs, rec c = some (gross c) ∧ times_tenth (gross c) = (gross c).tdiv 10) →
      net_tax_loop rec cs acc = some (acc + (cs.map (fun c => (gross c).tdiv 10)).sum) := by
  intro cs
  induction cs with
  | nil => intro acc _; simp [net_tax_loop]
  | cons c rest ih =>
    intro acc h
    obtain ⟨h1, h2⟩ := h c (List.mem_cons_self _ _)
    unfold net_tax_loop
    rw [h1]
    simp only
    rw [ih _ (fun x hx => h x (List.mem_cons_of_mem _ hx)), h2]
    simp only [List.map_cons, List.sum_cons]
    congr 1
    ring

theorem recursive_total_net_tax_spec (s : Datastructures) (gross : TownID → Int)
    (hvc : s.VassalsClosed)
    (hg : ∀ p ∈ s.towns_by_id_,
      gross p.1 = p.2.tax + (p.2.vassals.map (fun c => (gross c).tdiv 10)).sum)
    (hr : s.TaxInRange gross) :
    ∀ (k : Nat) (node : TownID), (s.find node).isSome = true →
      (∀ l, s.DownChain node l → l.length ≤ k) →
      recursive_total_net_tax s k node = some (gross node) := by
  intro k
  induction k with
  | zero =>
    intro node _ hb
    have := hb [node] ⟨rfl, List.chain'_singleton _⟩
    simp at this
  | succ k ih =>
    intro node hn hb
    obtain ⟨t, ht⟩ := Option.isSome_iff_exists.1 hn
    have hmem := umap_find_some_mem ht
    have hgn := hg _ hmem
    simp only at hgn
    unfold recursive_total_net_tax
    rw [ht]
    simp only
    by_cases he : t.vassals.isEmpty = true
    · have : t.vassals = [] := List.isEmpty_iff.1 he
      simp only [he, if_true]
      rw [hgn, this]
      simp
    · simp only [he]
      have hloop := net_tax_loop_spec (recursive_total_net_tax s k) gross t.vassals 0 (by
        intro c hc
        have hcs := hvc _ hmem c hc
        obtain ⟨tc, htc⟩ := Option.isSome_iff_exists.1 hcs
        have hrc := (hr _ (umap_find_some_mem htc)).1
        simp only at hrc
        refine ⟨ih c hcs ?_, times_tenth_eq _ hrc.1 hrc.2⟩
        intro l hl
        have hc2 : c ∈ s.vassals_of node := by rw [vassals_of_some ht]; exact hc
        have := hb (node :: l) (down_chain_cons hc2 hl)
        simpa using this)
      rw [hloop, hgn]
      simp only [Bool.false_eq_true, if_false, zero_add]
      congr 1
      ring

/-- C15. Let `gross` assign to every stored town its tax plus, for each of its
vassals separately, the tenth of the vassal's `gross` truncated towards zero.  In a
state whose vassal pointers refer to stored towns and whose vassalage is acyclic,
and when all `int`s computed stay in range, `total_net_tax(id)` returns `gross(id)`
for a stored town without master and `gross(id)` less its truncated tenth for one
with a master; and on every `int` the conversion of `x * 0.1` gives the quotient
by ten truncated towards zero. -/
theorem total_net_tax_spec (s : Datastructures) (gross : TownID → Int) (id : TownID)
    (t : Town_info) (hvc : s.VassalsClosed) (hac : s.Acyclic)
    (hg : ∀ p ∈ s.towns_by_id_,
      gross p.1 = p.2.tax + (p.2.vassals.map (fun c => (gross c).tdiv 10)).sum)
    (hr : s.TaxInRange gross) (hid : s.find id = some t) :
    s.total_net_tax id
        = some (if t.master = none then gross id else gross id - (gross id).tdiv 10) ∧
      ∀ x : Int, -2147483648 ≤ x → x ≤ INT_MAX → times_tenth x = x.tdiv 10 := by
  refine ⟨?_, times_tenth_eq⟩
  have hs : (s.find id).isSome = true := by rw [hid]; rfl
  have hrec := recursive_total_net_tax_spec s gross hvc hg hr s.towns_by_id_.length id hs
    (fun l hl => down_chain_length s hvc hac l id hl hs)
  have hrange := (hr _ (umap_find_some_mem hid)).1
  simp only at hrange
  unfold total_net_tax
  rw [hid]
  simp only [hrec]
  cases hm : t.master with
  | none => simp
  | some m =>
    simp only [Option.isSome_some, if_true, reduceCtorEq, if_false]
    rw [times_tenth_eq _ hrange.1 hrange.2]

/-- Witness for C15: in `realm` the gross incomes are `3` for `X`, `40` for `F`,
`17` for `V`, `56` for `D`, `29` for `E` and `111` for `K`; `total_net_tax(D)` is
`56 - 5 = 51` and `total_net_tax(K)` is `111`. -/
theorem total_net_tax_spec_witness :
    (realm.total_net_tax "D" = some 51 ∧ realm.total_net_tax "K" = some 111) ∧
    realm.total_net_tax "D"
        = some (if (some "K" : Option TownID) = none then realm_gross "D"
            else realm_gross "D" - (realm_gross "D").tdiv 10) ∧
      ∀ x : Int, -2147483648 ≤ x → x ≤ INT_MAX → times_tenth x = x.tdiv 10 :=
  ⟨by decide,
    total_net_tax_spec realm realm_gross "D"
      ⟨"D", "Dd", ⟨2, 0⟩, 55, ["V"], some "K", [], Colour.WHITE, none, ⟨INT_MAX, INT_MAX⟩⟩
      (by decide) ⟨realm_rank, by decide⟩ (by decide) (by decide) (by decide)⟩


open Datastructures

/-! ## `longest_vassal_path` -/

theorem follows_deepest_last (s : Datastructures) :
    ∀ (l : List TownID), l ≠ [] → s.FollowsDeepest l →
      ∃ e, l.getLast? = some e ∧ s.vassals_of e = [] := by
  intro l
  induction l with
  | nil => intro h; exact absurd rfl h
  | cons a rest ih =>
    intro _ hf
    cases rest with
    | nil => exact ⟨a, rfl, hf⟩
    | cons b rest2 =>
      unfold FollowsDeepest at hf
      obtain ⟨e, he, hv⟩ := ih (by simp) hf.2
      exact ⟨e, by rw [List.getLast?_cons_cons]; exact he, hv⟩

theorem down_chain_ne_nil {s : Datastructures} {c : TownID} {l : List TownID}
    (h : s.DownChain c l) : 0 < l.length := by
  cases l with
  | nil => exact absurd h.1 (by simp)
  | cons a rest => simp

theorem longest_loop_spec (s : Datastructures) (rec : TownID → Option (List TownID)) :
    ∀ (cs pre best : List TownID),
      (∀ c ∈ cs, ∃ next, rec c = some next ∧ s.DeepestFrom c next.reverse) →
      ((pre = [] ∧ best = []) ∨
        ∃ before b after, pre = before ++ b :: after ∧ s.DeepestFrom b best.reverse ∧
          (∀ c ∈ before, ∀ l, s.DownChain c l → l.length < best.length) ∧
          (∀ c ∈ after, ∀ l, s.DownChain c l → l.length ≤ best.length)) →
      ∃ res, longest_loop rec cs best = some res ∧
        ((pre ++ cs = [] ∧ res = []) ∨
          ∃ before b after, pre ++ cs = before ++ b :: after ∧ s.DeepestFrom b res.reverse ∧
            (∀ c ∈ before, ∀ l, s.DownChain c l → l.length < res.length) ∧
            (∀ c ∈ after, ∀ l, s.DownChain c l → l.length ≤ res.length)) := by
  intro cs
  induction cs with
  | nil =>
    intro pre best _ hinv
    refine ⟨best, rfl, ?_⟩
    rw [List.append_nil]
    exact hinv
  | cons c rest ih =>
    intro pre best hrec hinv
    obtain ⟨next, hnext, hgood⟩ := hrec c (List.mem_cons_self _ _)
    have hnpos : 0 < next.length := by
      have := down_chain_ne_nil hgood.1
      simpa using this
    have hmax : ∀ l, s.DownChain c l → l.length ≤ next.length := by
      intro l hl
      have := hgood.2.2 l hl
      simpa using this
    have hstep : ∃ before b after, pre ++ [c] = before ++ b :: after ∧
        s.DeepestFrom b (if next.length > best.length then next else best).reverse ∧
        (∀ x ∈ before, ∀ l, s.DownChain x l →
          l.length < (if next.length > best.length then next else best).length) ∧
        (∀ x ∈ after, ∀ l, s.DownChain x l →
          l.length ≤ (if next.length > best.length then next else best).length) := by
      by_cases hgt : next.length > best.length
      · simp only [hgt, if_true]
        refine ⟨pre, c, [], rfl, hgood, ?_, by simp⟩
        intro x hx l hl
        rcases hinv with ⟨hp, _⟩ | ⟨before, b, after, hp, hb, hbef, haft⟩
        · rw [hp] at hx
          cases hx
        · rw [hp] at hx
          rcases List.mem_append.1 hx with h | h
          · have := hbef x h l hl
            omega
          · rcases List.mem_cons.1 h with h | h
            · subst h
              have := hb.2.2 l hl
              simp only [List.length_reverse] at this
              omega
            · have := haft x h l hl
              omega
      · simp only [hgt, if_false]
        rcases hinv with ⟨_, hb⟩ | ⟨before, b, after, hp, hb, hbef, haft⟩
        · rw [hb] at hgt
          exact absurd hnpos hgt
        · refine ⟨before, b, after ++ [c], by rw [hp]; simp, hb, hbef, ?_⟩
          intro x hx l hl
          rcases List.mem_append.1 hx with h | h
          · exact haft x h l hl
          · simp at h
            subst h
            have := hmax l hl
            omega
    obtain ⟨res, hres, hfin⟩ := ih (pre ++ [c])
      (if next.length > best.length then next else best)
      (fun x hx => hrec x (List.mem_cons_of_mem _ hx)) (Or.inr hstep)
    refine ⟨res, ?_, ?_⟩
    · unfold longest_loop
      rw [hnext]
      exact hres
    · have e : pre ++ c :: rest = pre ++ [c] ++ rest := by simp
      rw [e]
      exact hfin

theorem recursive_find_longest_spec (s : Datastructures) (hids : s.IdsOK)
    (hvc : s.VassalsClosed) :
    ∀ (k : Nat) (node : TownID), (s.find node).isSome = true →
      (∀ l, s.DownChain node l → l.length ≤ k) →
      ∃ r, recursive_find_longest s k node = some r ∧ s.DeepestFrom node r.reverse := by
  intro k
  induction k with
  | zero =>
    intro node _ hb
    have := hb [node] ⟨rfl, List.chain'_singleton _⟩
    simp at this
  | succ k ih =>
    intro node hn hb
    obtain ⟨t, ht⟩ := Option.isSome_iff_exists.1 hn
    have hmem := umap_find_some_mem ht
    have hid : t.id = node := hids _ hmem
    have hvo := vassals_of_some ht
    obtain ⟨best, hbest, hfin⟩ := longest_loop_spec s (recursive_find_longest s k)
      t.vassals [] [] (by
        intro c hc
        have hcs := hvc _ hmem c hc
        apply ih c hcs
        intro l hl
        have hc2 : c ∈ s.vassals_of node := by rw [hvo]; exact hc
        have := hb (node :: l) (down_chain_cons hc2 hl)
        simpa using this) (Or.inl ⟨rfl, rfl⟩)
    rw [List.nil_append] at hfin
    refine ⟨best ++ [t.id], ?_, ?_⟩
    · unfold recursive_find_longest
      rw [ht]
      simp only [hbest]
    · rw [List.reverse_append, hid]
      simp only [List.reverse_cons, List.reverse_nil, List.nil_append, List.singleton_append]
      rcases hfin with ⟨hv, hb0⟩ | ⟨before, b, after, hv, hgood, hbef, haft⟩
      · rw [hb0]
        simp only [List.reverse_nil]
        refine ⟨⟨rfl, List.chain'_singleton _⟩, ?_, ?_⟩
        · show s.vassals_of node = []
          rw [hvo, hv]
        · intro l2 hl2
          obtain ⟨hh, hch⟩ := hl2
          cases l2 with
          | nil => simp
          | cons a rest =>
            cases rest with
            | nil => simp
            | cons c rest2 =>
              simp at hh
              subst hh
              have := (List.chain'_cons.1 hch).1
              rw [hvo, hv] at this
              cases this
      · obtain ⟨hdc, hfd, hmx⟩ := hgood
        have hbmem : b ∈ s.vassals_of node := by
          rw [hvo, hv]
          simp
        cases hrev : best.reverse with
        | nil =>
          rw [hrev] at hdc
          exact absurd hdc.1 (by simp)
        | cons x rest =>
          rw [hrev] at hdc hfd hmx
          have hxb : x = b := by
            have := hdc.1
            simpa using this
          subst hxb
          have hlen : (x :: rest).length = best.length := by
            rw [← hrev, List.length_reverse]
          refine ⟨⟨rfl, List.Chain'.cons hbmem hdc.2⟩, ?_, ?_⟩
          · show (∃ before after, s.vassals_of node = before ++ x :: after ∧
              (∀ c ∈ before, ∀ l, s.DownChain c l → l.length < (x :: rest).length) ∧
              (∀ c ∈ after, ∀ l, s.DownChain c l → l.length ≤ (x :: rest).length)) ∧
              s.FollowsDeepest (x :: rest)
            refine ⟨⟨before, after, by rw [hvo, hv], ?_, ?_⟩, hfd⟩
            · intro c hc l hl
              rw [hlen]
              exact hbef c hc l hl
            · intro c hc l hl
              rw [hlen]
              exact haft c hc l hl
          · intro l2 hl2
            obtain ⟨hh, hch⟩ := hl2
            cases l2 with
            | nil => simp
            | cons a rest1 =>
              cases rest1 with
              | nil => simp
              | cons c rest2 =>
                simp at hh
                subst hh
                obtain ⟨hc, hch2⟩ := List.chain'_cons.1 hch
                rw [hvo, hv] at hc
                have hdc2 : s.DownChain c (c :: rest2) := ⟨rfl, hch2⟩
                have hle : (c :: rest2).length ≤ (x :: rest).length := by
                  rcases List.mem_append.1 hc with h | h
                  · have := hbef c h _ hdc2
                    rw [hlen]
                    omega
                  · rcases List.mem_cons.1 h with h | h
                    · subst h
                      exact hmx _ hdc2
                    · have := haft c h _ hdc2
                      rw [hlen]
                      exact this
                simp only [List.length_cons] at hle ⊢
                omega

/-- C16. In a state whose records carry their keys, whose vassal pointers refer to
stored towns and whose vassalage is acyclic, `longest_vassal_path(id)` of a stored
town returns a sequence that starts with `id`, lists after every town one of its
own vassals, ends at a town without vassals, is at least as long as every downward
chain from `id`, and goes at every town to the earliest vassal whose subtree holds
a longest chain. -/
theorem longest_vassal_path_spec (s : Datastructures) (id : TownID)
    (hids : s.IdsOK) (hvc : s.VassalsClosed) (hac : s.Acyclic)
    (hid : (s.find id).isSome = true) :
    ∃ l, s.longest_vassal_path id = some l ∧ l.head? = some id ∧
      List.Chain' (fun a b => b ∈ s.vassals_of a) l ∧
      (∃ e, l.getLast? = some e ∧ s.vassals_of e = []) ∧
      (∀ l2, s.DownChain id l2 → l2.length ≤ l.length) ∧
      s.FollowsDeepest l := by
  obtain ⟨t, ht⟩ := Option.isSome_iff_exists.1 hid
  obtain ⟨r, hr, hdc, hfd, hmx⟩ := recursive_find_longest_spec s hids hvc
    s.towns_by_id_.length id hid (fun l hl => down_chain_length s hvc hac l id hl hid)
  refine ⟨r.reverse, ?_, hdc.1, hdc.2, ?_, hmx, hfd⟩
  · unfold longest_vassal_path
    rw [ht]
    simp only [hr]
  · apply follows_deepest_last s _ _ hfd
    intro e
    rw [e] at hdc
    exact absurd hdc.1 (by simp)

/-- Witness for C16: in `realm` the vassals `D` and `F` of `K` both start a chain of
two towns and `E`, listed before them, a chain of one; `longest_vassal_path(K)`
returns `[K, D, V]`. -/
theorem longest_vassal_path_spec_witness :
    realm.longest_vassal_path "K" = some ["K", "D", "V"] ∧
    ∃ l, realm.longest_vassal_path "K" = some l ∧ l.head? = some "K" ∧
      List.Chain' (fun a b => b ∈ realm.vassals_of a) l ∧
      (∃ e, l.getLast? = some e ∧ realm.vassals_of e = []) ∧
      (∀ l2, realm.DownChain "K" l2 → l2.length ≤ l.length) ∧
      realm.FollowsDeepest l :=
  ⟨by decide,
    longest_vassal_path_spec realm "K" (by decide) (by decide) ⟨realm_rank, by decide⟩
      (by decide)⟩


open Datastructures

/-! ## `clear_roads` -/

/-- C24. After `clear_roads()` the list `all_roads()` is empty and `get_roads_from(t)`
is empty for every stored town `t`; the stored identifiers and the name, the
coordinates, the tax, the master and the vassal list of every town are as before. -/
theorem clear_roads_spec (s : Datastructures) :
    s.clear_roads.all_roads = [] ∧
    (∀ t, (s.find t).isSome = true → s.clear_roads.get_roads_from t = some []) ∧
    s.clear_roads.all_towns = s.all_towns ∧
    (∀ t, s.clear_roads.get_town_name t = s.get_town_name t ∧
      s.clear_roads.get_town_coordinates t = s.get_town_coordinates t ∧
      s.clear_roads.get_town_tax t = s.get_town_tax t ∧
      s.clear_roads.master_of t = s.master_of t ∧
      s.clear_roads.vassals_of t = s.vassals_of t) := by
  have hfind : ∀ k, s.clear_roads.find k
      = (s.find k).map (fun t => { t with roads_to := [] }) := by
    intro k
    exact umap_find_map s.towns_by_id_ (fun t => { t with roads_to := [] }) k
  refine ⟨rfl, ?_, ?_, ?_⟩
  · intro t ht
    unfold Datastructures.get_roads_from
    rw [hfind t]
    cases h : s.find t with
    | none => rw [h] at ht; cases ht
    | some r => rfl
  · unfold Datastructures.all_towns Datastructures.clear_roads
    simp [List.map_map, Function.comp_def]
  · intro t
    unfold Datastructures.get_town_name Datastructures.get_town_coordinates
      Datastructures.get_town_tax Datastructures.master_of Datastructures.vassals_of
    rw [hfind t]
    cases s.find t <;> exact ⟨rfl, rfl, rfl, rfl, rfl⟩

/-! ## Reachable states with stale roads -/

theorem reach_two_towns (ok : Datastructures → TownID → TownID → Prop) :
    Reach ok two_towns :=
  Reach.add_town _ "B" "Bb" ⟨3, 4⟩ 2 (Reach.add_town _ "A" "Aa" ⟨0, 0⟩ 1 Reach.empty)

theorem reach_lonely_road (ok : Datastructures → TownID → TownID → Prop) :
    Reach ok lonely_road :=
  Reach.remove_town one_road "A" true lonely_road
    (Reach.add_road two_towns "A" "B" (reach_two_towns ok)) (by decide)

theorem reach_stale_road (ok : Datastructures → TownID → TownID → Prop) :
    Reach ok stale_road :=
  Reach.add_town lonely_road "A" "Aa" ⟨0, 0⟩ 1 (reach_lonely_road ok)

/-- C23. In the reachable state built by `add_town A`, `add_town B`, `add_road A B`,
`remove_town A`, `add_town A` the call `remove_road(A, B)` returns false, and yet it
empties `all_roads()` and the adjacency list of `B`. -/
theorem remove_road_false_changes :
    Reachable stale_road ∧
    stale_road.all_roads = [("A", "B")] ∧
    (stale_road.find "A").map Town_info.roads_to = some [] ∧
    (stale_road.find "B").map Town_info.roads_to = some ["A"] ∧
    (stale_road.remove_road "A" "B").map
        (fun r => (r.1, r.2.all_roads, (r.2.find "A").map Town_info.roads_to,
          (r.2.find "B").map Town_info.roads_to))
      = some (false, [], some [], some []) :=
  ⟨reach_stale_road _, by decide, by decide, by decide, by decide⟩

/-- C28. Two reachable states break the road invariant.  After `add_town A`,
`add_town B`, `add_road A B`, `remove_town A` the adjacency list of `B` holds `A`,
which is not stored.  After `add_town A` again both towns are stored, `A` is in the
adjacency list of `B` and `B` is not in the adjacency list of `A`. -/
theorem roads_not_symmetric_after_remove_town :
    Reachable lonely_road ∧
    (lonely_road.find "B").map Town_info.roads_to = some ["A"] ∧
    lonely_road.find "A" = none ∧ ¬ lonely_road.RoadsClosed ∧
    Reachable stale_road ∧
    (stale_road.find "B").map Town_info.roads_to = some ["A"] ∧
    (stale_road.find "A").map Town_info.roads_to = some [] ∧ ¬ stale_road.RoadsSymm :=
  ⟨reach_lonely_road _, by decide, by decide, by decide, reach_stale_road _, by decide,
    by decide, by decide⟩

/-- C29. Two reachable states break the enumeration invariant.  After `add_town A`,
`add_town B`, `add_road A B`, `remove_town A`, `add_town A` the pair `(A, B)` is in
`all_roads()` and `B` is not in the adjacency list of `A`.  After `add_road A B` in
that state the pair occurs twice in `all_roads()` and `A` occurs twice in the
adjacency list of `B`. -/
theorem all_roads_not_canonical_after_remove_town :
    Reachable stale_road ∧
    ("A", "B") ∈ stale_road.all_roads ∧ string_lt "A" "B" = true ∧
    (stale_road.find "A").map Town_info.roads_to = some [] ∧
    Reachable (stale_road.add_road "A" "B").2 ∧
    (stale_road.add_road "A" "B").2.all_roads = [("A", "B"), ("A", "B")] ∧
    ¬ (stale_road.add_road "A" "B").2.all_roads.Nodup ∧
    ((stale_road.add_road "A" "B").2.find "B").map Town_info.roads_to = some ["A", "A"] ∧
    ¬ (stale_road.add_road "A" "B").2.RoadsNodup :=
  ⟨reach_stale_road _, by decide, by decide, by decide,
    Reach.add_road stale_road "A" "B" (reach_stale_road _), by decide, by decide, by decide,
    by decide⟩


open Datastructures

/-! ## `remove_road` on states whose road structures agree -/

theorem erase_road_loop_skip (p q : TownID) (k : Nat) :
    ∀ (idx : Nat) (buf : List (TownID × TownID)) (n : Nat),
      idx + k = buf.length → (∀ e ∈ buf.drop idx, e ≠ (p, q) ∧ e ≠ (q, p)) →
      erase_road_loop p q k idx (buf, n) = some (buf, n) := by
  induction k with
  | zero => intro idx buf n _ _; rfl
  | succ k ih =>
    intro idx buf n hlen hne
    have hidx : idx < buf.length := by omega
    have hget : buf.get? idx = some (buf.get ⟨idx, hidx⟩) := List.get?_eq_get hidx
    have hmem : buf.get ⟨idx, hidx⟩ ∈ buf.drop idx := by
      rw [List.drop_eq_getElem_cons hidx]
      exact List.mem_cons_self _ _
    have hneq := hne _ hmem
    unfold erase_road_loop
    rw [erase_road_if_skip p q idx buf n _ hget hneq.1]
    simp only
    rw [erase_road_if_skip q p idx buf n _ hget hneq.2]
    simp only
    apply ih (idx + 1) buf n (by omega)
    intro e he
    apply hne
    rw [List.drop_eq_getElem_cons hidx]
    exact List.mem_cons_of_mem _ he

/-- In a state with distinct keys, symmetric adjacency lists and pairs backed by
the adjacency lists, `remove_road(a, b)` returns false and leaves the state as it is
when `a` or `b` is absent or `b` is not in the adjacency list of `a`. -/
theorem remove_road_false_unchanged (s : Datastructures) (a b : TownID)
    (hn : s.KeysNodup) (hsym : s.RoadsSymm) (hl : s.RoadsListed)
    (h : s.find a = none ∨ s.find b = none ∨ b ∉ s.neighbours a) :
    s.remove_road a b = some (false, s) := by
  unfold remove_road
  cases ha : s.find a with
  | none => rfl
  | some ta =>
    cases hb : s.find b with
    | none => rfl
    | some tb =>
      have hma := umap_find_some_mem ha
      have hmb := umap_find_some_mem hb
      have hba : b ∉ ta.roads_to := by
        rcases h with h | h | h
        · rw [ha] at h; cases h
        · rw [hb] at h; cases h
        · rw [neighbours_some ha] at h; exact h
      have hab : a ∉ tb.roads_to := fun hin => hba (hsym (b, tb) hmb (a, ta) hma hin)
      have h1 : (a, b) ∉ s.roads_ := fun hin => hba ((hl (a, b) hin (a, ta) hma).1 rfl)
      have h2 : (b, a) ∉ s.roads_ := fun hin => hba ((hl (b, a) hin (a, ta) hma).2 rfl)
      simp only
      rw [erase_ptr_loop_skip b ta.roads_to.length 0 ta.roads_to ta.roads_to.length false
        (by simp) (by
          intro e he e1
          simp only [List.drop_zero] at he
          rw [e1] at he
          exact hba he)]
      simp only [List.take_length]
      have hm1 : umap_modify s.towns_by_id_ a (fun t => { t with roads_to := ta.roads_to })
          = s.towns_by_id_ := by
        apply umap_modify_id_of
        intro p hp hpa
        have : p.2 = ta := by
          have h3 := umap_find_of_mem hn (show (p.1, p.2) ∈ s.towns_by_id_ from hp)
          rw [hpa] at h3
          unfold find at ha
          rw [ha] at h3
          injection h3 with h3
          exact h3.symm
        rw [this]
      rw [hm1]
      unfold find at hb
      rw [hb]
      simp only
      rw [erase_ptr_loop_skip a tb.roads_to.length 0 tb.roads_to tb.roads_to.length false
        (by simp) (by
          intro e he e1
          simp only [List.drop_zero] at he
          rw [e1] at he
          exact hab he)]
      simp only [List.take_length]
      have hm2 : umap_modify s.towns_by_id_ b (fun t => { t with roads_to := tb.roads_to })
          = s.towns_by_id_ := by
        apply umap_modify_id_of
        intro p hp hpb
        have : p.2 = tb := by
          have h3 := umap_find_of_mem hn (show (p.1, p.2) ∈ s.towns_by_id_ from hp)
          rw [hpb, hb] at h3
          injection h3 with h3
          exact h3.symm
        rw [this]
      rw [hm2]
      rw [erase_road_loop_skip a b s.roads_.length 0 s.roads_ s.roads_.length (by simp)
        (by
          intro e he
          simp only [List.drop_zero] at he
          exact ⟨fun e1 => h1 (e1 ▸ he), fun e1 => h2 (e1 ▸ he)⟩)]
      simp only [List.take_length]


open Datastructures

/-! ## Sorted listings -/

theorem sorted_insert_perm {α : Type} (lt : α → α → Bool) (x : α) :
    ∀ l : List α, (sorted_insert lt x l).Perm (x :: l) := by
  intro l
  induction l with
  | nil => exact List.Perm.refl _
  | cons e es ih =>
    unfold sorted_insert
    by_cases h : lt x e = true
    · rw [if_pos h]
    · rw [if_neg h]
      exact (List.Perm.cons e ih).trans (List.Perm.swap x e es)

theorem foldl_insert_perm {α : Type} (lt : α → α → Bool) :
    ∀ (l sorted : List α),
      (l.foldl (fun sorted x => sorted_insert lt x sorted) sorted).Perm (sorted ++ l) := by
  intro l
  induction l with
  | nil => intro sorted; simp
  | cons x xs ih =>
    intro sorted
    rw [List.foldl_cons]
    refine (ih _).trans ?_
    refine ((sorted_insert_perm lt x sorted).append_right xs).trans ?_
    exact List.perm_middle.symm

theorem std_sort_perm {α : Type} (lt : α → α → Bool) (l : List α) : (std_sort lt l).Perm l := by
  unfold std_sort
  simpa using foldl_insert_perm lt l []

theorem sorted_insert_pairwise {α β : Type} [LinearOrder β] (key : α → β) (lt : α → α → Bool)
    (hlt : ∀ a b, lt a b = true ↔ key a < key b) (x : α) :
    ∀ l : List α, l.Pairwise (fun a b => key a ≤ key b) →
      (sorted_insert lt x l).Pairwise (fun a b => key a ≤ key b) := by
  intro l
  induction l with
  | nil => intro _; simp [sorted_insert]
  | cons e es ih =>
    intro h
    rw [List.pairwise_cons] at h
    unfold sorted_insert
    by_cases hx : lt x e = true
    · rw [if_pos hx]
      have hxe : key x < key e := (hlt x e).1 hx
      refine List.Pairwise.cons ?_ (List.Pairwise.cons h.1 h.2)
      intro b hb
      rcases List.mem_cons.1 hb with rfl | hb
      · exact le_of_lt hxe
      · exact le_trans (le_of_lt hxe) (h.1 b hb)
    · rw [if_neg hx]
      have hex : key e ≤ key x := not_lt.1 (fun h1 => hx ((hlt x e).2 h1))
      refine List.Pairwise.cons ?_ (ih h.2)
      intro b hb
      rcases List.mem_cons.1 ((sorted_insert_perm lt x es).subset hb) with rfl | hb
      · exact hex
      · exact h.1 b hb

theorem std_sort_pairwise {α β : Type} [LinearOrder β] (key : α → β) (lt : α → α → Bool)
    (hlt : ∀ a b, lt a b = true ↔ key a < key b) (l : List α) :
    (std_sort lt l).Pairwise (fun a b => key a ≤ key b) := by
  unfold std_sort
  have : ∀ (l sorted : List α), sorted.Pairwise (fun a b => key a ≤ key b) →
      (l.foldl (fun sorted x => sorted_insert lt x sorted) sorted).Pairwise
        (fun a b => key a ≤ key b) := by
    intro l
    induction l with
    | nil => intro sorted h; exact h
    | cons x xs ih =>
      intro sorted h
      rw [List.foldl_cons]
      exact ih _ (sorted_insert_pairwise key lt hlt x sorted h)
  exact this l [] List.Pairwise.nil

/-- Under distinct keys a stored entry is the one `find` returns for its key. -/
theorem find_of_mem_keys {s : Datastructures} (hn : s.KeysNodup) {p : TownID × Town_info}
    (hp : p ∈ s.towns_by_id_) : s.find p.1 = some p.2 :=
  umap_find_of_mem hn hp

/-- C21. In a state with distinct keys `towns_alphabetically()` is a permutation of
`all_towns()`, holds every identifier once, and the name of a town is never
greater, under the string comparison of the program, than the name of a town that
comes later in the list. -/
theorem towns_alphabetically_sorted (s : Datastructures) (hn : s.KeysNodup) :
    s.towns_alphabetically.Perm s.all_towns ∧ s.towns_alphabetically.Nodup ∧
    s.towns_alphabetically.Pairwise
      (fun a b => string_lt (s.get_town_name b) (s.get_town_name a) = false) := by
  have hperm := std_sort_perm
    (fun town1 town2 : TownID × Town_info => string_lt town1.2.name town2.2.name)
    s.towns_by_id_
  have hp : s.towns_alphabetically.Perm s.all_towns := hperm.map Prod.fst
  refine ⟨hp, (hp.nodup_iff).2 hn, ?_⟩
  have hs := std_sort_pairwise (fun p : TownID × Town_info => p.2.name)
    (fun town1 town2 : TownID × Town_info => string_lt town1.2.name town2.2.name)
    (fun a b => string_lt_iff a.2.name b.2.name) s.towns_by_id_
  unfold Datastructures.towns_alphabetically
  rw [List.pairwise_map]
  refine List.Pairwise.imp_of_mem ?_ hs
  intro a b ha hb hab
  have ha2 := find_of_mem_keys hn (hperm.subset ha)
  have hb2 := find_of_mem_keys hn (hperm.subset hb)
  unfold Datastructures.get_town_name
  rw [ha2, hb2]
  cases h : string_lt b.2.name a.2.name with
  | false => rfl
  | true => exact absurd ((string_lt_iff _ _).1 h) (not_lt.2 hab)

/-- C21, at the realm of six towns. -/
theorem towns_alphabetically_sorted_witness :
    realm.KeysNodup ∧
    (realm.towns_alphabetically.Perm realm.all_towns ∧ realm.towns_alphabetically.Nodup ∧
      realm.towns_alphabetically.Pairwise
        (fun a b => string_lt (realm.get_town_name b) (realm.get_town_name a) = false)) :=
  ⟨by decide, towns_alphabetically_sorted realm (by decide)⟩

/-- Integer distance of a stored town from the origin: the floor of the square root
of `x*x + y*y`. -/
theorem towns_distance_key (s : Datastructures) (hn : s.KeysNodup) {p : TownID × Town_info}
    (hp : p ∈ s.towns_by_id_) :
    Nat.sqrt ((s.get_town_coordinates p.1).x * (s.get_town_coordinates p.1).x
      + (s.get_town_coordinates p.1).y * (s.get_town_coordinates p.1).y).toNat
    = isqrt (p.2.coords.x * p.2.coords.x + p.2.coords.y * p.2.coords.y).toNat := by
  unfold Datastructures.get_town_coordinates
  rw [find_of_mem_keys hn hp, isqrt_eq_sqrt]

/-- C22. In a state with distinct keys in which `x*x + y*y` stays within `int` for
every town, `towns_distance_increasing()` is a permutation of `all_towns()`, holds
every identifier once, and the floor of the square root of `x*x + y*y` of a town is
at most that of every town that comes later in the list. -/
theorem towns_distance_increasing_sorted (s : Datastructures) (hn : s.KeysNodup)
    (_hov : ∀ p ∈ s.towns_by_id_,
      p.2.coords.x * p.2.coords.x + p.2.coords.y * p.2.coords.y ≤ INT_MAX) :
    s.towns_distance_increasing.Perm s.all_towns ∧ s.towns_distance_increasing.Nodup ∧
    s.towns_distance_increasing.Pairwise (fun a b =>
      Nat.sqrt ((s.get_town_coordinates a).x * (s.get_town_coordinates a).x
        + (s.get_town_coordinates a).y * (s.get_town_coordinates a).y).toNat
      ≤ Nat.sqrt ((s.get_town_coordinates b).x * (s.get_town_coordinates b).x
        + (s.get_town_coordinates b).y * (s.get_town_coordinates b).y).toNat) := by
  let f : TownID × Town_info → TownID × Int := fun town =>
    (town.1, ((isqrt (town.2.coords.x * town.2.coords.x
      + town.2.coords.y * town.2.coords.y).toNat : Nat) : Int))
  have hperm := std_sort_perm (fun a b : TownID × Int => decide (a.2 < b.2))
    (s.towns_by_id_.map f)
  have hp : s.towns_distance_increasing.Perm s.all_towns := by
    have := hperm.map Prod.fst
    unfold Datastructures.towns_distance_increasing Datastructures.all_towns
    refine this.trans ?_
    rw [List.map_map]
    exact List.Perm.refl _
  refine ⟨hp, (hp.nodup_iff).2 hn, ?_⟩
  have hs := std_sort_pairwise (fun p : TownID × Int => p.2)
    (fun a b : TownID × Int => decide (a.2 < b.2))
    (fun a b => by simp) (s.towns_by_id_.map f)
  unfold Datastructures.towns_distance_increasing
  rw [List.pairwise_map]
  refine List.Pairwise.imp_of_mem ?_ hs
  intro a b ha hb hab
  obtain ⟨pa, hpa, rfl⟩ := List.mem_map.1 (hperm.subset ha)
  obtain ⟨pb, hpb, rfl⟩ := List.mem_map.1 (hperm.subset hb)
  show Nat.sqrt _ ≤ Nat.sqrt _
  rw [towns_distance_key s hn hpa, towns_distance_key s hn hpb]
  exact Int.ofNat_le.1 hab

/-- C22, at the five towns of the detour example. -/
theorem towns_distance_increasing_sorted_witness :
    detour.KeysNodup ∧
    (∀ p ∈ detour.towns_by_id_,
      p.2.coords.x * p.2.coords.x + p.2.coords.y * p.2.coords.y ≤ INT_MAX) ∧
    (detour.towns_distance_increasing.Perm detour.all_towns ∧
      detour.towns_distance_increasing.Nodup ∧
      detour.towns_distance_increasing.Pairwise (fun a b =>
        Nat.sqrt ((detour.get_town_coordinates a).x * (detour.get_town_coordinates a).x
          + (detour.get_town_coordinates a).y * (detour.get_town_coordinates a).y).toNat
        ≤ Nat.sqrt ((detour.get_town_coordinates b).x * (detour.get_town_coordinates b).x
          + (detour.get_town_coordinates b).y * (detour.get_town_coordinates b).y).toNat)) :=
  ⟨by decide, by decide, towns_distance_increasing_sorted detour (by decide) (by decide)⟩


open Datastructures

/-! ## The vassalage invariant along the operations -/

theorem acyclic_find {s : Datastructures} (h : s.Acyclic) :
    ∃ rank : TownID → Nat, ∀ k t, s.find k = some t →
      (∀ v ∈ t.vassals, rank v < rank k) ∧ (∀ m, t.master = some m → rank k < rank m) := by
  obtain ⟨rank, hr⟩ := h
  exact ⟨rank, fun k t hk => hr (k, t) (umap_find_some_mem hk)⟩

theorem acyclic_of_find {s : Datastructures} (hn : s.KeysNodup) (rank : TownID → Nat)
    (h : ∀ k t, s.find k = some t →
      (∀ v ∈ t.vassals, rank v < rank k) ∧ (∀ m, t.master = some m → rank k < rank m)) :
    s.Acyclic :=
  ⟨rank, fun p hp => h p.1 p.2 (umap_find_of_mem hn hp)⟩

theorem vassal_inv_empty : VassalInv Datastructures.empty :=
  ⟨List.nodup_nil, fun k t h => (by cases h), fun k t h => (by cases h),
    fun k t h => (by cases h), fun k t h => (by cases h)⟩

theorem acyclic_empty : Datastructures.empty.Acyclic :=
  ⟨fun _ => 0, fun p hp => by cases hp⟩

/-! ### Operations that leave the links alone -/

theorem links_some {s s1 : Datastructures}
    (hf : ∀ k, (s1.find k).map Town_info.links = (s.find k).map Town_info.links)
    {k : TownID} {t1 : Town_info} (h : s1.find k = some t1) :
    ∃ t, s.find k = some t ∧ t.id = t1.id ∧ t.vassals = t1.vassals ∧ t.master = t1.master := by
  have := hf k
  rw [h] at this
  cases hs : s.find k with
  | none => rw [hs] at this; cases this
  | some t =>
    rw [hs] at this
    simp only [Option.map_some', Option.some.injEq, Town_info.links, Prod.mk.injEq] at this
    exact ⟨t, rfl, this.1.symm, this.2.1.symm, this.2.2.symm⟩

theorem vassal_inv_frame {s s1 : Datastructures} (hk : s1.all_towns = s.all_towns)
    (hf : ∀ k, (s1.find k).map Town_info.links = (s.find k).map Town_info.links)
    (h : VassalInv s) : VassalInv s1 := by
  have hb : ∀ k, (s.find k).map Town_info.links = (s1.find k).map Town_info.links :=
    fun k => (hf k).symm
  refine ⟨?_, ?_, ?_, ?_, ?_⟩
  · show (s1.all_towns).Nodup
    rw [hk]; exact h.keys
  · intro k t1 h1
    obtain ⟨t, ht, e1, _, _⟩ := links_some hf h1
    rw [← e1]; exact h.ids k t ht
  · intro k t1 h1 v hv
    obtain ⟨t, ht, _, e2, _⟩ := links_some hf h1
    rw [← e2] at hv
    obtain ⟨tv, htv, hm⟩ := h.owned k t ht v hv
    obtain ⟨tv1, htv1, _, _, e3⟩ := links_some hb htv
    exact ⟨tv1, htv1, by rw [e3]; exact hm⟩
  · intro k t1 h1 m hm
    obtain ⟨t, ht, _, _, e3⟩ := links_some hf h1
    rw [← e3] at hm
    obtain ⟨tm, htm, hkm⟩ := h.listed k t ht m hm
    obtain ⟨tm1, htm1, _, e2, _⟩ := links_some hb htm
    exact ⟨tm1, htm1, by rw [e2]; exact hkm⟩
  · intro k t1 h1
    obtain ⟨t, ht, _, e2, _⟩ := links_some hf h1
    rw [← e2]; exact h.nodup k t ht

theorem acyclic_frame {s s1 : Datastructures} (hk : s1.all_towns = s.all_towns)
    (hf : ∀ k, (s1.find k).map Town_info.links = (s.find k).map Town_info.links)
    (hn : s.KeysNodup) (h : s.Acyclic) : s1.Acyclic := by
  obtain ⟨rank, hr⟩ := acyclic_find h
  refine acyclic_of_find (by show (s1.all_towns).Nodup; rw [hk]; exact hn) rank ?_
  intro k t1 h1
  obtain ⟨t, ht, _, e2, e3⟩ := links_some hf h1
  rw [← e2, ← e3]
  exact hr k t ht

theorem umap_links_modify (m : List (TownID × Town_info)) (r : TownID)
    (f : Town_info → Town_info) (hf : ∀ t, (f t).links = t.links) (k : TownID) :
    (umap_find (umap_modify m r f) k).map Town_info.links
      = (umap_find m k).map Town_info.links := by
  rw [umap_find_modify]
  by_cases h : k = r
  · rw [if_pos h]
    cases umap_find m k with
    | none => rfl
    | some t => simp [hf]
  · rw [if_neg h]

theorem umap_links_modify_roads (m : List (TownID × Town_info)) (r : TownID)
    (g : Town_info → List TownID) (k : TownID) :
    (umap_find (umap_modify m r (fun t => { t with roads_to := g t })) k).map Town_info.links
      = (umap_find m k).map Town_info.links :=
  umap_links_modify m r (fun t => { t with roads_to := g t }) (fun _ => rfl) k

theorem frame_change_town_name (s : Datastructures) (id : TownID) (n : Name) :
    (s.change_town_name id n).2.all_towns = s.all_towns ∧
    ∀ k, ((s.change_town_name id n).2.find k).map Town_info.links
      = (s.find k).map Town_info.links := by
  unfold Datastructures.change_town_name
  cases h : s.find id with
  | none => exact ⟨rfl, fun _ => rfl⟩
  | some t =>
    simp only
    refine ⟨?_, fun k => ?_⟩
    · unfold Datastructures.all_towns
      simp only [umap_modify_keys]
    · exact umap_links_modify s.towns_by_id_ id (fun t => { t with name := n })
        (fun _ => rfl) k

theorem frame_clear_roads (s : Datastructures) :
    s.clear_roads.all_towns = s.all_towns ∧
    ∀ k, (s.clear_roads.find k).map Town_info.links = (s.find k).map Town_info.links := by
  refine ⟨?_, fun k => ?_⟩
  · unfold Datastructures.all_towns Datastructures.clear_roads
    simp [List.map_map, Function.comp_def]
  · have : s.clear_roads.find k = (s.find k).map (fun t => { t with roads_to := [] }) :=
      umap_find_map s.towns_by_id_ (fun t => { t with roads_to := [] }) k
    rw [this]
    cases s.find k <;> rfl

theorem frame_add_road (s : Datastructures) (a b : TownID) :
    (s.add_road a b).2.all_towns = s.all_towns ∧
    ∀ k, ((s.add_road a b).2.find k).map Town_info.links
      = (s.find k).map Town_info.links := by
  unfold Datastructures.add_road
  cases h1 : s.find a with
  | none => exact ⟨rfl, fun _ => rfl⟩
  | some t1 =>
    cases h2 : s.find b with
    | none => exact ⟨rfl, fun _ => rfl⟩
    | some t2 =>
      simp only
      by_cases e : a = b
      · rw [if_pos e]; exact ⟨rfl, fun _ => rfl⟩
      · by_cases e2 : b ∈ t1.roads_to
        · rw [if_neg e, if_pos e2]; exact ⟨rfl, fun _ => rfl⟩
        · rw [if_neg e, if_neg e2]
          refine ⟨?_, fun k => ?_⟩
          · unfold Datastructures.all_towns
            simp only [umap_modify_keys]
          · unfold Datastructures.find
            simp only
            rw [umap_links_modify_roads, umap_links_modify_roads]

theorem frame_remove_road (s : Datastructures) (a b : TownID) (r : Bool) (s1 : Datastructures)
    (h : s.remove_road a b = some (r, s1)) :
    s1.all_towns = s.all_towns ∧
    ∀ k, (s1.find k).map Town_info.links = (s.find k).map Town_info.links := by
  unfold Datastructures.remove_road at h
  cases h1 : s.find a with
  | none =>
    rw [h1] at h
    simp only [Option.some.injEq, Prod.mk.injEq] at h
    rw [← h.2]; exact ⟨rfl, fun _ => rfl⟩
  | some t1 =>
    rw [h1] at h
    cases h2 : s.find b with
    | none =>
      rw [h2] at h
      simp only [Option.some.injEq, Prod.mk.injEq] at h
      rw [← h.2]; exact ⟨rfl, fun _ => rfl⟩
    | some t2 =>
      rw [h2] at h
      simp only at h
      cases e1 : erase_ptr_loop b t1.roads_to.length 0 t1.roads_to t1.roads_to.length false with
      | none => rw [e1] at h; cases h
      | some x1 =>
        obtain ⟨buf1, n1, found⟩ := x1
        rw [e1] at h
        simp only at h
        cases e2 : umap_find (umap_modify s.towns_by_id_ a
            (fun t => { t with roads_to := List.take n1 buf1 })) b with
        | none => rw [e2] at h; cases h
        | some u2 =>
          rw [e2] at h
          simp only at h
          cases e3 : erase_ptr_loop a u2.roads_to.length 0 u2.roads_to u2.roads_to.length
              false with
          | none => rw [e3] at h; cases h
          | some x2 =>
            obtain ⟨buf2, n2, f2⟩ := x2
            rw [e3] at h
            simp only at h
            cases e4 : erase_road_loop a b s.roads_.length 0 (s.roads_, s.roads_.length) with
            | none => rw [e4] at h; cases h
            | some x3 =>
              obtain ⟨buf3, n3⟩ := x3
              rw [e4] at h
              simp only [Option.some.injEq, Prod.mk.injEq] at h
              rw [← h.2]
              refine ⟨?_, fun k => ?_⟩
              · unfold Datastructures.all_towns
                simp only [umap_modify_keys]
              · unfold Datastructures.find
                simp only
                rw [umap_links_modify_roads, umap_links_modify_roads]

/-! ### `add_town` -/

theorem vassal_inv_add_town (s : Datastructures) (id : TownID) (n : Name) (c : Coord) (x : Int)
    (h : VassalInv s) : VassalInv (s.add_town id n c x).2 := by
  unfold Datastructures.add_town
  cases hid : s.find id with
  | some t => exact h
  | none =>
    simp only
    have hf : ∀ k t1, (Datastructures.mk (s.towns_by_id_ ++
        [(id, ⟨id, n, c, x, [], none, [], Colour.WHITE, none, ⟨INT_MAX, INT_MAX⟩⟩)])
        s.roads_).find k = some t1 →
        s.find k = some t1 ∨ (s.find k = none ∧ k = id ∧ t1.id = id ∧ t1.vassals = [] ∧
          t1.master = none) := by
      intro k t1 hk
      unfold Datastructures.find at hk
      rw [find_append_new] at hk
      cases hs : umap_find s.towns_by_id_ k with
      | some y =>
        rw [hs] at hk
        left
        show umap_find s.towns_by_id_ k = some t1
        rw [hs]; exact hk
      | none =>
        rw [hs] at hk
        right
        by_cases e : id = k
        · simp only [e, if_true, Option.some.injEq] at hk
          rw [← hk]
          exact ⟨hs, e.symm, e.symm, rfl, rfl⟩
        · simp only [e, if_false] at hk
          cases hk
    have hold : ∀ k t, s.find k = some t → (Datastructures.mk (s.towns_by_id_ ++
        [(id, ⟨id, n, c, x, [], none, [], Colour.WHITE, none, ⟨INT_MAX, INT_MAX⟩⟩)])
        s.roads_).find k = some t := by
      intro k t hk
      unfold Datastructures.find at hk ⊢
      rw [find_append_new, hk]
    refine ⟨?_, ?_, ?_, ?_, ?_⟩
    · show (List.map Prod.fst (s.towns_by_id_ ++ _)).Nodup
      rw [List.map_append]
      refine List.Nodup.append h.keys (by simp) ?_
      intro a ha hb
      simp only [List.map_cons, List.map_nil, List.mem_singleton] at hb
      subst hb
      exact (umap_find_none_iff _ _).1 hid ha
    · intro k t1 hk
      rcases hf k t1 hk with h1 | ⟨_, e, e1, _, _⟩
      · exact h.ids k t1 h1
      · rw [e1, e]
    · intro k t1 hk v hv
      rcases hf k t1 hk with h1 | ⟨_, _, _, e2, _⟩
      · obtain ⟨tv, htv, hm⟩ := h.owned k t1 h1 v hv
        exact ⟨tv, hold v tv htv, hm⟩
      · rw [e2] at hv; cases hv
    · intro k t1 hk m hm
      rcases hf k t1 hk with h1 | ⟨_, _, _, _, e3⟩
      · obtain ⟨tm, htm, hkm⟩ := h.listed k t1 h1 m hm
        exact ⟨tm, hold m tm htm, hkm⟩
      · rw [e3] at hm; cases hm
    · intro k t1 hk
      rcases hf k t1 hk with h1 | ⟨_, _, _, e2, _⟩
      · exact h.nodup k t1 h1
      · rw [e2]; exact List.nodup_nil

theorem acyclic_add_town (s : Datastructures) (id : TownID) (n : Name) (c : Coord) (x : Int)
    (h : s.Acyclic) : (s.add_town id n c x).2.Acyclic := by
  unfold Datastructures.add_town
  cases hid : s.find id with
  | some t => exact h
  | none =>
    obtain ⟨rank, hr⟩ := h
    refine ⟨rank, ?_⟩
    intro p hp
    rcases List.mem_append.1 hp with h1 | h1
    · exact hr p h1
    · simp only [List.mem_singleton] at h1
      subst h1
      exact ⟨fun v hv => (by cases hv), fun m hm => (by cases hm)⟩

/-! ### `add_vassalship` -/

theorem vassal_inv_add_vassalship (s : Datastructures) (v m : TownID) (h : VassalInv s) :
    VassalInv (s.add_vassalship v m).2 := by
  cases hb : (s.add_vassalship v m).1 with
  | false => rw [add_vassalship_false_state s v m hb]; exact h
  | true =>
    obtain ⟨vt, hv, hvm, hms⟩ := (add_vassalship_true_iff s v m).1 hb
    obtain ⟨mt, hmt⟩ := Option.isSome_iff_exists.1 hms
    have hf := add_vassalship_find s v m hb
    have hnew : ∀ k t1, (s.add_vassalship v m).2.find k = some t1 →
        ∃ t, s.find k = some t ∧ t1.id = t.id ∧
          t1.vassals = (if k = m then t.vassals ++ [v] else t.vassals) ∧
          t1.master = (if k = v then some m else t.master) := by
      intro k t1 hk
      rw [hf k] at hk
      cases hs : s.find k with
      | none => rw [hs] at hk; cases hk
      | some t =>
        rw [hs] at hk
        simp only [Option.map_some', Option.some.injEq] at hk
        rw [← hk]
        exact ⟨t, rfl, rfl, rfl, rfl⟩
    have hold : ∀ k t, s.find k = some t →
        ∃ t1, (s.add_vassalship v m).2.find k = some t1 ∧
          t1.vassals = (if k = m then t.vassals ++ [v] else t.vassals) ∧
          t1.master = (if k = v then some m else t.master) := by
      intro k t hk
      rw [hf k, hk]
      exact ⟨_, rfl, rfl, rfl⟩
    have hnotv : ∀ k t, s.find k = some t → ∀ x ∈ t.vassals, x ≠ v := by
      intro k t hk x hx e
      subst e
      obtain ⟨tx, htx, hm⟩ := h.owned k t hk x hx
      rw [hv] at htx
      injection htx with e2
      rw [← e2, hvm] at hm
      cases hm
    refine ⟨?_, ?_, ?_, ?_, ?_⟩
    · show (List.map Prod.fst (s.add_vassalship v m).2.towns_by_id_).Nodup
      rw [add_vassalship_true_state s v m hb]
      simp only [umap_modify_keys]
      exact h.keys
    · intro k t1 hk
      obtain ⟨t, ht, e1, _, _⟩ := hnew k t1 hk
      rw [e1]; exact h.ids k t ht
    · intro k t1 hk x hx
      obtain ⟨t, ht, _, e2, _⟩ := hnew k t1 hk
      rw [e2] at hx
      have hcase : x ∈ t.vassals ∨ (k = m ∧ x = v) := by
        by_cases e : k = m
        · rw [if_pos e] at hx
          rcases List.mem_append.1 hx with h1 | h1
          · exact Or.inl h1
          · exact Or.inr ⟨e, List.mem_singleton.1 h1⟩
        · rw [if_neg e] at hx; exact Or.inl hx
      rcases hcase with h1 | ⟨e, e'⟩
      · obtain ⟨tx, htx, hm⟩ := h.owned k t ht x h1
        obtain ⟨tx1, htx1, _, e3⟩ := hold x tx htx
        refine ⟨tx1, htx1, ?_⟩
        rw [e3, if_neg (hnotv k t ht x h1)]
        exact hm
      · obtain ⟨tx1, htx1, _, e3⟩ := hold v vt hv
        refine ⟨tx1, by rw [e']; exact htx1, ?_⟩
        rw [e3, if_pos rfl, e]
    · intro k t1 hk m1 hm1
      obtain ⟨t, ht, _, _, e3⟩ := hnew k t1 hk
      rw [e3] at hm1
      by_cases e : k = v
      · rw [if_pos e] at hm1
        injection hm1 with hm1
        subst hm1
        obtain ⟨tm1, htm1, e2, _⟩ := hold m mt hmt
        refine ⟨tm1, htm1, ?_⟩
        rw [e2, if_pos rfl, e]
        exact List.mem_append_right _ (List.mem_singleton.2 rfl)
      · rw [if_neg e] at hm1
        obtain ⟨tm, htm, hkm⟩ := h.listed k t ht m1 hm1
        obtain ⟨tm1, htm1, e2, _⟩ := hold m1 tm htm
        refine ⟨tm1, htm1, ?_⟩
        rw [e2]
        by_cases e4 : m1 = m
        · rw [if_pos e4]; exact List.mem_append_left _ hkm
        · rw [if_neg e4]; exact hkm
    · intro k t1 hk
      obtain ⟨t, ht, _, e2, _⟩ := hnew k t1 hk
      rw [e2]
      by_cases e : k = m
      · rw [if_pos e]
        refine List.Nodup.append (h.nodup k t ht) (List.nodup_singleton v) ?_
        intro a ha hb
        exact hnotv k t ht a ha (List.mem_singleton.1 hb)
      · rw [if_neg e]; exact h.nodup k t ht


open Datastructures

/-! ### `remove_town` -/

theorem vassal_inv_remove_town (s : Datastructures) (id : TownID) (b : Bool)
    (s1 : Datastructures) (h : VassalInv s) (hac : s.Acyclic)
    (hr : s.remove_town id = some (b, s1)) : VassalInv s1 ∧ s1.Acyclic := by
  cases hfind : s.find id with
  | none =>
    unfold Datastructures.remove_town at hr
    rw [hfind] at hr
    simp only [Option.some.injEq, Prod.mk.injEq] at hr
    rw [← hr.2]
    exact ⟨h, hac⟩
  | some node =>
    obtain ⟨rank, hrank⟩ := acyclic_find hac
    obtain ⟨s2, h2, _, hkeys, hf⟩ := remove_town_find s id node hfind
      (fun v hv => by
        obtain ⟨tv, htv, _⟩ := h.owned id node hfind v hv
        rw [htv]; rfl)
      (h.listed id node hfind)
    rw [h2] at hr
    simp only [Option.some.injEq, Prod.mk.injEq] at hr
    rw [← hr.2]
    -- facts on the removed town
    have F1 : ∀ v ∈ node.vassals, ∃ tv, s.find v = some tv ∧ tv.master = some id :=
      h.owned id node hfind
    have F2 : id ∉ node.vassals := fun hin =>
      absurd ((hrank id node hfind).1 id hin) (lt_irrefl _)
    have F3 : ∀ m, node.master = some m → m ≠ id := by
      intro m hm e
      subst e
      exact absurd ((hrank m node hfind).2 m hm) (lt_irrefl _)
    have hnew : ∀ k t1, s2.find k = some t1 → k ≠ id ∧ ∃ t, s.find k = some t ∧
        t1.id = t.id ∧
        t1.master = (if k ∈ node.vassals then node.master else t.master) ∧
        t1.vassals = (if node.master = some k then (t.vassals ++ node.vassals).erase id
          else t.vassals) := by
      intro k t1 hk
      rw [hf k] at hk
      by_cases e : k = id
      · rw [if_pos e] at hk; cases hk
      · rw [if_neg e] at hk
        refine ⟨e, ?_⟩
        cases hs : s.find k with
        | none => rw [hs] at hk; cases hk
        | some t =>
          rw [hs] at hk
          simp only [Option.map_some', Option.some.injEq] at hk
          rw [← hk]
          exact ⟨t, rfl, rfl, rfl, rfl⟩
    have hold : ∀ k t, k ≠ id → s.find k = some t → ∃ t1, s2.find k = some t1 ∧
        t1.master = (if k ∈ node.vassals then node.master else t.master) ∧
        t1.vassals = (if node.master = some k then (t.vassals ++ node.vassals).erase id
          else t.vassals) := by
      intro k t e hk
      rw [hf k, if_neg e, hk]
      exact ⟨_, rfl, rfl, rfl⟩
    -- the vassal list of the master of the removed town, joined with the orphans
    have hjoin : ∀ k t, s.find k = some t → node.master = some k →
        (t.vassals ++ node.vassals).Nodup := by
      intro k t hk hmk
      refine List.Nodup.append (h.nodup k t hk) (h.nodup id node hfind) ?_
      intro a ha hb
      obtain ⟨ta, hta, hma⟩ := h.owned k t hk a ha
      obtain ⟨ta2, hta2, hma2⟩ := F1 a hb
      rw [hta] at hta2
      injection hta2 with e
      rw [e, hma2] at hma
      injection hma with e2
      exact F3 k hmk e2.symm
    have hkn : s2.KeysNodup := by
      show (List.map Prod.fst s2.towns_by_id_).Nodup
      rw [hkeys]
      exact List.Nodup.filter _ h.keys
    refine ⟨⟨hkn, ?_, ?_, ?_, ?_⟩, ?_⟩
    · intro k t1 hk
      obtain ⟨_, t, ht, e1, _, _⟩ := hnew k t1 hk
      rw [e1]; exact h.ids k t ht
    · -- owned
      intro k t1 hk v hv
      obtain ⟨hkid, t, ht, _, _, e3⟩ := hnew k t1 hk
      rw [e3] at hv
      by_cases hmk : node.master = some k
      · rw [if_pos hmk] at hv
        have hv2 := ((hjoin k t ht hmk).mem_erase_iff).1 hv
        rcases List.mem_append.1 hv2.2 with h1 | h1
        · obtain ⟨tv, htv, hm⟩ := h.owned k t ht v h1
          obtain ⟨tv1, htv1, e2, _⟩ := hold v tv hv2.1 htv
          refine ⟨tv1, htv1, ?_⟩
          rw [e2]
          by_cases e : v ∈ node.vassals
          · rw [if_pos e]; exact hmk
          · rw [if_neg e]; exact hm
        · obtain ⟨tv, htv, hm⟩ := F1 v h1
          obtain ⟨tv1, htv1, e2, _⟩ := hold v tv hv2.1 htv
          refine ⟨tv1, htv1, ?_⟩
          rw [e2, if_pos h1]; exact hmk
      · rw [if_neg hmk] at hv
        obtain ⟨tv, htv, hm⟩ := h.owned k t ht v hv
        have hvid : v ≠ id := by
          intro e
          subst e
          rw [hfind] at htv
          injection htv with e2
          rw [← e2] at hm
          exact hmk hm
        have hvv : v ∉ node.vassals := by
          intro hin
          obtain ⟨tv2, htv2, hm2⟩ := F1 v hin
          rw [htv] at htv2
          injection htv2 with e
          rw [← e, hm] at hm2
          injection hm2 with e2
          exact hkid e2
        obtain ⟨tv1, htv1, e2, _⟩ := hold v tv hvid htv
        refine ⟨tv1, htv1, ?_⟩
        rw [e2, if_neg hvv]; exact hm
    · -- listed
      intro k t1 hk m1 hm1
      obtain ⟨hkid, t, ht, _, e2, _⟩ := hnew k t1 hk
      rw [e2] at hm1
      by_cases hkv : k ∈ node.vassals
      · rw [if_pos hkv] at hm1
        obtain ⟨tm, htm, _⟩ := h.listed id node hfind m1 hm1
        obtain ⟨tm1, htm1, _, e3⟩ := hold m1 tm (F3 m1 hm1) htm
        refine ⟨tm1, htm1, ?_⟩
        rw [e3, if_pos hm1]
        exact (List.mem_erase_of_ne hkid).2 (List.mem_append_right _ hkv)
      · rw [if_neg hkv] at hm1
        obtain ⟨tm, htm, hkm⟩ := h.listed k t ht m1 hm1
        have hmid : m1 ≠ id := by
          intro e
          subst e
          rw [hfind] at htm
          injection htm with e3
          rw [← e3] at hkm
          exact hkv hkm
        obtain ⟨tm1, htm1, _, e3⟩ := hold m1 tm hmid htm
        refine ⟨tm1, htm1, ?_⟩
        rw [e3]
        by_cases hmm : node.master = some m1
        · rw [if_pos hmm]
          exact (List.mem_erase_of_ne hkid).2 (List.mem_append_left _ hkm)
        · rw [if_neg hmm]; exact hkm
    · -- nodup
      intro k t1 hk
      obtain ⟨_, t, ht, _, _, e3⟩ := hnew k t1 hk
      rw [e3]
      by_cases hmk : node.master = some k
      · rw [if_pos hmk]; exact (hjoin k t ht hmk).erase id
      · rw [if_neg hmk]; exact h.nodup k t ht
    · -- the same rank serves
      refine acyclic_of_find hkn rank ?_
      intro k t1 hk
      obtain ⟨hkid, t, ht, _, e2, e3⟩ := hnew k t1 hk
      refine ⟨?_, ?_⟩
      · intro v hv
        rw [e3] at hv
        by_cases hmk : node.master = some k
        · rw [if_pos hmk] at hv
          rcases List.mem_append.1 (List.mem_of_mem_erase hv) with h1 | h1
          · exact (hrank k t ht).1 v h1
          · exact lt_trans ((hrank id node hfind).1 v h1) ((hrank id node hfind).2 k hmk)
        · rw [if_neg hmk] at hv
          exact (hrank k t ht).1 v hv
      · intro m1 hm1
        rw [e2] at hm1
        by_cases hkv : k ∈ node.vassals
        · rw [if_pos hkv] at hm1
          exact lt_trans ((hrank id node hfind).1 k hkv) ((hrank id node hfind).2 m1 hm1)
        · rw [if_neg hkv] at hm1
          exact (hrank k t ht).2 m1 hm1

/-! ### Acyclicity after `add_vassalship` -/

/-- In a chain every element is the last one or is followed by a related element of
the chain. -/
theorem chain_next {α : Type} (R : α → α → Prop) :
    ∀ (l : List α), List.Chain' R l → ∀ x ∈ l, l.getLast? = some x ∨ ∃ y ∈ l, R x y := by
  intro l
  induction l with
  | nil => intro _ x hx; cases hx
  | cons a rest ih =>
    intro hc x hx
    cases rest with
    | nil =>
      left
      rw [List.mem_singleton.1 hx]; rfl
    | cons b rest2 =>
      rw [List.chain'_cons] at hc
      rcases List.mem_cons.1 hx with e | hx2
      · right
        exact ⟨b, List.mem_cons_of_mem _ (List.mem_cons_self _ _), by rw [e]; exact hc.1⟩
      · rcases ih hc.2 x hx2 with h1 | ⟨y, hy, hxy⟩
        · left
          rw [List.getLast?_cons_cons]; exact h1
        · right
          exact ⟨y, List.mem_cons_of_mem _ hy, hxy⟩

/-- A call `add_vassalship(v, m)` in which the walk up from `m` does not pass `v`
leaves an acyclic vassalage acyclic. -/
theorem acyclic_add_vassalship (s : Datastructures) (v m : TownID) (h : VassalInv s)
    (hac : s.Acyclic) (hok : s.AddsNoCycle v m) : (s.add_vassalship v m).2.Acyclic := by
  cases hb : (s.add_vassalship v m).1 with
  | false => rw [add_vassalship_false_state s v m hb]; exact hac
  | true =>
    obtain ⟨vt, hv, hvm, hms⟩ := (add_vassalship_true_iff s v m).1 hb
    have hf := add_vassalship_find s v m hb
    obtain ⟨l, hl, hvl⟩ := hok
    obtain ⟨l2, hl2, hhead, _, hch, r, hlast, _, hrm⟩ := taxer_path_chain s h.ids
      (fun k t hk m1 hm1 => by
        obtain ⟨tm, htm, _⟩ := h.listed k t hk m1 hm1
        rw [htm]; rfl) hac m hms
    rw [hl] at hl2
    injection hl2 with e
    subst e
    have hml : m ∈ l := List.mem_of_mem_head? hhead
    -- the walk is closed under taking the master
    have hclosed : ∀ x ∈ l, ∀ y, s.master_of x = some y → y ∈ l := by
      intro x hx y hxy
      rcases chain_next _ l hch x hx with h1 | ⟨z, hz, hxz⟩
      · rw [hlast] at h1
        injection h1 with e
        rw [← e, hrm] at hxy
        cases hxy
      · rw [hxy] at hxz
        injection hxz with e
        rw [e]; exact hz
    obtain ⟨rank, hrank⟩ := acyclic_find hac
    have hkn : (s.add_vassalship v m).2.KeysNodup := (vassal_inv_add_vassalship s v m h).keys
    refine acyclic_of_find hkn (fun x => rank x + (if x ∈ l then rank v + 1 else 0)) ?_
    intro k t1 hk
    rw [hf k] at hk
    cases hs : s.find k with
    | none => rw [hs] at hk; cases hk
    | some t =>
      rw [hs] at hk
      simp only [Option.map_some', Option.some.injEq] at hk
      rw [← hk]
      simp only
      have hup : ∀ x y, s.master_of x = some y → rank x < rank y →
          rank x + (if x ∈ l then rank v + 1 else 0)
            < rank y + (if y ∈ l then rank v + 1 else 0) := by
        intro x y hxy hlt
        by_cases hx : x ∈ l
        · rw [if_pos hx, if_pos (hclosed x hx y hxy)]
          omega
        · rw [if_neg hx]
          by_cases hy : y ∈ l
          · rw [if_pos hy]; omega
          · rw [if_neg hy]; omega
      have hnewpair : rank v + (if v ∈ l then rank v + 1 else 0)
          < rank m + (if m ∈ l then rank v + 1 else 0) := by
        rw [if_neg hvl, if_pos hml]
        omega
      refine ⟨?_, ?_⟩
      · intro x hx
        have hcase : x ∈ t.vassals ∨ (k = m ∧ x = v) := by
          by_cases e : k = m
          · rw [if_pos e] at hx
            rcases List.mem_append.1 hx with h1 | h1
            · exact Or.inl h1
            · exact Or.inr ⟨e, List.mem_singleton.1 h1⟩
          · rw [if_neg e] at hx; exact Or.inl hx
        rcases hcase with h1 | ⟨e1, e2⟩
        · obtain ⟨tx, htx, hm⟩ := h.owned k t hs x h1
          refine hup x k ?_ ((hrank k t hs).1 x h1)
          unfold Datastructures.master_of
          rw [htx]; exact hm
        · rw [e1, e2]; exact hnewpair
      · intro m1 hm1
        by_cases e : k = v
        · rw [if_pos e] at hm1
          injection hm1 with hm1
          rw [e, ← hm1]; exact hnewpair
        · rw [if_neg e] at hm1
          refine hup k m1 ?_ ((hrank k t hs).2 m1 hm1)
          unfold Datastructures.master_of
          rw [hs]; exact hm1

/-! ### The invariant in reachable states -/

/-- When the calls of `add_vassalship` keep the vassalage acyclic, every reachable
state has mutual back-references and an acyclic vassalage. -/
theorem reach_vassal_inv (ok : Datastructures → TownID → TownID → Prop)
    (hok : ∀ s v m, VassalInv s → s.Acyclic → ok s v m → (s.add_vassalship v m).2.Acyclic) :
    ∀ s, Reach ok s → VassalInv s ∧ s.Acyclic := by
  intro s h
  induction h with
  | empty => exact ⟨vassal_inv_empty, acyclic_empty⟩
  | add_town s id n c x _ ih =>
    exact ⟨vassal_inv_add_town s id n c x ih.1, acyclic_add_town s id n c x ih.2⟩
  | remove_town s id b s1 _ hr ih => exact vassal_inv_remove_town s id b s1 ih.1 ih.2 hr
  | add_road s a b _ ih =>
    obtain ⟨hk, hf⟩ := frame_add_road s a b
    exact ⟨vassal_inv_frame hk hf ih.1, acyclic_frame hk hf ih.1.keys ih.2⟩
  | remove_road s a b r s1 _ hr ih =>
    obtain ⟨hk, hf⟩ := frame_remove_road s a b r s1 hr
    exact ⟨vassal_inv_frame hk hf ih.1, acyclic_frame hk hf ih.1.keys ih.2⟩
  | clear_roads s _ ih =>
    obtain ⟨hk, hf⟩ := frame_clear_roads s
    exact ⟨vassal_inv_frame hk hf ih.1, acyclic_frame hk hf ih.1.keys ih.2⟩
  | clear_all s _ _ => exact ⟨vassal_inv_empty, acyclic_empty⟩
  | add_vassalship s v m _ hokv ih =>
    exact ⟨vassal_inv_add_vassalship s v m ih.1, hok s v m ih.1 ih.2 hokv⟩
  | change_town_name s id n _ ih =>
    obtain ⟨hk, hf⟩ := frame_change_town_name s id n
    exact ⟨vassal_inv_frame hk hf ih.1, acyclic_frame hk hf ih.1.keys ih.2⟩

theorem reach_three_towns (ok : Datastructures → TownID → TownID → Prop) :
    Reach ok three_towns :=
  Reach.add_town _ "C" "Cc" ⟨6, 8⟩ 3
    (Reach.add_town _ "B" "Bb" ⟨3, 4⟩ 2 (Reach.add_town _ "A" "Aa" ⟨0, 0⟩ 1 Reach.empty))


open Datastructures

/-! ## Back-references and acyclicity of the vassalage -/

theorem reach_heir_staying : Reach StaysAcyclic heir :=
  Reach.remove_town two_lieges "B" true heir
    (Reach.add_vassalship _ "B" "C"
      (Reach.add_vassalship three_towns "A" "B" (reach_three_towns _) ⟨abc_rank, by decide⟩)
      ⟨abc_rank, by decide⟩)
    (by decide)

theorem reach_heir_careful : Reach AddsNoCycle heir :=
  Reach.remove_town two_lieges "B" true heir
    (Reach.add_vassalship _ "B" "C"
      (Reach.add_vassalship three_towns "A" "B" (reach_three_towns _)
        ⟨["B"], by decide, by decide⟩)
      ⟨["C"], by decide, by decide⟩)
    (by decide)

/-- C30. In every state reached from the empty store by operations whose
`add_vassalship` calls keep the vassalage acyclic: for stored towns `v` and `m`, `v`
is in the vassal list of `m` exactly when the master of `v` is `m`; no vassal list
holds a town twice; no town is in the vassal lists of two towns; and every master
and every listed vassal is a stored town. -/
theorem vassal_links_mutual (s : Datastructures) (h : Reach StaysAcyclic s) :
    (∀ v m tv tm, s.find v = some tv → s.find m = some tm →
      (v ∈ tm.vassals ↔ tv.master = some m)) ∧
    (∀ m tm, s.find m = some tm → tm.vassals.Nodup) ∧
    (∀ m1 m2 t1 t2 v, s.find m1 = some t1 → s.find m2 = some t2 →
      v ∈ t1.vassals → v ∈ t2.vassals → m1 = m2) ∧
    (∀ k t, s.find k = some t →
      (∀ m, t.master = some m → (s.find m).isSome = true) ∧
      (∀ v ∈ t.vassals, (s.find v).isSome = true)) := by
  obtain ⟨inv, _⟩ := reach_vassal_inv StaysAcyclic (fun _ _ _ _ _ hok => hok) s h
  refine ⟨?_, inv.nodup, ?_, ?_⟩
  · intro v m tv tm hv hm
    constructor
    · intro hin
      obtain ⟨tv2, htv2, hm2⟩ := inv.owned m tm hm v hin
      rw [hv] at htv2
      injection htv2 with e
      rw [e]; exact hm2
    · intro hmas
      obtain ⟨tm2, htm2, hin⟩ := inv.listed v tv hv m hmas
      rw [hm] at htm2
      injection htm2 with e
      rw [e]; exact hin
  · intro m1 m2 t1 t2 v h1 h2 hv1 hv2
    obtain ⟨tv, htv, hm1⟩ := inv.owned m1 t1 h1 v hv1
    obtain ⟨tv2, htv2, hm2⟩ := inv.owned m2 t2 h2 v hv2
    rw [htv] at htv2
    injection htv2 with e
    rw [← e, hm1] at hm2
    injection hm2
  · intro k t hk
    refine ⟨?_, ?_⟩
    · intro m hm
      obtain ⟨tm, htm, _⟩ := inv.listed k t hk m hm
      rw [htm]; rfl
    · intro v hv
      obtain ⟨tv, htv, _⟩ := inv.owned k t hk v hv
      rw [htv]; rfl

/-- C30, at the state built by three `add_town`, `add_vassalship(A, B)`,
`add_vassalship(B, C)` and `remove_town(B)`. -/
theorem vassal_links_mutual_witness :
    Reach StaysAcyclic heir ∧
    ((∀ v m tv tm, heir.find v = some tv → heir.find m = some tm →
      (v ∈ tm.vassals ↔ tv.master = some m)) ∧
    (∀ m tm, heir.find m = some tm → tm.vassals.Nodup) ∧
    (∀ m1 m2 t1 t2 v, heir.find m1 = some t1 → heir.find m2 = some t2 →
      v ∈ t1.vassals → v ∈ t2.vassals → m1 = m2) ∧
    (∀ k t, heir.find k = some t →
      (∀ m, t.master = some m → (heir.find m).isSome = true) ∧
      (∀ v ∈ t.vassals, (heir.find v).isSome = true))) :=
  ⟨reach_heir_staying, vassal_links_mutual heir reach_heir_staying⟩

/-- C27, as stated, fails: the state built by `add_town(A)` and
`add_vassalship(A, A)` is reachable, and in it `A` is its own master. -/
theorem vassalage_cycle_reachable :
    Reachable self_vassal ∧ self_vassal.master_of "A" = some "A" ∧
    self_vassal.vassals_of "A" = ["A"] ∧ ¬ self_vassal.Acyclic := by
  refine ⟨?_, by decide, by decide, ?_⟩
  · exact Reach.add_vassalship _ "A" "A"
      (Reach.add_town _ "A" "Aa" ⟨0, 0⟩ 0 Reach.empty) trivial
  · rintro ⟨rank, hr⟩
    have h1 : ("A", (⟨"A", "Aa", ⟨0, 0⟩, 0, ["A"], some "A", [], Colour.WHITE, none,
        ⟨INT_MAX, INT_MAX⟩⟩ : Town_info)) ∈ self_vassal.towns_by_id_ := by decide
    exact absurd ((hr _ h1).2 "A" rfl) (lt_irrefl _)

/-- C27, as amended. In every state reached from the empty store by operations in
which every call `add_vassalship(v, m)` is made when the walk `taxer_path(m)` ends
and does not pass `v`, the vassalage is acyclic: no town is its own master, and the
walk up from any stored town ends, follows the master links and passes no town
twice. -/
theorem vassalage_acyclic (s : Datastructures) (h : Reach AddsNoCycle s) :
    s.Acyclic ∧ (∀ k, s.master_of k ≠ some k) ∧
    ∀ k, (s.find k).isSome = true →
      ∃ l, s.taxer_path k = some l ∧ l.head? = some k ∧ l.Nodup ∧
        List.Chain' (fun a b => s.master_of a = some b) l ∧
        ∃ r, l.getLast? = some r ∧ s.master_of r = none := by
  obtain ⟨inv, hac⟩ := reach_vassal_inv AddsNoCycle
    (fun s v m hi ha hok => acyclic_add_vassalship s v m hi ha hok) s h
  refine ⟨hac, ?_, ?_⟩
  · intro k hk
    obtain ⟨rank, hr⟩ := acyclic_find hac
    unfold Datastructures.master_of at hk
    cases hs : s.find k with
    | none => rw [hs] at hk; cases hk
    | some t =>
      rw [hs] at hk
      exact absurd ((hr k t hs).2 k hk) (lt_irrefl _)
  · intro k hk
    obtain ⟨l, hl, hhead, hnd, hch, r, hlast, _, hrm⟩ := taxer_path_chain s inv.ids
      (fun k t hk m1 hm1 => by
        obtain ⟨tm, htm, _⟩ := inv.listed k t hk m1 hm1
        rw [htm]; rfl) hac k hk
    exact ⟨l, hl, hhead, hnd, hch, r, hlast, hrm⟩

/-- C27 as amended, at the state built by three `add_town`, `add_vassalship(A, B)`,
`add_vassalship(B, C)` and `remove_town(B)`. -/
theorem vassalage_acyclic_witness :
    Reach AddsNoCycle heir ∧
    (heir.Acyclic ∧ (∀ k, heir.master_of k ≠ some k) ∧
    ∀ k, (heir.find k).isSome = true →
      ∃ l, heir.taxer_path k = some l ∧ l.head? = some k ∧ l.Nodup ∧
        List.Chain' (fun a b => heir.master_of a = some b) l ∧
        ∃ r, l.getLast? = some r ∧ heir.master_of r = none) :=
  ⟨reach_heir_careful, vassalage_acyclic heir reach_heir_careful⟩


open Datastructures

/-! ## The route of `road_cycle_route` closes a simple cycle -/

/-- The road end at which the inner loop stops is not the predecessor of the
current town. -/
theorem dfs_for_found_pi (cur : TownID) :
    ∀ (rs : List TownID) (s : Datastructures) (stack : List TownID) (s1 : Datastructures)
      (stack1 : List TownID) (r : TownID),
      dfs_for cur rs s stack = some (s1, stack1, some r) → s1.pi_of cur ≠ some r := by
  intro rs
  induction rs with
  | nil =>
    intro s stack s1 stack1 r h
    unfold dfs_for at h
    cases h
  | cons x rs ih =>
    intro s stack s1 stack1 r h
    unfold dfs_for at h
    cases hx : s.find x with
    | none => rw [hx] at h; cases h
    | some rt =>
      rw [hx] at h
      simp only at h
      generalize (if rt.colour = Colour.WHITE then
          (⟨umap_modify s.towns_by_id_ x (fun t => { t with pi := some cur }), s.roads_⟩ :
            Datastructures)
         else s) = sa at h
      generalize (if rt.colour = Colour.WHITE then x :: stack else stack) = stacka at h
      cases hc : sa.find cur with
      | none => rw [hc] at h; cases h
      | some ct =>
        cases hr : sa.find x with
        | none => rw [hc, hr] at h; cases h
        | some rt1 =>
          rw [hc, hr] at h
          simp only at h
          by_cases c1 : some x = ct.pi
          · rw [if_pos c1] at h
            exact ih sa stacka s1 stack1 r h
          · rw [if_neg c1] at h
            by_cases c2 : rt1.colour = Colour.GRAY
            · rw [if_pos c2] at h
              by_cases c3 : rt1.pi = some cur
              · rw [if_pos c3] at h
                exact ih sa stacka s1 stack1 r h
              · rw [if_neg c3] at h
                simp only [Option.some.injEq, Prod.mk.injEq] at h
                obtain ⟨e1, _, e3⟩ := h
                subst e1
                subst e3
                rw [pi_of_some hc]
                exact fun e => c1 e.symm
            · rw [if_neg c2] at h
              exact ih sa stacka s1 stack1 r h

/-- When the search stops at a road end `r`, the list `cycle_road` ends with the
current town `e` and `r`, and `r` is not the predecessor of `e`. -/
theorem dfs_while_found_pi :
    ∀ (fuel : Nat) (s : Datastructures) (stack cr : List TownID) (s1 : Datastructures)
      (cr1 : List TownID) (r : TownID),
      dfs_while fuel s stack cr = some (s1, cr1, some r) →
      ∃ cr0 e, cr1 = cr0 ++ [e] ++ [r] ∧ s1.pi_of e ≠ some r := by
  intro fuel
  induction fuel with
  | zero =>
    intro s stack cr s1 cr1 r h
    cases stack with
    | nil => unfold dfs_while at h; cases h
    | cons e rest => unfold dfs_while at h; cases h
  | succ k ih =>
    intro s stack cr s1 cr1 r h
    cases stack with
    | nil => unfold dfs_while at h; cases h
    | cons e rest =>
      unfold dfs_while at h
      cases he : s.find e with
      | none => rw [he] at h; cases h
      | some ct =>
        rw [he] at h
        simp only at h
        by_cases hw : ct.colour = Colour.WHITE
        · rw [if_pos hw] at h
          cases hf : dfs_for e ct.roads_to
              ⟨umap_modify s.towns_by_id_ e (fun t => { t with colour := Colour.GRAY }),
                s.roads_⟩ (e :: rest) with
          | none => rw [hf] at h; cases h
          | some res =>
            obtain ⟨s2, stack2, found⟩ := res
            rw [hf] at h
            cases found with
            | none =>
              simp only at h
              exact ih s2 stack2 _ s1 cr1 r h
            | some x =>
              simp only [Option.some.injEq, Prod.mk.injEq] at h
              obtain ⟨e1, e2, e3⟩ := h
              subst e1
              subst e3
              exact ⟨cr, e, e2.symm, dfs_for_found_pi e _ _ _ _ _ _ hf⟩
        · rw [if_neg hw] at h
          exact ih _ rest _ s1 cr1 r h

/-- The run of `road_cycle_route` in a state with distinct keys, records carrying
their keys and valid road pointers: the loop returns; without a road end found the
result is empty; with a road end `r` found the result is the chain `G` of gray
towns from the start to the current town `e`, followed by `r`, where `r` is on the
chain and is not the predecessor of `e`. -/
theorem road_cycle_route_trace (s : Datastructures) (start : TownID)
    (hn : s.KeysNodup) (hids : s.IdsOK) (hcl : s.RoadsClosed)
    (hs : (s.find start).isSome = true) :
    ∃ s1 cr1 res route,
      dfs_while (s.towns_by_id_.length + s.road_slots + 1) s.reset_marks [start] []
        = some (s1, cr1, res) ∧
      s.road_cycle_route start = some (route, s1) ∧
      (res = none → route = []) ∧
      (∀ r, res = some r → ∃ (G : List TownID) (e : TownID), route = G.reverse ++ [r] ∧
        G.head? = some e ∧ G.getLast? = some start ∧ r ∈ G ∧ G.Nodup ∧ s.Road e r ∧
        List.Chain' (fun x y => s1.pi_of x = some y) G ∧
        List.Chain' s.Road G.reverse ∧ s1.pi_of e ≠ some r) := by
  cases hfs : s.find start with
  | none => simp [hfs] at hs
  | some ts =>
    have init := dfs_initial s start ts hfs
    obtain ⟨s1, cr1, res, h1, h2, h3⟩ :=
      dfs_while_inv s start hcl _ _ _ [] [] init (dfs_measure_initial s hn start)
    cases res with
    | none =>
      refine ⟨s1, cr1, none, [], h1, ?_, fun _ => rfl, fun r hr => (by cases hr)⟩
      unfold road_cycle_route
      simp only [hfs, h1]
    | some r =>
      obtain ⟨G, e, cr0, stack, inv, hhead, hcr, hgray, hroad⟩ := h3 r rfl
      obtain ⟨cr0b, e2, hcr2, hpi⟩ := dfs_while_found_pi _ _ _ _ _ _ _ h1
      have hee : e2 = e := by
        have k1 : cr1.get? (cr1.length - 2) = some e := by
          rw [hcr, List.get?_eq_getElem?]
          have e1 : (cr0 ++ [e] ++ [r]).length - 2 = cr0.length := by simp
          rw [e1, List.append_assoc, List.getElem?_append_right (le_refl _)]
          simp
        have k2 : cr1.get? (cr1.length - 2) = some e2 := by
          rw [hcr2, List.get?_eq_getElem?]
          have e1 : (cr0b ++ [e2] ++ [r]).length - 2 = cr0b.length := by simp
          rw [e1, List.append_assoc, List.getElem?_append_right (le_refl _)]
          simp
        rw [k1] at k2
        injection k2 with k2
        exact k2.symm
      rw [hee] at hpi
      have hrG : r ∈ G := (inv.gray_iff r).1 hgray
      have hstG : ∀ v ∈ G, (s1.find v).isSome = true := by
        intro v hv
        have := (inv.gray_iff v).2 hv
        unfold colour_of at this
        cases h : s1.find v with
        | none => simp [h] at this
        | some t => rfl
      have hids1 := ids_of_persistent inv.same hids
      cases hfr : s1.find r with
      | none => have := hstG r hrG; simp [hfr] at this
      | some lt =>
        have hid : lt.id = r := hids1 r lt hfr
        have hget : cr1.get? (cr1.length - 2) = some e := by
          rw [hcr, List.get?_eq_getElem?]
          have e1 : (cr0 ++ [e] ++ [r]).length - 2 = cr0.length := by simp
          rw [e1, List.append_assoc, List.getElem?_append_right (le_refl _)]
          simp
        have hlen2 : ¬ cr1.length < 2 := by
          rw [hcr]; simp
        have hGlen : G.length ≤ s.towns_by_id_.length := by
          rw [← length_of_persistent inv.same]
          exact length_le_of_stored s1 G inv.nodup hstG
        have hwalk := walk_pi_along s1 hids1 G e hhead inv.chain
          (fun x hx => (inv.root x hx).2) hstG _ hGlen [lt.id]
        have hlast : G.getLast? = some start := by
          cases hl : G.getLast? with
          | none =>
            have : G = [] := List.getLast?_eq_none_iff.1 hl
            rw [this] at hrG
            simp at hrG
          | some x => rw [(inv.root x hl).1]
        refine ⟨s1, cr1, some r, ([lt.id] ++ G).reverse, h1, ?_, fun h => (by cases h), ?_⟩
        · unfold road_cycle_route
          simp only [hfs, h1, hfr, hget, hlen2, if_false, hwalk]
        intro r2 hr2
        injection hr2 with hr2
        subst hr2
        refine ⟨G, e, ?_, hhead, hlast, hrG, inv.nodup, hroad, inv.chain, ?_, hpi⟩
        · rw [hid]; simp
        · rw [List.chain'_reverse]
          exact inv.chain.imp (fun a b h => inv.pi_road a b h)

/-- No town is a road end of itself. -/
theorem road_irrefl {s : Datastructures} (hself : s.NoSelfRoad)
    (x : TownID) : ¬ s.Road x x := by
  intro h
  unfold Road neighbours at h
  cases hx : s.find x with
  | none => rw [hx] at h; cases h
  | some t =>
    rw [hx] at h
    exact hself (x, t) (umap_find_some_mem hx) h

/-- A town `r` of the gray chain `G` that is neither the current town `e` nor its
predecessor lies at least two towns before the end of the reversed chain. -/
theorem cycle_split (pi : TownID → Option TownID) (G : List TownID) (e r : TownID)
    (hhead : G.head? = some e) (hrG : r ∈ G) (hre : r ≠ e)
    (hch : List.Chain' (fun x y => pi x = some y) G) (hpi : pi e ≠ some r) :
    ∃ A B : List TownID, G.reverse = A ++ r :: B ∧ 2 ≤ B.length := by
  cases G with
  | nil => simp at hrG
  | cons e0 G1 =>
    simp only [List.head?_cons, Option.some.injEq] at hhead
    subst hhead
    have hr1 : r ∈ G1 := by
      rcases List.mem_cons.1 hrG with h | h
      · exact absurd h hre
      · exact h
    cases G1 with
    | nil => simp at hr1
    | cons p G2 =>
      have hp : pi e0 = some p := (List.chain'_cons.1 hch).1
      have hrp : r ≠ p := by
        intro e1
        rw [e1] at hpi
        exact hpi hp
      have hr2 : r ∈ G2 := by
        rcases List.mem_cons.1 hr1 with h | h
        · exact absurd h hrp
        · exact h
      obtain ⟨A, B1, hsplit⟩ := List.append_of_mem (List.mem_reverse.2 hr2)
      refine ⟨A, B1 ++ [p, e0], ?_, by simp⟩
      simp only [List.reverse_cons, hsplit, List.append_assoc, List.cons_append,
        List.singleton_append, List.nil_append]

/-- C25. In a state with distinct keys, records carrying their keys, valid road
pointers and no road from a town to itself, `road_cycle_route(start)` returns for
every stored start town, and a non-empty result starts with the start town, joins
every two consecutive towns by a road, and has the form `A ++ r :: B ++ [r]` where
the towns of `A ++ r :: B` are pairwise distinct and `B` holds at least two towns:
the last town occurs exactly once before, and `r :: B` is a simple cycle of at least
three towns closed by the last road. -/
theorem road_cycle_route_simple_cycle (s : Datastructures) (start : TownID)
    (hn : s.KeysNodup) (hids : s.IdsOK) (hcl : s.RoadsClosed) (hself : s.NoSelfRoad)
    (hs : (s.find start).isSome = true) :
    ∃ route s1, s.road_cycle_route start = some (route, s1) ∧
      (route ≠ [] → route.head? = some start ∧ List.Chain' s.Road route ∧
        ∃ (A B : List TownID) (r : TownID), route = A ++ r :: B ++ [r] ∧
          (A ++ r :: B).Nodup ∧ 2 ≤ B.length) := by
  obtain ⟨s1, cr1, res, route, _, h2, h3, h4⟩ := road_cycle_route_trace s start hn hids hcl hs
  refine ⟨route, s1, h2, fun hne => ?_⟩
  cases res with
  | none => exact absurd (h3 rfl) hne
  | some r =>
    obtain ⟨G, e, hroute, hhead, hlast, hrG, hnd, hroad, hch, hchr, hpi⟩ := h4 r rfl
    have hre : r ≠ e := by
      intro e1
      rw [e1] at hroad
      exact road_irrefl hself e hroad
    refine ⟨?_, ?_, ?_⟩
    · rw [hroute]
      cases G using List.reverseRecOn with
      | nil => simp at hrG
      | append_singleton l x =>
        simp at hlast
        subst hlast
        simp
    · rw [hroute]
      refine List.chain'_append.2 ⟨hchr, List.chain'_singleton r, ?_⟩
      intro x hx y hy
      rw [List.getLast?_reverse, hhead] at hx
      simp only [Option.mem_def, Option.some.injEq] at hx
      simp only [List.head?_cons, Option.mem_def, Option.some.injEq] at hy
      rw [← hx, ← hy]
      exact hroad
    · obtain ⟨A, B, hsplit, hB⟩ := cycle_split s1.pi_of G e r hhead hrG hre hch hpi
      refine ⟨A, B, r, ?_, ?_, hB⟩
      · rw [hroute, hsplit]
      · rw [← hsplit]
        exact List.nodup_reverse.2 hnd

/-- C25, at the triangle `A`, `B`, `C`. -/
theorem road_cycle_route_simple_cycle_witness :
    triangle.KeysNodup ∧ triangle.IdsOK ∧ triangle.RoadsClosed ∧ triangle.NoSelfRoad ∧
    (triangle.find "A").isSome = true ∧
    ∃ route s1, triangle.road_cycle_route "A" = some (route, s1) ∧
      (route ≠ [] → route.head? = some "A" ∧ List.Chain' triangle.Road route ∧
        ∃ (A B : List TownID) (r : TownID), route = A ++ r :: B ++ [r] ∧
          (A ++ r :: B).Nodup ∧ 2 ≤ B.length) :=
  ⟨by decide, by decide, by decide, by decide, by decide,
    road_cycle_route_simple_cycle triangle "A" (by decide) (by decide) (by decide) (by decide)
      (by decide)⟩


open Datastructures

/-! ## The depth-first search misses no cycle: single steps -/

theorem road_symm {g : Datastructures} (hcl : g.RoadsClosed)
    (hsymm : g.RoadsSymm) {x y : TownID} (h : g.Road x y) : g.Road y x := by
  have hy := stored_of_road hcl h
  unfold Road neighbours at h ⊢
  cases hx : g.find x with
  | none => rw [hx] at h; cases h
  | some tx =>
    rw [hx] at h
    obtain ⟨ty, hty⟩ := Option.isSome_iff_exists.1 hy
    rw [hty]
    exact hsymm (x, tx) (umap_find_some_mem hx) (y, ty) (umap_find_some_mem hty) h

theorem colour_of_set_pi (s : Datastructures) (r c : TownID) (v : TownID) :
    (Datastructures.mk (umap_modify s.towns_by_id_ r (fun t => { t with pi := some c }))
      s.roads_).colour_of v = s.colour_of v := by
  rw [colour_of_modify2]
  by_cases h : v = r
  · rw [if_pos h]
    unfold colour_of
    cases s.find v <;> rfl
  · rw [if_neg h]

theorem pi_of_set_pi (s : Datastructures) (r c : TownID) (rt : Town_info)
    (hr : s.find r = some rt) (v : TownID) :
    (Datastructures.mk (umap_modify s.towns_by_id_ r (fun t => { t with pi := some c }))
      s.roads_).pi_of v = if v = r then some c else s.pi_of v := by
  rw [pi_of_modify]
  by_cases h : v = r
  · rw [if_pos h, if_pos h, h, hr]; rfl
  · rw [if_neg h, if_neg h]

theorem colour_of_set_colour (s : Datastructures) (e : TownID) (c : Colour) (et : Town_info)
    (he : s.find e = some et) (v : TownID) :
    (Datastructures.mk (umap_modify s.towns_by_id_ e (fun t => { t with colour := c }))
      s.roads_).colour_of v = if v = e then some c else s.colour_of v := by
  rw [colour_of_modify2]
  by_cases h : v = e
  · rw [if_pos h, if_pos h, h, he]; rfl
  · rw [if_neg h, if_neg h]

theorem pi_of_set_colour (s : Datastructures) (e : TownID) (c : Colour) (v : TownID) :
    (Datastructures.mk (umap_modify s.towns_by_id_ e (fun t => { t with colour := c }))
      s.roads_).pi_of v = s.pi_of v := by
  rw [pi_of_modify]
  by_cases h : v = e
  · rw [if_pos h]
    unfold pi_of
    cases s.find v <;> rfl
  · rw [if_neg h]

/-- Before the search all towns are white and nothing is known. -/
theorem tree_initial (s : Datastructures) (start : TownID) :
    DfsTree s s.reset_marks [start] none [] := by
  have hcol : ∀ v c, s.reset_marks.colour_of v = some c → c = Colour.WHITE := by
    intro v c h
    unfold colour_of at h
    rw [find_reset_marks] at h
    cases hv : s.find v with
    | none => rw [hv] at h; cases h
    | some t =>
      rw [hv] at h
      simp only [Option.map_some', Option.some.injEq] at h
      exact h.symm
  have hpi : ∀ v, s.reset_marks.pi_of v = none := by
    intro v
    unfold pi_of
    rw [find_reset_marks]
    cases s.find v <;> rfl
  have hseen : ∀ v, ¬ s.reset_marks.Seen v := by
    intro v h
    rcases h with h | h
    · exact absurd (hcol v _ h) (by decide)
    · exact absurd (hcol v _ h) (by decide)
  refine ⟨?_, ?_, ?_, ?_, ⟨fun _ => 0, ?_⟩, ?_⟩
  · intro x y hx
    exact absurd (hcol x _ hx) (by decide)
  · intro x y hx
    exact absurd (hcol x _ hx) (by decide)
  · intro x y _ hx
    exact absurd hx (hseen x)
  · intro x p h
    rw [hpi] at h; cases h
  · intro x p hx
    exact absurd hx (hseen x)
  · intro c r h
    cases h

/-- A white road end of the current town is pushed. -/
theorem tree_push {g s : Datastructures} {stack done : List TownID} {cur : TownID}
    (t : DfsTree g s stack (some cur) done) (r : TownID) (rt : Town_info)
    (hr : s.find r = some rt) (hw : rt.colour = Colour.WHITE)
    (hcur : s.colour_of cur = some Colour.GRAY) :
    DfsTree g
      ⟨umap_modify s.towns_by_id_ r (fun t => { t with pi := some cur }), s.roads_⟩
      (r :: stack) (some cur) (done ++ [r]) := by
  have hrw : s.colour_of r = some Colour.WHITE := by rw [colour_of_some hr, hw]
  have hns : ∀ x, s.Seen x → x ≠ r := by
    intro x hx e
    rcases hx with h | h <;> rw [e, hrw] at h <;> cases h
  have hdone : ∀ y, y ≠ r → y ∈ done ++ [r] → y ∈ done := by
    intro y hy h
    rcases List.mem_append.1 h with h1 | h1
    · exact h1
    · exact absurd (List.mem_singleton.1 h1) hy
  refine ⟨?_, ?_, ?_, ?_, ?_, ?_⟩
  · intro x y hx hroad hy hex
    rw [colour_of_set_pi] at hx hy
    have hxr : r ≠ x := fun e => (hns x (Or.inl hx)) e.symm
    rw [List.takeWhile_cons, if_pos (by simpa using hxr)]
    by_cases hyr : y = r
    · rw [hyr]; exact List.mem_cons_self _ _
    · exact List.mem_cons_of_mem _
        (t.above x y hx hroad hy (fun h => hdone y hyr (hex h)))
  · intro x y hx hroad hy
    rw [colour_of_set_pi] at hx hy
    exact t.closed x y hx hroad hy
  · intro x y hroad hx hy hex hey
    have hx1 : s.Seen x := by
      unfold Seen at hx ⊢
      rw [colour_of_set_pi] at hx; exact hx
    have hy1 : s.Seen y := by
      unfold Seen at hy ⊢
      rw [colour_of_set_pi] at hy; exact hy
    rw [pi_of_set_pi s r cur rt hr, pi_of_set_pi s r cur rt hr, if_neg (hns x hx1),
      if_neg (hns y hy1)]
    exact t.tree x y hroad hx1 hy1 (fun h => hdone y (hns y hy1) (hex h))
      (fun h => hdone x (hns x hx1) (hey h))
  · intro x p h
    unfold Seen
    rw [colour_of_set_pi]
    rw [pi_of_set_pi s r cur rt hr] at h
    by_cases e : x = r
    · rw [if_pos e] at h
      injection h with h
      rw [← h]; exact Or.inl hcur
    · rw [if_neg e] at h
      exact t.pi_seen x p h
  · obtain ⟨tin, htin⟩ := t.order
    refine ⟨tin, ?_⟩
    intro x p hx h
    have hx1 : s.Seen x := by
      unfold Seen at hx ⊢
      rw [colour_of_set_pi] at hx; exact hx
    rw [pi_of_set_pi s r cur rt hr, if_neg (hns x hx1)] at h
    exact htin x p hx1 h
  · intro c x hc hroad
    rw [colour_of_set_pi]
    exact t.fresh c x hc hroad

/-- A road end that is not white is passed when it is the predecessor of the
current town or has the current town as predecessor. -/
theorem tree_skip {g s : Datastructures} {stack done : List TownID} {cur : TownID}
    (t : DfsTree g s stack (some cur) done) (r : TownID)
    (hnw : s.colour_of r ≠ some Colour.WHITE)
    (hlink : s.pi_of cur = some r ∨ s.pi_of r = some cur) :
    DfsTree g s stack (some cur) (done ++ [r]) := by
  refine ⟨?_, t.closed, ?_, t.pi_seen, t.order, t.fresh⟩
  · intro x y hx hroad hy hex
    refine t.above x y hx hroad hy (fun h => ?_)
    rcases List.mem_append.1 (hex h) with h1 | h1
    · exact h1
    · rw [List.mem_singleton.1 h1] at hy
      exact absurd hy hnw
  · intro x y hroad hx hy hex hey
    by_cases c1 : cur = x ∧ y = r
    · obtain ⟨e1, e2⟩ := c1
      rw [← e1, e2]; exact hlink
    · by_cases c2 : cur = y ∧ x = r
      · obtain ⟨e1, e2⟩ := c2
        rw [← e1, e2]; exact hlink.symm
      · refine t.tree x y hroad hx hy (fun h => ?_) (fun h => ?_)
        · injection h with h
          rcases List.mem_append.1 (hex (by rw [h])) with h1 | h1
          · exact h1
          · exact absurd ⟨h, List.mem_singleton.1 h1⟩ c1
        · injection h with h
          rcases List.mem_append.1 (hey (by rw [h])) with h1 | h1
          · exact h1
          · exact absurd ⟨h, List.mem_singleton.1 h1⟩ c2

/-- A white town taken from the stack turns gray; none of its roads is scanned yet. -/
theorem tree_open {g s : Datastructures} {e : TownID} {rest : List TownID}
    (hsym : ∀ x y, g.Road x y → g.Road y x)
    (t : DfsTree g s (e :: rest) none []) (et : Town_info)
    (he : s.find e = some et) (hw : et.colour = Colour.WHITE) :
    DfsTree g
      ⟨umap_modify s.towns_by_id_ e (fun t => { t with colour := Colour.GRAY }), s.roads_⟩
      (e :: rest) (some e) [] := by
  have hew : s.colour_of e = some Colour.WHITE := by rw [colour_of_some he, hw]
  have hns : ∀ x, s.Seen x → x ≠ e := by
    intro x hx e1
    rcases hx with h | h <;> rw [e1, hew] at h <;> cases h
  have hseen : ∀ x, x ≠ e → (Datastructures.mk (umap_modify s.towns_by_id_ e
      (fun t => { t with colour := Colour.GRAY })) s.roads_).Seen x → s.Seen x := by
    intro x hx h
    unfold Seen at h ⊢
    rw [colour_of_set_colour s e _ et he, if_neg hx] at h
    exact h
  refine ⟨?_, ?_, ?_, ?_, ?_, ?_⟩
  · intro x y hx hroad hy hex
    have hxe : x ≠ e := by
      intro e1
      have := hex (by rw [e1])
      cases this
    have hye : y ≠ e := by
      intro e1
      rw [colour_of_set_colour s e _ et he, if_pos e1] at hy
      cases hy
    rw [colour_of_set_colour s e _ et he, if_neg hxe] at hx
    rw [colour_of_set_colour s e _ et he, if_neg hye] at hy
    exact t.above x y hx hroad hy (fun h => by cases h)
  · intro x y hx hroad hy
    have hxe : x ≠ e := by
      intro e1
      rw [colour_of_set_colour s e _ et he, if_pos e1] at hx
      cases hx
    have hye : y ≠ e := by
      intro e1
      rw [colour_of_set_colour s e _ et he, if_pos e1] at hy
      cases hy
    rw [colour_of_set_colour s e _ et he, if_neg hxe] at hx
    rw [colour_of_set_colour s e _ et he, if_neg hye] at hy
    exact t.closed x y hx hroad hy
  · intro x y hroad hx hy hex hey
    have hxe : x ≠ e := by
      intro e1
      have := hex (by rw [e1])
      cases this
    have hye : y ≠ e := by
      intro e1
      have := hey (by rw [e1])
      cases this
    rw [pi_of_set_colour, pi_of_set_colour]
    exact t.tree x y hroad (hseen x hxe hx) (hseen y hye hy) (fun h => by cases h)
      (fun h => by cases h)
  · intro x p h
    rw [pi_of_set_colour] at h
    have := t.pi_seen x p h
    unfold Seen at this ⊢
    rw [colour_of_set_colour s e _ et he, if_neg (hns p this)]
    exact this
  · obtain ⟨tin, htin⟩ := t.order
    refine ⟨fun x => if x = e then
        (match s.pi_of e with
          | some p => tin p + 1
          | none => 0)
      else tin x, ?_⟩
    intro x p hx h
    rw [pi_of_set_colour] at h
    have hp := t.pi_seen x p h
    simp only
    rw [if_neg (hns p hp)]
    by_cases hxe : x = e
    · rw [if_pos hxe]
      rw [hxe] at h
      rw [h]
      exact Nat.lt_succ_self _
    · rw [if_neg hxe]
      exact htin x p (hseen x hxe hx) h
  · intro c r hc hroad
    injection hc with hc
    rw [← hc] at hroad
    by_cases hre : r = e
    · rw [colour_of_set_colour s e _ et he, if_pos hre]
      intro h; cases h
    · rw [colour_of_set_colour s e _ et he, if_neg hre]
      intro hb
      exact t.closed r e hb (hsym e r hroad) hew

/-- When all roads of the current town are scanned, the town is like any other
gray town. -/
theorem tree_done {g s : Datastructures} {stack done : List TownID} {cur : TownID}
    (hsym : ∀ x y, g.Road x y → g.Road y x)
    (t : DfsTree g s stack (some cur) done) (hdone : ∀ y, g.Road cur y → y ∈ done) :
    DfsTree g s stack none [] := by
  refine ⟨?_, t.closed, ?_, t.pi_seen, t.order, ?_⟩
  · intro x y hx hroad hy _
    refine t.above x y hx hroad hy (fun h => ?_)
    injection h with h
    rw [← h] at hroad
    exact hdone y hroad
  · intro x y hroad hx hy _ _
    refine t.tree x y hroad hx hy (fun h => ?_) (fun h => ?_)
    · injection h with h
      rw [← h] at hroad
      exact hdone y hroad
    · injection h with h
      have := hsym x y hroad
      rw [← h] at this
      exact hdone x this
  · intro c r h
    cases h

/-- A town taken from the stack for the second time turns black. -/
theorem tree_close {g s : Datastructures} {e : TownID} {rest : List TownID}
    (t : DfsTree g s (e :: rest) none []) (et : Town_info)
    (he : s.find e = some et) (hw : et.colour ≠ Colour.WHITE) :
    DfsTree g
      ⟨umap_modify s.towns_by_id_ e (fun t => { t with colour := Colour.BLACK }), s.roads_⟩
      rest none [] := by
  have hes : s.Seen e := by
    unfold Seen
    rw [colour_of_some he]
    cases hc : et.colour with
    | WHITE => exact absurd hc hw
    | GRAY => exact Or.inl rfl
    | BLACK => exact Or.inr rfl
  have hseen : ∀ x, (Datastructures.mk (umap_modify s.towns_by_id_ e
      (fun t => { t with colour := Colour.BLACK })) s.roads_).Seen x → s.Seen x := by
    intro x h
    by_cases hx : x = e
    · rw [hx]; exact hes
    · unfold Seen at h ⊢
      rw [colour_of_set_colour s e _ et he, if_neg hx] at h
      exact h
  have hwhite : ∀ y, (Datastructures.mk (umap_modify s.towns_by_id_ e
      (fun t => { t with colour := Colour.BLACK })) s.roads_).colour_of y
        = some Colour.WHITE → y ≠ e ∧ s.colour_of y = some Colour.WHITE := by
    intro y hy
    by_cases hye : y = e
    · rw [colour_of_set_colour s e _ et he, if_pos hye] at hy
      cases hy
    · rw [colour_of_set_colour s e _ et he, if_neg hye] at hy
      exact ⟨hye, hy⟩
  refine ⟨?_, ?_, ?_, ?_, ?_, ?_⟩
  · intro x y hx hroad hy _
    have hxe : x ≠ e := by
      intro e1
      rw [colour_of_set_colour s e _ et he, if_pos e1] at hx
      cases hx
    rw [colour_of_set_colour s e _ et he, if_neg hxe] at hx
    obtain ⟨hye, hy1⟩ := hwhite y hy
    have := t.above x y hx hroad hy1 (fun h => by cases h)
    rw [List.takeWhile_cons, if_pos (by simpa using fun e1 : e = x => hxe e1.symm)] at this
    rcases List.mem_cons.1 this with h | h
    · exact absurd h hye
    · exact h
  · intro x y hx hroad hy
    obtain ⟨hye, hy1⟩ := hwhite y hy
    by_cases hxe : x = e
    · subst hxe
      rcases hes with hg | hb
      · have := t.above x y hg hroad hy1 (fun h => by cases h)
        rw [List.takeWhile_cons, if_neg (by simp)] at this
        cases this
      · exact t.closed x y hb hroad hy1
    · rw [colour_of_set_colour s e _ et he, if_neg hxe] at hx
      exact t.closed x y hx hroad hy1
  · intro x y hroad hx hy _ _
    rw [pi_of_set_colour, pi_of_set_colour]
    exact t.tree x y hroad (hseen x hx) (hseen y hy) (fun h => by cases h)
      (fun h => by cases h)
  · intro x p h
    rw [pi_of_set_colour] at h
    have := t.pi_seen x p h
    unfold Seen at this ⊢
    by_cases hp : p = e
    · rw [colour_of_set_colour s e _ et he, if_pos hp]
      exact Or.inr rfl
    · rw [colour_of_set_colour s e _ et he, if_neg hp]
      exact this
  · obtain ⟨tin, htin⟩ := t.order
    refine ⟨tin, ?_⟩
    intro x p hx h
    rw [pi_of_set_colour] at h
    exact htin x p (hseen x hx) h
  · intro c r h
    cases h


open Datastructures

/-! ## The depth-first search misses no cycle: the loops -/

/-- The inner loop, when it is not left by `break`, has scanned all remaining roads
of the current town. -/
theorem dfs_for_tree (g : Datastructures) (start cur : TownID) (hcl : g.RoadsClosed)
    (G : List TownID) (hhead : G.head? = some cur) :
    ∀ (rs : List TownID) (s : Datastructures) (stack done : List TownID),
      DfsInv g start G s stack → DfsTree g s stack (some cur) done →
      (∀ r ∈ rs, g.Road cur r) →
      ∀ s1 stack1, dfs_for cur rs s stack = some (s1, stack1, none) →
        DfsTree g s1 stack1 (some cur) (done ++ rs) := by
  intro rs
  induction rs with
  | nil =>
    intro s stack done _ t _ s1 stack1 h
    unfold dfs_for at h
    simp only [Option.some.injEq, Prod.mk.injEq, and_true] at h
    rw [← h.1, ← h.2, List.append_nil]
    exact t
  | cons r rs ih =>
    intro s stack done inv t hroad s1 stack1 h
    have hrc : g.Road cur r := hroad r (List.mem_cons_self _ _)
    have hrest : ∀ x ∈ rs, g.Road cur x := fun x hx => hroad x (List.mem_cons_of_mem _ hx)
    obtain ⟨rt, hrt⟩ := stored_of_persistent inv.same (stored_of_road hcl hrc)
    have hcurG : cur ∈ G := List.mem_of_mem_head? hhead
    have hcurg : s.colour_of cur = some Colour.GRAY := (inv.gray_iff cur).2 hcurG
    have happ : done ++ r :: rs = (done ++ [r]) ++ rs := by simp
    rw [happ]
    unfold dfs_for at h
    rw [hrt] at h
    simp only at h
    by_cases hw : rt.colour = Colour.WHITE
    · rw [if_pos hw, if_pos hw] at h
      have inv1 := dfs_push inv cur r rt hhead hrt hw hrc
      have t1 := tree_push t r rt hrt hw hcurg
      have hcurg1 := (inv1.gray_iff cur).2 hcurG
      cases hc : (Datastructures.mk (umap_modify s.towns_by_id_ r
          (fun t => { t with pi := some cur })) s.roads_).find cur with
      | none => rw [hc] at h; cases h
      | some ct =>
        cases hr1 : (Datastructures.mk (umap_modify s.towns_by_id_ r
            (fun t => { t with pi := some cur })) s.roads_).find r with
        | none => rw [hc, hr1] at h; cases h
        | some rt1 =>
          rw [hc, hr1] at h
          simp only at h
          have hrw1 : rt1.colour ≠ Colour.GRAY := by
            have := colour_of_set_pi s r cur r
            rw [colour_of_some hr1, colour_of_some hrt, hw] at this
            injection this with this
            rw [this]
            decide
          have h2 : dfs_for cur rs (Datastructures.mk (umap_modify s.towns_by_id_ r
              (fun t => { t with pi := some cur })) s.roads_) (r :: stack)
              = some (s1, stack1, none) := by
            by_cases c1 : some r = ct.pi
            · rw [if_pos c1] at h; exact h
            · rw [if_neg c1, if_neg hrw1] at h; exact h
          exact ih _ _ _ inv1 t1 hrest s1 stack1 h2
    · rw [if_neg hw, if_neg hw] at h
      obtain ⟨ct, hct⟩ : ∃ ct, s.find cur = some ct := by
        unfold colour_of at hcurg
        cases hc : s.find cur with
        | none => rw [hc] at hcurg; cases hcurg
        | some ct => exact ⟨ct, rfl⟩
      rw [hct, hrt] at h
      simp only at h
      have hnw : s.colour_of r ≠ some Colour.WHITE := by
        rw [colour_of_some hrt]
        intro e
        injection e with e
        exact hw e
      by_cases c1 : some r = ct.pi
      · rw [if_pos c1] at h
        have t1 := tree_skip t r hnw (Or.inl (by rw [pi_of_some hct]; exact c1.symm))
        exact ih _ _ _ inv t1 hrest s1 stack1 h
      · rw [if_neg c1] at h
        by_cases c2 : rt.colour = Colour.GRAY
        · rw [if_pos c2] at h
          by_cases c3 : rt.pi = some cur
          · rw [if_pos c3] at h
            have t1 := tree_skip t r hnw (Or.inr (by rw [pi_of_some hrt]; exact c3))
            exact ih _ _ _ inv t1 hrest s1 stack1 h
          · rw [if_neg c3] at h
            simp only [Option.some.injEq, Prod.mk.injEq] at h
            exact absurd h.2.2 (by simp)
        · exfalso
          apply t.fresh cur r rfl hrc
          rw [colour_of_some hrt]
          cases hcol : rt.colour with
          | WHITE => exact absurd hcol hw
          | GRAY => exact absurd hcol c2
          | BLACK => rfl

/-- When the search ends without a road end found, the stack is empty, no town is
gray, and the knowledge on the roads holds for every town. -/
theorem dfs_while_tree (g : Datastructures) (start : TownID) (hcl : g.RoadsClosed)
    (hsym : ∀ x y, g.Road x y → g.Road y x) :
    ∀ (fuel : Nat) (s : Datastructures) (stack cr G : List TownID),
      DfsInv g start G s stack → DfsTree g s stack none [] →
      ∀ s1 cr1, dfs_while fuel s stack cr = some (s1, cr1, none) →
        DfsInv g start [] s1 [] ∧ DfsTree g s1 [] none [] := by
  intro fuel
  induction fuel with
  | zero =>
    intro s stack cr G inv t s1 cr1 h
    cases stack with
    | nil =>
      unfold dfs_while at h
      simp only [Option.some.injEq, Prod.mk.injEq, and_true] at h
      rw [← h.1]
      have hG : G = [] := by
        have := inv.stack_ok
        unfold StackOK at this
        exact this
      rw [hG] at inv
      exact ⟨inv, t⟩
    | cons e rest => unfold dfs_while at h; cases h
  | succ k ih =>
    intro s stack cr G inv t s1 cr1 h
    cases stack with
    | nil =>
      unfold dfs_while at h
      simp only [Option.some.injEq, Prod.mk.injEq, and_true] at h
      rw [← h.1]
      have hG : G = [] := by
        have := inv.stack_ok
        unfold StackOK at this
        exact this
      rw [hG] at inv
      exact ⟨inv, t⟩
    | cons e rest =>
      unfold dfs_while at h
      cases het : s.find e with
      | none => rw [het] at h; cases h
      | some et =>
        rw [het] at h
        simp only at h
        by_cases hw : et.colour = Colour.WHITE
        · rw [if_pos hw] at h
          have inv1 := dfs_open inv et het hw
          have t1 := tree_open hsym t et het hw
          have hnb : ∀ r ∈ et.roads_to, g.Road e r := by
            intro r hr
            unfold Road
            rw [← neighbours_of_persistent inv.same e, neighbours_some het]
            exact hr
          obtain ⟨s2, stack2, res, h1, h2, _, _, _⟩ :=
            dfs_for_inv g start e hcl (e :: G) rfl et.roads_to _ _ inv1 hnb
          rw [h1] at h
          cases res with
          | some r =>
            simp only [Option.some.injEq, Prod.mk.injEq] at h
            exact absurd h.2.2 (by simp)
          | none =>
            simp only at h
            have t2 := dfs_for_tree g start e hcl (e :: G) rfl et.roads_to _ _ [] inv1 t1 hnb
              s2 stack2 h1
            have t3 : DfsTree g s2 stack2 none [] := by
              refine tree_done hsym t2 ?_
              intro y hy
              unfold Road at hy
              rw [← neighbours_of_persistent inv.same e, neighbours_some het] at hy
              simpa using hy
            exact ih s2 stack2 _ (e :: G) h2 t3 s1 cr1 h
        · rw [if_neg hw] at h
          obtain ⟨G1, inv1⟩ := dfs_close inv et het hw
          have t1 := tree_close t et het hw
          exact ih _ rest _ G1 inv1 t1 s1 cr1 h

/-! ## A forest has no cycle -/

theorem exists_max_tin (tin : TownID → Nat) :
    ∀ c : List TownID, c ≠ [] → ∃ v ∈ c, ∀ x ∈ c, tin x ≤ tin v := by
  intro c
  induction c with
  | nil => intro h; exact absurd rfl h
  | cons a rest ih =>
    intro _
    cases rest with
    | nil => exact ⟨a, List.mem_cons_self _ _, fun x hx => by
        rw [List.mem_singleton.1 hx]⟩
    | cons b rest2 =>
      obtain ⟨v, hv, hmax⟩ := ih (by simp)
      by_cases h : tin v ≤ tin a
      · refine ⟨a, List.mem_cons_self _ _, ?_⟩
        intro x hx
        rcases List.mem_cons.1 hx with e | hx1
        · rw [e]
        · exact le_trans (hmax x hx1) h
      · refine ⟨v, List.mem_cons_of_mem _ hv, ?_⟩
        intro x hx
        rcases List.mem_cons.1 hx with e | hx1
        · rw [e]; omega
        · exact hmax x hx1

/-- No cycle of at least three distinct towns has all its roads among the
predecessor links when a numbering rises along these links. -/
theorem no_tree_cycle (R : TownID → TownID → Prop) (pi : TownID → Option TownID)
    (tin : TownID → Nat) (c : List TownID) (hlen : 3 ≤ c.length) (hnd : c.Nodup)
    (hch : List.Chain' R c) (a b : TownID) (hhead : c.head? = some a)
    (hlast : c.getLast? = some b) (hclose : R b a)
    (htree : ∀ x y, x ∈ c → y ∈ c → R x y → pi x = some y ∨ pi y = some x)
    (htin : ∀ x p, x ∈ c → pi x = some p → tin p < tin x) : False := by
  have hne : c ≠ [] := by
    intro e
    rw [e] at hlen
    simp at hlen
  obtain ⟨v, hv, hmax⟩ := exists_max_tin tin c hne
  -- a town joined to `v` by a road of the cycle is the predecessor of `v`
  have hpred : ∀ u, u ∈ c → (R u v ∨ R v u) → pi v = some u := by
    intro u hu hr
    have h1 : pi u = some v ∨ pi v = some u := by
      rcases hr with h | h
      · exact htree u v hu hv h
      · exact (htree v u hv hu h).symm
    rcases h1 with h | h
    · have := htin u v hu h
      have := hmax u hu
      omega
    · exact h
  have hdiff : ∀ u w, u ∈ c → w ∈ c → (R u v ∨ R v u) → (R w v ∨ R v w) → u ≠ w → False := by
    intro u w hu hw h1 h2 hne2
    have e1 := hpred u hu h1
    have e2 := hpred w hw h2
    rw [e1] at e2
    injection e2 with e2
    exact hne2 e2
  obtain ⟨L, Rt, hsplit⟩ := List.append_of_mem hv
  subst hsplit
  cases L with
  | nil =>
    -- `v` is the head of the cycle
    simp only [List.nil_append, List.head?_cons, Option.some.injEq] at hhead
    subst hhead
    cases Rt with
    | nil => simp at hlen
    | cons w Rt2 =>
      cases Rt2 with
      | nil => simp at hlen
      | cons w2 Rt3 =>
        have hvw : R v w := by
          simp only [List.nil_append] at hch
          exact (List.chain'_cons.1 hch).1
        have hb : b ∈ w2 :: Rt3 := by
          have : ([] ++ v :: w :: w2 :: Rt3).getLast? = (w2 :: Rt3).getLast? := by
            simp only [List.nil_append, List.getLast?_cons_cons]
          rw [this] at hlast
          exact List.mem_of_mem_getLast? hlast
        have hbw : b ≠ w := by
          intro e
          rw [e] at hb
          simp only [List.nil_append, List.nodup_cons] at hnd
          exact hnd.2.1 hb
        exact hdiff b w (by simp [hb]) (by simp) (Or.inl hclose) (Or.inr hvw) hbw
  | cons a0 L2 =>
    simp only [List.cons_append, List.head?_cons, Option.some.injEq] at hhead
    subst hhead
    -- the town before `v`
    have hchs := List.chain'_split.1 hch
    have hu : ∃ u, (a0 :: L2).getLast? = some u := by
      cases h : (a0 :: L2).getLast? with
      | none => simp at h
      | some u => exact ⟨u, rfl⟩
    obtain ⟨u, hu⟩ := hu
    have huL : u ∈ a0 :: L2 := List.mem_of_mem_getLast? hu
    have huv : R u v := by
      have := (List.chain'_append.1 hchs.1).2.2 u hu v rfl
      exact this
    have hnd2 := List.nodup_append.1 hnd
    cases Rt with
    | nil =>
      -- `v` is the last town of the cycle
      have hbv : b = v := by
        have h1 : (a0 :: L2 ++ [v]).getLast? = some v := List.getLast?_concat _
        rw [h1] at hlast
        injection hlast with hlast
        exact hlast.symm
      rw [hbv] at hclose
      have hua : u ≠ a0 := by
        intro e
        cases L2 with
        | nil => simp at hlen
        | cons x L3 =>
          rw [List.getLast?_cons_cons] at hu
          have hux : u ∈ x :: L3 := List.mem_of_mem_getLast? hu
          rw [e] at hux
          have := hnd2.1
          simp only [List.nodup_cons] at this
          exact this.1 hux
      exact hdiff u a0 (List.mem_append_left _ huL)
        (List.mem_append_left _ (List.mem_cons_self _ _)) (Or.inl huv) (Or.inr hclose) hua
    | cons w Rt2 =>
      have hvw : R v w := (List.chain'_cons.1 hchs.2).1
      have huw : u ≠ w := by
        intro e
        rw [e] at huL
        exact hnd2.2.2 huL (List.mem_cons_of_mem _ (List.mem_cons_self _ _))
      exact hdiff u w (List.mem_append_left _ huL)
        (List.mem_append_right _ (List.mem_cons_of_mem _ (List.mem_cons_self _ _)))
        (Or.inl huv) (Or.inr hvw) huw


open Datastructures

/-! ## `road_cycle_route` returns the empty list exactly when there is no cycle -/

/-- After a search that found no road end, no cycle of roads passes a town joined
to the start town. -/
theorem dfs_end_no_cycle (g : Datastructures) (start : TownID) (s1 : Datastructures)
    (hcl : g.RoadsClosed) (inv : DfsInv g start [] s1 []) (t : DfsTree g s1 [] none []) :
    ¬ g.HasCycleFrom start := by
  have hnogray : ∀ v, s1.colour_of v ≠ some Colour.GRAY := by
    intro v h
    have := (inv.gray_iff v).1 h
    cases this
  have hstart : s1.colour_of start = some Colour.BLACK := by
    cases hc : s1.colour_of start with
    | none =>
      have := inv.start_stored
      rw [hc] at this
      cases this
    | some col =>
      cases col with
      | WHITE =>
        have := (inv.start_white hc).1
        cases this
      | GRAY => exact absurd hc (hnogray start)
      | BLACK => rfl
  have hstep : ∀ x y, s1.colour_of x = some Colour.BLACK → g.Road x y →
      s1.colour_of y = some Colour.BLACK := by
    intro x y hx hr
    obtain ⟨ty, hty⟩ := stored_of_persistent inv.same (stored_of_road hcl hr)
    have hw := t.closed x y hx hr
    have hg := hnogray y
    rw [colour_of_some hty] at hw hg ⊢
    cases hcol : ty.colour with
    | WHITE => rw [hcol] at hw; exact absurd rfl hw
    | GRAY => rw [hcol] at hg; exact absurd rfl hg
    | BLACK => rfl
  have hchain : ∀ l : List TownID, List.Chain' g.Road l → ∀ x, l.head? = some x →
      s1.colour_of x = some Colour.BLACK → ∀ v ∈ l, s1.colour_of v = some Colour.BLACK := by
    intro l
    induction l with
    | nil => intro _ x h; cases h
    | cons a rest ih =>
      intro hch x hx hb v hv
      simp only [List.head?_cons, Option.some.injEq] at hx
      subst hx
      rcases List.mem_cons.1 hv with e | hv1
      · rw [e]; exact hb
      · cases rest with
        | nil => cases hv1
        | cons b rest2 =>
          have h1 := List.chain'_cons.1 hch
          exact ih h1.2 b rfl (hstep a b hb h1.1) v hv1
  rintro ⟨c, a, l, ⟨hlen, hnd, hch, a2, b, hh, hl, hclose⟩, hhead, hl1, hl2, hl3⟩
  rw [hhead] at hh
  injection hh with hh
  subst hh
  have ha : s1.colour_of a = some Colour.BLACK :=
    hchain l hl3 start hl1 hstart a (List.mem_of_mem_getLast? hl2)
  have hall := hchain c hch a hhead ha
  obtain ⟨tin, htin⟩ := t.order
  refine no_tree_cycle g.Road s1.pi_of tin c hlen hnd hch a b hhead hl hclose ?_ ?_
  · intro x y hx hy hr
    exact t.tree x y hr (Or.inr (hall x hx)) (Or.inr (hall y hy)) (fun h => by cases h)
      (fun h => by cases h)
  · intro x p hx hp
    exact htin x p (Or.inr (hall x hx)) hp

/-- C26. In a state with distinct keys, records carrying their keys, valid road
pointers, symmetric adjacency lists and no road from a town to itself,
`road_cycle_route(start)` returns for every stored start town, and its result is
empty exactly when no cycle of roads passes a town that a road route joins to the
start town. -/
theorem road_cycle_route_empty_iff (s : Datastructures) (start : TownID)
    (hn : s.KeysNodup) (hids : s.IdsOK) (hcl : s.RoadsClosed) (hsymm : s.RoadsSymm)
    (hself : s.NoSelfRoad) (hs : (s.find start).isSome = true) :
    ∃ route s1, s.road_cycle_route start = some (route, s1) ∧
      (route = [] ↔ ¬ s.HasCycleFrom start) := by
  obtain ⟨s1, cr1, res, route, h1, h2, h3, h4⟩ := road_cycle_route_trace s start hn hids hcl hs
  refine ⟨route, s1, h2, ?_⟩
  cases res with
  | none =>
    obtain ⟨ts, hts⟩ := Option.isSome_iff_exists.1 hs
    obtain ⟨inv, t⟩ := dfs_while_tree s start hcl (fun x y h => road_symm hcl hsymm h) _ _ _ _ []
      (dfs_initial s start ts hts) (tree_initial s start) s1 cr1 h1
    exact ⟨fun _ => dfs_end_no_cycle s start s1 hcl inv t, fun _ => h3 rfl⟩
  | some r =>
    obtain ⟨G, e, hroute, hhead, hlast, hrG, hnd, hroad, hch, hchr, hpi⟩ := h4 r rfl
    have hre : r ≠ e := by
      intro e1
      rw [e1] at hroad
      exact road_irrefl hself e hroad
    obtain ⟨A, B, hsplit, hB⟩ := cycle_split s1.pi_of G e r hhead hrG hre hch hpi
    have hne : route ≠ [] := by
      rw [hroute]; simp
    have hcyc : s.HasCycleFrom start := by
      rw [hsplit] at hchr
      have hchs := List.chain'_split.1 hchr
      have hndr : (A ++ r :: B).Nodup := by
        rw [← hsplit]; exact List.nodup_reverse.2 hnd
      have hlastc : (r :: B).getLast? = some e := by
        have h5 : G.reverse.getLast? = some e := by
          rw [List.getLast?_reverse]; exact hhead
        rw [hsplit, List.getLast?_append] at h5
        cases h6 : (r :: B).getLast? with
        | none => simp at h6
        | some z =>
          rw [h6] at h5
          exact h5
      have hheadr : (A ++ [r]).head? = some start := by
        have h5 : G.reverse.head? = some start := by
          rw [List.head?_reverse]; exact hlast
        rw [hsplit] at h5
        cases A with
        | nil => exact h5
        | cons x A2 => exact h5
      refine ⟨r :: B, r, A ++ [r], ⟨?_, (List.nodup_append.1 hndr).2.1, hchs.2, r, e, rfl,
        hlastc, hroad⟩, rfl, hheadr, List.getLast?_concat _, hchs.1⟩
      simp only [List.length_cons]
      omega
    exact ⟨fun h => absurd h hne, fun h => absurd hcyc h⟩

/-- C26, at the triangle `A`, `B`, `C`. -/
theorem road_cycle_route_empty_iff_witness :
    triangle.KeysNodup ∧ triangle.IdsOK ∧ triangle.RoadsClosed ∧ triangle.RoadsSymm ∧
    triangle.NoSelfRoad ∧ (triangle.find "A").isSome = true ∧
    ∃ route s1, triangle.road_cycle_route "A" = some (route, s1) ∧
      (route = [] ↔ ¬ triangle.HasCycleFrom "A") :=
  ⟨by decide, by decide, by decide, by decide, by decide, by decide,
    road_cycle_route_empty_iff triangle "A" (by decide) (by decide) (by decide) (by decide)
      (by decide) (by decide)⟩


open Datastructures

/-! ## The traversals read the adjacency lists and the coordinates only -/

theorem find_strip (g : Town_info → Town_info) (s : Datastructures) (k : TownID) :
    (s.strip g).find k = (s.find k).map g :=
  umap_find_map s.towns_by_id_ g k

theorem strip_modify (g f : Town_info → Town_info) (hfg : ∀ t, f (g t) = g (f t))
    (s : Datastructures) (r : TownID) :
    Datastructures.mk (umap_modify (s.strip g).towns_by_id_ r f) (s.strip g).roads_
      = (Datastructures.mk (umap_modify s.towns_by_id_ r f) s.roads_).strip g := by
  unfold Datastructures.strip umap_modify
  simp only [List.map_map, Datastructures.mk.injEq, and_true]
  apply List.map_congr_left
  intro p _
  by_cases h : p.1 = r
  · simp [h, hfg]
  · simp [h]

theorem strip_set_colour (g : Town_info → Town_info)
    (hg : ∀ t c, ({ g t with colour := c } : Town_info) = g { t with colour := c })
    (s : Datastructures) (r : TownID) (c : Colour) :
    Datastructures.mk (umap_modify (s.strip g).towns_by_id_ r (fun t => { t with colour := c }))
        (s.strip g).roads_
      = (Datastructures.mk (umap_modify s.towns_by_id_ r (fun t => { t with colour := c }))
          s.roads_).strip g :=
  strip_modify g (fun t => { t with colour := c }) (fun t => hg t c) s r

theorem strip_set_pi (g : Town_info → Town_info)
    (hg : ∀ t p, ({ g t with pi := p } : Town_info) = g { t with pi := p })
    (s : Datastructures) (r : TownID) (p : Option TownID) :
    Datastructures.mk (umap_modify (s.strip g).towns_by_id_ r (fun t => { t with pi := p }))
        (s.strip g).roads_
      = (Datastructures.mk (umap_modify s.towns_by_id_ r (fun t => { t with pi := p }))
          s.roads_).strip g :=
  strip_modify g (fun t => { t with pi := p }) (fun t => hg t p) s r

theorem strip_set_colour_pi (g : Town_info → Town_info)
    (hg : ∀ t c p, ({ g t with colour := c, pi := p } : Town_info)
      = g { t with colour := c, pi := p })
    (s : Datastructures) (r : TownID) (c : Colour) (p : Option TownID) :
    Datastructures.mk (umap_modify (s.strip g).towns_by_id_ r
        (fun t => { t with colour := c, pi := p })) (s.strip g).roads_
      = (Datastructures.mk (umap_modify s.towns_by_id_ r
          (fun t => { t with colour := c, pi := p })) s.roads_).strip g :=
  strip_modify g (fun t => { t with colour := c, pi := p }) (fun t => hg t c p) s r

theorem strip_set_cost_pi (g : Town_info → Town_info)
    (hg : ∀ t c p, ({ g t with cost := c, pi := p } : Town_info)
      = g { t with cost := c, pi := p })
    (s : Datastructures) (r : TownID) (c : Cost) (p : Option TownID) :
    Datastructures.mk (umap_modify (s.strip g).towns_by_id_ r
        (fun t => { t with cost := c, pi := p })) (s.strip g).roads_
      = (Datastructures.mk (umap_modify s.towns_by_id_ r
          (fun t => { t with cost := c, pi := p })) s.roads_).strip g :=
  strip_modify g (fun t => { t with cost := c, pi := p }) (fun t => hg t c p) s r

theorem strip_length (g : Town_info → Town_info) (s : Datastructures) :
    (s.strip g).towns_by_id_.length = s.towns_by_id_.length := by
  unfold Datastructures.strip
  simp

theorem strip_road_slots (g : Town_info → Town_info) (hr : ∀ t, (g t).roads_to = t.roads_to)
    (s : Datastructures) : (s.strip g).road_slots = s.road_slots := by
  unfold Datastructures.strip Datastructures.road_slots
  simp only [List.map_map]
  congr 1
  apply List.map_congr_left
  intro p _
  simp [hr]

theorem walk_pi_strip (g : Town_info → Town_info) (hid : ∀ t, (g t).id = t.id)
    (hpi : ∀ t, (g t).pi = t.pi) (s : Datastructures) :
    ∀ (k : Nat) (p : Option TownID) (acc : List TownID),
      walk_pi (s.strip g) k p acc = walk_pi s k p acc := by
  intro k
  induction k with
  | zero =>
    intro p acc
    cases p <;> rfl
  | succ k ih =>
    intro p acc
    cases p with
    | none => rfl
    | some q =>
      unfold walk_pi
      rw [find_strip]
      cases s.find q with
      | none => rfl
      | some t =>
        simp only [Option.map_some', hid, hpi]
        exact ih _ _

/-! ### Breadth-first search -/

theorem bfs_for_strip (cur : TownID) :
    ∀ (rs : List TownID) (s : Datastructures) (q : List TownID),
      bfs_for cur rs (s.strip Town_info.bare_cost) q
        = (bfs_for cur rs s q).map (fun r => (r.1.strip Town_info.bare_cost, r.2)) := by
  intro rs
  induction rs with
  | nil => intro s q; rfl
  | cons r rs ih =>
    intro s q
    unfold bfs_for
    rw [find_strip]
    cases s.find r with
    | none => rfl
    | some t =>
      simp only [Option.map_some']
      have e : (Town_info.bare_cost t).colour = t.colour := rfl
      rw [e]
      by_cases hw : t.colour = Colour.WHITE
      · rw [if_pos hw, if_pos hw, strip_set_colour_pi Town_info.bare_cost (fun _ _ _ => rfl)]
        exact ih _ _
      · rw [if_neg hw, if_neg hw]
        exact ih _ _

theorem bfs_while_strip :
    ∀ (k : Nat) (s : Datastructures) (q : List TownID),
      bfs_while k (s.strip Town_info.bare_cost) q
        = (bfs_while k s q).map (fun r => r.strip Town_info.bare_cost) := by
  intro k
  induction k with
  | zero =>
    intro s q
    cases q <;> rfl
  | succ k ih =>
    intro s q
    cases q with
    | nil => rfl
    | cons cur q =>
      unfold bfs_while
      rw [find_strip]
      cases s.find cur with
      | none => rfl
      | some t =>
        simp only [Option.map_some']
        have e : (Town_info.bare_cost t).roads_to = t.roads_to := rfl
        rw [e, bfs_for_strip]
        cases bfs_for cur t.roads_to s q with
        | none => rfl
        | some r =>
          simp only [Option.map_some']
          rw [strip_set_colour Town_info.bare_cost (fun _ _ => rfl)]
          exact ih _ _

theorem reset_marks_strip (g : Town_info → Town_info)
    (hg : ∀ t, ({ g t with colour := Colour.WHITE, pi := none } : Town_info)
      = g { t with colour := Colour.WHITE, pi := none })
    (s : Datastructures) : (s.strip g).reset_marks = s.reset_marks.strip g := by
  unfold Datastructures.strip Datastructures.reset_marks
  simp only [List.map_map, Datastructures.mk.injEq, and_true]
  apply List.map_congr_left
  intro p _
  simp [hg]

theorem least_towns_route_strip (s : Datastructures) (a b : TownID) :
    ((s.strip Town_info.bare_cost).least_towns_route a b).map Prod.fst
      = (s.least_towns_route a b).map Prod.fst := by
  unfold Datastructures.least_towns_route
  rw [find_strip, find_strip]
  cases s.find a with
  | none => rfl
  | some ta =>
    cases s.find b with
    | none => rfl
    | some tb =>
      simp only [Option.map_some']
      rw [reset_marks_strip Town_info.bare_cost (fun _ => rfl),
        strip_set_colour Town_info.bare_cost (fun _ _ => rfl), strip_length, bfs_while_strip]
      cases bfs_while s.towns_by_id_.length
          ⟨umap_modify s.reset_marks.towns_by_id_ a (fun t => { t with colour := Colour.GRAY }),
            s.reset_marks.roads_⟩ [a] with
      | none => rfl
      | some s2 =>
        simp only [Option.map_some']
        rw [find_strip]
        cases s2.find b with
        | none => rfl
        | some t2 =>
          simp only [Option.map_some']
          have e : (Town_info.bare_cost t2).colour = t2.colour := rfl
          rw [e]
          by_cases hw : t2.colour = Colour.WHITE
          · rw [if_pos hw, if_pos hw]; rfl
          · rw [if_neg hw, if_neg hw,
              walk_pi_strip Town_info.bare_cost (fun _ => rfl) (fun _ => rfl)]
            cases walk_pi s2 s.towns_by_id_.length (some b) [] <;> rfl


open Datastructures

/-! ### Depth-first search -/

theorem dfs_for_strip (cur : TownID) :
    ∀ (rs : List TownID) (s : Datastructures) (stack : List TownID),
      dfs_for cur rs (s.strip Town_info.bare_cost) stack
        = (dfs_for cur rs s stack).map
            (fun r => (r.1.strip Town_info.bare_cost, r.2.1, r.2.2)) := by
  intro rs
  induction rs with
  | nil => intro s stack; rfl
  | cons r rs ih =>
    intro s stack
    unfold dfs_for
    rw [find_strip]
    cases s.find r with
    | none => rfl
    | some rt =>
      simp only [Option.map_some']
      have e : (Town_info.bare_cost rt).colour = rt.colour := rfl
      rw [e]
      have key : ∀ (s1 : Datastructures) (stack1 : List TownID),
          (match (s1.strip Town_info.bare_cost).find cur,
              (s1.strip Town_info.bare_cost).find r with
            | some ct, some rt1 =>
              if some r = ct.pi then
                dfs_for cur rs (s1.strip Town_info.bare_cost) stack1
              else if rt1.colour = Colour.GRAY then
                if rt1.pi = some cur then
                  dfs_for cur rs (s1.strip Town_info.bare_cost) stack1
                else some (s1.strip Town_info.bare_cost, stack1, some r)
              else dfs_for cur rs (s1.strip Town_info.bare_cost) stack1
            | _, _ => none)
          = Option.map
              (fun r : Datastructures × List TownID × Option TownID =>
                (r.1.strip Town_info.bare_cost, r.2.1, r.2.2))
              (match s1.find cur, s1.find r with
              | some ct, some rt1 =>
                if some r = ct.pi then dfs_for cur rs s1 stack1
                else if rt1.colour = Colour.GRAY then
                  if rt1.pi = some cur then dfs_for cur rs s1 stack1
                  else some (s1, stack1, some r)
                else dfs_for cur rs s1 stack1
              | _, _ => none) := by
        intro s1 stack1
        rw [find_strip, find_strip]
        cases s1.find cur with
        | none => rfl
        | some ct =>
          cases s1.find r with
          | none => rfl
          | some rt1 =>
            simp only [Option.map_some']
            have e1 : (Town_info.bare_cost ct).pi = ct.pi := rfl
            have e2 : (Town_info.bare_cost rt1).colour = rt1.colour := rfl
            have e3 : (Town_info.bare_cost rt1).pi = rt1.pi := rfl
            rw [e1, e2, e3, ih]
            by_cases c1 : some r = ct.pi
            · rw [if_pos c1, if_pos c1]
            · rw [if_neg c1, if_neg c1]
              by_cases c2 : rt1.colour = Colour.GRAY
              · rw [if_pos c2, if_pos c2]
                by_cases c3 : rt1.pi = some cur
                · rw [if_pos c3, if_pos c3]
                · rw [if_neg c3, if_neg c3]; rfl
              · rw [if_neg c2, if_neg c2]
      by_cases hw : rt.colour = Colour.WHITE
      · simp only [hw, if_true]
        rw [strip_set_pi Town_info.bare_cost (fun _ _ => rfl)]
        exact key _ _
      · simp only [hw, if_false]
        exact key _ _

theorem dfs_while_strip :
    ∀ (k : Nat) (s : Datastructures) (stack cr : List TownID),
      dfs_while k (s.strip Town_info.bare_cost) stack cr
        = (dfs_while k s stack cr).map
            (fun r => (r.1.strip Town_info.bare_cost, r.2.1, r.2.2)) := by
  intro k
  induction k with
  | zero =>
    intro s stack cr
    cases stack <;> rfl
  | succ k ih =>
    intro s stack cr
    cases stack with
    | nil => rfl
    | cons cur stack =>
      unfold dfs_while
      rw [find_strip]
      cases s.find cur with
      | none => rfl
      | some ct =>
        simp only [Option.map_some']
        have e : (Town_info.bare_cost ct).colour = ct.colour := rfl
        have e2 : (Town_info.bare_cost ct).roads_to = ct.roads_to := rfl
        rw [e, e2]
        by_cases hw : ct.colour = Colour.WHITE
        · rw [if_pos hw, if_pos hw, strip_set_colour Town_info.bare_cost (fun _ _ => rfl),
            dfs_for_strip]
          cases dfs_for cur ct.roads_to
              ⟨umap_modify s.towns_by_id_ cur (fun t => { t with colour := Colour.GRAY }),
                s.roads_⟩ (cur :: stack) with
          | none => rfl
          | some res =>
            obtain ⟨s2, stack2, found⟩ := res
            cases found with
            | none =>
              simp only [Option.map_some']
              exact ih _ _ _
            | some x => rfl
        · rw [if_neg hw, if_neg hw, strip_set_colour Town_info.bare_cost (fun _ _ => rfl)]
          exact ih _ _ _

theorem road_cycle_route_strip (s : Datastructures) (a : TownID) :
    ((s.strip Town_info.bare_cost).road_cycle_route a).map Prod.fst
      = (s.road_cycle_route a).map Prod.fst := by
  unfold Datastructures.road_cycle_route
  rw [find_strip]
  cases s.find a with
  | none => rfl
  | some ta =>
    simp only [Option.map_some']
    rw [reset_marks_strip Town_info.bare_cost (fun _ => rfl), strip_length,
      strip_road_slots Town_info.bare_cost (fun _ => rfl), dfs_while_strip]
    cases dfs_while (s.towns_by_id_.length + s.road_slots + 1) s.reset_marks [a] [] with
    | none => rfl
    | some res =>
      obtain ⟨s1, cr, found⟩ := res
      cases found with
      | none => rfl
      | some x =>
        simp only [Option.map_some']
        rw [find_strip]
        cases s1.find x with
        | none => rfl
        | some lt =>
          simp only [Option.map_some']
          cases cr.get? (cr.length - 2) with
          | none => rfl
          | some le =>
            simp only
            by_cases hl : cr.length < 2
            · rw [if_pos hl, if_pos hl]
            · rw [if_neg hl, if_neg hl,
                walk_pi_strip Town_info.bare_cost (fun _ => rfl) (fun _ => rfl)]
              have e : (Town_info.bare_cost lt).id = lt.id := rfl
              rw [e]
              cases walk_pi s1 s.towns_by_id_.length (some le) [lt.id] <;> rfl

/-! ### Best-first search -/

theorem relax_A_strip (s : Datastructures) (u v g : TownID) :
    relax_A (s.strip Town_info.bare) u v g
      = (relax_A s u v g).map (fun r => r.strip Town_info.bare) := by
  unfold relax_A
  rw [find_strip, find_strip, find_strip]
  cases s.find u with
  | none => rfl
  | some ut =>
    cases s.find v with
    | none => rfl
    | some vt =>
      cases s.find g with
      | none => rfl
      | some gt =>
        simp only [Option.map_some']
        have e1 : (Town_info.bare vt).cost = vt.cost := rfl
        have e2 : (Town_info.bare ut).cost = ut.cost := rfl
        have e3 : get_road_length (Town_info.bare ut) (Town_info.bare vt)
            = get_road_length ut vt := rfl
        have e4 : min_est (Town_info.bare vt) (Town_info.bare gt) = min_est vt gt := rfl
        rw [e1, e2, e3, e4]
        by_cases h : vt.cost.d > ut.cost.d + get_road_length ut vt
        · rw [if_pos h, if_pos h, strip_set_cost_pi Town_info.bare (fun _ _ _ => rfl)]
          rfl
        · rw [if_neg h, if_neg h]; rfl

theorem astar_for_strip (cur goal : TownID) :
    ∀ (rs : List TownID) (s : Datastructures) (q : List (Int × TownID)),
      astar_for cur goal rs (s.strip Town_info.bare) q
        = (astar_for cur goal rs s q).map (fun r => (r.1.strip Town_info.bare, r.2)) := by
  intro rs
  induction rs with
  | nil => intro s q; rfl
  | cons r rs ih =>
    intro s q
    unfold astar_for
    rw [relax_A_strip]
    cases relax_A s cur r goal with
    | none => rfl
    | some s1 =>
      simp only [Option.map_some']
      rw [find_strip]
      cases s1.find r with
      | none => rfl
      | some rt =>
        simp only [Option.map_some']
        have e1 : (Town_info.bare rt).colour = rt.colour := rfl
        have e2 : (Town_info.bare rt).cost = rt.cost := rfl
        rw [e1, e2]
        by_cases hw : rt.colour = Colour.WHITE
        · simp only [hw, if_true]
          rw [strip_set_colour Town_info.bare (fun _ _ => rfl)]
          exact ih _ _
        · simp only [hw, if_false]
          exact ih _ _

theorem astar_while_strip (addr : TownID → Nat) (goal : TownID) :
    ∀ (k : Nat) (s : Datastructures) (q : List (Int × TownID)),
      astar_while addr goal k (s.strip Town_info.bare) q
        = (astar_while addr goal k s q).map (fun r => (r.1.strip Town_info.bare, r.2)) := by
  intro k
  induction k with
  | zero =>
    intro s q
    cases q <;> rfl
  | succ k ih =>
    intro s q
    cases q with
    | nil => rfl
    | cons e es =>
      unfold astar_while
      cases pq_top addr (e :: es) with
      | none => rfl
      | some current =>
        simp only
        rw [find_strip]
        cases s.find current.2 with
        | none => rfl
        | some ct =>
          simp only [Option.map_some']
          have e1 : (Town_info.bare ct).colour = ct.colour := rfl
          have e2 : (Town_info.bare ct).id = ct.id := rfl
          have e3 : (Town_info.bare ct).roads_to = ct.roads_to := rfl
          rw [e1, e2, e3]
          by_cases hb : ct.colour = Colour.BLACK
          · rw [if_pos hb, if_pos hb]
            exact ih _ _
          · rw [if_neg hb, if_neg hb]
            by_cases hg : ct.id = goal
            · rw [if_pos hg, if_pos hg]; rfl
            · rw [if_neg hg, if_neg hg, astar_for_strip]
              cases astar_for current.2 goal ct.roads_to s ((e :: es).erase current) with
              | none => rfl
              | some r =>
                simp only [Option.map_some']
                rw [strip_set_colour Town_info.bare (fun _ _ => rfl)]
                exact ih _ _

theorem reset_costs_strip (s : Datastructures) :
    (s.strip Town_info.bare).reset_costs = s.reset_costs.strip Town_info.bare := by
  unfold Datastructures.strip Datastructures.reset_costs
  simp only [List.map_map, Datastructures.mk.injEq, and_true]
  apply List.map_congr_left
  intro p _
  rfl

theorem shortest_route_strip (addr : TownID → Nat) (s : Datastructures) (a b : TownID) :
    (shortest_route addr (s.strip Town_info.bare) a b).map Prod.fst
      = (shortest_route addr s a b).map Prod.fst := by
  unfold Datastructures.shortest_route
  rw [find_strip, find_strip]
  cases s.find a with
  | none => rfl
  | some ta =>
    cases s.find b with
    | none => rfl
    | some tb =>
      simp only [Option.map_some']
      rw [reset_costs_strip,
        strip_modify Town_info.bare
          (fun t => { t with colour := Colour.GRAY, cost := ⟨0, t.cost.de⟩ }) (fun _ => rfl),
        strip_length, strip_road_slots Town_info.bare (fun _ => rfl), astar_while_strip]
      cases astar_while addr b (s.road_slots + 2)
          ⟨umap_modify s.reset_costs.towns_by_id_ a
            (fun t => { t with colour := Colour.GRAY, cost := ⟨0, t.cost.de⟩ }),
            s.reset_costs.roads_⟩ [(0, a)] with
      | none => rfl
      | some r =>
        obtain ⟨s2, found⟩ := r
        simp only [Option.map_some']
        rw [walk_pi_strip Town_info.bare (fun _ => rfl) (fun _ => rfl)]
        cases walk_pi s2 s.towns_by_id_.length (some b) [] with
        | none => rfl
        | some route => cases found <;> rfl


open Datastructures

/-! ### States with the same adjacency lists and coordinates -/

theorem view_keys {s s' : Datastructures} (h : s.route_view = s'.route_view) :
    s.towns_by_id_.map Prod.fst = s'.towns_by_id_.map Prod.fst := by
  have e := congrArg (fun l => l.map Prod.fst) h
  simp only [Datastructures.route_view, List.map_map] at e
  exact e

theorem view_find {s s' : Datastructures} (h : s.route_view = s'.route_view) (k : TownID) :
    (s.find k).isSome = (s'.find k).isSome := by
  have e := view_keys h
  unfold Datastructures.find
  by_cases hk : k ∈ s.towns_by_id_.map Prod.fst
  · rw [(umap_find_isSome_iff _ _).2 hk, (umap_find_isSome_iff _ _).2 (e ▸ hk)]
  · have hk2 : k ∉ s'.towns_by_id_.map Prod.fst := e ▸ hk
    rw [(umap_find_none_iff _ _).2 hk, (umap_find_none_iff _ _).2 hk2]

theorem view_length {s s' : Datastructures} (h : s.route_view = s'.route_view) :
    s.towns_by_id_.length = s'.towns_by_id_.length := by
  have e := congrArg List.length h
  simpa [Datastructures.route_view] using e

theorem view_road_slots {s s' : Datastructures} (h : s.route_view = s'.route_view) :
    s.road_slots = s'.road_slots := by
  have e := congrArg (fun l => (l.map (fun v => v.2.2.2.length)).sum) h
  simp only [Datastructures.route_view, List.map_map] at e
  exact e

theorem view_reset_marks {s s' : Datastructures} (h : s.route_view = s'.route_view) :
    (s.strip Town_info.bare_cost).reset_marks = (s'.strip Town_info.bare_cost).reset_marks := by
  have e := congrArg (fun l => l.map (fun v : TownID × TownID × Coord × List TownID =>
    (v.1, (⟨v.2.1, "", v.2.2.1, 0, [], none, v.2.2.2, Colour.WHITE, none, ⟨0, 0⟩⟩ :
      Town_info)))) h
  simp only [Datastructures.route_view, List.map_map] at e
  unfold Datastructures.strip Datastructures.reset_marks
  simp only [List.map_map, Datastructures.mk.injEq, and_true]
  exact e

theorem view_reset_costs {s s' : Datastructures} (h : s.route_view = s'.route_view) :
    (s.strip Town_info.bare).reset_costs = (s'.strip Town_info.bare).reset_costs := by
  have e := congrArg (fun l => l.map (fun v : TownID × TownID × Coord × List TownID =>
    (v.1, (⟨v.2.1, "", v.2.2.1, 0, [], none, v.2.2.2, Colour.WHITE, none,
      ⟨INT_MAX, INT_MAX⟩⟩ : Town_info)))) h
  simp only [Datastructures.route_view, List.map_map] at e
  unfold Datastructures.strip Datastructures.reset_costs
  simp only [List.map_map, Datastructures.mk.injEq, and_true]
  exact e

/-! ### The results depend on the state after the reset only -/

theorem least_towns_route_congr (s s' : Datastructures) (a b : TownID)
    (hf : ∀ k, (s.find k).isSome = (s'.find k).isSome)
    (hlen : s.towns_by_id_.length = s'.towns_by_id_.length)
    (hr : s.reset_marks = s'.reset_marks) :
    (s.least_towns_route a b).map Prod.fst = (s'.least_towns_route a b).map Prod.fst := by
  unfold Datastructures.least_towns_route
  have ha := hf a
  have hb := hf b
  cases h1 : s.find a with
  | none =>
    rw [h1] at ha
    cases h2 : s'.find a with
    | none => rfl
    | some x => rw [h2] at ha; cases ha
  | some ta =>
    rw [h1] at ha
    cases h2 : s'.find a with
    | none => rw [h2] at ha; cases ha
    | some ta2 =>
      cases h3 : s.find b with
      | none =>
        rw [h3] at hb
        cases h4 : s'.find b with
        | none => rfl
        | some x => rw [h4] at hb; cases hb
      | some tb =>
        rw [h3] at hb
        cases h4 : s'.find b with
        | none => rw [h4] at hb; cases hb
        | some tb2 =>
          simp only
          rw [hr, hlen]

theorem road_cycle_route_congr (s s' : Datastructures) (a : TownID)
    (hf : ∀ k, (s.find k).isSome = (s'.find k).isSome)
    (hlen : s.towns_by_id_.length = s'.towns_by_id_.length)
    (hslots : s.road_slots = s'.road_slots)
    (hr : s.reset_marks = s'.reset_marks) :
    (s.road_cycle_route a).map Prod.fst = (s'.road_cycle_route a).map Prod.fst := by
  unfold Datastructures.road_cycle_route
  have ha := hf a
  cases h1 : s.find a with
  | none =>
    rw [h1] at ha
    cases h2 : s'.find a with
    | none => rfl
    | some x => rw [h2] at ha; cases ha
  | some ta =>
    rw [h1] at ha
    cases h2 : s'.find a with
    | none => rw [h2] at ha; cases ha
    | some ta2 =>
      simp only
      rw [hr, hlen, hslots]

theorem shortest_route_congr (addr : TownID → Nat) (s s' : Datastructures) (a b : TownID)
    (hf : ∀ k, (s.find k).isSome = (s'.find k).isSome)
    (hlen : s.towns_by_id_.length = s'.towns_by_id_.length)
    (hslots : s.road_slots = s'.road_slots)
    (hr : s.reset_costs = s'.reset_costs) :
    (shortest_route addr s a b).map Prod.fst = (shortest_route addr s' a b).map Prod.fst := by
  unfold Datastructures.shortest_route
  have ha := hf a
  have hb := hf b
  cases h1 : s.find a with
  | none =>
    rw [h1] at ha
    cases h2 : s'.find a with
    | none => rfl
    | some x => rw [h2] at ha; cases ha
  | some ta =>
    rw [h1] at ha
    cases h2 : s'.find a with
    | none => rw [h2] at ha; cases ha
    | some ta2 =>
      cases h3 : s.find b with
      | none =>
        rw [h3] at hb
        cases h4 : s'.find b with
        | none => rfl
        | some x => rw [h4] at hb; cases hb
      | some tb =>
        rw [h3] at hb
        cases h4 : s'.find b with
        | none => rw [h4] at hb; cases hb
        | some tb2 =>
          simp only
          rw [hr, hlen, hslots]

/-- States with the same keys, identifiers, coordinates and adjacency lists give the
same routes. -/
theorem routes_of_view (addr : TownID → Nat) (s s' : Datastructures)
    (h : s.route_view = s'.route_view) (a b : TownID) :
    (s.least_towns_route a b).map Prod.fst = (s'.least_towns_route a b).map Prod.fst ∧
    (s.road_cycle_route a).map Prod.fst = (s'.road_cycle_route a).map Prod.fst ∧
    (shortest_route addr s a b).map Prod.fst
      = (shortest_route addr s' a b).map Prod.fst := by
  have hf : ∀ (g : Town_info → Town_info) k,
      ((s.strip g).find k).isSome = ((s'.strip g).find k).isSome := by
    intro g k
    rw [find_strip, find_strip, Option.isSome_map', Option.isSome_map']
    exact view_find h k
  have hlen : ∀ g : Town_info → Town_info,
      (s.strip g).towns_by_id_.length = (s'.strip g).towns_by_id_.length := by
    intro g
    rw [strip_length, strip_length]
    exact view_length h
  have hslots : ∀ (g : Town_info → Town_info), (∀ t, (g t).roads_to = t.roads_to) →
      (s.strip g).road_slots = (s'.strip g).road_slots := by
    intro g hg
    rw [strip_road_slots g hg, strip_road_slots g hg]
    exact view_road_slots h
  refine ⟨?_, ?_, ?_⟩
  · rw [← least_towns_route_strip s, ← least_towns_route_strip s']
    exact least_towns_route_congr _ _ a b (hf _) (hlen _) (view_reset_marks h)
  · rw [← road_cycle_route_strip s, ← road_cycle_route_strip s']
    exact road_cycle_route_congr _ _ a (hf _) (hlen _) (hslots _ (fun _ => rfl))
      (view_reset_marks h)
  · rw [← shortest_route_strip addr s, ← shortest_route_strip addr s']
    exact shortest_route_congr addr _ _ a b (hf _) (hlen _) (hslots _ (fun _ => rfl))
      (view_reset_costs h)


open Datastructures

/-! ### The traversals write scratch fields only -/

theorem persistent_set (s : Datastructures) (r : TownID) (f : Town_info → Town_info)
    (hf : ∀ t, (f t).persistent = t.persistent) :
    (Datastructures.mk (umap_modify s.towns_by_id_ r f) s.roads_).persistent = s.persistent :=
  persistent_modify s.towns_by_id_ s.roads_ r f hf

theorem walk_result_state {α : Type} {x : Option α} {F : α → List TownID × Datastructures}
    {r : List TownID} {s1 : Datastructures} (P : Datastructures → Prop)
    (h : x.map F = some (r, s1)) (hP : ∀ a, P (F a).2) : P s1 := by
  cases x with
  | none => cases h
  | some a =>
    simp only [Option.map_some', Option.some.injEq] at h
    have := hP a
    rw [h] at this
    exact this

theorem bfs_for_persistent (cur : TownID) :
    ∀ (rs : List TownID) (s : Datastructures) (q : List TownID) (s1 : Datastructures)
      (q1 : List TownID),
      bfs_for cur rs s q = some (s1, q1) → s1.persistent = s.persistent := by
  intro rs
  induction rs with
  | nil =>
    intro s q s1 q1 h
    unfold bfs_for at h
    simp only [Option.some.injEq, Prod.mk.injEq] at h
    rw [h.1]
  | cons r rs ih =>
    intro s q s1 q1 h
    unfold bfs_for at h
    cases hr : s.find r with
    | none => rw [hr] at h; cases h
    | some t =>
      rw [hr] at h
      simp only at h
      by_cases hw : t.colour = Colour.WHITE
      · rw [if_pos hw] at h
        exact (ih _ _ _ _ h).trans (persistent_set s r _ (fun _ => rfl))
      · rw [if_neg hw] at h
        exact ih _ _ _ _ h

theorem bfs_while_persistent :
    ∀ (k : Nat) (s : Datastructures) (q : List TownID) (s1 : Datastructures),
      bfs_while k s q = some s1 → s1.persistent = s.persistent := by
  intro k
  induction k with
  | zero =>
    intro s q s1 h
    cases q with
    | nil =>
      unfold bfs_while at h
      injection h with h
      rw [h]
    | cons c q => unfold bfs_while at h; cases h
  | succ k ih =>
    intro s q s1 h
    cases q with
    | nil =>
      unfold bfs_while at h
      injection h with h
      rw [h]
    | cons c q =>
      unfold bfs_while at h
      cases hc : s.find c with
      | none => rw [hc] at h; cases h
      | some t =>
        rw [hc] at h
        simp only at h
        cases hb : bfs_for c t.roads_to s q with
        | none => rw [hb] at h; cases h
        | some res =>
          obtain ⟨s2, q2⟩ := res
          rw [hb] at h
          simp only at h
          exact ((ih _ _ _ h).trans (persistent_set s2 c _ (fun _ => rfl))).trans
            (bfs_for_persistent c _ _ _ _ _ hb)

theorem least_towns_route_persistent (s : Datastructures) (a b : TownID) (r : List TownID)
    (s1 : Datastructures) (h : s.least_towns_route a b = some (r, s1)) :
    s1.persistent = s.persistent := by
  unfold Datastructures.least_towns_route at h
  cases ha : s.find a with
  | none =>
    rw [ha] at h
    simp only [Option.some.injEq, Prod.mk.injEq] at h
    rw [h.2]
  | some ta =>
    rw [ha] at h
    cases hb : s.find b with
    | none =>
      rw [hb] at h
      simp only [Option.some.injEq, Prod.mk.injEq] at h
      rw [h.2]
    | some tb =>
      rw [hb] at h
      simp only at h
      cases hw : bfs_while s.towns_by_id_.length
          ⟨umap_modify s.reset_marks.towns_by_id_ a (fun t => { t with colour := Colour.GRAY }),
            s.reset_marks.roads_⟩ [a] with
      | none => rw [hw] at h; cases h
      | some s2 =>
        rw [hw] at h
        simp only at h
        have h2 : s2.persistent = s.persistent :=
          ((bfs_while_persistent _ _ _ _ hw).trans
            (persistent_set s.reset_marks a _ (fun _ => rfl))).trans (persistent_reset_marks s)
        cases hf : s2.find b with
        | none => rw [hf] at h; cases h
        | some t2 =>
          rw [hf] at h
          simp only at h
          by_cases hc : t2.colour = Colour.WHITE
          · rw [if_pos hc] at h
            simp only [Option.some.injEq, Prod.mk.injEq] at h
            rw [← h.2]; exact h2
          · rw [if_neg hc] at h
            cases hp : walk_pi s2 s.towns_by_id_.length (some b) [] with
            | none => rw [hp] at h; cases h
            | some route =>
              rw [hp] at h
              simp only [Option.some.injEq, Prod.mk.injEq] at h
              rw [← h.2]; exact h2

theorem dfs_for_persistent (cur : TownID) :
    ∀ (rs : List TownID) (s : Datastructures) (stack : List TownID) (s1 : Datastructures)
      (stack1 : List TownID) (res : Option TownID),
      dfs_for cur rs s stack = some (s1, stack1, res) → s1.persistent = s.persistent := by
  intro rs
  induction rs with
  | nil =>
    intro s stack s1 stack1 res h
    unfold dfs_for at h
    simp only [Option.some.injEq, Prod.mk.injEq] at h
    rw [h.1]
  | cons r rs ih =>
    intro s stack s1 stack1 res h
    unfold dfs_for at h
    cases hr : s.find r with
    | none => rw [hr] at h; cases h
    | some rt =>
      rw [hr] at h
      simp only at h
      have key : ∀ (sa : Datastructures) (stacka : List TownID),
          sa.persistent = s.persistent →
          (match sa.find cur, sa.find r with
            | some ct, some rt1 =>
              if some r = ct.pi then dfs_for cur rs sa stacka
              else if rt1.colour = Colour.GRAY then
                if rt1.pi = some cur then dfs_for cur rs sa stacka
                else some (sa, stacka, some r)
              else dfs_for cur rs sa stacka
            | _, _ => none) = some (s1, stack1, res) → s1.persistent = s.persistent := by
        intro sa stacka hsa h
        cases hc : sa.find cur with
        | none => rw [hc] at h; cases h
        | some ct =>
          cases hr1 : sa.find r with
          | none => rw [hc, hr1] at h; cases h
          | some rt1 =>
            rw [hc, hr1] at h
            simp only at h
            by_cases c1 : some r = ct.pi
            · rw [if_pos c1] at h
              exact (ih _ _ _ _ _ h).trans hsa
            · rw [if_neg c1] at h
              by_cases c2 : rt1.colour = Colour.GRAY
              · rw [if_pos c2] at h
                by_cases c3 : rt1.pi = some cur
                · rw [if_pos c3] at h
                  exact (ih _ _ _ _ _ h).trans hsa
                · rw [if_neg c3] at h
                  simp only [Option.some.injEq, Prod.mk.injEq] at h
                  rw [← h.1]; exact hsa
              · rw [if_neg c2] at h
                exact (ih _ _ _ _ _ h).trans hsa
      by_cases hw : rt.colour = Colour.WHITE
      · simp only [hw, if_true] at h
        refine key _ _ ?_ h
        exact persistent_set s r _ (fun _ => rfl)
      · simp only [hw, if_false] at h
        exact key _ _ rfl h

theorem dfs_while_persistent :
    ∀ (k : Nat) (s : Datastructures) (stack cr : List TownID) (s1 : Datastructures)
      (cr1 : List TownID) (res : Option TownID),
      dfs_while k s stack cr = some (s1, cr1, res) → s1.persistent = s.persistent := by
  intro k
  induction k with
  | zero =>
    intro s stack cr s1 cr1 res h
    cases stack with
    | nil =>
      unfold dfs_while at h
      simp only [Option.some.injEq, Prod.mk.injEq] at h
      rw [h.1]
    | cons c st => unfold dfs_while at h; cases h
  | succ k ih =>
    intro s stack cr s1 cr1 res h
    cases stack with
    | nil =>
      unfold dfs_while at h
      simp only [Option.some.injEq, Prod.mk.injEq] at h
      rw [h.1]
    | cons c st =>
      unfold dfs_while at h
      cases hc : s.find c with
      | none => rw [hc] at h; cases h
      | some ct =>
        rw [hc] at h
        simp only at h
        by_cases hw : ct.colour = Colour.WHITE
        · rw [if_pos hw] at h
          cases hf : dfs_for c ct.roads_to
              ⟨umap_modify s.towns_by_id_ c (fun t => { t with colour := Colour.GRAY }),
                s.roads_⟩ (c :: st) with
          | none => rw [hf] at h; cases h
          | some r =>
            obtain ⟨s2, stack2, found⟩ := r
            rw [hf] at h
            have h2 : s2.persistent = s.persistent :=
              (dfs_for_persistent c _ _ _ _ _ _ hf).trans
                (persistent_set s c _ (fun _ => rfl))
            cases found with
            | none =>
              simp only at h
              exact (ih _ _ _ _ _ _ h).trans h2
            | some x =>
              simp only [Option.some.injEq, Prod.mk.injEq] at h
              rw [← h.1]; exact h2
        · rw [if_neg hw] at h
          exact (ih _ _ _ _ _ _ h).trans (persistent_set s c _ (fun _ => rfl))

theorem road_cycle_route_persistent (s : Datastructures) (a : TownID) (r : List TownID)
    (s1 : Datastructures) (h : s.road_cycle_route a = some (r, s1)) :
    s1.persistent = s.persistent := by
  unfold Datastructures.road_cycle_route at h
  cases ha : s.find a with
  | none =>
    rw [ha] at h
    simp only [Option.some.injEq, Prod.mk.injEq] at h
    rw [h.2]
  | some ta =>
    rw [ha] at h
    simp only at h
    cases hw : dfs_while (s.towns_by_id_.length + s.road_slots + 1) s.reset_marks [a] [] with
    | none => rw [hw] at h; cases h
    | some res =>
      obtain ⟨s2, cr, found⟩ := res
      rw [hw] at h
      have h2 : s2.persistent = s.persistent :=
        (dfs_while_persistent _ _ _ _ _ _ _ hw).trans (persistent_reset_marks s)
      cases found with
      | none =>
        simp only [Option.some.injEq, Prod.mk.injEq] at h
        rw [← h.2]; exact h2
      | some x =>
        simp only at h
        cases hx : s2.find x with
        | none => rw [hx] at h; cases h
        | some lt =>
          cases hg : cr.get? (cr.length - 2) with
          | none => rw [hx, hg] at h; cases h
          | some le =>
            rw [hx, hg] at h
            simp only at h
            by_cases hl : cr.length < 2
            · rw [if_pos hl] at h; cases h
            · rw [if_neg hl] at h
              cases hp : walk_pi s2 s.towns_by_id_.length (some le) [lt.id] with
              | none => rw [hp] at h; cases h
              | some route =>
                rw [hp] at h
                simp only [Option.some.injEq, Prod.mk.injEq] at h
                rw [← h.2]; exact h2

theorem relax_A_persistent (s : Datastructures) (u v g : TownID) (s1 : Datastructures)
    (h : relax_A s u v g = some s1) : s1.persistent = s.persistent := by
  unfold relax_A at h
  cases hu : s.find u with
  | none => rw [hu] at h; cases h
  | some ut =>
    cases hv : s.find v with
    | none => rw [hu, hv] at h; cases h
    | some vt =>
      cases hg : s.find g with
      | none => rw [hu, hv, hg] at h; cases h
      | some gt =>
        rw [hu, hv, hg] at h
        simp only at h
        by_cases c : vt.cost.d > ut.cost.d + get_road_length ut vt
        · rw [if_pos c] at h
          injection h with h
          rw [← h]
          exact persistent_set s v _ (fun _ => rfl)
        · rw [if_neg c] at h
          injection h with h
          rw [h]

theorem astar_for_persistent (cur goal : TownID) :
    ∀ (rs : List TownID) (s : Datastructures) (q : List (Int × TownID))
      (s1 : Datastructures) (q1 : List (Int × TownID)),
      astar_for cur goal rs s q = some (s1, q1) → s1.persistent = s.persistent := by
  intro rs
  induction rs with
  | nil =>
    intro s q s1 q1 h
    unfold astar_for at h
    simp only [Option.some.injEq, Prod.mk.injEq] at h
    rw [h.1]
  | cons r rs ih =>
    intro s q s1 q1 h
    unfold astar_for at h
    cases hx : relax_A s cur r goal with
    | none => rw [hx] at h; cases h
    | some s2 =>
      rw [hx] at h
      simp only at h
      have h2 := relax_A_persistent s cur r goal s2 hx
      cases hr : s2.find r with
      | none => rw [hr] at h; cases h
      | some rt =>
        rw [hr] at h
        simp only at h
        by_cases hw : rt.colour = Colour.WHITE
        · simp only [hw, if_true] at h
          exact ((ih _ _ _ _ h).trans (persistent_set s2 r _ (fun _ => rfl))).trans h2
        · simp only [hw, if_false] at h
          exact (ih _ _ _ _ h).trans h2

theorem astar_while_persistent (addr : TownID → Nat) (goal : TownID) :
    ∀ (k : Nat) (s : Datastructures) (q : List (Int × TownID)) (s1 : Datastructures)
      (found : Bool),
      astar_while addr goal k s q = some (s1, found) → s1.persistent = s.persistent := by
  intro k
  induction k with
  | zero =>
    intro s q s1 found h
    cases q with
    | nil =>
      unfold astar_while at h
      simp only [Option.some.injEq, Prod.mk.injEq] at h
      rw [h.1]
    | cons e es => unfold astar_while at h; cases h
  | succ k ih =>
    intro s q s1 found h
    cases q with
    | nil =>
      unfold astar_while at h
      simp only [Option.some.injEq, Prod.mk.injEq] at h
      rw [h.1]
    | cons e es =>
      unfold astar_while at h
      cases ht : pq_top addr (e :: es) with
      | none => rw [ht] at h; cases h
      | some current =>
        rw [ht] at h
        simp only at h
        cases hc : s.find current.2 with
        | none => rw [hc] at h; cases h
        | some ct =>
          rw [hc] at h
          simp only at h
          by_cases hb : ct.colour = Colour.BLACK
          · rw [if_pos hb] at h
            exact ih _ _ _ _ h
          · rw [if_neg hb] at h
            by_cases hg : ct.id = goal
            · rw [if_pos hg] at h
              simp only [Option.some.injEq, Prod.mk.injEq] at h
              rw [h.1]
            · rw [if_neg hg] at h
              cases hf : astar_for current.2 goal ct.roads_to s ((e :: es).erase current) with
              | none => rw [hf] at h; cases h
              | some r =>
                obtain ⟨s2, q2⟩ := r
                rw [hf] at h
                simp only at h
                exact ((ih _ _ _ _ h).trans
                  (persistent_set s2 current.2 _ (fun _ => rfl))).trans
                  (astar_for_persistent _ _ _ _ _ _ _ hf)

theorem shortest_route_persistent (addr : TownID → Nat) (s : Datastructures) (a b : TownID)
    (r : List TownID) (s1 : Datastructures) (h : shortest_route addr s a b = some (r, s1)) :
    s1.persistent = s.persistent := by
  unfold Datastructures.shortest_route at h
  cases ha : s.find a with
  | none =>
    rw [ha] at h
    simp only [Option.some.injEq, Prod.mk.injEq] at h
    rw [h.2]
  | some ta =>
    rw [ha] at h
    cases hb : s.find b with
    | none =>
      rw [hb] at h
      simp only [Option.some.injEq, Prod.mk.injEq] at h
      rw [h.2]
    | some tb =>
      rw [hb] at h
      simp only at h
      cases hw : astar_while addr b (s.road_slots + 2)
          ⟨umap_modify s.reset_costs.towns_by_id_ a
            (fun t => { t with colour := Colour.GRAY, cost := ⟨0, t.cost.de⟩ }),
            s.reset_costs.roads_⟩ [(0, a)] with
      | none => rw [hw] at h; cases h
      | some res =>
        obtain ⟨s2, found⟩ := res
        rw [hw] at h
        simp only at h
        have h2 : s2.persistent = s.persistent :=
          ((astar_while_persistent addr b _ _ _ _ _ hw).trans
            (persistent_set s.reset_costs a _ (fun _ => rfl))).trans (persistent_reset_costs s)
        cases hp : walk_pi s2 s.towns_by_id_.length (some b) [] with
        | none => rw [hp] at h; cases h
        | some route =>
          rw [hp] at h
          simp only at h
          cases found with
          | true =>
            simp only [if_true, Option.some.injEq, Prod.mk.injEq] at h
            rw [← h.2]; exact h2
          | false =>
            simp only [Bool.false_eq_true, if_false, Option.some.injEq, Prod.mk.injEq] at h
            rw [← h.2]; exact h2

/-- C31. Two states that store the same keys with the same identifiers, coordinates
and adjacency lists, whatever their scratch fields (and whatever their names, taxes,
vassalage and list of roads), give the same result of `least_towns_route`, of
`road_cycle_route` and of `shortest_route` for the same arguments, a call without
result included; and the state a call returns has the name, coordinates, tax,
master, vassal list and adjacency list of every town and the list `all_roads()` of
the state it started from. -/
theorem traversals_read_roads_only (addr : TownID → Nat) (s s' : Datastructures)
    (h : s.route_view = s'.route_view) (a b : TownID) :
    (s.least_towns_route a b).map Prod.fst = (s'.least_towns_route a b).map Prod.fst ∧
    (s.road_cycle_route a).map Prod.fst = (s'.road_cycle_route a).map Prod.fst ∧
    (shortest_route addr s a b).map Prod.fst = (shortest_route addr s' a b).map Prod.fst ∧
    (∀ r s1, s.least_towns_route a b = some (r, s1) → s1.persistent = s.persistent) ∧
    (∀ r s1, s.road_cycle_route a = some (r, s1) → s1.persistent = s.persistent) ∧
    (∀ r s1, shortest_route addr s a b = some (r, s1) → s1.persistent = s.persistent) := by
  obtain ⟨h1, h2, h3⟩ := routes_of_view addr s s' h a b
  exact ⟨h1, h2, h3, least_towns_route_persistent s a b, road_cycle_route_persistent s a,
    shortest_route_persistent addr s a b⟩

/-- C31, at the triangle `A`, `B`, `C` and the same triangle after two queries, with
other names and taxes: the three queries return the same routes in both. -/
theorem traversals_read_roads_only_witness :
    triangle.route_view = triangle_used.route_view ∧
    (triangle_used.colour_of "A" = some Colour.GRAY ∧ triangle_used.pi_of "A" = some "C" ∧
      triangle_used.get_town_name "A" = "renamed" ∧ triangle_used.all_roads = []) ∧
    (triangle_used.least_towns_route "A" "C").map Prod.fst = some ["A", "C"] ∧
    (triangle_used.road_cycle_route "A").map Prod.fst = some ["A", "C", "B", "A"] ∧
    ((triangle.least_towns_route "A" "C").map Prod.fst
        = (triangle_used.least_towns_route "A" "C").map Prod.fst ∧
      (triangle.road_cycle_route "A").map Prod.fst
        = (triangle_used.road_cycle_route "A").map Prod.fst ∧
      (shortest_route (fun _ => 0) triangle "A" "C").map Prod.fst
        = (shortest_route (fun _ => 0) triangle_used "A" "C").map Prod.fst ∧
      (∀ r s1, triangle.least_towns_route "A" "C" = some (r, s1) →
        s1.persistent = triangle.persistent) ∧
      (∀ r s1, triangle.road_cycle_route "A" = some (r, s1) →
        s1.persistent = triangle.persistent) ∧
      (∀ r s1, shortest_route (fun _ => 0) triangle "A" "C" = some (r, s1) →
        s1.persistent = triangle.persistent)) :=
  ⟨by decide, by decide, by decide, by decide,
    traversals_read_roads_only (fun _ => 0) triangle triangle_used (by decide) "A" "C"⟩
